import Mathlib

/-!
Chess rules engine: board, move generation, move application.

A shallow embedding of `chess.h`, `piece.cpp`, `board.cpp` and of the move
entry of `game.cpp`.

* Coordinates are C `int`s, modelled as `Int`: arithmetic is only performed on
  coordinates of grid squares and on the small offsets of the move tables, far
  from the machine range.
* The grid `std::unique_ptr<Piece> board[8][8]` is a function on `Fin 8 × Fin 8`
  into `Option Piece`; a null pointer is `none`.  A `Piece` object is the
  triple of its data members; its dynamic class is its `type` member, which
  every constructor sets accordingly.
* An indexing expression `board[r][c]` outside the grid and a dereference of a
  null pointer are undefined behaviour in the source; `movePiece`, the only
  function that can reach one, returns `Except Fault _` and reports them.
* The last test of `movePiece` reads a member of the moved piece through a
  pointer that a promotion has left dangling; see `setsEnPassantOf` for the
  outcome the embedding takes.
* A `std::string` is the list of its characters; a character is read as its
  code where the source does arithmetic on it.
* The last section keeps the `Piece` objects in a store and the cells as
  pointers into it, for the statements about copies; it is shown to agree with
  the value representation used everywhere else.
* Console output (`std::cout`) is not modelled.
-/

namespace Chess

inductive Color
  | WHITE
  | BLACK
deriving DecidableEq

inductive PieceType
  | PAWN
  | ROOK
  | KNIGHT
  | BISHOP
  | QUEEN
  | KING
deriving DecidableEq

/-- Source: `struct Position` of `chess.h`. -/
structure Position where
  row : Int
  col : Int
deriving DecidableEq

/-- Source: `Position::isValid`. -/
def Position.isValid (p : Position) : Bool :=
  decide (p.row ≥ 0) && decide (p.row < 8) && decide (p.col ≥ 0) && decide (p.col < 8)

/-- Source: `struct Move`; `promotionPiece` defaults to the queen.  The members
`from` and `to` carry a trailing underscore, both words being reserved here. -/
structure Move where
  from_ : Position
  to_ : Position
  promotionPiece : PieceType := PieceType.QUEEN
deriving DecidableEq

/-- Source: the data members of `class Piece`. -/
structure Piece where
  color : Color
  type : PieceType
  hasMoved : Bool
deriving DecidableEq

/-- Source: `Piece::Piece(Color c, PieceType t)`, which clears `hasMoved`. -/
def Piece.new (c : Color) (t : PieceType) : Piece :=
  { color := c, type := t, hasMoved := false }

/-- Source: the `clone()` overrides, each a copy construction of the object. -/
def Piece.clone (p : Piece) : Piece :=
  { color := p.color, type := p.type, hasMoved := p.hasMoved }

/-- The two ways `movePiece` can leave defined behaviour. -/
inductive Fault
  | nullDeref
  | outOfRange
deriving DecidableEq

deriving instance DecidableEq for Except

/-- Source: the data members of `class ChessBoard`. -/
structure ChessBoard where
  board : Fin 8 → Fin 8 → Option Piece
  enPassantTarget : Position
  enPassantAvailable : Bool

/-- The array index denoted by an `int` known to lie in `[0, 8)`. -/
def idx (i : Int) : Fin 8 :=
  ⟨i.toNat % 8, Nat.mod_lt _ (by decide)⟩

/-- The values `0, 1, …, 7` of a loop `for (int i = 0; i < 8; i++)`. -/
def indices : List Int := [0, 1, 2, 3, 4, 5, 6, 7]

/-- The squares in the order of the nested loops `for row … for col …`. -/
def allSquares : List Position :=
  indices.flatMap (fun row => indices.map (fun col => Position.mk row col))

namespace ChessBoard

/-- The expression `board[row][col]` for indices inside the grid. -/
def cell (b : ChessBoard) (row col : Int) : Option Piece :=
  b.board (idx row) (idx col)

/-- The assignment `board[row][col] = v` for indices inside the grid. -/
def setCell (b : ChessBoard) (row col : Int) (v : Option Piece) : ChessBoard :=
  { b with board := fun r c => if r = idx row ∧ c = idx col then v else b.board r c }

/-- Source: `ChessBoard::getPiece`. -/
def getPiece (b : ChessBoard) (pos : Position) : Option Piece :=
  if !pos.isValid then none else b.cell pos.row pos.col

/-- Source: `ChessBoard::isEmpty`. -/
def isEmpty (b : ChessBoard) (pos : Position) : Bool :=
  if !pos.isValid then false else (b.cell pos.row pos.col).isNone

/-- Source: `ChessBoard::setEnPassant`. -/
def setEnPassant (b : ChessBoard) (pos : Position) : ChessBoard :=
  { b with enPassantTarget := pos, enPassantAvailable := true }

/-- Source: `ChessBoard::clearEnPassant`. -/
def clearEnPassant (b : ChessBoard) : ChessBoard :=
  { b with enPassantAvailable := false }

/-- Source: `ChessBoard::isEnPassantTarget`. -/
def isEnPassantTarget (b : ChessBoard) (pos : Position) : Bool :=
  b.enPassantAvailable && decide (b.enPassantTarget = pos)

/-- Source: `ChessBoard::copyFrom` (the copy constructor and the assignment
operator both call it): every occupied cell is cloned, and the en-passant
members are copied. -/
def copyFrom (other : ChessBoard) : ChessBoard :=
  { board := fun r c =>
      match other.board r c with
      | some p => some p.clone
      | none => none
    enPassantTarget := other.enPassantTarget
    enPassantAvailable := other.enPassantAvailable }

end ChessBoard

open Color PieceType

/-- The first row of `setupInitialPosition` as kinds, file 0 to file 7. -/
def backRank : Fin 8 → PieceType
  | 0 => ROOK
  | 1 => KNIGHT
  | 2 => BISHOP
  | 3 => QUEEN
  | 4 => KING
  | 5 => BISHOP
  | 6 => KNIGHT
  | 7 => ROOK

/-- Source: `ChessBoard::ChessBoard()` with `setupInitialPosition`.  The member
`enPassantTarget` is default-constructed, `Position(0, 0)`. -/
def setupInitialPosition : ChessBoard :=
  { board := fun r c =>
      match r with
      | 0 => some (Piece.new WHITE (backRank c))
      | 1 => some (Piece.new WHITE PAWN)
      | 6 => some (Piece.new BLACK PAWN)
      | 7 => some (Piece.new BLACK (backRank c))
      | _ => none
    enPassantTarget := Position.mk 0 0
    enPassantAvailable := false }

/-! ## Piece move generation (`piece.cpp`) -/

/-- The loop of `addDirectionalMoves`, entered at `step`, with `n` iterations
left before `step` exceeds `maxSteps`. -/
def addDirectionalLoop (piece : Piece) (pos : Position) (board : ChessBoard)
    (rowDir colDir : Int) : Nat → Int → List Move
  | 0, _ => []
  | n + 1, step =>
    let newPos := Position.mk (pos.row + step * rowDir) (pos.col + step * colDir)
    if !newPos.isValid then []
    else
      match board.getPiece newPos with
      | none => Move.mk pos newPos QUEEN :: addDirectionalLoop piece pos board rowDir colDir n (step + 1)
      | some targetPiece =>
        if targetPiece.color ≠ piece.color then [Move.mk pos newPos QUEEN] else []

/-- Source: `addDirectionalMoves`.  `piece` is the object the source fetches
with `board.getPiece(pos)`: every caller passes the square of the piece whose
moves it generates. -/
def addDirectionalMoves (piece : Piece) (pos : Position) (board : ChessBoard)
    (rowDir colDir : Int) (maxSteps : Nat) : List Move :=
  addDirectionalLoop piece pos board rowDir colDir maxSteps 1

/-- The four promotion moves, in the order the source appends them. -/
def promotionMoves (pos target : Position) : List Move :=
  [Move.mk pos target QUEEN, Move.mk pos target ROOK,
   Move.mk pos target BISHOP, Move.mk pos target KNIGHT]

/-- The body of the loop `for (int colOffset : {-1, 1})` of
`Pawn::getPossibleMoves`. -/
def Pawn.captureMoves (self : Piece) (pos : Position) (board : ChessBoard)
    (direction promotionRow colOffset : Int) : List Move :=
  let capturePos := Position.mk (pos.row + direction) (pos.col + colOffset)
  if capturePos.isValid then
    match board.getPiece capturePos with
    | some targetPiece =>
      if targetPiece.color ≠ self.color then
        if capturePos.row = promotionRow then promotionMoves pos capturePos
        else [Move.mk pos capturePos QUEEN]
      else if board.isEnPassantTarget capturePos then [Move.mk pos capturePos QUEEN]
      else []
    | none =>
      if board.isEnPassantTarget capturePos then [Move.mk pos capturePos QUEEN] else []
  else []

/-- Lines 53-73 of `Pawn::getPossibleMoves`: the forward step, its promotion
variants, and the double step from the starting row. -/
def Pawn.forwardMoves (pos : Position) (board : ChessBoard)
    (direction startRow promotionRow : Int) : List Move :=
  let oneForward := Position.mk (pos.row + direction) pos.col
  if oneForward.isValid && board.isEmpty oneForward then
    (if oneForward.row = promotionRow then promotionMoves pos oneForward
     else [Move.mk pos oneForward QUEEN]) ++
    (if pos.row = startRow then
       let twoForward := Position.mk (pos.row + 2 * direction) pos.col
       if twoForward.isValid && board.isEmpty twoForward then [Move.mk pos twoForward QUEEN]
       else []
     else [])
  else []

/-- Source: `Pawn::getPossibleMoves`. -/
def Pawn.getPossibleMoves (self : Piece) (pos : Position) (board : ChessBoard) : List Move :=
  let direction : Int := if self.color = WHITE then 1 else -1
  let startRow : Int := if self.color = WHITE then 1 else 6
  let promotionRow : Int := if self.color = WHITE then 7 else 0
  Pawn.forwardMoves pos board direction startRow promotionRow
    ++ Pawn.captureMoves self pos board direction promotionRow (-1)
    ++ Pawn.captureMoves self pos board direction promotionRow 1

/-- The direction table of `Rook::getPossibleMoves`. -/
def rookDirections : List (Int × Int) := [(0, 1), (0, -1), (1, 0), (-1, 0)]

/-- The direction table of `Bishop::getPossibleMoves`. -/
def bishopDirections : List (Int × Int) := [(1, 1), (1, -1), (-1, 1), (-1, -1)]

/-- The direction table of `Queen::getPossibleMoves` and of the king. -/
def queenDirections : List (Int × Int) :=
  [(0, 1), (0, -1), (1, 0), (-1, 0), (1, 1), (1, -1), (-1, 1), (-1, -1)]

/-- The offset table of `Knight::getPossibleMoves`. -/
def knightMoves : List (Int × Int) :=
  [(2, 1), (2, -1), (-2, 1), (-2, -1), (1, 2), (1, -2), (-1, 2), (-1, -2)]

/-- Source: `Rook::getPossibleMoves`. -/
def Rook.getPossibleMoves (self : Piece) (pos : Position) (board : ChessBoard) : List Move :=
  rookDirections.flatMap (fun dir => addDirectionalMoves self pos board dir.1 dir.2 8)

/-- Source: `Bishop::getPossibleMoves`. -/
def Bishop.getPossibleMoves (self : Piece) (pos : Position) (board : ChessBoard) : List Move :=
  bishopDirections.flatMap (fun dir => addDirectionalMoves self pos board dir.1 dir.2 8)

/-- Source: `Queen::getPossibleMoves`. -/
def Queen.getPossibleMoves (self : Piece) (pos : Position) (board : ChessBoard) : List Move :=
  queenDirections.flatMap (fun dir => addDirectionalMoves self pos board dir.1 dir.2 8)

/-- The single-step loop shared by `Knight::getPossibleMoves` and the first
loop of `King::getPossibleMoves`: a target on the board that is empty or holds
a piece of the other colour. -/
def stepMoves (self : Piece) (pos : Position) (board : ChessBoard)
    (offsets : List (Int × Int)) : List Move :=
  offsets.flatMap (fun d =>
    let newPos := Position.mk (pos.row + d.1) (pos.col + d.2)
    if newPos.isValid then
      match board.getPiece newPos with
      | none => [Move.mk pos newPos QUEEN]
      | some targetPiece =>
        if targetPiece.color ≠ self.color then [Move.mk pos newPos QUEEN] else []
    else [])

/-- Source: `Knight::getPossibleMoves`. -/
def Knight.getPossibleMoves (self : Piece) (pos : Position) (board : ChessBoard) : List Move :=
  stepMoves self pos board knightMoves

/-! ## Attack detection and castling eligibility (`board.cpp`) -/

namespace ChessBoard

/-- The call `piece->getPossibleMoves(piecePos, *this)` in the last branch of
`isSquareAttacked`, which pawns and kings never reach. -/
def attackerMoves (b : ChessBoard) (piece : Piece) (piecePos : Position) : List Move :=
  match piece.type with
  | ROOK => Rook.getPossibleMoves piece piecePos b
  | KNIGHT => Knight.getPossibleMoves piece piecePos b
  | BISHOP => Bishop.getPossibleMoves piece piecePos b
  | QUEEN => Queen.getPossibleMoves piece piecePos b
  | PAWN => []
  | KING => []

/-- The body of the two nested loops of `isSquareAttacked` at the cell
`piecePos`: whether the scan returns `true` there. -/
def attacksFrom (b : ChessBoard) (pos : Position) (attackingColor : Color)
    (castling_check : Bool) (piecePos : Position) : Bool :=
  match b.cell piecePos.row piecePos.col with
  | none => false
  | some piece =>
    if piece.color = attackingColor then
      if piece.type = PAWN then
        let direction : Int := if attackingColor = WHITE then 1 else -1
        let leftAttack := Position.mk (piecePos.row + direction) (piecePos.col - 1)
        let rightAttack := Position.mk (piecePos.row + direction) (piecePos.col + 1)
        decide (leftAttack = pos) || decide (rightAttack = pos)
      else if castling_check && decide (piece.type = KING) then
        queenDirections.any (fun dir =>
          decide (Position.mk (piecePos.row + dir.1) (piecePos.col + dir.2) = pos))
      else if decide (piece.type = KING) && !castling_check then
        false
      else
        (b.attackerMoves piece piecePos).any (fun move => decide (move.to_ = pos))
    else false

/-- Source: `ChessBoard::isSquareAttacked`. -/
def isSquareAttacked (b : ChessBoard) (pos : Position) (attackingColor : Color)
    (castling_check : Bool) : Bool :=
  allSquares.any (fun piecePos => b.attacksFrom pos attackingColor castling_check piecePos)

/-- The test of the scan in `getKingPosition`: the cell holds a king of `color`. -/
def isKingAt (b : ChessBoard) (color : Color) (p : Position) : Bool :=
  match b.cell p.row p.col with
  | some piece => decide (piece.type = KING) && decide (piece.color = color)
  | none => false

/-- Source: `ChessBoard::getKingPosition`: the first king of `color` in scan
order, `Position(-1, -1)` when there is none. -/
def getKingPosition (b : ChessBoard) (color : Color) : Position :=
  match allSquares.find? (b.isKingAt color) with
  | some p => p
  | none => Position.mk (-1) (-1)

/-- The other colour, the source's `(c == Color::WHITE) ? Color::BLACK : Color::WHITE`. -/
def enemyOf (c : Color) : Color :=
  if c = WHITE then BLACK else WHITE

/-- Source: `ChessBoard::isInCheck`; the attack query runs with the default
`castling_check = false`. -/
def isInCheck (b : ChessBoard) (kingColor : Color) : Bool :=
  let kingPos := b.getKingPosition kingColor
  if !kingPos.isValid then false
  else b.isSquareAttacked kingPos (enemyOf kingColor) false

/-- The values of `col` in `for (int col = startCol; col < endCol; col++)`. -/
def colRange (startCol endCol : Int) : List Int :=
  (List.range (endCol - startCol).toNat).map (fun (k : Nat) => startCol + (k : Int))

/-- Source: `ChessBoard::canCastle`. -/
def canCastle (b : ChessBoard) (color : Color) (kingSide : Bool) : Bool :=
  let kingPos := b.getKingPosition color
  if !kingPos.isValid then false
  else
    match b.getPiece kingPos with
    | none => false
    | some king =>
      if king.hasMoved then false
      else if b.isInCheck color then false
      else
        let row := kingPos.row
        let rookCol : Int := if kingSide then 7 else 0
        match b.getPiece (Position.mk row rookCol) with
        | none => false
        | some rook =>
          if rook.type ≠ ROOK || rook.hasMoved then false
          else
            let startCol := min kingPos.col rookCol + 1
            let endCol := max kingPos.col rookCol
            if !(colRange startCol endCol).all (fun col => b.isEmpty (Position.mk row col)) then false
            else
              let enemyColor := enemyOf color
              let kingDirection : Int := if kingSide then 1 else -1
              if ([1, 2] : List Int).any (fun i =>
                  b.isSquareAttacked (Position.mk row (kingPos.col + i * kingDirection)) enemyColor true)
              then false
              else true

end ChessBoard

/-- Source: `King::getPossibleMoves`. -/
def King.getPossibleMoves (self : Piece) (pos : Position) (board : ChessBoard) : List Move :=
  stepMoves self pos board queenDirections ++
  (if !self.hasMoved then
     (if board.canCastle self.color true then [Move.mk pos (Position.mk pos.row (pos.col + 2)) QUEEN]
      else []) ++
     (if board.canCastle self.color false then [Move.mk pos (Position.mk pos.row (pos.col - 2)) QUEEN]
      else [])
   else [])

/-- The virtual call `piece->getPossibleMoves(pos, board)`, dispatched on the
dynamic class of the piece. -/
def Piece.getPossibleMoves (self : Piece) (pos : Position) (board : ChessBoard) : List Move :=
  match self.type with
  | PAWN => Pawn.getPossibleMoves self pos board
  | ROOK => Rook.getPossibleMoves self pos board
  | KNIGHT => Knight.getPossibleMoves self pos board
  | BISHOP => Bishop.getPossibleMoves self pos board
  | QUEEN => Queen.getPossibleMoves self pos board
  | KING => King.getPossibleMoves self pos board

/-! ## Move application, legality filter, terminal states (`board.cpp`) -/

namespace ChessBoard

/-- The statement `p->hasMoved = true` on the pointer held by a cell. -/
def markMoved (b : ChessBoard) (row col : Int) : Except Fault ChessBoard :=
  match b.cell row col with
  | none => Except.error Fault.nullDeref
  | some p => Except.ok (b.setCell row col (some { p with hasMoved := true }))

/-- Lines 143-148 of `movePiece`: the destination pointer is moved out, the
source pointer is moved into the destination (leaving the source null), and the
piece now on the destination is marked as moved. -/
def relocate (b : ChessBoard) (move : Move) : Except Fault ChessBoard :=
  let b1 := b.setCell move.to_.row move.to_.col none
  let moving := b1.cell move.from_.row move.from_.col
  let b2 := b1.setCell move.from_.row move.from_.col none
  let b3 := b2.setCell move.to_.row move.to_.col moving
  b3.markMoved move.to_.row move.to_.col

/-- Lines 151-155 of `movePiece`: removal of the pawn captured en passant. -/
def removeEnPassantVictim (b : ChessBoard) (piece : Piece) (move : Move) :
    Except Fault ChessBoard :=
  let capturedPawnRow : Int := if piece.color = WHITE then move.to_.row - 1 else move.to_.row + 1
  if decide (capturedPawnRow ≥ 0) && decide (capturedPawnRow < 8) then
    Except.ok (b.setCell capturedPawnRow move.to_.col none)
  else Except.error Fault.outOfRange

/-- Lines 157-164 of `movePiece`: the rook half of castling. -/
def castleRook (b : ChessBoard) (move : Move) : Except Fault ChessBoard :=
  let rookFromCol : Int := if move.to_.col > move.from_.col then 7 else 0
  let rookToCol : Int := if move.to_.col > move.from_.col then 5 else 3
  let rook := b.cell move.from_.row rookFromCol
  let b1 := b.setCell move.from_.row rookFromCol none
  let b2 := b1.setCell move.from_.row rookToCol rook
  b2.markMoved move.from_.row rookToCol

/-- The `switch (move.promotionPiece)` of `movePiece`. -/
def promotedType (promotionPiece : PieceType) : PieceType :=
  match promotionPiece with
  | QUEEN => QUEEN
  | ROOK => ROOK
  | BISHOP => BISHOP
  | KNIGHT => KNIGHT
  | PAWN => QUEEN
  | KING => QUEEN

/-- Lines 166-187 of `movePiece`: replacement of the pawn by the promoted piece. -/
def promote (b : ChessBoard) (move : Move) : Except Fault ChessBoard :=
  match b.cell move.to_.row move.to_.col with
  | none => Except.error Fault.nullDeref
  | some p =>
    (b.setCell move.to_.row move.to_.col
      (some (Piece.new p.color (promotedType move.promotionPiece)))).markMoved
        move.to_.row move.to_.col

/-- Line 127 of `movePiece`: the flag `isEnPassantCapture`, computed from the
en-passant members as they were on entry. -/
def isEnPassantCaptureOf (b : ChessBoard) (piece : Piece) (move : Move) : Bool :=
  decide (piece.type = PAWN) && decide (move.to_ = b.enPassantTarget) && b.enPassantAvailable

/-- Line 132 of `movePiece`: the flag `isCastling`. -/
def isCastlingOf (piece : Piece) (move : Move) : Bool :=
  decide (piece.type = KING) && decide ((move.to_.col - move.from_.col).natAbs = 2)

/-- Lines 137-139 of `movePiece`: the flag `isPromotion`. -/
def isPromotionOf (piece : Piece) (move : Move) : Bool :=
  decide (piece.type = PAWN) &&
    ((decide (piece.color = WHITE) && decide (move.to_.row = 7)) ||
     (decide (piece.color = BLACK) && decide (move.to_.row = 0)))

/-- The condition of line 190 of `movePiece`,
`piece->type == PieceType::PAWN && abs(move.to.row - move.from.row) == 2`, on
the members of a live object. -/
def isDoubleStepOf (piece : Piece) (move : Move) : Bool :=
  decide (piece.type = PAWN) && decide ((move.to_.row - move.from_.row).natAbs = 2)

/-- Line 190 of `movePiece` as the source runs it: whether the en-passant
target is set.  The condition reads `piece->type` through the pointer taken on
entry.  When the promotion stage has run, the assignment to the destination
cell has destroyed the pawn that pointer refers to and released its storage, so
the read is a use after free, undefined behaviour.  In a plain build the
released storage no longer reads as a pawn and the condition is false: the flag
stays clear, and the embedding takes that outcome.  For a promotion over a
number of rows other than two the second operand is false whatever the read
gives. -/
def setsEnPassantOf (piece : Piece) (move : Move) : Bool :=
  !isPromotionOf piece move && isDoubleStepOf piece move

/-- Source: `ChessBoard::movePiece`.  The result pairs the returned `bool` with
the board after the call.  The source reads colour and type through the pointer
`piece` taken before the relocation; these members never change while the
object lives, and the embedding reads them from the piece found on the source
cell.  The last test of the source (line 190) reads through that pointer
after the stages: after a promotion the object is gone and the outcome is the
one described at `setsEnPassantOf`; after a rook transfer onto the king's
destination the object is gone as well, the move stays on one row, and the
condition is false whatever the read gives. -/
def movePiece (b : ChessBoard) (move : Move) : Except Fault (Bool × ChessBoard) :=
  if !move.from_.isValid || !move.to_.isValid then Except.ok (false, b)
  else
    match b.getPiece move.from_ with
    | none => Except.ok (false, b)
    | some piece =>
      (b.clearEnPassant.relocate move).bind fun b1 =>
      (if b.isEnPassantCaptureOf piece move then b1.removeEnPassantVictim piece move
        else Except.ok b1).bind fun b2 =>
      (if isCastlingOf piece move then b2.castleRook move else Except.ok b2).bind fun b3 =>
      (if isPromotionOf piece move then b3.promote move else Except.ok b3).bind fun b4 =>
      Except.ok (true, if setsEnPassantOf piece move then
          b4.setEnPassant (Position.mk (Int.tdiv (move.from_.row + move.to_.row) 2) move.from_.col)
        else b4)

/-- Source: `ChessBoard::wouldBeInCheck`: the move is applied to a copy, its
`bool` result is dropped, and the copy is asked whether the king is in check. -/
def wouldBeInCheck (b : ChessBoard) (move : Move) (kingColor : Color) : Except Fault Bool :=
  ((copyFrom b).movePiece move).bind fun r => Except.ok (r.2.isInCheck kingColor)

/-- The loop `for (const auto& move : possibleMoves)` of `getAllLegalMoves`:
the moves that pass `!wouldBeInCheck(move, color)`, in order. -/
def keepLegal (b : ChessBoard) (color : Color) : List Move → Except Fault (List Move)
  | [] => Except.ok []
  | move :: rest =>
    (b.wouldBeInCheck move color).bind fun inCheck =>
    (keepLegal b color rest).bind fun kept =>
    Except.ok (if inCheck then kept else move :: kept)

/-- The moves `getAllLegalMoves` examines: for each cell in scan order holding a
piece of the colour, that piece's `getPossibleMoves`. -/
def candidateMoves (b : ChessBoard) (color : Color) : List Move :=
  allSquares.flatMap (fun piecePos =>
    match b.cell piecePos.row piecePos.col with
    | some piece => if piece.color = color then piece.getPossibleMoves piecePos b else []
    | none => [])

/-- Source: `ChessBoard::getAllLegalMoves`. -/
def getAllLegalMoves (b : ChessBoard) (color : Color) : Except Fault (List Move) :=
  b.keepLegal color (b.candidateMoves color)

/-- Source: `ChessBoard::isCheckmate`; `&&` evaluates its right operand only
when the left one is true. -/
def isCheckmate (b : ChessBoard) (color : Color) : Except Fault Bool :=
  if b.isInCheck color then (b.getAllLegalMoves color).bind fun moves => Except.ok moves.isEmpty
  else Except.ok false

/-- Source: `ChessBoard::isStalemate`. -/
def isStalemate (b : ChessBoard) (color : Color) : Except Fault Bool :=
  if !b.isInCheck color then (b.getAllLegalMoves color).bind fun moves => Except.ok moves.isEmpty
  else Except.ok false

end ChessBoard

/-! ## Position string (`board.cpp`, `chess.h`) -/

/-- Source: the `getSymbol` override of each piece class. -/
def Piece.getSymbol (self : Piece) : Char :=
  match self.type with
  | PAWN => if self.color = WHITE then 'P' else 'p'
  | ROOK => if self.color = WHITE then 'R' else 'r'
  | KNIGHT => if self.color = WHITE then 'N' else 'n'
  | BISHOP => if self.color = WHITE then 'B' else 'b'
  | QUEEN => if self.color = WHITE then 'Q' else 'q'
  | KING => if self.color = WHITE then 'K' else 'k'

/-- The characters of `std::to_string(n)` for a non-negative `int`: its decimal
digits.  A `std::string` is modelled as the list of its characters. -/
def toStdString (n : Nat) : List Char :=
  Nat.toDigits 10 n

namespace ChessBoard

/-- The body of the inner loop of `getFEN` on the cell it reads; the state is
the string built so far and the counter `empty`. -/
def fenCell (st : List Char × Nat) (cell : Option Piece) : List Char × Nat :=
  match cell with
  | none => (st.1, st.2 + 1)
  | some piece =>
    let fen := if st.2 > 0 then st.1 ++ toStdString st.2 else st.1
    (fen ++ [piece.getSymbol], 0)

/-- The body of the outer loop of `getFEN`: the inner loop over `col`, the
flush of the counter, and the separator. -/
def fenRow (b : ChessBoard) (fen : List Char) (row : Int) : List Char :=
  let st := indices.foldl (fun st col => fenCell st (b.cell row col)) (fen, 0)
  let fen := if st.2 > 0 then st.1 ++ toStdString st.2 else st.1
  if row > 0 then fen ++ ['/'] else fen

/-- Source: `ChessBoard::getFEN`; the loop `for (int row = 7; row >= 0; row--)`
visits the rows 7, 6, …, 0. -/
def getFEN (b : ChessBoard) (currentPlayer : Color) : List Char :=
  let fen := ([7, 6, 5, 4, 3, 2, 1, 0] : List Int).foldl (fenRow b) []
  let fen := fen ++ [' ']
  let fen := fen ++ (if currentPlayer = WHITE then ['w'] else ['b'])
  fen ++ [' ', '-', ' ', '-', ' ', '0', ' ', '1']

end ChessBoard

/-! ## Game controller (`game.cpp`) -/

/-- Source: `Position::fromAlgebraic`.  A `char` is read as its code; the
subtraction is the `int` arithmetic of the source. -/
def Position.fromAlgebraic (algebraic : List Char) : Position :=
  match algebraic with
  | [c0, c1] => Position.mk ((c1.toNat : Int) - ('1'.toNat : Int)) ((c0.toNat : Int) - ('a'.toNat : Int))
  | _ => Position.mk (-1) (-1)

/-- Source: `class ChessGame`, its data members. -/
structure ChessGame where
  board : ChessBoard
  currentPlayer : Color
  gameOver : Bool
  gameResult : List Char
  isCPUEnabled : Bool
  cpuColor : Color
  humanColor : Color

namespace ChessGame

/-- Source: the constructor `ChessGame::ChessGame(enableCPU, cpuPlaysAs)`; the
board member is built by the constructor of `ChessBoard`. -/
def new (enableCPU : Bool) (cpuPlaysAs : Color) : ChessGame :=
  { board := setupInitialPosition
    currentPlayer := WHITE
    gameOver := false
    gameResult := []
    isCPUEnabled := enableCPU
    cpuColor := cpuPlaysAs
    humanColor := if cpuPlaysAs = WHITE then BLACK else WHITE }

/-- The `switch (promoChar)` of `parseAlgebraicNotation`. -/
def promotionOfChar (promoChar : Char) : PieceType :=
  if promoChar = 'q' then QUEEN
  else if promoChar = 'r' then ROOK
  else if promoChar = 'b' then BISHOP
  else if promoChar = 'n' then KNIGHT
  else QUEEN

/-- Source: `ChessGame::parseAlgebraicNotation`; `none` stands for the
`std::invalid_argument` it throws.  The first `-` is erased, every space is
removed, `tolower` maps the letters `A`–`Z` to lowercase and leaves every other
character as it is. -/
def parseAlgebraicNotation (input : List Char) : Option Move :=
  let cleanNotation := input.erase '-'
  let cleanNotation := cleanNotation.filter (fun ch => ch ≠ ' ')
  let cleanNotation := cleanNotation.map Char.toLower
  if cleanNotation.length < 4 then none
  else
    let fromStr := cleanNotation.take 2
    let toStr := (cleanNotation.drop 2).take 2
    let promotionPiece :=
      if cleanNotation.length ≥ 5 then promotionOfChar (cleanNotation.getD 4 'q') else QUEEN
    some (Move.mk (Position.fromAlgebraic fromStr) (Position.fromAlgebraic toStr) promotionPiece)

/-- The test of the loop body of `makeMove` on one legal move. -/
def matchesLegal (piece : Piece) (move legalMove : Move) : Bool :=
  decide (legalMove.from_ = move.from_) && decide (legalMove.to_ = move.to_) &&
    (if piece.type = PAWN ∧
        ((piece.color = WHITE ∧ move.to_.row = 7) ∨ (piece.color = BLACK ∧ move.to_.row = 0))
     then decide (legalMove.promotionPiece = move.promotionPiece) else true)

/-- Source: `ChessGame::makeMove`.  The result pairs the returned `bool` with
the game after the call; the `catch` block is the `none` branch.  The value
`board.movePiece(move)` returns is discarded by the source. -/
def makeMove (g : ChessGame) (algebraicMove : List Char) : Except Fault (Bool × ChessGame) :=
  match parseAlgebraicNotation algebraicMove with
  | none => Except.ok (false, g)
  | some move =>
    if !move.from_.isValid || !move.to_.isValid then Except.ok (false, g)
    else
      match g.board.getPiece move.from_ with
      | none => Except.ok (false, g)
      | some piece =>
        if piece.color ≠ g.currentPlayer then Except.ok (false, g)
        else
          (g.board.getAllLegalMoves g.currentPlayer).bind fun legalMoves =>
          let isLegal := legalMoves.any (matchesLegal piece move)
          if !isLegal then Except.ok (false, g)
          else
            (g.board.movePiece move).bind fun r =>
            Except.ok (true, { g with board := r.2 })

end ChessGame

/-- Source: `Position::toAlgebraic`; the empty string for a position off the
board, else the characters `'a' + col` and `'1' + row`. -/
def Position.toAlgebraic (p : Position) : List Char :=
  if !p.isValid then []
  else [Char.ofNat ((('a'.toNat : Int) + p.col).toNat), Char.ofNat ((('1'.toNat : Int) + p.row).toNat)]

namespace ChessGame

/-- Source: `ChessGame::switchPlayer`. -/
def switchPlayer (g : ChessGame) : ChessGame :=
  { g with currentPlayer := if g.currentPlayer = WHITE then BLACK else WHITE }

/-- The test `std::isspace` in the "C" locale: the space and the characters
with codes 9 to 13. -/
def isspace (ch : Char) : Bool :=
  decide (ch = ' ') || (decide (9 ≤ ch.toNat) && decide (ch.toNat ≤ 13))

/-- Source: `ChessGame::playTurn`.  `bestMoveStr` is the string the call
`getBestMoveFromStockfish(fen)` returns and `line` the line `std::getline` reads
from the console; both come from outside the program.  The result `none` stands
for the `std::invalid_argument` of `parseAlgebraicNotation`, which the engine
branch does not catch. -/
def playTurn (g : ChessGame) (bestMoveStr line : List Char) :
    Except Fault (Option ChessGame) :=
  if g.isCPUEnabled && decide (g.currentPlayer = g.cpuColor) then
    if bestMoveStr.length < 4 ∨ bestMoveStr.length > 5 then
      Except.ok (some { g with
        gameOver := true
        gameResult := "Game ended due to engine error.".toList })
    else
      match parseAlgebraicNotation bestMoveStr with
      | none => Except.ok none
      | some move =>
        (g.board.movePiece move).bind fun r =>
        Except.ok (some (switchPlayer { g with board := r.2 }))
  else
    let input := ((line.dropWhile isspace).reverse.dropWhile isspace).reverse
    if input = "quit".toList ∨ input = "exit".toList then
      Except.ok (some { g with
        gameOver := true
        gameResult := "Game terminated by user".toList })
    else
      (g.makeMove input).bind fun r =>
      Except.ok (some (if r.1 then switchPlayer r.2 else r.2))

end ChessGame

/-! ## Ownership: the board as a grid of pointers (`board.cpp`)

The functions of this section are the ones above with the `Piece` objects kept
in a store of their own and each cell holding the address of the object it
owns, so that a write through a pointer, and a copy that would share an object,
are visible.  Functions of the source that assign nothing (`isInCheck`, the
move generators) are applied to the board read through the pointers. -/

/-- The free store: the `Piece` objects created so far, each at the address
that is its index.  A destroyed object keeps its slot; no cell holds its
address any more, and the one read the source performs through a stale pointer
(line 190 of `movePiece`) is modelled by `ChessBoard.setsEnPassantOf`, not by
a read of the slot. -/
abbrev Store := List Piece

/-- Source: the data members of `class ChessBoard`, the cell
`std::unique_ptr<Piece>` being the address of the object owned, or null. -/
structure PtrBoard where
  board : Fin 8 → Fin 8 → Option Nat
  enPassantTarget : Position
  enPassantAvailable : Bool

namespace PtrBoard

/-- The members of a `ChessBoard` before the body of a constructor runs: null
pointers, `Position()` and the `enPassantAvailable(false)` of the initialiser
list. -/
def null : PtrBoard :=
  { board := fun _ _ => none
    enPassantTarget := Position.mk 0 0
    enPassantAvailable := false }

/-- Source: `ChessBoard::ChessBoard()` with `setupInitialPosition`, run on an
empty store: the thirty-two objects in the order the source makes them (row 0,
the White pawns, the Black pawns, row 7) and the grid of their addresses. -/
def setupInitialPosition : Store × PtrBoard :=
  ((List.finRange 8).map (fun c => Piece.new WHITE (backRank c)) ++
    (List.finRange 8).map (fun _ => Piece.new WHITE PAWN) ++
    (List.finRange 8).map (fun _ => Piece.new BLACK PAWN) ++
    (List.finRange 8).map (fun c => Piece.new BLACK (backRank c)),
   { board := fun r c =>
       match r with
       | 0 => some c.val
       | 1 => some (8 + c.val)
       | 6 => some (16 + c.val)
       | 7 => some (24 + c.val)
       | _ => none
     enPassantTarget := Position.mk 0 0
     enPassantAvailable := false })

/-- The expression `board[row][col]` for indices inside the grid. -/
def cell (B : PtrBoard) (row col : Int) : Option Nat :=
  B.board (idx row) (idx col)

/-- The assignment `board[row][col] = v` for indices inside the grid. -/
def setCell (B : PtrBoard) (row col : Int) (v : Option Nat) : PtrBoard :=
  { B with board := fun r c => if r = idx row ∧ c = idx col then v else B.board r c }

/-- The board read through its pointers. -/
def view (B : PtrBoard) (s : Store) : ChessBoard :=
  { board := fun r c => (B.board r c).bind (fun a => s[a]?)
    enPassantTarget := B.enPassantTarget
    enPassantAvailable := B.enPassantAvailable }

/-- Source: `ChessBoard::setEnPassant`. -/
def setEnPassant (B : PtrBoard) (pos : Position) : PtrBoard :=
  { B with enPassantTarget := pos, enPassantAvailable := true }

/-- Source: `ChessBoard::clearEnPassant`. -/
def clearEnPassant (B : PtrBoard) : PtrBoard :=
  { B with enPassantAvailable := false }

/-- The body of the loops of `copyFrom` at one cell: an occupied cell of
`other` is cloned into a new object, whose address the cell of `this` receives;
an empty one makes the cell of `this` null. -/
def copyCell (other : PtrBoard) (st : Store × PtrBoard) (pos : Position) :
    Except Fault (Store × PtrBoard) :=
  match other.cell pos.row pos.col with
  | some a =>
    match st.1[a]? with
    | some p => Except.ok (st.1 ++ [p.clone], st.2.setCell pos.row pos.col (some st.1.length))
    | none => Except.error Fault.nullDeref
  | none => Except.ok (st.1, st.2.setCell pos.row pos.col none)

/-- The two nested loops of `copyFrom`, over the cells still to be visited. -/
def copyLoop (other : PtrBoard) : List Position → Store × PtrBoard →
    Except Fault (Store × PtrBoard)
  | [], st => Except.ok st
  | pos :: rest, st => (copyCell other st pos).bind (copyLoop other rest)

/-- Source: `ChessBoard::copyFrom`, called on `self` with argument `other`. -/
def copyFrom (s : Store) (self other : PtrBoard) : Except Fault (Store × PtrBoard) :=
  (copyLoop other allSquares (s, self)).bind fun st =>
  Except.ok (st.1, { st.2 with
    enPassantTarget := other.enPassantTarget
    enPassantAvailable := other.enPassantAvailable })

/-- The statement `p->hasMoved = true` on the pointer held by a cell. -/
def markMoved (s : Store) (B : PtrBoard) (row col : Int) : Except Fault Store :=
  match B.cell row col with
  | none => Except.error Fault.nullDeref
  | some a =>
    match s[a]? with
    | none => Except.error Fault.nullDeref
    | some p => Except.ok (s.set a { p with hasMoved := true })

/-- Lines 143-148 of `movePiece`. -/
def relocate (s : Store) (B : PtrBoard) (move : Move) : Except Fault (Store × PtrBoard) :=
  let B1 := B.setCell move.to_.row move.to_.col none
  let moving := B1.cell move.from_.row move.from_.col
  let B2 := B1.setCell move.from_.row move.from_.col none
  let B3 := B2.setCell move.to_.row move.to_.col moving
  (markMoved s B3 move.to_.row move.to_.col).bind fun s1 => Except.ok (s1, B3)

/-- Lines 151-155 of `movePiece`. -/
def removeEnPassantVictim (B : PtrBoard) (piece : Piece) (move : Move) :
    Except Fault PtrBoard :=
  let capturedPawnRow : Int := if piece.color = WHITE then move.to_.row - 1 else move.to_.row + 1
  if decide (capturedPawnRow ≥ 0) && decide (capturedPawnRow < 8) then
    Except.ok (B.setCell capturedPawnRow move.to_.col none)
  else Except.error Fault.outOfRange

/-- Lines 157-164 of `movePiece`. -/
def castleRook (s : Store) (B : PtrBoard) (move : Move) : Except Fault (Store × PtrBoard) :=
  let rookFromCol : Int := if move.to_.col > move.from_.col then 7 else 0
  let rookToCol : Int := if move.to_.col > move.from_.col then 5 else 3
  let rook := B.cell move.from_.row rookFromCol
  let B1 := B.setCell move.from_.row rookFromCol none
  let B2 := B1.setCell move.from_.row rookToCol rook
  (markMoved s B2 move.from_.row rookToCol).bind fun s1 => Except.ok (s1, B2)

/-- Lines 166-187 of `movePiece`: the colour is read through the cell, a new
object is made and the cell receives its address, and the new object is marked
as moved. -/
def promote (s : Store) (B : PtrBoard) (move : Move) : Except Fault (Store × PtrBoard) :=
  match B.cell move.to_.row move.to_.col with
  | none => Except.error Fault.nullDeref
  | some a =>
    match s[a]? with
    | none => Except.error Fault.nullDeref
    | some p =>
      let s1 := s ++ [Piece.new p.color (ChessBoard.promotedType move.promotionPiece)]
      let B1 := B.setCell move.to_.row move.to_.col (some s.length)
      (markMoved s1 B1 move.to_.row move.to_.col).bind fun s2 => Except.ok (s2, B1)

/-- Source: `ChessBoard::movePiece`; the result is the returned `bool`, the
store and the board after the call.  The members of `*piece` that the stages
read (`type`, `color`) are read on entry, while the object lives; the last
test, which the source runs after the promotion stage may have destroyed the
object, is `ChessBoard.setsEnPassantOf`. -/
def movePiece (s : Store) (B : PtrBoard) (move : Move) :
    Except Fault (Bool × Store × PtrBoard) :=
  if !move.from_.isValid || !move.to_.isValid then Except.ok (false, s, B)
  else
    match (B.view s).getPiece move.from_ with
    | none => Except.ok (false, s, B)
    | some piece =>
      (relocate s B.clearEnPassant move).bind fun st1 =>
      (if (B.view s).isEnPassantCaptureOf piece move then
          (removeEnPassantVictim st1.2 piece move).bind fun B2 => Except.ok (st1.1, B2)
        else Except.ok st1).bind fun st2 =>
      (if ChessBoard.isCastlingOf piece move then castleRook st2.1 st2.2 move
        else Except.ok st2).bind fun st3 =>
      (if ChessBoard.isPromotionOf piece move then promote st3.1 st3.2 move
        else Except.ok st3).bind fun st4 =>
      Except.ok (true, st4.1, if ChessBoard.setsEnPassantOf piece move then
          st4.2.setEnPassant
            (Position.mk (Int.tdiv (move.from_.row + move.to_.row) 2) move.from_.col)
        else st4.2)

/-- Source: `ChessBoard::wouldBeInCheck`, called on `B`: `tempBoard` is
copy-constructed from `*this`, the move is applied to it, and it is asked
whether the king is in check.  The result is the returned `bool` and the store
after the call. -/
def wouldBeInCheck (s : Store) (B : PtrBoard) (move : Move) (kingColor : Color) :
    Except Fault (Bool × Store) :=
  (copyFrom s null B).bind fun st1 =>
  (movePiece st1.1 st1.2 move).bind fun r =>
  Except.ok ((r.2.2.view r.2.1).isInCheck kingColor, r.2.1)

/-- The loop `for (const auto& move : possibleMoves)` of `getAllLegalMoves`. -/
def keepLegal (B : PtrBoard) (color : Color) : Store → List Move → Except Fault (List Move × Store)
  | s, [] => Except.ok ([], s)
  | s, move :: rest =>
    (wouldBeInCheck s B move color).bind fun r =>
    (keepLegal B color r.2 rest).bind fun k =>
    Except.ok (if r.1 then k.1 else move :: k.1, k.2)

/-- The body of the two nested loops of `getAllLegalMoves` at one cell. -/
def legalAt (B : PtrBoard) (color : Color) (st : List Move × Store) (piecePos : Position) :
    Except Fault (List Move × Store) :=
  match (B.view st.2).cell piecePos.row piecePos.col with
  | some piece =>
    if piece.color = color then
      (keepLegal B color st.2 (piece.getPossibleMoves piecePos (B.view st.2))).bind fun k =>
      Except.ok (st.1 ++ k.1, k.2)
    else Except.ok st
  | none => Except.ok st

/-- The two nested loops of `getAllLegalMoves`, over the cells still to be
visited. -/
def legalLoop (B : PtrBoard) (color : Color) : List Position → List Move × Store →
    Except Fault (List Move × Store)
  | [], st => Except.ok st
  | piecePos :: rest, st => (legalAt B color st piecePos).bind (legalLoop B color rest)

/-- Source: `ChessBoard::getAllLegalMoves`, called on `B`; the result is the
list returned and the store after the call. -/
def getAllLegalMoves (s : Store) (B : PtrBoard) (color : Color) :
    Except Fault (List Move × Store) :=
  legalLoop B color allSquares ([], s)

end PtrBoard

/-! ## Derived notions and sample positions -/

/-- The moves of `forwardMoves` to the square one step ahead. -/
def Pawn.oneStepPart (pos : Position) (board : ChessBoard) (direction promotionRow : Int) :
    List Move :=
  if board.isEmpty ⟨pos.row + direction, pos.col⟩ then
    (if pos.row + direction = promotionRow then promotionMoves pos ⟨pos.row + direction, pos.col⟩
     else [Move.mk pos ⟨pos.row + direction, pos.col⟩ QUEEN])
  else []

/-- The move of `forwardMoves` to the square two steps ahead. -/
def Pawn.twoStepPart (pos : Position) (board : ChessBoard) (direction startRow : Int) :
    List Move :=
  if board.isEmpty ⟨pos.row + direction, pos.col⟩ ∧ pos.row = startRow ∧
      board.isEmpty ⟨pos.row + 2 * direction, pos.col⟩ then
    [Move.mk pos ⟨pos.row + 2 * direction, pos.col⟩ QUEEN]
  else []

namespace ChessBoard

/-- The number of kings of `color` on the grid. -/
def kingCount (b : ChessBoard) (color : Color) : Nat :=
  (allSquares.filter (b.isKingAt color)).length

/-- A grid without pieces, en-passant flag clear. -/
def empty : ChessBoard :=
  { board := fun _ _ => none
    enPassantTarget := Position.mk 0 0
    enPassantAvailable := false }

/-- The board with `p` put on `(row, col)`. -/
def place (b : ChessBoard) (row col : Int) (p : Piece) : ChessBoard :=
  b.setCell row col (some p)

/-- Occupancy and colours of two boards coincide. -/
def sameColours (b1 b2 : ChessBoard) : Prop :=
  ∀ p, (b1.getPiece p).map Piece.color = (b2.getPiece p).map Piece.color

/-- The boards coincide except on `t`, where both hold a piece of colour `c`
that is not a king. -/
def differOnOwnPiece (b1 b2 : ChessBoard) (t : Position) (c : Color) : Prop :=
  (∀ q, q ≠ t → b1.getPiece q = b2.getPiece q) ∧
  ∃ p1 p2, b1.getPiece t = some p1 ∧ b2.getPiece t = some p2 ∧
    p1.color = c ∧ p2.color = c ∧ p1.type ≠ KING ∧ p2.type ≠ KING

/-- The board a call of `movePiece` leaves behind, for calls that return. -/
def after (b : ChessBoard) (move : Move) : ChessBoard :=
  match b.movePiece move with
  | Except.ok r => r.2
  | Except.error _ => b

end ChessBoard

/-- The twenty moves White has in the starting position, in the order
`getAllLegalMoves` produces them. -/
def openingMoves : List Move :=
  [Move.mk ⟨0, 1⟩ ⟨2, 2⟩ QUEEN, Move.mk ⟨0, 1⟩ ⟨2, 0⟩ QUEEN,
   Move.mk ⟨0, 6⟩ ⟨2, 7⟩ QUEEN, Move.mk ⟨0, 6⟩ ⟨2, 5⟩ QUEEN,
   Move.mk ⟨1, 0⟩ ⟨2, 0⟩ QUEEN, Move.mk ⟨1, 0⟩ ⟨3, 0⟩ QUEEN,
   Move.mk ⟨1, 1⟩ ⟨2, 1⟩ QUEEN, Move.mk ⟨1, 1⟩ ⟨3, 1⟩ QUEEN,
   Move.mk ⟨1, 2⟩ ⟨2, 2⟩ QUEEN, Move.mk ⟨1, 2⟩ ⟨3, 2⟩ QUEEN,
   Move.mk ⟨1, 3⟩ ⟨2, 3⟩ QUEEN, Move.mk ⟨1, 3⟩ ⟨3, 3⟩ QUEEN,
   Move.mk ⟨1, 4⟩ ⟨2, 4⟩ QUEEN, Move.mk ⟨1, 4⟩ ⟨3, 4⟩ QUEEN,
   Move.mk ⟨1, 5⟩ ⟨2, 5⟩ QUEEN, Move.mk ⟨1, 5⟩ ⟨3, 5⟩ QUEEN,
   Move.mk ⟨1, 6⟩ ⟨2, 6⟩ QUEEN, Move.mk ⟨1, 6⟩ ⟨3, 6⟩ QUEEN,
   Move.mk ⟨1, 7⟩ ⟨2, 7⟩ QUEEN, Move.mk ⟨1, 7⟩ ⟨3, 7⟩ QUEEN]

/-- White king e4, Black king e6, nothing else; both kings have moved. -/
def kingsFacing : ChessBoard :=
  (ChessBoard.empty.place 3 4 ⟨WHITE, KING, true⟩).place 5 4 ⟨BLACK, KING, true⟩

/-- White king e1 and rook h1, neither moved; Black king d2. -/
def castleBesideKing : ChessBoard :=
  ((ChessBoard.empty.place 0 4 ⟨WHITE, KING, false⟩).place 0 7 ⟨WHITE, ROOK, false⟩).place 1 3
    ⟨BLACK, KING, true⟩

/-- White king e1 and rook h1, neither moved; Black king e8. -/
def castleReady : ChessBoard :=
  ((ChessBoard.empty.place 0 4 ⟨WHITE, KING, false⟩).place 0 7 ⟨WHITE, ROOK, false⟩).place 7 4
    ⟨BLACK, KING, true⟩

/-- White king e1, White pawn a7, Black king e8, and the en-passant flag set
on b8. -/
def enPassantOnLastRank : ChessBoard :=
  (((ChessBoard.empty.place 0 4 ⟨WHITE, KING, true⟩).place 6 0 ⟨WHITE, PAWN, true⟩).place 7 4
    ⟨BLACK, KING, true⟩).setEnPassant ⟨7, 1⟩

/-- The starting position after 1. e2-e4 d7-d5. -/
def centrePawns : ChessBoard :=
  (setupInitialPosition.after (Move.mk ⟨1, 4⟩ ⟨3, 4⟩ QUEEN)).after (Move.mk ⟨6, 3⟩ ⟨4, 3⟩ QUEEN)

/-- White king e1, White pawn a7, Black king e8, en-passant flag clear. -/
def promotionReady : ChessBoard :=
  ((ChessBoard.empty.place 0 4 ⟨WHITE, KING, true⟩).place 6 0 ⟨WHITE, PAWN, true⟩).place 7 4
    ⟨BLACK, KING, true⟩

/-- White king e1 and rook h1, a second White king on e4, none of them moved;
Black king e8. -/
def twoWhiteKings : ChessBoard :=
  (((ChessBoard.empty.place 0 4 ⟨WHITE, KING, false⟩).place 0 7 ⟨WHITE, ROOK, false⟩).place 3 4
    ⟨WHITE, KING, false⟩).place 7 4 ⟨BLACK, KING, true⟩

/-- White king e1, White pawn a7, Black king e8 and a Black rook on b8. -/
def promotionCapture : ChessBoard :=
  promotionReady.place 7 1 ⟨BLACK, ROOK, true⟩

/-- White king e1, White pawn b2, Black king e8, and the en-passant flag set
on a1. -/
def enPassantOnFirstRank : ChessBoard :=
  (((ChessBoard.empty.place 0 4 ⟨WHITE, KING, true⟩).place 1 1 ⟨WHITE, PAWN, false⟩).place 7 4
    ⟨BLACK, KING, true⟩).setEnPassant ⟨0, 0⟩

/-- The starting position after 1. e2-e4 a7-a6 2. e4-e5 d7-d5: White may
capture the d-pawn en passant on d6. -/
def enPassantReady : ChessBoard :=
  (((setupInitialPosition.after (Move.mk ⟨1, 4⟩ ⟨3, 4⟩ QUEEN)).after
    (Move.mk ⟨6, 0⟩ ⟨5, 0⟩ QUEEN)).after (Move.mk ⟨3, 4⟩ ⟨4, 4⟩ QUEEN)).after
    (Move.mk ⟨6, 3⟩ ⟨4, 3⟩ QUEEN)

/-- What the inner loop of `getFEN` and the flush after it append to the
string, given the cells still to be read and the value of the counter. -/
def fenTail : List (Option Piece) → Nat → List Char
  | [], empty => if empty > 0 then toStdString empty else []
  | none :: rest, empty => fenTail rest (empty + 1)
  | some piece :: rest, empty =>
    (if empty > 0 then toStdString empty else []) ++ piece.getSymbol :: fenTail rest 0

/-- The piece a letter of a placement field stands for: P, R, N, B, Q, K,
uppercase for White and lowercase for Black. -/
def letterPiece (ch : Char) : Option (Color × PieceType) :=
  if ch = 'P' then some (WHITE, PAWN)
  else if ch = 'R' then some (WHITE, ROOK)
  else if ch = 'N' then some (WHITE, KNIGHT)
  else if ch = 'B' then some (WHITE, BISHOP)
  else if ch = 'Q' then some (WHITE, QUEEN)
  else if ch = 'K' then some (WHITE, KING)
  else if ch = 'p' then some (BLACK, PAWN)
  else if ch = 'r' then some (BLACK, ROOK)
  else if ch = 'n' then some (BLACK, KNIGHT)
  else if ch = 'b' then some (BLACK, BISHOP)
  else if ch = 'q' then some (BLACK, QUEEN)
  else if ch = 'k' then some (BLACK, KING)
  else none

/-- The expansion of a placement field, left to right: a digit `d` stands for
`d` consecutive empty cells, a letter for one piece; any other character has no
expansion. -/
def expandField : List Char → Option (List (Option (Color × PieceType)))
  | [] => some []
  | ch :: rest =>
    if ch.isDigit then
      (expandField rest).map (fun cells => List.replicate (ch.toNat - '0'.toNat) none ++ cells)
    else
      match letterPiece ch with
      | some p => (expandField rest).map (fun cells => some p :: cells)
      | none => none

/-- The colour and kind of the content of each cell of a row, file 0 to
file 7. -/
def ChessBoard.rowContent (b : ChessBoard) (row : Int) : List (Option (Color × PieceType)) :=
  indices.map (fun col => (b.cell row col).map (fun p => (p.color, p.type)))

/-- Every cell of `b'` is as in `b`, or empty, or holds a piece marked as
moved. -/
def ChessBoard.marksOnly (b b' : ChessBoard) : Prop :=
  ∀ r c, b'.board r c = b.board r c ∨ b'.board r c = none ∨
    ∃ p, b'.board r c = some p ∧ p.hasMoved = true

/-- Every piece whose `hasMoved` flag is false stands where the starting
position has a piece of its kind and colour. -/
def ChessBoard.homeInvariant (b : ChessBoard) : Prop :=
  ∀ q p, b.getPiece q = some p → p.hasMoved = false →
    setupInitialPosition.getPiece q = some ⟨p.color, p.type, false⟩

/-- The boards obtained from the starting position by calls of `movePiece`
that return, whatever the moves. -/
inductive ChessBoard.ReachedByMoves : ChessBoard → Prop
  | start : ChessBoard.ReachedByMoves setupInitialPosition
  | step {b b' : ChessBoard} {move : Move} {r : Bool} :
      ChessBoard.ReachedByMoves b → b.movePiece move = Except.ok (r, b') →
      ChessBoard.ReachedByMoves b'

/-- The positions of play from the starting position, with the side to move:
each move is taken from `getAllLegalMoves` of the side to move and applied by
`movePiece`, White moving first and the sides alternating. -/
inductive ChessBoard.LegalPlay : ChessBoard → Color → Prop
  | start : ChessBoard.LegalPlay setupInitialPosition WHITE
  | step {b b' : ChessBoard} {c : Color} {L : List Move} {move : Move} {r : Bool} :
      ChessBoard.LegalPlay b c → b.getAllLegalMoves c = Except.ok L → move ∈ L →
      b.movePiece move = Except.ok (r, b') → ChessBoard.LegalPlay b' (ChessBoard.enemyOf c)

/-- The position after the listed moves, each of which has to be among the
legal moves of the side to move; `none` when one of them is not. -/
def ChessBoard.playLegal : ChessBoard → Color → List Move → Option (ChessBoard × Color)
  | b, c, [] => some (b, c)
  | b, c, move :: rest =>
    match b.getAllLegalMoves c, b.movePiece move with
    | Except.ok L, Except.ok r =>
      if move ∈ L then ChessBoard.playLegal r.2 (ChessBoard.enemyOf c) rest else none
    | _, _ => none

/-- The moves 1. d4 d5 2. Kd2 Kd7 3. Kc3 Kc6 4. Kb4 Kb5 5. Kxb5. -/
def kingHunt : List Move :=
  [Move.mk ⟨1, 3⟩ ⟨3, 3⟩ QUEEN, Move.mk ⟨6, 3⟩ ⟨4, 3⟩ QUEEN,
   Move.mk ⟨0, 4⟩ ⟨1, 3⟩ QUEEN, Move.mk ⟨7, 4⟩ ⟨6, 3⟩ QUEEN,
   Move.mk ⟨1, 3⟩ ⟨2, 2⟩ QUEEN, Move.mk ⟨6, 3⟩ ⟨5, 2⟩ QUEEN,
   Move.mk ⟨2, 2⟩ ⟨3, 1⟩ QUEEN, Move.mk ⟨5, 2⟩ ⟨4, 1⟩ QUEEN,
   Move.mk ⟨3, 1⟩ ⟨4, 1⟩ QUEEN]

/-- Every pointer of the grid is the address of an object of the store, and no
two cells hold the same address. -/
def PtrBoard.owns (B : PtrBoard) (s : Store) : Prop :=
  (∀ r c a, B.board r c = some a → a < s.length) ∧
  (∀ r c r' c' a, B.board r c = some a → B.board r' c' = some a → r = r' ∧ c = c')

/-- Every pointer of the grid is an address from `n` on. -/
def PtrBoard.above (B : PtrBoard) (n : Nat) : Prop :=
  ∀ r c a, B.board r c = some a → n ≤ a

/-- The store `s'` holds the objects of `s` at the addresses below `n`. -/
def Store.agreeBelow (n : Nat) (s s' : Store) : Prop :=
  ∀ a, a < n → s'[a]? = s[a]?

/-- A step `x` of the pointer representation, started in store `s`, does what
the step `y` does on the board read through the pointers: the same fault, or a
store and grid that show the board `y` gives, the grid owning its objects at
addresses from `n` on and the objects below `n` being as in `s`. -/
def PtrBoard.Refines (n : Nat) (x : Except Fault (Store × PtrBoard)) (s : Store)
    (y : Except Fault ChessBoard) : Prop :=
  x.map (fun st => st.2.view st.1) = y ∧
  ∀ s' B', x = Except.ok (s', B') →
    B'.owns s' ∧ B'.above n ∧ Store.agreeBelow n s s' ∧ s.length ≤ s'.length

/-- The reflection of the rows: row `r` goes to row `7 - r`. -/
def Position.mirror (p : Position) : Position :=
  Position.mk (7 - p.row) p.col

/-- A move with source and destination reflected, the promotion kind kept. -/
def Move.mirror (m : Move) : Move :=
  Move.mk m.from_.mirror m.to_.mirror m.promotionPiece

/-- A piece with the colour swapped, kind and `hasMoved` kept. -/
def Piece.mirror (p : Piece) : Piece :=
  { color := ChessBoard.enemyOf p.color, type := p.type, hasMoved := p.hasMoved }

/-- The board with the rows reflected, the colour of every piece swapped, and
the en-passant target reflected. -/
def ChessBoard.mirror (b : ChessBoard) : ChessBoard :=
  { board := fun r c => (b.board (Fin.rev r) c).map Piece.mirror
    enPassantTarget := b.enPassantTarget.mirror
    enPassantAvailable := b.enPassantAvailable }

/-- No two cells hold a king of colour `c`. -/
def ChessBoard.oneKing (b : ChessBoard) (c : Color) : Prop :=
  ∀ (r r' c1 c1' : Fin 8) (k k' : Piece), b.board r c1 = some k → k.type = KING → k.color = c →
    b.board r' c1' = some k' → k'.type = KING → k'.color = c → r = r' ∧ c1 = c1'

/-! ## Grid lemmas -/

theorem idx_eq_iff {i j : Int} (hi0 : 0 ≤ i) (hi : i < 8) (hj0 : 0 ≤ j) (hj : j < 8) :
    idx i = idx j ↔ i = j := by
  unfold idx
  rw [Fin.mk.injEq]
  omega

theorem isValid_iff (p : Position) :
    p.isValid = true ↔ 0 ≤ p.row ∧ p.row < 8 ∧ 0 ≤ p.col ∧ p.col < 8 := by
  unfold Position.isValid
  simp only [Bool.and_eq_true, decide_eq_true_eq, ge_iff_le]
  tauto

theorem mem_allSquares (p : Position) : p ∈ allSquares ↔ p.isValid = true := by
  rw [isValid_iff]
  unfold allSquares indices
  simp only [List.mem_flatMap, List.mem_map, List.mem_cons, List.mem_singleton, List.not_mem_nil, or_false]
  constructor
  · rintro ⟨r, hr, c, hc, rfl⟩
    simp only
    omega
  · intro h
    refine ⟨p.row, by omega, p.col, by omega, rfl⟩

theorem allSquares_nodup : allSquares.Nodup := by decide

namespace ChessBoard

theorem getPiece_of_valid (b : ChessBoard) {p : Position} (h : p.isValid = true) :
    b.getPiece p = b.cell p.row p.col := by
  simp [getPiece, h]

theorem getPiece_eq_some_valid {b : ChessBoard} {p : Position} {x : Piece}
    (h : b.getPiece p = some x) : p.isValid = true := by
  unfold getPiece at h
  by_cases hv : p.isValid = true
  · exact hv
  · simp [hv] at h

theorem cell_setCell (b : ChessBoard) (p q : Position) (v : Option Piece)
    (hp : p.isValid = true) (hq : q.isValid = true) :
    (b.setCell p.row p.col v).cell q.row q.col = if q = p then v else b.cell q.row q.col := by
  rw [isValid_iff] at hp hq
  unfold cell setCell
  simp only
  have h1 := idx_eq_iff hq.1 hq.2.1 hp.1 hp.2.1
  have h2 := idx_eq_iff hq.2.2.1 hq.2.2.2 hp.2.2.1 hp.2.2.2
  have h3 : q = p ↔ (q.row = p.row ∧ q.col = p.col) := by
    cases p; cases q; simp
  simp only [h1, h2, h3]

theorem getPiece_setCell (b : ChessBoard) (p q : Position) (v : Option Piece)
    (hp : p.isValid = true) (hq : q.isValid = true) :
    (b.setCell p.row p.col v).getPiece q = if q = p then v else b.getPiece q := by
  rw [getPiece_of_valid _ hq, getPiece_of_valid _ hq, cell_setCell b p q v hp hq]

theorem copyFrom_eq (b : ChessBoard) : copyFrom b = b := by
  cases b with
  | mk board t a =>
    unfold copyFrom
    simp only [mk.injEq, and_true]
    funext r c
    cases h : board r c <;> simp [Piece.clone]

end ChessBoard

/-! ## Move application: stages and en-passant members -/
namespace ChessBoard

theorem movePiece_rejected (b : ChessBoard) (move : Move)
    (h : move.from_.isValid = false ∨ move.to_.isValid = false ∨ b.getPiece move.from_ = none) :
    b.movePiece move = Except.ok (false, b) := by
  unfold movePiece
  by_cases hv : (!move.from_.isValid || !move.to_.isValid) = true
  · simp [hv]
  · simp only [hv]
    simp only [Bool.or_eq_true, Bool.not_eq_true', not_or, Bool.not_eq_false] at hv
    rcases h with h | h | h
    · simp [hv.1] at h
    · simp [hv.2] at h
    · simp [h]

theorem movePiece_stages (b : ChessBoard) (move : Move) (piece : Piece)
    (hf : move.from_.isValid = true) (ht : move.to_.isValid = true)
    (hp : b.getPiece move.from_ = some piece) :
    b.movePiece move =
      ((b.clearEnPassant.relocate move).bind fun b1 =>
      (if b.isEnPassantCaptureOf piece move then b1.removeEnPassantVictim piece move
        else Except.ok b1).bind fun b2 =>
      (if isCastlingOf piece move then b2.castleRook move else Except.ok b2).bind fun b3 =>
      (if isPromotionOf piece move then b3.promote move else Except.ok b3).bind fun b4 =>
      Except.ok (true, if setsEnPassantOf piece move then
          b4.setEnPassant (Position.mk (Int.tdiv (move.from_.row + move.to_.row) 2) move.from_.col)
        else b4)) := by
  unfold movePiece
  simp only [hf, ht, hp, Bool.not_true, Bool.or_self, Bool.false_eq_true, if_false]

/-- A successful `movePiece` run, split into the boards between its stages. -/
theorem movePiece_ok_stages {b : ChessBoard} {move : Move} {piece : Piece} {r : Bool}
    {b' : ChessBoard}
    (hf : move.from_.isValid = true) (ht : move.to_.isValid = true)
    (hp : b.getPiece move.from_ = some piece) (h : b.movePiece move = Except.ok (r, b')) :
    ∃ b1 b2 b3 b4,
      b.clearEnPassant.relocate move = Except.ok b1 ∧
      (if b.isEnPassantCaptureOf piece move then b1.removeEnPassantVictim piece move
        else Except.ok b1) = Except.ok b2 ∧
      (if isCastlingOf piece move then b2.castleRook move else Except.ok b2) = Except.ok b3 ∧
      (if isPromotionOf piece move then b3.promote move else Except.ok b3) = Except.ok b4 ∧
      r = true ∧
      b' = (if setsEnPassantOf piece move then
          b4.setEnPassant (Position.mk (Int.tdiv (move.from_.row + move.to_.row) 2) move.from_.col)
        else b4) := by
  rw [movePiece_stages b move piece hf ht hp] at h
  cases h1 : b.clearEnPassant.relocate move with
  | error e => rw [h1] at h; simp [Except.bind] at h
  | ok b1 =>
    rw [h1] at h
    simp only [Except.bind] at h
    cases h2 : (if b.isEnPassantCaptureOf piece move then b1.removeEnPassantVictim piece move
        else Except.ok b1) with
    | error e => rw [h2] at h; simp at h
    | ok b2 =>
      rw [h2] at h
      simp only at h
      cases h3 : (if isCastlingOf piece move then b2.castleRook move else Except.ok b2) with
      | error e => rw [h3] at h; simp at h
      | ok b3 =>
        rw [h3] at h
        simp only at h
        cases h4 : (if isPromotionOf piece move then b3.promote move else Except.ok b3) with
        | error e => rw [h4] at h; simp at h
        | ok b4 =>
          rw [h4] at h
          simp only [Except.ok.injEq, Prod.mk.injEq] at h
          exact ⟨b1, b2, b3, b4, rfl, h2, h3, h4, h.1.symm, h.2.symm⟩

theorem markMoved_ep {b b' : ChessBoard} {row col : Int}
    (h : b.markMoved row col = Except.ok b') :
    b'.enPassantAvailable = b.enPassantAvailable ∧ b'.enPassantTarget = b.enPassantTarget := by
  unfold markMoved at h
  split at h
  · simp at h
  · simp only [Except.ok.injEq] at h
    subst h
    exact ⟨rfl, rfl⟩

theorem relocate_ep {b b' : ChessBoard} {move : Move}
    (h : b.relocate move = Except.ok b') :
    b'.enPassantAvailable = b.enPassantAvailable ∧ b'.enPassantTarget = b.enPassantTarget := by
  unfold relocate at h
  have := markMoved_ep h
  exact this

theorem removeEnPassantVictim_ep {b b' : ChessBoard} {piece : Piece} {move : Move}
    (h : b.removeEnPassantVictim piece move = Except.ok b') :
    b'.enPassantAvailable = b.enPassantAvailable ∧ b'.enPassantTarget = b.enPassantTarget := by
  unfold removeEnPassantVictim at h
  dsimp only at h
  generalize (if piece.color = WHITE then move.to_.row - 1 else move.to_.row + 1) = row at h
  split at h
  · simp only [Except.ok.injEq] at h
    subst h
    exact ⟨rfl, rfl⟩
  · exact absurd h (by simp)

theorem castleRook_ep {b b' : ChessBoard} {move : Move}
    (h : b.castleRook move = Except.ok b') :
    b'.enPassantAvailable = b.enPassantAvailable ∧ b'.enPassantTarget = b.enPassantTarget := by
  unfold castleRook at h
  have := markMoved_ep h
  exact this

theorem promote_ep {b b' : ChessBoard} {move : Move}
    (h : b.promote move = Except.ok b') :
    b'.enPassantAvailable = b.enPassantAvailable ∧ b'.enPassantTarget = b.enPassantTarget := by
  unfold promote at h
  split at h
  · simp at h
  · have := markMoved_ep h
    exact this

theorem stage_ep {c : Bool} {b b' : ChessBoard} {f : Except Fault ChessBoard}
    (hf : ∀ x, f = Except.ok x →
      x.enPassantAvailable = b.enPassantAvailable ∧ x.enPassantTarget = b.enPassantTarget)
    (h : (if c then f else Except.ok b) = Except.ok b') :
    b'.enPassantAvailable = b.enPassantAvailable ∧ b'.enPassantTarget = b.enPassantTarget := by
  cases c
  · simp only [Bool.false_eq_true, if_false, Except.ok.injEq] at h
    subst h
    exact ⟨rfl, rfl⟩
  · simp only [if_true] at h
    exact hf _ h

/-- The en-passant members after a successful `movePiece`. -/
theorem movePiece_ep {b : ChessBoard} {move : Move} {piece : Piece} {r : Bool} {b' : ChessBoard}
    (hf : move.from_.isValid = true) (ht : move.to_.isValid = true)
    (hp : b.getPiece move.from_ = some piece) (h : b.movePiece move = Except.ok (r, b')) :
    r = true ∧ b'.enPassantAvailable = setsEnPassantOf piece move ∧
    (setsEnPassantOf piece move = true → b'.enPassantTarget =
      Position.mk (Int.tdiv (move.from_.row + move.to_.row) 2) move.from_.col) := by
  obtain ⟨b1, b2, b3, b4, h1, h2, h3, h4, hr, hb⟩ := movePiece_ok_stages hf ht hp h
  have e1 := relocate_ep h1
  have e2 := stage_ep (fun x hx => removeEnPassantVictim_ep hx) h2
  have e3 := stage_ep (fun x hx => castleRook_ep hx) h3
  have e4 := stage_ep (fun x hx => promote_ep hx) h4
  have e5 : b4.enPassantAvailable = false := by
    rw [e4.1, e3.1, e2.1, e1.1]; rfl
  refine ⟨hr, ?_, ?_⟩
  · subst hb
    cases hd : setsEnPassantOf piece move
    · simpa using e5
    · simp [setEnPassant]
  · intro hd
    subst hb
    simp [hd, setEnPassant]

end ChessBoard
namespace ChessBoard

theorem isEmpty_eq_false_of_getPiece {b : ChessBoard} {p : Position} {x : Piece}
    (h : b.getPiece p = some x) : b.isEmpty p = false := by
  have hv := getPiece_eq_some_valid h
  rw [getPiece_of_valid _ hv] at h
  simp [isEmpty, hv, h]

theorem isEnPassantTarget_of_not_available {b : ChessBoard} (h : b.enPassantAvailable = false)
    (p : Position) : b.isEnPassantTarget p = false := by
  simp [isEnPassantTarget, h]

end ChessBoard

theorem mem_promotionMoves {m : Move} {pos target : Position} (h : m ∈ promotionMoves pos target) :
    m.from_ = pos ∧ m.to_ = target := by
  unfold promotionMoves at h
  simp only [List.mem_cons, List.mem_singleton, List.not_mem_nil, or_false] at h
  rcases h with h | h | h | h <;> subst h <;> exact ⟨rfl, rfl⟩

/-- A capture-loop move of a pawn goes to `capturePos`, which holds an enemy
piece or is the en-passant target. -/
theorem Pawn.mem_captureMoves {self : Piece} {pos : Position} {board : ChessBoard}
    {direction promotionRow colOffset : Int} {m : Move}
    (h : m ∈ Pawn.captureMoves self pos board direction promotionRow colOffset) :
    m.from_ = pos ∧ m.to_ = Position.mk (pos.row + direction) (pos.col + colOffset) ∧
    m.to_.isValid = true ∧
    ((∃ t, board.getPiece m.to_ = some t ∧ t.color ≠ self.color) ∨
      board.isEnPassantTarget m.to_ = true) := by
  unfold Pawn.captureMoves at h
  dsimp only at h
  split at h
  · rename_i hv
    split at h
    · rename_i t ht
      split at h
      · rename_i hc
        split at h
        · have := mem_promotionMoves h
          refine ⟨this.1, this.2, ?_, Or.inl ⟨t, ?_, hc⟩⟩
          · rw [this.2]; exact hv
          · rw [this.2]; exact ht
        · simp only [List.mem_singleton] at h
          subst h
          exact ⟨rfl, rfl, hv, Or.inl ⟨t, ht, hc⟩⟩
      · split at h
        · rename_i he
          simp only [List.mem_singleton] at h
          subst h
          exact ⟨rfl, rfl, hv, Or.inr he⟩
        · simp at h
    · split at h
      · rename_i he
        simp only [List.mem_singleton] at h
        subst h
        exact ⟨rfl, rfl, hv, Or.inr he⟩
      · simp at h
  · simp at h

/-- A forward move of a pawn starts on `pos` and keeps the file. -/
theorem Pawn.mem_forwardMoves {pos : Position} {board : ChessBoard}
    {direction startRow promotionRow : Int} {m : Move}
    (h : m ∈ Pawn.forwardMoves pos board direction startRow promotionRow) :
    m.from_ = pos ∧ m.to_.col = pos.col := by
  unfold Pawn.forwardMoves at h
  dsimp only at h
  split at h
  · simp only [List.mem_append] at h
    rcases h with h | h
    · split at h
      · have := mem_promotionMoves h
        exact ⟨this.1, by rw [this.2]⟩
      · simp only [List.mem_singleton] at h
        subst h
        exact ⟨rfl, rfl⟩
    · split at h
      · split at h
        · simp only [List.mem_singleton] at h
          subst h
          exact ⟨rfl, rfl⟩
        · simp at h
      · simp at h
  · simp at h

/-- A move of `Pawn::getPossibleMoves` starts on `pos`; it keeps the file, or it
is a capture-loop move. -/
theorem Pawn.mem_getPossibleMoves {self : Piece} {pos : Position} {board : ChessBoard} {m : Move}
    (h : m ∈ Pawn.getPossibleMoves self pos board) :
    m.from_ = pos ∧
    (m.to_.col = pos.col ∨
      (m.to_.isValid = true ∧
       ((∃ t, board.getPiece m.to_ = some t ∧ t.color ≠ self.color) ∨
        board.isEnPassantTarget m.to_ = true))) := by
  unfold Pawn.getPossibleMoves at h
  dsimp only at h
  simp only [List.mem_append] at h
  rcases h with (h | h) | h
  · have := Pawn.mem_forwardMoves h
    exact ⟨this.1, Or.inl this.2⟩
  · have := Pawn.mem_captureMoves h
    exact ⟨this.1, Or.inr ⟨this.2.2.1, this.2.2.2⟩⟩
  · have := Pawn.mem_captureMoves h
    exact ⟨this.1, Or.inr ⟨this.2.2.1, this.2.2.2⟩⟩
theorem addDirectionalLoop_from {piece : Piece} {pos : Position} {board : ChessBoard}
    {rowDir colDir : Int} {m : Move} :
    ∀ (n : Nat) (step : Int), m ∈ addDirectionalLoop piece pos board rowDir colDir n step →
      m.from_ = pos
  | 0, _, h => by simp [addDirectionalLoop] at h
  | n + 1, step, h => by
    unfold addDirectionalLoop at h
    dsimp only at h
    split at h
    · simp at h
    · split at h
      · simp only [List.mem_cons] at h
        rcases h with h | h
        · subst h; rfl
        · exact addDirectionalLoop_from n (step + 1) h
      · split at h
        · simp only [List.mem_singleton] at h
          subst h; rfl
        · simp at h

theorem slide_from {piece : Piece} {pos : Position} {board : ChessBoard}
    {dirs : List (Int × Int)} {m : Move}
    (h : m ∈ dirs.flatMap (fun dir => addDirectionalMoves piece pos board dir.1 dir.2 8)) :
    m.from_ = pos := by
  simp only [List.mem_flatMap] at h
  obtain ⟨d, _, hm⟩ := h
  exact addDirectionalLoop_from _ _ hm

theorem stepMoves_from {self : Piece} {pos : Position} {board : ChessBoard}
    {offsets : List (Int × Int)} {m : Move} (h : m ∈ stepMoves self pos board offsets) :
    m.from_ = pos := by
  unfold stepMoves at h
  simp only [List.mem_flatMap] at h
  obtain ⟨d, _, hm⟩ := h
  split at hm
  · split at hm
    · simp only [List.mem_singleton] at hm
      subst hm; rfl
    · split at hm
      · simp only [List.mem_singleton] at hm
        subst hm; rfl
      · simp at hm
  · simp at hm

theorem king_moves_from {self : Piece} {pos : Position} {board : ChessBoard}
    {m : Move} (h : m ∈ King.getPossibleMoves self pos board) : m.from_ = pos := by
  unfold King.getPossibleMoves at h
  simp only [List.mem_append] at h
  rcases h with h | h
  · exact stepMoves_from h
  · split at h
    · simp only [List.mem_append] at h
      rcases h with h | h <;>
      · split at h
        · simp only [List.mem_singleton] at h
          subst h; rfl
        · simp at h
    · simp at h

/-- Every generated move starts on the square the generator was called for. -/
theorem piece_moves_from {self : Piece} {pos : Position} {board : ChessBoard}
    {m : Move} (h : m ∈ self.getPossibleMoves pos board) : m.from_ = pos := by
  unfold Piece.getPossibleMoves at h
  split at h
  · exact (Pawn.mem_getPossibleMoves h).1
  · exact slide_from h
  · exact stepMoves_from h
  · exact slide_from h
  · exact slide_from h
  · exact king_moves_from h

namespace ChessBoard

theorem mem_candidateMoves {b : ChessBoard} {color : Color} {m : Move} :
    m ∈ b.candidateMoves color ↔
      ∃ piece, b.getPiece m.from_ = some piece ∧ piece.color = color ∧
        m ∈ piece.getPossibleMoves m.from_ b := by
  unfold candidateMoves
  simp only [List.mem_flatMap, mem_allSquares]
  constructor
  · rintro ⟨pos, hv, hm⟩
    rw [← getPiece_of_valid b hv] at hm
    split at hm
    · rename_i piece hp
      split at hm
      · rename_i hc
        have hfrom := piece_moves_from hm
        rw [hfrom]
        exact ⟨piece, hp, hc, hm⟩
      · simp at hm
    · simp at hm
  · rintro ⟨piece, hp, hc, hm⟩
    have hv := getPiece_eq_some_valid hp
    refine ⟨m.from_, hv, ?_⟩
    rw [← getPiece_of_valid b hv, hp]
    simp only [hc, if_true]
    exact hm

theorem wouldBeInCheck_eq (b : ChessBoard) (move : Move) (kingColor : Color) :
    b.wouldBeInCheck move kingColor =
      (b.movePiece move).bind fun r => Except.ok (r.2.isInCheck kingColor) := by
  unfold wouldBeInCheck
  rw [copyFrom_eq]

theorem wouldBeInCheck_ok_iff (b : ChessBoard) (move : Move) (kingColor : Color) (v : Bool) :
    b.wouldBeInCheck move kingColor = Except.ok v ↔
      ∃ r b', b.movePiece move = Except.ok (r, b') ∧ b'.isInCheck kingColor = v := by
  rw [wouldBeInCheck_eq]
  cases h : b.movePiece move with
  | error e => simp [Except.bind]
  | ok x =>
    obtain ⟨r, b'⟩ := x
    simp only [Except.bind, Except.ok.injEq, Prod.mk.injEq]
    constructor
    · intro hv
      exact ⟨r, b', ⟨rfl, rfl⟩, hv⟩
    · rintro ⟨r', b'', ⟨rfl, rfl⟩, hv⟩
      exact hv

/-- When the filter loop returns, it has kept exactly the moves for which
`wouldBeInCheck` answered `false`, and no candidate faulted. -/
theorem keepLegal_ok {b : ChessBoard} {color : Color} :
    ∀ {moves L : List Move}, b.keepLegal color moves = Except.ok L →
      L = moves.filter (fun m => decide (b.wouldBeInCheck m color = Except.ok false)) ∧
      ∀ m ∈ moves, ∃ v, b.wouldBeInCheck m color = Except.ok v
  | [], L, h => by
    simp only [keepLegal, Except.ok.injEq] at h
    subst h
    simp
  | move :: rest, L, h => by
    unfold keepLegal at h
    cases hw : b.wouldBeInCheck move color with
    | error e => rw [hw] at h; simp [Except.bind] at h
    | ok v =>
      rw [hw] at h
      simp only [Except.bind] at h
      cases hr : b.keepLegal color rest with
      | error e => rw [hr] at h; simp at h
      | ok kept =>
        rw [hr] at h
        simp only [Except.ok.injEq] at h
        obtain ⟨ih1, ih2⟩ := keepLegal_ok hr
        refine ⟨?_, ?_⟩
        · subst h
          cases v
          · simp [List.filter, hw, ← ih1]
          · simp [List.filter, hw, ← ih1]
        · intro m hm
          simp only [List.mem_cons] at hm
          rcases hm with hm | hm
          · subst hm; exact ⟨v, hw⟩
          · exact ih2 m hm

end ChessBoard
namespace ChessBoard

theorem cell_setCell_raw (b : ChessBoard) {r c r' c' : Int} (v : Option Piece)
    (hr : 0 ≤ r ∧ r < 8) (hc : 0 ≤ c ∧ c < 8) (hr' : 0 ≤ r' ∧ r' < 8) (hc' : 0 ≤ c' ∧ c' < 8) :
    (b.setCell r c v).cell r' c' = if r' = r ∧ c' = c then v else b.cell r' c' := by
  unfold cell setCell
  simp only [idx_eq_iff hr'.1 hr'.2 hr.1 hr.2, idx_eq_iff hc'.1 hc'.2 hc.1 hc.2]

theorem getPiece_setCell_raw (b : ChessBoard) {r c : Int} (v : Option Piece)
    (hr : 0 ≤ r ∧ r < 8) (hc : 0 ≤ c ∧ c < 8) (q : Position) :
    (b.setCell r c v).getPiece q = if q = Position.mk r c then (if q.isValid then v else none)
      else b.getPiece q := by
  by_cases hq : q.isValid = true
  · rw [getPiece_of_valid _ hq, getPiece_of_valid _ hq]
    have hq' := (isValid_iff q).1 hq
    rw [cell_setCell_raw b v hr hc ⟨hq'.1, hq'.2.1⟩ ⟨hq'.2.2.1, hq'.2.2.2⟩]
    have : q = Position.mk r c ↔ (q.row = r ∧ q.col = c) := by
      cases q; simp
    simp only [this, hq, if_true]
  · have hne : q ≠ Position.mk r c := by
      rintro rfl
      apply hq
      rw [isValid_iff]
      exact ⟨hr.1, hr.2, hc.1, hc.2⟩
    simp only [hne, if_false]
    simp [getPiece, hq]

theorem markMoved_eq (b : ChessBoard) {row col : Int} {p : Piece}
    (h : b.cell row col = some p) :
    b.markMoved row col = Except.ok (b.setCell row col (some { p with hasMoved := true })) := by
  simp [markMoved, h]

theorem markMoved_none (b : ChessBoard) {row col : Int} (h : b.cell row col = none) :
    b.markMoved row col = Except.error Fault.nullDeref := by
  simp [markMoved, h]

/-- The relocation stage for distinct squares: the piece lands on the
destination, marked as moved, and leaves its source empty. -/
theorem relocate_ok (b : ChessBoard) (move : Move) (piece : Piece)
    (hf : move.from_.isValid = true) (ht : move.to_.isValid = true)
    (hne : move.from_ ≠ move.to_) (hp : b.getPiece move.from_ = some piece) :
    ∃ b', b.relocate move = Except.ok b' ∧
      ∀ q, b'.getPiece q =
        if q = move.to_ then some { piece with hasMoved := true }
        else if q = move.from_ then none else b.getPiece q := by
  have hf' := (isValid_iff _).1 hf
  have ht' := (isValid_iff _).1 ht
  have hfr : 0 ≤ move.from_.row ∧ move.from_.row < 8 := ⟨hf'.1, hf'.2.1⟩
  have hfc : 0 ≤ move.from_.col ∧ move.from_.col < 8 := ⟨hf'.2.2.1, hf'.2.2.2⟩
  have htr : 0 ≤ move.to_.row ∧ move.to_.row < 8 := ⟨ht'.1, ht'.2.1⟩
  have htc : 0 ≤ move.to_.col ∧ move.to_.col < 8 := ⟨ht'.2.2.1, ht'.2.2.2⟩
  have hne' : ¬ (move.from_.row = move.to_.row ∧ move.from_.col = move.to_.col) := by
    intro h
    apply hne
    cases hx : move.from_; cases hy : move.to_
    rw [hx, hy] at h
    simp only at h
    rw [h.1, h.2]
  rw [getPiece_of_valid _ hf] at hp
  have hmoving : (b.setCell move.to_.row move.to_.col none).cell move.from_.row move.from_.col
      = some piece := by
    rw [cell_setCell_raw b none htr htc hfr hfc, if_neg hne', hp]
  unfold relocate
  simp only [hmoving]
  rw [markMoved_eq _ (p := piece)]
  · refine ⟨_, rfl, ?_⟩
    intro q
    rw [getPiece_setCell_raw _ _ htr htc, getPiece_setCell_raw _ _ htr htc,
      getPiece_setCell_raw _ _ hfr hfc, getPiece_setCell_raw _ _ htr htc]
    by_cases h1 : q = move.to_
    · subst h1
      simp [ht]
    · have h1' : q ≠ Position.mk move.to_.row move.to_.col := h1
      simp only [h1, h1', if_false]
      by_cases h2 : q = move.from_
      · subst h2
        simp [hf]
      · have h2' : q ≠ Position.mk move.from_.row move.from_.col := h2
        simp only [h2, h2', if_false]
  · rw [cell_setCell_raw _ _ htr htc htr htc]
    simp

end ChessBoard

namespace ChessBoard

theorem movePiece_eq_after {b : ChessBoard} {move : Move}
    (h : (b.movePiece move).map Prod.fst = Except.ok true) :
    b.movePiece move = Except.ok (true, b.after move) := by
  unfold after
  cases hm : b.movePiece move with
  | error e => rw [hm] at h; simp [Except.map] at h
  | ok r =>
    obtain ⟨r1, r2⟩ := r
    rw [hm] at h
    simp only [Except.map, Except.ok.injEq] at h
    subst h
    rfl

/-- The moves returned by the enumeration are candidate moves. -/
theorem mem_candidate_of_mem_legal {b : ChessBoard} {c : Color} {L : List Move} {m : Move}
    (h : b.getAllLegalMoves c = Except.ok L) (hm : m ∈ L) : m ∈ b.candidateMoves c := by
  unfold getAllLegalMoves at h
  obtain ⟨hL, _⟩ := keepLegal_ok h
  rw [hL] at hm
  exact (List.mem_filter.1 hm).1

/-- With the en-passant flag clear, a pawn move that changes file lands on an
occupied square. -/
theorem pawn_diagonal_occupied {b : ChessBoard} (hflag : b.enPassantAvailable = false)
    {pawn : Piece} {pos : Position} {m : Move} (hk : pawn.type = PAWN)
    (hm : m ∈ pawn.getPossibleMoves pos b) (hcol : m.to_.col ≠ m.from_.col) :
    b.isEmpty m.to_ = false := by
  unfold Piece.getPossibleMoves at hm
  rw [hk] at hm
  obtain ⟨hfrom, h⟩ := Pawn.mem_getPossibleMoves hm
  rcases h with h | ⟨_, ⟨t, ht, _⟩ | h⟩
  · rw [hfrom] at hcol
    exact absurd h hcol
  · exact isEmpty_eq_false_of_getPiece ht
  · rw [isEnPassantTarget_of_not_available hflag] at h
    cases h

end ChessBoard

namespace ChessBoard

theorem attackerMoves_eq {b : ChessBoard} {piece : Piece} {piecePos : Position}
    (h1 : piece.type ≠ PAWN) (h2 : piece.type ≠ KING) :
    b.attackerMoves piece piecePos = piece.getPossibleMoves piecePos b := by
  unfold attackerMoves Piece.getPossibleMoves
  cases h : piece.type <;> simp_all

/-- What the scan of `isSquareAttacked` answers with `castling_check = false`:
a pawn of the colour one row behind on a neighbouring file, or a rook, knight,
bishop or queen of the colour generating a move onto the square. -/
theorem isSquareAttacked_plain_iff (b : ChessBoard) (pos : Position) (c : Color) :
    b.isSquareAttacked pos c false = true ↔
      ∃ piecePos piece, b.getPiece piecePos = some piece ∧ piece.color = c ∧
        ((piece.type = PAWN ∧ pos.row = piecePos.row + (if c = WHITE then 1 else -1) ∧
            (pos.col = piecePos.col - 1 ∨ pos.col = piecePos.col + 1)) ∨
         (piece.type ≠ PAWN ∧ piece.type ≠ KING ∧
            ∃ m ∈ piece.getPossibleMoves piecePos b, m.to_ = pos)) := by
  unfold isSquareAttacked
  simp only [List.any_eq_true, mem_allSquares]
  constructor
  · rintro ⟨piecePos, hv, h⟩
    unfold attacksFrom at h
    rw [← getPiece_of_valid b hv] at h
    split at h
    · cases h
    · rename_i piece hp
      refine ⟨piecePos, piece, hp, ?_⟩
      split at h
      · rename_i hc
        refine ⟨hc, ?_⟩
        split at h
        · rename_i hk
          left
          refine ⟨hk, ?_⟩
          simp only [Bool.or_eq_true, decide_eq_true_eq] at h
          rcases h with h | h <;> subst h <;> simp
        · rename_i hk
          simp only [Bool.false_and, Bool.false_eq_true, if_false, Bool.not_false,
            Bool.and_true, decide_eq_true_eq] at h
          split at h
          · cases h
          · rename_i hking
            right
            refine ⟨hk, hking, ?_⟩
            rw [List.any_eq_true] at h
            obtain ⟨m, hm, hto⟩ := h
            rw [attackerMoves_eq hk hking] at hm
            exact ⟨m, hm, by simpa using hto⟩
      · cases h
  · rintro ⟨piecePos, piece, hp, hc, h⟩
    have hv := getPiece_eq_some_valid hp
    refine ⟨piecePos, hv, ?_⟩
    unfold attacksFrom
    rw [← getPiece_of_valid b hv, hp]
    simp only [hc, if_true]
    rcases h with ⟨hk, hrow, hcol⟩ | ⟨hk, hking, m, hm, hto⟩
    · simp only [hk, if_true, Bool.or_eq_true, decide_eq_true_eq]
      rcases hcol with hcol | hcol
      · left
        cases pos
        simp only [Position.mk.injEq] at *
        exact ⟨hrow.symm, hcol.symm⟩
      · right
        cases pos
        simp only [Position.mk.injEq] at *
        exact ⟨hrow.symm, hcol.symm⟩
    · simp only [hk, if_false, Bool.false_and, Bool.false_eq_true, hking, decide_False,
        List.any_eq_true, decide_eq_true_eq]
      rw [attackerMoves_eq hk hking]
      exact ⟨m, hm, hto⟩

end ChessBoard

namespace ChessBoard

theorem mem_colRange (startCol endCol col : Int) :
    col ∈ colRange startCol endCol ↔ startCol ≤ col ∧ col < endCol := by
  unfold colRange
  rw [List.mem_map]
  constructor
  · rintro ⟨k, hk, rfl⟩
    rw [List.mem_range] at hk
    omega
  · intro h
    refine ⟨(col - startCol).toNat, ?_, ?_⟩
    · rw [List.mem_range]; omega
    · omega

/-- The last test of `canCastle`: the two squares the king crosses and lands on. -/
theorem castle_path_test (b : ChessBoard) (enemy : Color) (row col dir : Int) :
    (if ([1, 2] : List Int).any (fun i =>
        b.isSquareAttacked (Position.mk row (col + i * dir)) enemy true) then false else true)
      = true ↔
    b.isSquareAttacked ⟨row, col + dir⟩ enemy true = false ∧
    b.isSquareAttacked ⟨row, col + 2 * dir⟩ enemy true = false := by
  simp only [List.any_cons, List.any_nil, Bool.or_false, one_mul]
  cases b.isSquareAttacked ⟨row, col + dir⟩ enemy true <;>
    cases b.isSquareAttacked ⟨row, col + 2 * dir⟩ enemy true <;> simp

/-- The conditions under which `canCastle` answers `true`, read off its early
returns. -/
theorem canCastle_eq_true_iff (b : ChessBoard) (c : Color) (kingSide : Bool) :
    b.canCastle c kingSide = true ↔
      (b.getKingPosition c).isValid = true ∧
      (∃ king, b.getPiece (b.getKingPosition c) = some king ∧ king.hasMoved = false) ∧
      b.isInCheck c = false ∧
      (∃ rook, b.getPiece ⟨(b.getKingPosition c).row, if kingSide then 7 else 0⟩ = some rook ∧
        rook.type = ROOK ∧ rook.hasMoved = false) ∧
      (∀ col : Int, min (b.getKingPosition c).col (if kingSide then 7 else 0) < col →
        col < max (b.getKingPosition c).col (if kingSide then 7 else 0) →
        b.isEmpty ⟨(b.getKingPosition c).row, col⟩ = true) ∧
      b.isSquareAttacked ⟨(b.getKingPosition c).row,
        (b.getKingPosition c).col + (if kingSide then 1 else -1)⟩ (enemyOf c) true = false ∧
      b.isSquareAttacked ⟨(b.getKingPosition c).row,
        (b.getKingPosition c).col + 2 * (if kingSide then 1 else -1)⟩ (enemyOf c) true = false := by
  unfold canCastle
  generalize b.getKingPosition c = kp
  dsimp only
  generalize (if kingSide = true then (7 : Int) else 0) = corner
  generalize (if kingSide = true then (1 : Int) else -1) = dir
  by_cases hv : kp.isValid = true
  swap
  · simp [hv]
  simp only [hv, Bool.not_true, Bool.false_eq_true, if_false, true_and]
  cases hk : b.getPiece kp with
  | none => simp
  | some king =>
    simp only [Option.some.injEq, exists_eq_left']
    cases hm : king.hasMoved
    swap
    · simp
    simp only [Bool.false_eq_true, if_false, true_and]
    cases hc : b.isInCheck c
    swap
    · simp
    simp only [Bool.false_eq_true, if_false, true_and]
    cases hr : b.getPiece ⟨kp.row, corner⟩ with
    | none => simp
    | some rook =>
      simp only [Option.some.injEq, exists_eq_left']
      by_cases hrt : rook.type = ROOK
      swap
      · simp [hrt]
      cases hrm : rook.hasMoved
      swap
      · simp [hrt]
      simp only [hrt, ne_eq, not_true_eq_false, decide_False, Bool.or_self, Bool.false_eq_true,
        if_false, true_and]
      by_cases hbetween : (colRange (min kp.col corner + 1) (max kp.col corner)).all
            (fun col => b.isEmpty ⟨kp.row, col⟩) = true
      · have hb' : ∀ col : Int, min kp.col corner < col →
            col < max kp.col corner → b.isEmpty ⟨kp.row, col⟩ = true := by
          intro col h1 h2
          rw [List.all_eq_true] at hbetween
          exact hbetween col ((mem_colRange _ _ _).2 ⟨by omega, h2⟩)
        simp only [hbetween, Bool.not_true, Bool.false_eq_true, if_false]
        rw [castle_path_test]
        constructor
        · intro h
          exact ⟨hb', h⟩
        · intro h
          exact h.2
      · simp only [hbetween, Bool.not_false, if_true, Bool.false_eq_true, false_iff, not_and]
        intro hb'
        exfalso
        apply hbetween
        rw [List.all_eq_true]
        intro col hcol
        rw [mem_colRange] at hcol
        exact hb' col (by omega) hcol.2

end ChessBoard

namespace ChessBoard

theorem isKingAt_iff (b : ChessBoard) (c : Color) {p : Position} (hv : p.isValid = true) :
    b.isKingAt c p = true ↔ ∃ k, b.getPiece p = some k ∧ k.type = KING ∧ k.color = c := by
  unfold isKingAt
  rw [getPiece_of_valid b hv]
  cases b.cell p.row p.col with
  | none => simp
  | some k => simp

/-- With exactly one king of a colour on the grid, `getKingPosition` returns
its square, and no other square holds a king of that colour. -/
theorem getKingPosition_spec (b : ChessBoard) (c : Color) (h : b.kingCount c = 1) :
    (b.getKingPosition c).isValid = true ∧
    (∃ king, b.getPiece (b.getKingPosition c) = some king ∧ king.type = KING ∧ king.color = c) ∧
    ∀ q k, b.getPiece q = some k → k.type = KING → k.color = c → q = b.getKingPosition c := by
  unfold kingCount at h
  obtain ⟨x, hx⟩ := List.length_eq_one.1 h
  have hxmem : x ∈ allSquares.filter (b.isKingAt c) := by rw [hx]; simp
  have huniq : ∀ y, y ∈ allSquares → b.isKingAt c y = true → y = x := by
    intro y hy hp
    have : y ∈ allSquares.filter (b.isKingAt c) := List.mem_filter.2 ⟨hy, hp⟩
    rw [hx] at this
    simpa using this
  have hfind : b.getKingPosition c = x := by
    unfold getKingPosition
    cases hf : allSquares.find? (b.isKingAt c) with
    | none =>
      rw [List.find?_eq_none] at hf
      have := hf x (List.mem_filter.1 hxmem).1
      rw [(List.mem_filter.1 hxmem).2] at this
      exact absurd rfl this
    | some y =>
      exact huniq y (List.mem_of_find?_eq_some hf) (List.find?_some hf)
  rw [hfind]
  have hxv : x.isValid = true := (mem_allSquares x).1 (List.mem_filter.1 hxmem).1
  refine ⟨hxv, (isKingAt_iff b c hxv).1 (List.mem_filter.1 hxmem).2, ?_⟩
  intro q k hq hk hc
  have hqv := getPiece_eq_some_valid hq
  exact huniq q ((mem_allSquares q).2 hqv) ((isKingAt_iff b c hqv).2 ⟨k, hq, hk, hc⟩)

end ChessBoard

/-- A move of the single-step loop goes to `pos` plus one of the offsets. -/
theorem stepMoves_to {self : Piece} {pos : Position} {board : ChessBoard}
    {offsets : List (Int × Int)} {m : Move} (h : m ∈ stepMoves self pos board offsets) :
    ∃ d ∈ offsets, m = Move.mk pos ⟨pos.row + d.1, pos.col + d.2⟩ QUEEN ∧
      (Position.mk (pos.row + d.1) (pos.col + d.2)).isValid = true ∧
      (board.getPiece ⟨pos.row + d.1, pos.col + d.2⟩ = none ∨
        ∃ t, board.getPiece ⟨pos.row + d.1, pos.col + d.2⟩ = some t ∧ t.color ≠ self.color) := by
  unfold stepMoves at h
  simp only [List.mem_flatMap] at h
  obtain ⟨d, hd, hm⟩ := h
  refine ⟨d, hd, ?_⟩
  split at hm
  · rename_i hv
    split at hm
    · rename_i hnone
      simp only [List.mem_singleton] at hm
      exact ⟨hm, hv, Or.inl hnone⟩
    · rename_i t ht
      split at hm
      · rename_i hc
        simp only [List.mem_singleton] at hm
        exact ⟨hm, hv, Or.inr ⟨t, ht, hc⟩⟩
      · simp at hm
  · simp at hm

theorem queenDirections_col {d : Int × Int} (h : d ∈ queenDirections) :
    d.2 = 0 ∨ d.2 = 1 ∨ d.2 = -1 := by
  unfold queenDirections at h
  simp only [List.mem_cons, List.mem_singleton, List.not_mem_nil, or_false] at h
  rcases h with h | h | h | h | h | h | h | h <;> subst h <;> simp

/-- The moves of `King::getPossibleMoves`: a single step, or, for a king that
has not moved, two files to the right when `canCastle(color, true)` and two
files to the left when `canCastle(color, false)`. -/
theorem king_moves_cases {self : Piece} {pos : Position} {board : ChessBoard} {m : Move}
    (h : m ∈ King.getPossibleMoves self pos board) :
    m ∈ stepMoves self pos board queenDirections ∨
    (self.hasMoved = false ∧
      ((board.canCastle self.color true = true ∧
          m = Move.mk pos ⟨pos.row, pos.col + 2⟩ QUEEN) ∨
       (board.canCastle self.color false = true ∧
          m = Move.mk pos ⟨pos.row, pos.col - 2⟩ QUEEN))) := by
  unfold King.getPossibleMoves at h
  simp only [List.mem_append] at h
  rcases h with h | h
  · exact Or.inl h
  · right
    split at h
    · rename_i hm
      refine ⟨by simpa using hm, ?_⟩
      simp only [List.mem_append] at h
      rcases h with h | h
      · split at h
        · rename_i hc
          simp only [List.mem_singleton] at h
          exact Or.inl ⟨hc, h⟩
        · simp at h
      · split at h
        · rename_i hc
          simp only [List.mem_singleton] at h
          exact Or.inr ⟨hc, h⟩
        · simp at h
    · simp at h
/-! ## Boards that differ in the kind of one piece -/

theorem addDirectionalLoop_congr {b1 b2 : ChessBoard} (h : b1.sameColours b2)
    (piece : Piece) (pos : Position) (rowDir colDir : Int) :
    ∀ (n : Nat) (step : Int),
      addDirectionalLoop piece pos b1 rowDir colDir n step =
        addDirectionalLoop piece pos b2 rowDir colDir n step
  | 0, _ => rfl
  | n + 1, step => by
    unfold addDirectionalLoop
    dsimp only
    have hp := h ⟨pos.row + step * rowDir, pos.col + step * colDir⟩
    split
    · rfl
    · cases h1 : b1.getPiece ⟨pos.row + step * rowDir, pos.col + step * colDir⟩ with
      | none =>
        cases h2 : b2.getPiece ⟨pos.row + step * rowDir, pos.col + step * colDir⟩ with
        | none =>
          simp only
          rw [addDirectionalLoop_congr h piece pos rowDir colDir n (step + 1)]
        | some t2 => rw [h1, h2] at hp; simp at hp
      | some t1 =>
        cases h2 : b2.getPiece ⟨pos.row + step * rowDir, pos.col + step * colDir⟩ with
        | none => rw [h1, h2] at hp; simp at hp
        | some t2 =>
          rw [h1, h2] at hp
          simp only [Option.map_some', Option.some.injEq] at hp
          simp only [hp]

theorem stepMoves_congr {b1 b2 : ChessBoard} (h : b1.sameColours b2)
    (self : Piece) (pos : Position) (offsets : List (Int × Int)) :
    stepMoves self pos b1 offsets = stepMoves self pos b2 offsets := by
  unfold stepMoves
  congr 1
  funext d
  have hp := h ⟨pos.row + d.1, pos.col + d.2⟩
  dsimp only
  split
  · cases h1 : b1.getPiece ⟨pos.row + d.1, pos.col + d.2⟩ with
    | none =>
      cases h2 : b2.getPiece ⟨pos.row + d.1, pos.col + d.2⟩ with
      | none => rfl
      | some t2 => rw [h1, h2] at hp; simp at hp
    | some t1 =>
      cases h2 : b2.getPiece ⟨pos.row + d.1, pos.col + d.2⟩ with
      | none => rw [h1, h2] at hp; simp at hp
      | some t2 =>
        rw [h1, h2] at hp
        simp only [Option.map_some', Option.some.injEq] at hp
        simp only [hp]
  · rfl

namespace ChessBoard

theorem attackerMoves_congr {b1 b2 : ChessBoard} (h : b1.sameColours b2)
    (piece : Piece) (piecePos : Position) :
    b1.attackerMoves piece piecePos = b2.attackerMoves piece piecePos := by
  unfold attackerMoves Rook.getPossibleMoves Bishop.getPossibleMoves Queen.getPossibleMoves
    Knight.getPossibleMoves addDirectionalMoves
  cases piece.type <;> simp only [addDirectionalLoop_congr h, stepMoves_congr h]

theorem sameColours_of_differ {b1 b2 : ChessBoard} {t : Position} {c : Color}
    (h : differOnOwnPiece b1 b2 t c) : b1.sameColours b2 := by
  intro p
  by_cases hp : p = t
  · subst hp
    obtain ⟨_, p1, p2, h1, h2, c1, c2, _⟩ := h
    rw [h1, h2]
    simp [c1, c2]
  · rw [h.1 p hp]

theorem enemyOf_ne (c : Color) : enemyOf c ≠ c := by
  cases c <;> simp [enemyOf]

theorem isKingAt_congr {b1 b2 : ChessBoard} {t : Position} {c : Color}
    (h : differOnOwnPiece b1 b2 t c) (c' : Color) {q : Position} (hq : q.isValid = true) :
    b1.isKingAt c' q = b2.isKingAt c' q := by
  unfold isKingAt
  rw [← getPiece_of_valid b1 hq, ← getPiece_of_valid b2 hq]
  by_cases hp : q = t
  · subst hp
    obtain ⟨_, p1, p2, h1, h2, _, _, k1, k2⟩ := h
    rw [h1, h2]
    simp [k1, k2]
  · rw [h.1 q hp]

theorem find_congr {α : Type} {p q : α → Bool} :
    ∀ {l : List α}, (∀ x ∈ l, p x = q x) → l.find? p = l.find? q
  | [], _ => rfl
  | x :: xs, h => by
    have hx := h x (List.mem_cons_self _ _)
    have ih := find_congr (l := xs) (fun y hy => h y (List.mem_cons_of_mem _ hy))
    simp only [List.find?, hx, ih]

theorem any_congr' {α : Type} {p q : α → Bool} :
    ∀ {l : List α}, (∀ x ∈ l, p x = q x) → l.any p = l.any q
  | [], _ => rfl
  | x :: xs, h => by
    have hx := h x (List.mem_cons_self _ _)
    have ih := any_congr' (l := xs) (fun y hy => h y (List.mem_cons_of_mem _ hy))
    simp only [List.any, hx, ih]

theorem getKingPosition_congr {b1 b2 : ChessBoard} {t : Position} {c : Color}
    (h : differOnOwnPiece b1 b2 t c) (c' : Color) :
    b1.getKingPosition c' = b2.getKingPosition c' := by
  unfold getKingPosition
  rw [find_congr (fun x hx => isKingAt_congr h c' ((mem_allSquares x).1 hx))]

theorem attacksFrom_congr {b1 b2 : ChessBoard} {t : Position} {c : Color}
    (h : differOnOwnPiece b1 b2 t c) (pos : Position) (cc : Bool) {q : Position}
    (hq : q.isValid = true) :
    b1.attacksFrom pos (enemyOf c) cc q = b2.attacksFrom pos (enemyOf c) cc q := by
  unfold attacksFrom
  rw [← getPiece_of_valid b1 hq, ← getPiece_of_valid b2 hq]
  by_cases hp : q = t
  · subst hp
    obtain ⟨_, p1, p2, h1, h2, c1, c2, _, _⟩ := h
    rw [h1, h2]
    have e1 : ¬ p1.color = enemyOf c := by rw [c1]; exact (enemyOf_ne c).symm
    have e2 : ¬ p2.color = enemyOf c := by rw [c2]; exact (enemyOf_ne c).symm
    simp only [e1, e2, if_false]
  · rw [h.1 q hp]
    cases b2.getPiece q with
    | none => rfl
    | some piece =>
      simp only [attackerMoves_congr (sameColours_of_differ h)]

/-- The check status of colour `c` does not depend on the kind of a piece of
colour `c` that is not a king. -/
theorem isInCheck_congr {b1 b2 : ChessBoard} {t : Position} {c : Color}
    (h : differOnOwnPiece b1 b2 t c) : b1.isInCheck c = b2.isInCheck c := by
  unfold isInCheck isSquareAttacked
  rw [getKingPosition_congr h c]
  dsimp only
  rw [any_congr' (fun x hx => attacksFrom_congr h (b2.getKingPosition c) false
    ((mem_allSquares x).1 hx))]

end ChessBoard
namespace ChessBoard

theorem relocate_same (b : ChessBoard) (move : Move) (ht : move.to_.isValid = true)
    (h : move.from_ = move.to_) : b.relocate move = Except.error Fault.nullDeref := by
  have ht' := (isValid_iff _).1 ht
  have htr : 0 ≤ move.to_.row ∧ move.to_.row < 8 := ⟨ht'.1, ht'.2.1⟩
  have htc : 0 ≤ move.to_.col ∧ move.to_.col < 8 := ⟨ht'.2.2.1, ht'.2.2.2⟩
  unfold relocate
  rw [h]
  dsimp only
  apply markMoved_none
  rw [cell_setCell_raw _ _ htr htc htr htc, if_pos ⟨rfl, rfl⟩,
    cell_setCell_raw _ _ htr htc htr htc, if_pos ⟨rfl, rfl⟩]

/-- After a relocation that returns, the destination holds the moved piece. -/
theorem relocate_dest {b b1 : ChessBoard} {move : Move} {piece : Piece}
    (hf : move.from_.isValid = true) (ht : move.to_.isValid = true)
    (hp : b.getPiece move.from_ = some piece) (h : b.relocate move = Except.ok b1) :
    b1.getPiece move.to_ = some { piece with hasMoved := true } := by
  by_cases hne : move.from_ = move.to_
  · rw [relocate_same b move ht hne] at h
    cases h
  · obtain ⟨b', hb', hcells⟩ := relocate_ok b move piece hf ht hne hp
    rw [hb'] at h
    cases h
    rw [hcells]
    simp

theorem removeEnPassantVictim_dest {b b2 : ChessBoard} {move : Move} {piece : Piece}
    (h : b.removeEnPassantVictim piece move = Except.ok b2) :
    b2.getPiece move.to_ = b.getPiece move.to_ := by
  unfold removeEnPassantVictim at h
  dsimp only at h
  generalize hrow : (if piece.color = WHITE then move.to_.row - 1 else move.to_.row + 1) = row at h
  split at h
  · rename_i hr
    simp only [Bool.and_eq_true, decide_eq_true_eq, ge_iff_le] at hr
    simp only [Except.ok.injEq] at h
    subst h
    by_cases hv : move.to_.isValid = true
    · have hv' := (isValid_iff _).1 hv
      rw [getPiece_setCell_raw _ _ hr ⟨hv'.2.2.1, hv'.2.2.2⟩]
      have : move.to_ ≠ ⟨row, move.to_.col⟩ := by
        intro he
        have : move.to_.row = row := by rw [he]
        split at hrow <;> omega
      simp [this]
    · simp [getPiece, hv]
  · exact absurd h (by simp)

theorem getPiece_setEnPassant (b : ChessBoard) (pos q : Position) :
    (b.setEnPassant pos).getPiece q = b.getPiece q := rfl

theorem promotedType_ne_king (k : PieceType) : promotedType k ≠ KING := by
  cases k <;> simp [promotedType]

/-- The promotion stage on a destination holding `p`. -/
theorem promote_ok (b : ChessBoard) (move : Move) (p : Piece)
    (ht : move.to_.isValid = true) (hp : b.getPiece move.to_ = some p) :
    ∃ b', b.promote move = Except.ok b' ∧
      ∀ q, b'.getPiece q =
        if q = move.to_ then some ⟨p.color, promotedType move.promotionPiece, true⟩
        else b.getPiece q := by
  have ht' := (isValid_iff _).1 ht
  have htr : 0 ≤ move.to_.row ∧ move.to_.row < 8 := ⟨ht'.1, ht'.2.1⟩
  have htc : 0 ≤ move.to_.col ∧ move.to_.col < 8 := ⟨ht'.2.2.1, ht'.2.2.2⟩
  rw [getPiece_of_valid _ ht] at hp
  unfold promote
  rw [hp]
  dsimp only
  rw [markMoved_eq _ (p := Piece.new p.color (promotedType move.promotionPiece))]
  · refine ⟨_, rfl, ?_⟩
    intro q
    rw [getPiece_setCell_raw _ _ htr htc, getPiece_setCell_raw _ _ htr htc]
    by_cases hq : q = move.to_
    · subst hq
      simp [ht, Piece.new]
    · have hq' : q ≠ Position.mk move.to_.row move.to_.col := hq
      simp only [hq, hq', if_false]
  · rw [cell_setCell_raw _ _ htr htc htr htc]
    simp

/-- The trial of a move for the side that owns the moving piece gives the same
answer whatever promotion kind the move carries. -/
theorem wouldBeInCheck_promotion_kind (b : ChessBoard) (f t : Position) (k1 k2 : PieceType)
    (c : Color) (piece : Piece) (hp : b.getPiece f = some piece) (hc : piece.color = c) :
    b.wouldBeInCheck (Move.mk f t k1) c = b.wouldBeInCheck (Move.mk f t k2) c := by
  rw [wouldBeInCheck_eq, wouldBeInCheck_eq]
  have hf := getPiece_eq_some_valid hp
  by_cases ht : t.isValid = true
  swap
  · rw [movePiece_rejected b (Move.mk f t k1) (Or.inr (Or.inl (by simpa using ht))),
      movePiece_rejected b (Move.mk f t k2) (Or.inr (Or.inl (by simpa using ht)))]
  rw [movePiece_stages b (Move.mk f t k1) piece hf ht hp,
    movePiece_stages b (Move.mk f t k2) piece hf ht hp]
  have e1 : b.clearEnPassant.relocate (Move.mk f t k1) = b.clearEnPassant.relocate (Move.mk f t k2) :=
    rfl
  rw [e1]
  cases h1 : b.clearEnPassant.relocate (Move.mk f t k2) with
  | error e => rfl
  | ok b1 =>
    have hd1 : b1.getPiece t = some { piece with hasMoved := true } :=
      @relocate_dest _ _ (Move.mk f t k2) _ hf ht
        (by simpa [getPiece, cell, clearEnPassant] using hp) h1
    simp only [Except.bind]
    have e2 : (if b.isEnPassantCaptureOf piece (Move.mk f t k1) = true then
          b1.removeEnPassantVictim piece (Move.mk f t k1) else Except.ok b1) =
        (if b.isEnPassantCaptureOf piece (Move.mk f t k2) = true then
          b1.removeEnPassantVictim piece (Move.mk f t k2) else Except.ok b1) := rfl
    rw [e2]
    cases h2 : (if b.isEnPassantCaptureOf piece (Move.mk f t k2) = true then
          b1.removeEnPassantVictim piece (Move.mk f t k2) else Except.ok b1) with
    | error e => rfl
    | ok b2 =>
      have hd2 : b2.getPiece t = some { piece with hasMoved := true } := by
        split at h2
        · rw [← hd1]
          exact @removeEnPassantVictim_dest _ _ (Move.mk f t k2) _ h2
        · cases h2
          exact hd1
      simp only
      by_cases hpromo : isPromotionOf piece (Move.mk f t k2) = true
      swap
      · have hp1 : isPromotionOf piece (Move.mk f t k1) = false := by
          simpa [isPromotionOf] using hpromo
        have hp2 : isPromotionOf piece (Move.mk f t k2) = false := by simpa using hpromo
        rw [hp1, hp2]
        rfl
      · have hp1 : isPromotionOf piece (Move.mk f t k1) = true := hpromo
        have hpawn : piece.type = PAWN := by
          unfold isPromotionOf at hpromo
          simp only [Bool.and_eq_true, decide_eq_true_eq] at hpromo
          exact hpromo.1
        have hcast1 : isCastlingOf piece (Move.mk f t k1) = false := by
          simp [isCastlingOf, hpawn]
        have hcast2 : isCastlingOf piece (Move.mk f t k2) = false := by
          simp [isCastlingOf, hpawn]
        rw [hcast1, hcast2, hp1, hpromo]
        simp only [Bool.false_eq_true, if_false, if_true]
        obtain ⟨x1, hx1, hc1⟩ := promote_ok b2 (Move.mk f t k1) _ ht hd2
        obtain ⟨x2, hx2, hc2⟩ := promote_ok b2 (Move.mk f t k2) _ ht hd2
        rw [hx1, hx2]
        simp only [Except.ok.injEq]
        apply isInCheck_congr (t := t)
        have hdbl : setsEnPassantOf piece (Move.mk f t k1) = setsEnPassantOf piece (Move.mk f t k2) :=
          rfl
        rw [hdbl]
        refine ⟨?_, ⟨piece.color, promotedType k1, true⟩, ⟨piece.color, promotedType k2, true⟩,
          ?_, ?_, hc, hc, promotedType_ne_king k1, promotedType_ne_king k2⟩
        · intro q hq
          split
          · rw [getPiece_setEnPassant, getPiece_setEnPassant, hc1, hc2]
            simp [hq]
          · rw [hc1, hc2]
            simp [hq]
        · split
          · rw [getPiece_setEnPassant, hc1]; simp
          · rw [hc1]; simp
        · split
          · rw [getPiece_setEnPassant, hc2]; simp
          · rw [hc2]; simp

end ChessBoard
/-! ## The returned moves between two given squares -/

theorem filter_flatMap' {α β : Type} (p : β → Bool) (g : α → List β) :
    ∀ l : List α, (l.flatMap g).filter p = l.flatMap (fun x => (g x).filter p)
  | [] => rfl
  | x :: xs => by
    simp only [List.flatMap_cons, List.filter_append, filter_flatMap' p g xs]

theorem flatMap_eq_of_unique {α β : Type} (g : α → List β) (a : α) :
    ∀ l : List α, l.Nodup → a ∈ l → (∀ x ∈ l, x ≠ a → g x = []) → l.flatMap g = g a
  | [], _, ha, _ => by cases ha
  | x :: xs, hn, ha, h => by
    rw [List.nodup_cons] at hn
    rw [List.flatMap_cons]
    by_cases hx : x = a
    · subst hx
      have : xs.flatMap g = [] := by
        rw [List.flatMap_eq_nil_iff]
        intro y hy
        exact h y (List.mem_cons_of_mem _ hy) (fun e => hn.1 (e ▸ hy))
      rw [this, List.append_nil]
    · rw [h x (List.mem_cons_self _ _) hx, List.nil_append]
      have ha' : a ∈ xs := by
        rcases List.mem_cons.1 ha with e | e
        · exact absurd e.symm hx
        · exact e
      exact flatMap_eq_of_unique g a xs hn.2 ha'
        (fun y hy hne => h y (List.mem_cons_of_mem _ hy) hne)

theorem filter_eq_nil_of_to_ne {f t : Position} {X : List Move}
    (h : ∀ m ∈ X, m.to_ ≠ t) :
    X.filter (fun m => decide (m.from_ = f ∧ m.to_ = t)) = [] := by
  rw [List.filter_eq_nil_iff]
  intro m hm
  simp only [decide_eq_true_eq, not_and]
  intro _
  exact h m hm

theorem filter_promotionMoves (f t : Position) :
    (promotionMoves f t).filter (fun m => decide (m.from_ = f ∧ m.to_ = t)) =
      promotionMoves f t := by
  simp [promotionMoves, List.filter]

theorem forwardMoves_filter (f t : Position) (board : ChessBoard)
    (direction startRow promotionRow : Int) (hrow : t.row = promotionRow)
    (hstart : f.row = startRow → f.row + 2 * direction ≠ promotionRow) :
    (Pawn.forwardMoves f board direction startRow promotionRow).filter
        (fun m => decide (m.from_ = f ∧ m.to_ = t)) = [] ∨
    (t.col = f.col ∧
      (Pawn.forwardMoves f board direction startRow promotionRow).filter
        (fun m => decide (m.from_ = f ∧ m.to_ = t)) = promotionMoves f t) := by
  unfold Pawn.forwardMoves
  dsimp only
  split
  swap
  · left; rfl
  rw [List.filter_append]
  have htwo : (if f.row = startRow then
        if ((Position.mk (f.row + 2 * direction) f.col).isValid &&
            board.isEmpty ⟨f.row + 2 * direction, f.col⟩) = true
        then [Move.mk f ⟨f.row + 2 * direction, f.col⟩ QUEEN] else []
      else []).filter (fun m => decide (m.from_ = f ∧ m.to_ = t)) = [] := by
    apply filter_eq_nil_of_to_ne
    intro m hm
    split at hm
    · rename_i hs
      split at hm
      · simp only [List.mem_singleton] at hm
        subst hm
        intro he
        apply hstart hs
        rw [← hrow, ← he]
      · simp at hm
    · simp at hm
  rw [htwo, List.append_nil]
  by_cases hone : t = ⟨f.row + direction, f.col⟩
  · right
    subst hone
    have hrow' : f.row + direction = promotionRow := hrow
    rw [if_pos hrow']
    exact ⟨rfl, filter_promotionMoves _ _⟩
  · left
    apply filter_eq_nil_of_to_ne
    intro m hm
    split at hm
    · rw [(mem_promotionMoves hm).2]
      exact fun e => hone e.symm
    · simp only [List.mem_singleton] at hm
      subst hm
      exact fun e => hone e.symm

theorem captureMoves_filter (self : Piece) (f t : Position) (board : ChessBoard)
    (direction promotionRow colOffset : Int) (hrow : t.row = promotionRow)
    (hep : board.isEnPassantTarget t = true →
      ∃ q, board.getPiece t = some q ∧ q.color ≠ self.color) :
    (Pawn.captureMoves self f board direction promotionRow colOffset).filter
        (fun m => decide (m.from_ = f ∧ m.to_ = t)) = [] ∨
    (t.col = f.col + colOffset ∧
      (Pawn.captureMoves self f board direction promotionRow colOffset).filter
        (fun m => decide (m.from_ = f ∧ m.to_ = t)) = promotionMoves f t) := by
  by_cases hcap : t = ⟨f.row + direction, f.col + colOffset⟩
  · subst hcap
    unfold Pawn.captureMoves
    dsimp only
    split
    swap
    · left; rfl
    cases hg : board.getPiece ⟨f.row + direction, f.col + colOffset⟩ with
    | none =>
      left
      dsimp only
      split
      · rename_i he
        obtain ⟨q, hq, _⟩ := hep he
        rw [hg] at hq
        cases hq
      · rfl
    | some q =>
      dsimp only
      by_cases hcol : q.color ≠ self.color
      · right
        rw [if_pos hcol]
        exact ⟨rfl, filter_promotionMoves _ _⟩
      · left
        rw [if_neg hcol]
        split
        · rename_i he
          obtain ⟨q', hq', hne⟩ := hep he
          rw [hg] at hq'
          cases hq'
          exact absurd hne hcol
        · rfl
  · left
    apply filter_eq_nil_of_to_ne
    intro m hm
    rw [(Pawn.mem_captureMoves hm).2.1]
    exact fun e => hcap e.symm

/-- Among the candidate moves of a pawn, those onto a given square of its
farthest rank are none or the four promotion moves, unless that square is an
en-passant target without an enemy piece. -/
theorem pawn_moves_filter (self : Piece) (f t : Position) (board : ChessBoard)
    (hrow : t.row = if self.color = WHITE then 7 else 0)
    (hep : board.isEnPassantTarget t = true →
      ∃ q, board.getPiece t = some q ∧ q.color ≠ self.color) :
    (Pawn.getPossibleMoves self f board).filter (fun m => decide (m.from_ = f ∧ m.to_ = t)) = [] ∨
    (Pawn.getPossibleMoves self f board).filter (fun m => decide (m.from_ = f ∧ m.to_ = t))
      = promotionMoves f t := by
  unfold Pawn.getPossibleMoves
  dsimp only
  rw [List.filter_append, List.filter_append]
  have hA := forwardMoves_filter f t board (if self.color = WHITE then 1 else -1)
    (if self.color = WHITE then 1 else 6) (if self.color = WHITE then 7 else 0) hrow
    (by split <;> omega)
  have hB := captureMoves_filter self f t board (if self.color = WHITE then 1 else -1)
    (if self.color = WHITE then 7 else 0) (-1) hrow hep
  have hC := captureMoves_filter self f t board (if self.color = WHITE then 1 else -1)
    (if self.color = WHITE then 7 else 0) 1 hrow hep
  rcases hA with hA | ⟨hAc, hA⟩
  · rcases hB with hB | ⟨hBc, hB⟩
    · rcases hC with hC | ⟨_, hC⟩
      · left; rw [hA, hB, hC]; rfl
      · right; rw [hA, hB, hC]; rfl
    · rcases hC with hC | ⟨hCc, _⟩
      · right; rw [hA, hB, hC]; rfl
      · omega
  · rcases hB with hB | ⟨hBc, _⟩
    · rcases hC with hC | ⟨hCc, _⟩
      · right; rw [hA, hB, hC]; rfl
      · omega
    · omega

namespace ChessBoard

/-- The candidate moves from a square holding a piece of the colour are that
piece's moves. -/
theorem candidateMoves_filter (b : ChessBoard) (c : Color) (f t : Position) (piece : Piece)
    (hp : b.getPiece f = some piece) (hc : piece.color = c) :
    (b.candidateMoves c).filter (fun m => decide (m.from_ = f ∧ m.to_ = t)) =
      (piece.getPossibleMoves f b).filter (fun m => decide (m.from_ = f ∧ m.to_ = t)) := by
  have hf := getPiece_eq_some_valid hp
  unfold candidateMoves
  rw [filter_flatMap', flatMap_eq_of_unique _ f allSquares allSquares_nodup
    ((mem_allSquares f).2 hf)]
  · rw [← getPiece_of_valid b hf, hp]
    simp only [hc, if_true]
  · intro x hx hne
    rw [List.filter_eq_nil_iff]
    intro m hm
    simp only [decide_eq_true_eq, not_and]
    intro hfrom
    exfalso
    apply hne
    rw [← hfrom]
    split at hm
    · split at hm
      · exact (piece_moves_from hm).symm
      · simp at hm
    · simp at hm

end ChessBoard

namespace ChessBoard

theorem filter_promotions_legal (b : ChessBoard) (c : Color) (f t : Position) (piece : Piece)
    (hp : b.getPiece f = some piece) (hc : piece.color = c) :
    (promotionMoves f t).filter (fun m => decide (b.wouldBeInCheck m c = Except.ok false)) = [] ∨
    (promotionMoves f t).filter (fun m => decide (b.wouldBeInCheck m c = Except.ok false)) =
      promotionMoves f t := by
  have hR := wouldBeInCheck_promotion_kind b f t ROOK QUEEN c piece hp hc
  have hB := wouldBeInCheck_promotion_kind b f t BISHOP QUEEN c piece hp hc
  have hN := wouldBeInCheck_promotion_kind b f t KNIGHT QUEEN c piece hp hc
  unfold promotionMoves
  by_cases h : b.wouldBeInCheck (Move.mk f t QUEEN) c = Except.ok false
  · right
    simp [List.filter, hR, hB, hN, h]
  · left
    simp [List.filter, hR, hB, hN, h]

end ChessBoard
/-! ## Candidate moves can be applied -/

theorem addDirectionalLoop_to {piece : Piece} {pos : Position} {board : ChessBoard}
    {rowDir colDir : Int} {m : Move} :
    ∀ (n : Nat) (step : Int), m ∈ addDirectionalLoop piece pos board rowDir colDir n step →
      ∃ k : Int, step ≤ k ∧ m.to_ = ⟨pos.row + k * rowDir, pos.col + k * colDir⟩
  | 0, _, h => by simp [addDirectionalLoop] at h
  | n + 1, step, h => by
    unfold addDirectionalLoop at h
    dsimp only at h
    split at h
    · simp at h
    · split at h
      · simp only [List.mem_cons] at h
        rcases h with h | h
        · subst h; exact ⟨step, le_refl _, rfl⟩
        · obtain ⟨k, hk, hto⟩ := addDirectionalLoop_to n (step + 1) h
          exact ⟨k, by omega, hto⟩
      · split at h
        · simp only [List.mem_singleton] at h
          subst h; exact ⟨step, le_refl _, rfl⟩
        · simp at h

theorem slide_to_ne {piece : Piece} {pos : Position} {board : ChessBoard}
    {dirs : List (Int × Int)} (hdirs : ∀ d ∈ dirs, d ∈ queenDirections) {m : Move}
    (h : m ∈ dirs.flatMap (fun dir => addDirectionalMoves piece pos board dir.1 dir.2 8)) :
    m.to_ ≠ pos := by
  simp only [List.mem_flatMap] at h
  obtain ⟨d, hd, hm⟩ := h
  obtain ⟨k, hk, hto⟩ := addDirectionalLoop_to _ _ hm
  have hq := hdirs d hd
  unfold queenDirections at hq
  simp only [List.mem_cons, List.mem_singleton, List.not_mem_nil, or_false] at hq
  intro he
  rw [hto] at he
  cases pos with
  | mk r c =>
    simp only [Position.mk.injEq] at he
    rcases hq with h | h | h | h | h | h | h | h <;> rw [h] at he <;> simp at he <;> omega

theorem stepMoves_to_ne {self : Piece} {pos : Position} {board : ChessBoard}
    {offsets : List (Int × Int)} (hoff : ∀ d ∈ offsets, d ≠ (0, 0)) {m : Move}
    (h : m ∈ stepMoves self pos board offsets) : m.to_ ≠ pos := by
  obtain ⟨d, hd, hmeq, _, _⟩ := stepMoves_to h
  intro he
  rw [hmeq] at he
  apply hoff d hd
  cases pos with
  | mk r c =>
    simp only [Position.mk.injEq] at he
    obtain ⟨d1, d2⟩ := d
    simp only [Prod.mk.injEq]
    simp only at he
    omega

theorem Pawn.forwardMoves_row {pos : Position} {board : ChessBoard}
    {direction startRow promotionRow : Int} {m : Move}
    (h : m ∈ Pawn.forwardMoves pos board direction startRow promotionRow) :
    m.to_.row = pos.row + direction ∨ m.to_.row = pos.row + 2 * direction := by
  unfold Pawn.forwardMoves at h
  dsimp only at h
  split at h
  · simp only [List.mem_append] at h
    rcases h with h | h
    · split at h
      · left; rw [(mem_promotionMoves h).2]
      · simp only [List.mem_singleton] at h
        subst h; left; rfl
    · split at h
      · split at h
        · simp only [List.mem_singleton] at h
          subst h; right; rfl
        · simp at h
      · simp at h
  · simp at h

/-- A pawn move advances one or two rows in the pawn's direction. -/
theorem Pawn.moves_row {self : Piece} {pos : Position} {board : ChessBoard} {m : Move}
    (h : m ∈ Pawn.getPossibleMoves self pos board) :
    m.to_.row = pos.row + (if self.color = WHITE then 1 else -1) ∨
    m.to_.row = pos.row + 2 * (if self.color = WHITE then 1 else -1) := by
  unfold Pawn.getPossibleMoves at h
  dsimp only at h
  simp only [List.mem_append] at h
  rcases h with (h | h) | h
  · exact Pawn.forwardMoves_row h
  · left; rw [(Pawn.mem_captureMoves h).2.1]
  · left; rw [(Pawn.mem_captureMoves h).2.1]

namespace ChessBoard

theorem removeEnPassantVictim_ok (b : ChessBoard) (piece : Piece) (move : Move)
    (h : 0 ≤ (if piece.color = WHITE then move.to_.row - 1 else move.to_.row + 1) ∧
      (if piece.color = WHITE then move.to_.row - 1 else move.to_.row + 1) < 8) :
    ∃ b', b.removeEnPassantVictim piece move = Except.ok b' := by
  unfold removeEnPassantVictim
  dsimp only
  rw [if_pos]
  · exact ⟨_, rfl⟩
  · simp only [Bool.and_eq_true, decide_eq_true_eq, ge_iff_le]
    exact h

/-- The rook transfer returns when the corner it reads is occupied. -/
theorem castleRook_ok (b : ChessBoard) (move : Move) (rook : Piece)
    (hrow : 0 ≤ move.from_.row ∧ move.from_.row < 8)
    (h : b.cell move.from_.row (if move.to_.col > move.from_.col then 7 else 0) = some rook) :
    ∃ b', b.castleRook move = Except.ok b' := by
  unfold castleRook
  dsimp only
  rw [h]
  have hfc : 0 ≤ (if move.to_.col > move.from_.col then (7 : Int) else 0) ∧
      (if move.to_.col > move.from_.col then (7 : Int) else 0) < 8 := by split <;> omega
  have htc : 0 ≤ (if move.to_.col > move.from_.col then (5 : Int) else 3) ∧
      (if move.to_.col > move.from_.col then (5 : Int) else 3) < 8 := by split <;> omega
  rw [markMoved_eq _ (p := rook)]
  · exact ⟨_, rfl⟩
  · rw [cell_setCell_raw _ _ hrow htc hrow htc]
    simp

theorem removeEnPassantVictim_fault (b : ChessBoard) (piece : Piece) (move : Move)
    (h : ¬ (0 ≤ (if piece.color = WHITE then move.to_.row - 1 else move.to_.row + 1) ∧
      (if piece.color = WHITE then move.to_.row - 1 else move.to_.row + 1) < 8)) :
    b.removeEnPassantVictim piece move = Except.error Fault.outOfRange := by
  unfold removeEnPassantVictim
  dsimp only
  rw [if_neg]
  simp only [Bool.and_eq_true, decide_eq_true_eq, ge_iff_le]
  exact h

theorem castleRook_fault (b : ChessBoard) (move : Move)
    (hrow : 0 ≤ move.from_.row ∧ move.from_.row < 8)
    (h : b.cell move.from_.row (if move.to_.col > move.from_.col then 7 else 0) = none) :
    b.castleRook move = Except.error Fault.nullDeref := by
  unfold castleRook
  dsimp only
  rw [h]
  have htc : 0 ≤ (if move.to_.col > move.from_.col then (5 : Int) else 3) ∧
      (if move.to_.col > move.from_.col then (5 : Int) else 3) < 8 := by split <;> omega
  apply markMoved_none
  rw [cell_setCell_raw _ _ hrow htc hrow htc]
  simp

/-- Where `movePiece` has defined behaviour and returns `true`: the squares are
distinct, the row of an en-passant victim lies on the grid, and a two-file king
move finds a piece on the corner it takes the rook from (the king itself when
it has just landed there). -/
theorem movePiece_returns_iff (b : ChessBoard) (move : Move) (piece : Piece)
    (hf : move.from_.isValid = true) (ht : move.to_.isValid = true)
    (hp : b.getPiece move.from_ = some piece) :
    (∃ b', b.movePiece move = Except.ok (true, b')) ↔
      move.from_ ≠ move.to_ ∧
      (b.isEnPassantCaptureOf piece move = true →
        0 ≤ (if piece.color = WHITE then move.to_.row - 1 else move.to_.row + 1) ∧
        (if piece.color = WHITE then move.to_.row - 1 else move.to_.row + 1) < 8) ∧
      (isCastlingOf piece move = true →
        Position.mk move.from_.row (if move.to_.col > move.from_.col then 7 else 0) = move.to_ ∨
        ∃ rook, b.getPiece ⟨move.from_.row, if move.to_.col > move.from_.col then 7 else 0⟩
          = some rook) := by
  have hf' := (isValid_iff _).1 hf
  have ht' := (isValid_iff _).1 ht
  have hfr : 0 ≤ move.from_.row ∧ move.from_.row < 8 := ⟨hf'.1, hf'.2.1⟩
  have hcv : (Position.mk move.from_.row (if move.to_.col > move.from_.col then 7 else 0)).isValid
      = true := by
    rw [isValid_iff]
    dsimp only
    split <;> omega
  by_cases hne : move.from_ = move.to_
  · -- the relocation dereferences the emptied cell
    rw [movePiece_stages b move piece hf ht hp, relocate_same _ move ht hne]
    simp [Except.bind, hne]
  obtain ⟨b1, hb1, hcells⟩ := relocate_ok b.clearEnPassant move piece hf ht hne
    (by simpa [getPiece, cell, clearEnPassant] using hp)
  have hcells' : ∀ q, b1.getPiece q =
      if q = move.to_ then some { piece with hasMoved := true }
      else if q = move.from_ then none else b.getPiece q := hcells
  rw [movePiece_stages b move piece hf ht hp, hb1]
  simp only [Except.bind, ne_eq, hne, not_false_eq_true, true_and]
  by_cases hpawn : piece.type = PAWN
  · -- a pawn: no rook transfer
    have hcast : isCastlingOf piece move = false := by simp [isCastlingOf, hpawn]
    rw [hcast]
    simp only [Bool.false_eq_true, if_false, false_implies, and_true]
    by_cases hep : b.isEnPassantCaptureOf piece move = true
    · rw [hep]
      simp only [if_true, true_implies]
      by_cases hrange : 0 ≤ (if piece.color = WHITE then move.to_.row - 1 else move.to_.row + 1) ∧
          (if piece.color = WHITE then move.to_.row - 1 else move.to_.row + 1) < 8
      · obtain ⟨b2, hb2⟩ := removeEnPassantVictim_ok b1 piece move hrange
        have hd2 := removeEnPassantVictim_dest hb2
        rw [hb2]
        simp only [hrange, and_self, iff_true]
        by_cases hpromo : isPromotionOf piece move = true
        · have hdest : b2.getPiece move.to_ = some { piece with hasMoved := true } := by
            rw [hd2, hcells']; simp
          obtain ⟨b4, hb4, _⟩ := promote_ok b2 move _ ht hdest
          rw [hpromo, if_pos rfl, hb4]
          exact ⟨_, rfl⟩
        · have hpromo' : isPromotionOf piece move = false := by simpa using hpromo
          rw [hpromo']
          exact ⟨_, rfl⟩
      · rw [removeEnPassantVictim_fault b1 piece move hrange]
        simp [hrange]
    · have hep' : b.isEnPassantCaptureOf piece move = false := by simpa using hep
      rw [hep']
      simp only [Bool.false_eq_true, if_false, false_implies, iff_true]
      by_cases hpromo : isPromotionOf piece move = true
      · have hdest : b1.getPiece move.to_ = some { piece with hasMoved := true } := by
          rw [hcells']; simp
        obtain ⟨b4, hb4, _⟩ := promote_ok b1 move _ ht hdest
        rw [hpromo, if_pos rfl, hb4]
        exact ⟨_, rfl⟩
      · have hpromo' : isPromotionOf piece move = false := by simpa using hpromo
        rw [hpromo']
        exact ⟨_, rfl⟩
  · have hep : b.isEnPassantCaptureOf piece move = false := by
      simp [isEnPassantCaptureOf, hpawn]
    have hpromo : isPromotionOf piece move = false := by simp [isPromotionOf, hpawn]
    rw [hep, hpromo]
    simp only [Bool.false_eq_true, if_false, false_implies, true_and]
    by_cases hcast : isCastlingOf piece move = true
    · rw [hcast]
      simp only [if_true, true_implies]
      have hcastle := hcast
      unfold isCastlingOf at hcastle
      simp only [Bool.and_eq_true, decide_eq_true_eq] at hcastle
      have hcne : (Position.mk move.from_.row (if move.to_.col > move.from_.col then 7 else 0))
          ≠ move.from_ := by
        intro he
        have hcol := congrArg Position.col he
        dsimp only at hcol
        have h2 := hcastle.2
        split at hcol <;> omega
      have hcell : b1.cell move.from_.row (if move.to_.col > move.from_.col then 7 else 0) =
          if Position.mk move.from_.row (if move.to_.col > move.from_.col then 7 else 0) = move.to_
          then some { piece with hasMoved := true }
          else b.getPiece ⟨move.from_.row, if move.to_.col > move.from_.col then 7 else 0⟩ := by
        have := hcells' ⟨move.from_.row, if move.to_.col > move.from_.col then 7 else 0⟩
        rw [getPiece_of_valid _ hcv] at this
        dsimp only at this
        rw [this, if_neg hcne]
      by_cases hto : Position.mk move.from_.row (if move.to_.col > move.from_.col then 7 else 0)
          = move.to_
      · rw [if_pos hto] at hcell
        obtain ⟨b3, hb3⟩ := castleRook_ok b1 move _ hfr hcell
        rw [hb3]
        simp only [hto, true_or, iff_true]
        exact ⟨_, rfl⟩
      · rw [if_neg hto] at hcell
        cases hcorner : b.getPiece
            ⟨move.from_.row, if move.to_.col > move.from_.col then 7 else 0⟩ with
        | none =>
          rw [hcorner] at hcell
          rw [castleRook_fault b1 move hfr hcell]
          simp [hto]
        | some rook =>
          rw [hcorner] at hcell
          obtain ⟨b3, hb3⟩ := castleRook_ok b1 move rook hfr hcell
          rw [hb3]
          simp only [hto, false_or, Option.some.injEq, exists_eq', iff_true]
          exact ⟨_, rfl⟩
    · have hcast' : isCastlingOf piece move = false := by simpa using hcast
      rw [hcast']
      simp only [Bool.false_eq_true, if_false, false_implies, iff_true]
      exact ⟨_, rfl⟩

end ChessBoard
namespace ChessBoard

theorem kingCount_pos {b : ChessBoard} {c : Color} {f : Position} {king : Piece}
    (hp : b.getPiece f = some king) (hk : king.type = KING) (hc : king.color = c) :
    1 ≤ b.kingCount c := by
  have hv := getPiece_eq_some_valid hp
  have : f ∈ allSquares.filter (b.isKingAt c) :=
    List.mem_filter.2 ⟨(mem_allSquares f).2 hv, (isKingAt_iff b c hv).2 ⟨king, hp, hk, hc⟩⟩
  exact List.length_pos_of_mem this

/-- With at most one king of the colour on the grid, `movePiece` returns on
every candidate move of that colour. -/
theorem candidate_move_returns (b : ChessBoard) (c : Color) (hone : b.kingCount c ≤ 1)
    (piece : Piece) (f : Position) (m : Move) (hp : b.getPiece f = some piece)
    (hc : piece.color = c) (hm : m ∈ piece.getPossibleMoves f b) :
    ∃ r b', b.movePiece m = Except.ok (r, b') := by
  have hfrom := piece_moves_from hm
  have hf := getPiece_eq_some_valid hp
  by_cases ht : m.to_.isValid = true
  swap
  · exact ⟨false, b, movePiece_rejected b m (Or.inr (Or.inl (by simpa using ht)))⟩
  suffices h : ∃ b', b.movePiece m = Except.ok (true, b') by
    obtain ⟨b', hb'⟩ := h
    exact ⟨true, b', hb'⟩
  have ht' := (isValid_iff _).1 ht
  have hf' := (isValid_iff _).1 hf
  refine (movePiece_returns_iff b m piece (hfrom ▸ hf) ht (hfrom ▸ hp)).2 ⟨?_, ?_, ?_⟩
  · -- the destination differs from the source
    rw [hfrom]
    intro he
    unfold Piece.getPossibleMoves at hm
    cases hty : piece.type <;> rw [hty] at hm <;> dsimp only at hm
    · have := Pawn.moves_row hm
      rw [← he] at this
      split at this <;> omega
    · exact slide_to_ne (by decide) hm he.symm
    · exact stepMoves_to_ne (by decide) hm he.symm
    · exact slide_to_ne (by decide) hm he.symm
    · exact slide_to_ne (by decide) hm he.symm
    · rcases king_moves_cases hm with h | ⟨_, ⟨_, h⟩ | ⟨_, h⟩⟩
      · exact stepMoves_to_ne (by decide) h he.symm
      · rw [h] at he
        have := congrArg Position.col he
        simp at this
      · rw [h] at he
        have := congrArg Position.col he
        simp only at this
        omega
  · -- the en-passant victim row
    intro hep
    have hpawn : piece.type = PAWN := by
      unfold isEnPassantCaptureOf at hep
      simp only [Bool.and_eq_true, decide_eq_true_eq] at hep
      exact hep.1.1
    unfold Piece.getPossibleMoves at hm
    rw [hpawn] at hm
    dsimp only at hm
    have := Pawn.moves_row hm
    split at this <;> rename_i hcol <;> simp only [hcol, if_true, if_false] <;> omega
  · -- the corner of a two-file king move
    intro hcast
    unfold isCastlingOf at hcast
    simp only [Bool.and_eq_true, decide_eq_true_eq] at hcast
    obtain ⟨hking, htwo⟩ := hcast
    right
    unfold Piece.getPossibleMoves at hm
    rw [hking] at hm
    dsimp only at hm
    have hcount : b.kingCount c = 1 := le_antisymm hone (kingCount_pos hp hking hc)
    obtain ⟨_, _, huniq⟩ := getKingPosition_spec b c hcount
    have hkp : f = b.getKingPosition c := huniq f piece hp hking hc
    rcases king_moves_cases hm with hstep | ⟨_, hcastle⟩
    · obtain ⟨d, hd, hmeq, _, _⟩ := stepMoves_to hstep
      have hcol : m.to_.col - m.from_.col = d.2 := by rw [hmeq]; simp
      rw [hcol] at htwo
      rcases queenDirections_col hd with h | h | h <;> rw [h] at htwo <;> simp at htwo
    · rw [hc] at hcastle
      rcases hcastle with ⟨hcan, hmeq⟩ | ⟨hcan, hmeq⟩
      · obtain ⟨_, _, _, ⟨rook, hrook, _, _⟩, _⟩ := (canCastle_eq_true_iff b c true).1 hcan
        have hgt : m.to_.col > m.from_.col := by rw [hmeq]; simp
        rw [if_pos hgt, hfrom, hkp]
        simp only [if_true] at hrook
        exact ⟨rook, hrook⟩
      · obtain ⟨_, _, _, ⟨rook, hrook, _, _⟩, _⟩ := (canCastle_eq_true_iff b c false).1 hcan
        have hgt : ¬ m.to_.col > m.from_.col := by rw [hmeq]; simp
        rw [if_neg hgt, hfrom, hkp]
        simp only [Bool.false_eq_true, if_false] at hrook
        exact ⟨rook, hrook⟩

theorem keepLegal_returns (b : ChessBoard) (c : Color) :
    ∀ moves : List Move, (∀ m ∈ moves, ∃ v, b.wouldBeInCheck m c = Except.ok v) →
      ∃ L, b.keepLegal c moves = Except.ok L
  | [], _ => ⟨[], rfl⟩
  | move :: rest, h => by
    obtain ⟨v, hv⟩ := h move (List.mem_cons_self _ _)
    obtain ⟨kept, hkept⟩ := keepLegal_returns b c rest
      (fun m hm => h m (List.mem_cons_of_mem _ hm))
    unfold keepLegal
    rw [hv, hkept]
    exact ⟨_, rfl⟩

/-- With at most one king of the colour on the grid, the legal-move
enumeration for that colour returns. -/
theorem getAllLegalMoves_returns (b : ChessBoard) (c : Color) (hone : b.kingCount c ≤ 1) :
    ∃ L, b.getAllLegalMoves c = Except.ok L := by
  unfold getAllLegalMoves
  apply keepLegal_returns
  intro m hm
  obtain ⟨piece, hp, hc, hgen⟩ := mem_candidateMoves.1 hm
  obtain ⟨r, b', hb'⟩ := candidate_move_returns b c hone piece m.from_ m hp hc hgen
  exact ⟨b'.isInCheck c, (wouldBeInCheck_ok_iff b m c _).2 ⟨r, b', hb', rfl⟩⟩

end ChessBoard

namespace ChessBoard

/-- The reason the enumeration is fallible: with a second king of the colour
that has not moved, the castling candidate of the first king's eligibility is
tried on the second king's row, where `movePiece` dereferences the empty
corner. -/
theorem getAllLegalMoves_two_kings_fault :
    twoWhiteKings.getAllLegalMoves WHITE = Except.error Fault.nullDeref := by
  decide!

end ChessBoard

namespace ChessBoard

/-- The enumeration evaluated on the starting position. -/
theorem getAllLegalMoves_initial :
    setupInitialPosition.getAllLegalMoves WHITE = Except.ok openingMoves := by decide!

end ChessBoard
/-! ## Cell-level effect of the en-passant removal and of the rook transfer -/

namespace ChessBoard

theorem removeEnPassantVictim_cells (b : ChessBoard) (piece : Piece) (move : Move)
    (ht : move.to_.isValid = true)
    (h : 0 ≤ (if piece.color = WHITE then move.to_.row - 1 else move.to_.row + 1) ∧
      (if piece.color = WHITE then move.to_.row - 1 else move.to_.row + 1) < 8) :
    ∃ b', b.removeEnPassantVictim piece move = Except.ok b' ∧
      ∀ q, b'.getPiece q =
        if q = Position.mk (if piece.color = WHITE then move.to_.row - 1 else move.to_.row + 1)
            move.to_.col
        then none else b.getPiece q := by
  have ht' := (isValid_iff _).1 ht
  unfold removeEnPassantVictim
  dsimp only
  rw [if_pos]
  · refine ⟨_, rfl, ?_⟩
    intro q
    rw [getPiece_setCell_raw _ _ h ⟨ht'.2.2.1, ht'.2.2.2⟩]
    simp only [ite_self]
  · simp only [Bool.and_eq_true, decide_eq_true_eq, ge_iff_le]
    exact h

theorem castleRook_cells (b : ChessBoard) (move : Move) (rook : Piece)
    (hrow : 0 ≤ move.from_.row ∧ move.from_.row < 8)
    (h : b.cell move.from_.row (if move.to_.col > move.from_.col then 7 else 0) = some rook) :
    ∃ b', b.castleRook move = Except.ok b' ∧
      ∀ q, b'.getPiece q =
        if q = Position.mk move.from_.row (if move.to_.col > move.from_.col then 5 else 3)
        then some { rook with hasMoved := true }
        else if q = Position.mk move.from_.row (if move.to_.col > move.from_.col then 7 else 0)
        then none else b.getPiece q := by
  have hfc : 0 ≤ (if move.to_.col > move.from_.col then (7 : Int) else 0) ∧
      (if move.to_.col > move.from_.col then (7 : Int) else 0) < 8 := by split <;> omega
  have htc : 0 ≤ (if move.to_.col > move.from_.col then (5 : Int) else 3) ∧
      (if move.to_.col > move.from_.col then (5 : Int) else 3) < 8 := by split <;> omega
  unfold castleRook
  dsimp only
  rw [h, markMoved_eq _ (p := rook)]
  · refine ⟨_, rfl, ?_⟩
    intro q
    rw [getPiece_setCell_raw _ _ hrow htc, getPiece_setCell_raw _ _ hrow htc,
      getPiece_setCell_raw _ _ hrow hfc]
    by_cases h1 : q = Position.mk move.from_.row (if move.to_.col > move.from_.col then 5 else 3)
    · have hv : q.isValid = true := by
        rw [h1, isValid_iff]; exact ⟨hrow.1, hrow.2, htc.1, htc.2⟩
      rw [if_pos h1, if_pos h1, if_pos hv]
    · simp only [h1, if_false]
      by_cases h2 : q = Position.mk move.from_.row (if move.to_.col > move.from_.col then 7 else 0)
      · simp [h2]
      · simp only [h2, if_false]
  · rw [cell_setCell_raw _ _ hrow htc hrow htc]
    simp

end ChessBoard

/-! ## Destinations of the pawn generator -/

theorem filter_to_of_all {X : List Move} {t : Position} (h : ∀ m ∈ X, m.to_ = t)
    (d : Position) :
    X.filter (fun m => decide (m.to_ = d)) = if d = t then X else [] := by
  split
  · rename_i hd
    rw [List.filter_eq_self]
    intro m hm
    simp [h m hm, hd]
  · rename_i hd
    rw [List.filter_eq_nil_iff]
    intro m hm
    simp only [decide_eq_true_eq]
    rw [h m hm]
    exact fun e => hd e.symm

theorem isValid_and_isEmpty (board : ChessBoard) (p : Position) :
    (p.isValid && board.isEmpty p) = board.isEmpty p := by
  unfold ChessBoard.isEmpty
  cases p.isValid <;> simp

theorem Pawn.forwardMoves_eq (pos : Position) (board : ChessBoard)
    (direction startRow promotionRow : Int) :
    Pawn.forwardMoves pos board direction startRow promotionRow =
      Pawn.oneStepPart pos board direction promotionRow ++
        Pawn.twoStepPart pos board direction startRow := by
  unfold Pawn.forwardMoves Pawn.oneStepPart Pawn.twoStepPart
  dsimp only
  rw [isValid_and_isEmpty, isValid_and_isEmpty]
  cases board.isEmpty ⟨pos.row + direction, pos.col⟩
  · simp
  · by_cases hs : pos.row = startRow
    · cases board.isEmpty ⟨pos.row + 2 * direction, pos.col⟩ <;> simp [hs]
    · simp [hs]

theorem Pawn.oneStepPart_to {pos : Position} {board : ChessBoard} {direction promotionRow : Int}
    {m : Move} (h : m ∈ Pawn.oneStepPart pos board direction promotionRow) :
    m.to_ = ⟨pos.row + direction, pos.col⟩ := by
  unfold Pawn.oneStepPart at h
  split at h
  · split at h
    · exact (mem_promotionMoves h).2
    · simp only [List.mem_singleton] at h
      rw [h]
  · simp at h

theorem Pawn.twoStepPart_to {pos : Position} {board : ChessBoard} {direction startRow : Int}
    {m : Move} (h : m ∈ Pawn.twoStepPart pos board direction startRow) :
    m.to_ = ⟨pos.row + 2 * direction, pos.col⟩ := by
  unfold Pawn.twoStepPart at h
  split at h
  · simp only [List.mem_singleton] at h
    rw [h]
  · simp at h

theorem Pawn.captureMoves_to {self : Piece} {pos : Position} {board : ChessBoard}
    {direction promotionRow colOffset : Int} {m : Move}
    (h : m ∈ Pawn.captureMoves self pos board direction promotionRow colOffset) :
    m.to_ = ⟨pos.row + direction, pos.col + colOffset⟩ :=
  (Pawn.mem_captureMoves h).2.1

/-- The moves of a pawn onto `d`, by the loop that can produce them. -/
theorem Pawn.filter_to (self : Piece) (pos : Position) (board : ChessBoard) (d : Position) :
    (Pawn.getPossibleMoves self pos board).filter (fun m => decide (m.to_ = d)) =
      (if d = ⟨pos.row + (if self.color = WHITE then 1 else -1), pos.col⟩ then
        Pawn.oneStepPart pos board (if self.color = WHITE then 1 else -1)
          (if self.color = WHITE then 7 else 0) else []) ++
      (if d = ⟨pos.row + 2 * (if self.color = WHITE then 1 else -1), pos.col⟩ then
        Pawn.twoStepPart pos board (if self.color = WHITE then 1 else -1)
          (if self.color = WHITE then 1 else 6) else []) ++
      (if d = ⟨pos.row + (if self.color = WHITE then 1 else -1), pos.col + -1⟩ then
        Pawn.captureMoves self pos board (if self.color = WHITE then 1 else -1)
          (if self.color = WHITE then 7 else 0) (-1) else []) ++
      (if d = ⟨pos.row + (if self.color = WHITE then 1 else -1), pos.col + 1⟩ then
        Pawn.captureMoves self pos board (if self.color = WHITE then 1 else -1)
          (if self.color = WHITE then 7 else 0) 1 else []) := by
  unfold Pawn.getPossibleMoves
  dsimp only
  rw [Pawn.forwardMoves_eq, List.filter_append, List.filter_append, List.filter_append,
    filter_to_of_all (fun m hm => Pawn.oneStepPart_to hm),
    filter_to_of_all (fun m hm => Pawn.twoStepPart_to hm),
    filter_to_of_all (fun m hm => Pawn.captureMoves_to hm),
    filter_to_of_all (fun m hm => Pawn.captureMoves_to hm)]

theorem ne_of_row_ne {p q : Position} (h : p.row ≠ q.row) : p ≠ q :=
  fun e => h (congrArg Position.row e)

theorem ne_of_col_ne {p q : Position} (h : p.col ≠ q.col) : p ≠ q :=
  fun e => h (congrArg Position.col e)


theorem isEmpty_iff_valid_none (b : ChessBoard) (p : Position) :
    b.isEmpty p = true ↔ p.isValid = true ∧ b.getPiece p = none := by
  unfold ChessBoard.isEmpty ChessBoard.getPiece
  cases p.isValid <;> simp

/-- The moves of the sliding loop: the squares `pos + k * dir` for the steps
`k` the loop reaches, every earlier square being empty, the last one empty or
held by the other colour. -/
theorem mem_addDirectionalLoop {piece : Piece} {pos : Position} {board : ChessBoard}
    {rowDir colDir : Int} {m : Move} :
    ∀ (n : Nat) (step : Int), m ∈ addDirectionalLoop piece pos board rowDir colDir n step ↔
      ∃ k : Int, step ≤ k ∧ k < step + n ∧
        m = Move.mk pos ⟨pos.row + k * rowDir, pos.col + k * colDir⟩ QUEEN ∧
        (Position.mk (pos.row + k * rowDir) (pos.col + k * colDir)).isValid = true ∧
        (∀ j : Int, step ≤ j → j < k →
          board.isEmpty ⟨pos.row + j * rowDir, pos.col + j * colDir⟩ = true) ∧
        (∀ t, board.getPiece ⟨pos.row + k * rowDir, pos.col + k * colDir⟩ = some t →
          t.color ≠ piece.color)
  | 0, step => by
    simp only [addDirectionalLoop, List.not_mem_nil, false_iff, not_exists]
    intro k ⟨h1, h2, _⟩
    simp only [Nat.cast_zero, add_zero] at h2
    omega
  | n + 1, step => by
    unfold addDirectionalLoop
    dsimp only
    have ih := @mem_addDirectionalLoop piece pos board rowDir colDir m n (step + 1)
    by_cases hv : (Position.mk (pos.row + step * rowDir) (pos.col + step * colDir)).isValid = true
    · rw [if_neg (by simp [hv])]
      cases hg : board.getPiece ⟨pos.row + step * rowDir, pos.col + step * colDir⟩ with
      | none =>
        dsimp only
        rw [List.mem_cons, ih]
        constructor
        · rintro (h | ⟨k, h1, h2, h3, h4, h5, h6⟩)
          · refine ⟨step, le_refl _, by push_cast; omega, h, hv, ?_, ?_⟩
            · intro j hj1 hj2; omega
            · intro t ht; rw [hg] at ht; cases ht
          · refine ⟨k, by omega, by push_cast; omega, h3, h4, ?_, h6⟩
            intro j hj1 hj2
            by_cases hjs : j = step
            · subst hjs
              exact (isEmpty_iff_valid_none _ _).2 ⟨hv, hg⟩
            · exact h5 j (by omega) hj2
        · rintro ⟨k, h1, h2, h3, h4, h5, h6⟩
          by_cases hks : k = step
          · subst hks
            exact Or.inl h3
          · right
            push_cast at h2
            exact ⟨k, by omega, by omega, h3, h4, fun j hj1 hj2 => h5 j (by omega) hj2, h6⟩
      | some t =>
        dsimp only
        have hblock : ∀ k : Int, step ≤ k →
            (∀ j : Int, step ≤ j → j < k →
              board.isEmpty ⟨pos.row + j * rowDir, pos.col + j * colDir⟩ = true) → k = step := by
          intro k hk h5
          by_contra hne
          have := h5 step (le_refl _) (by omega)
          rw [isEmpty_iff_valid_none, hg] at this
          cases this.2
        by_cases hc : t.color ≠ piece.color
        · rw [if_pos hc, List.mem_singleton]
          constructor
          · intro h
            refine ⟨step, le_refl _, by push_cast; omega, h, hv, ?_, ?_⟩
            · intro j hj1 hj2; omega
            · intro t' ht'; rw [hg] at ht'; cases ht'; exact hc
          · rintro ⟨k, h1, h2, h3, h4, h5, h6⟩
            have := hblock k h1 h5
            subst this
            exact h3
        · rw [if_neg hc]
          simp only [List.not_mem_nil, false_iff, not_exists]
          rintro k ⟨h1, h2, h3, h4, h5, h6⟩
          have := hblock k h1 h5
          subst this
          exact hc (h6 t hg)
    · rw [if_pos (by simp [hv])]
      simp only [List.not_mem_nil, false_iff, not_exists]
      rintro k ⟨h1, h2, h3, h4, h5, h6⟩
      by_cases hks : k = step
      · subst hks
        exact hv h4
      · have := h5 step (le_refl _) (by omega)
        rw [isEmpty_iff_valid_none] at this
        exact hv this.1

theorem addDirectionalLoop_nodup {piece : Piece} {pos : Position} {board : ChessBoard}
    {rowDir colDir : Int} (hd : rowDir ≠ 0 ∨ colDir ≠ 0) :
    ∀ (n : Nat) (step : Int),
      ((addDirectionalLoop piece pos board rowDir colDir n step).map Move.to_).Nodup
  | 0, _ => by simp [addDirectionalLoop]
  | n + 1, step => by
    unfold addDirectionalLoop
    dsimp only
    split
    · simp
    · split
      · rw [List.map_cons, List.nodup_cons]
        refine ⟨?_, addDirectionalLoop_nodup hd n (step + 1)⟩
        intro hmem
        rw [List.mem_map] at hmem
        obtain ⟨m, hm, hto⟩ := hmem
        obtain ⟨k, hk, hto'⟩ := addDirectionalLoop_to _ _ hm
        rw [hto'] at hto
        simp only [Position.mk.injEq, add_right_inj] at hto
        rcases hd with hd | hd
        · have := mul_right_cancel₀ hd hto.1
          omega
        · have := mul_right_cancel₀ hd hto.2
          omega
      · split <;> simp

theorem queenDirections_row {d : Int × Int} (h : d ∈ queenDirections) :
    d.1 = 0 ∨ d.1 = 1 ∨ d.1 = -1 := by
  unfold queenDirections at h
  simp only [List.mem_cons, List.mem_singleton, List.not_mem_nil, or_false] at h
  rcases h with h | h | h | h | h | h | h | h <;> subst h <;> simp

theorem queenDirections_ne_zero {d : Int × Int} (h : d ∈ queenDirections) :
    d.1 ≠ 0 ∨ d.2 ≠ 0 := by
  unfold queenDirections at h
  simp only [List.mem_cons, List.mem_singleton, List.not_mem_nil, or_false] at h
  rcases h with h | h | h | h | h | h | h | h <;> subst h <;> simp

theorem unit_step_inj {a b k l : Int} (ha : a = 0 ∨ a = 1 ∨ a = -1) (hb : b = 0 ∨ b = 1 ∨ b = -1)
    (hk : 1 ≤ k) (hl : 1 ≤ l) (h : k * a = l * b) : a = b := by
  rcases ha with rfl | rfl | rfl <;> rcases hb with rfl | rfl | rfl <;> omega

/-- The destinations of a slider: each is produced once. -/
theorem slide_nodup {piece : Piece} {pos : Position} {board : ChessBoard}
    {dirs : List (Int × Int)} (hnd : dirs.Nodup) (hdirs : ∀ d ∈ dirs, d ∈ queenDirections) :
    ((dirs.flatMap (fun dir => addDirectionalMoves piece pos board dir.1 dir.2 8)).map
      Move.to_).Nodup := by
  rw [List.map_flatMap, List.nodup_flatMap]
  constructor
  · intro d hd
    exact addDirectionalLoop_nodup (queenDirections_ne_zero (hdirs d hd)) _ _
  · apply hnd.pairwise_of_forall_ne
    intro d1 h1 d2 h2 hne
    intro x hx1 hx2
    rw [List.mem_map] at hx1 hx2
    obtain ⟨m1, hm1, rfl⟩ := hx1
    obtain ⟨m2, hm2, he⟩ := hx2
    obtain ⟨k1, hk1, ht1⟩ := addDirectionalLoop_to _ _ hm1
    obtain ⟨k2, hk2, ht2⟩ := addDirectionalLoop_to _ _ hm2
    rw [ht1, ht2] at he
    simp only [Position.mk.injEq, add_right_inj] at he
    apply hne
    have e1 := unit_step_inj (queenDirections_row (hdirs d2 h2)) (queenDirections_row (hdirs d1 h1))
      hk2 hk1 he.1
    have e2 := unit_step_inj (queenDirections_col (hdirs d2 h2)) (queenDirections_col (hdirs d1 h1))
      hk2 hk1 he.2
    exact Prod.ext e1.symm e2.symm

/-- The destinations of a slider on the board. -/
theorem slide_dest_iff {piece : Piece} {pos : Position} {board : ChessBoard}
    {dirs : List (Int × Int)} (hdirs : ∀ d ∈ dirs, d ∈ queenDirections)
    (hpos : pos.isValid = true) (d : Position) :
    (∃ m ∈ dirs.flatMap (fun dir => addDirectionalMoves piece pos board dir.1 dir.2 8),
        m.to_ = d) ↔
      ∃ dr dc k : Int, (dr, dc) ∈ dirs ∧ 1 ≤ k ∧
        d = ⟨pos.row + k * dr, pos.col + k * dc⟩ ∧ d.isValid = true ∧
        (∀ j : Int, 1 ≤ j → j < k → board.isEmpty ⟨pos.row + j * dr, pos.col + j * dc⟩ = true) ∧
        (board.isEmpty d = true ∨ ∃ t, board.getPiece d = some t ∧ t.color ≠ piece.color) := by
  constructor
  · rintro ⟨m, hm, rfl⟩
    rw [List.mem_flatMap] at hm
    obtain ⟨⟨dr, dc⟩, hdir, hm⟩ := hm
    unfold addDirectionalMoves at hm
    rw [mem_addDirectionalLoop] at hm
    obtain ⟨k, h1, _, h3, h4, h5, h6⟩ := hm
    subst h3
    refine ⟨dr, dc, k, hdir, h1, rfl, h4, h5, ?_⟩
    dsimp only at h6 ⊢
    cases hg : board.getPiece ⟨pos.row + k * dr, pos.col + k * dc⟩ with
    | none => exact Or.inl ((isEmpty_iff_valid_none _ _).2 ⟨h4, hg⟩)
    | some t => exact Or.inr ⟨t, rfl, h6 t hg⟩
  · rintro ⟨dr, dc, k, hdir, h1, rfl, h4, h5, h6⟩
    refine ⟨Move.mk pos ⟨pos.row + k * dr, pos.col + k * dc⟩ QUEEN, ?_, rfl⟩
    rw [List.mem_flatMap]
    refine ⟨(dr, dc), hdir, ?_⟩
    unfold addDirectionalMoves
    rw [mem_addDirectionalLoop]
    refine ⟨k, h1, ?_, rfl, h4, h5, ?_⟩
    · have hr := queenDirections_row (hdirs _ hdir)
      have hc := queenDirections_col (hdirs _ hdir)
      have hz := queenDirections_ne_zero (hdirs _ hdir)
      rw [isValid_iff] at hpos h4
      dsimp only at hr hc hz h4
      push_cast
      rcases hr with rfl | rfl | rfl <;> rcases hc with rfl | rfl | rfl <;> omega
    · intro t ht
      rcases h6 with h6 | ⟨t', ht', hc⟩
      · rw [isEmpty_iff_valid_none, ht] at h6
        cases h6.2
      · rw [ht] at ht'
        cases ht'
        exact hc

theorem mem_rookDirections (dr dc : Int) :
    (dr, dc) ∈ rookDirections ↔ dr.natAbs + dc.natAbs = 1 := by
  unfold rookDirections
  simp only [List.mem_cons, List.mem_singleton, List.not_mem_nil, or_false, Prod.mk.injEq]
  omega

theorem mem_bishopDirections (dr dc : Int) :
    (dr, dc) ∈ bishopDirections ↔ dr.natAbs = 1 ∧ dc.natAbs = 1 := by
  unfold bishopDirections
  simp only [List.mem_cons, List.mem_singleton, List.not_mem_nil, or_false, Prod.mk.injEq]
  omega

theorem mem_queenDirections (dr dc : Int) :
    (dr, dc) ∈ queenDirections ↔ max dr.natAbs dc.natAbs = 1 := by
  unfold queenDirections
  simp only [List.mem_cons, List.mem_singleton, List.not_mem_nil, or_false, Prod.mk.injEq]
  omega

theorem rook_sub_queen : ∀ d ∈ rookDirections, d ∈ queenDirections := by decide

theorem bishop_sub_queen : ∀ d ∈ bishopDirections, d ∈ queenDirections := by decide

theorem stepCell_to {self : Piece} {pos : Position} {board : ChessBoard} {d : Int × Int}
    {m : Move}
    (h : m ∈ (if (Position.mk (pos.row + d.1) (pos.col + d.2)).isValid then
        match board.getPiece ⟨pos.row + d.1, pos.col + d.2⟩ with
        | none => [Move.mk pos ⟨pos.row + d.1, pos.col + d.2⟩ QUEEN]
        | some targetPiece =>
          if targetPiece.color ≠ self.color then [Move.mk pos ⟨pos.row + d.1, pos.col + d.2⟩ QUEEN]
          else []
      else [])) :
    m = Move.mk pos ⟨pos.row + d.1, pos.col + d.2⟩ QUEEN ∧
      (Position.mk (pos.row + d.1) (pos.col + d.2)).isValid = true ∧
      ∀ t, board.getPiece ⟨pos.row + d.1, pos.col + d.2⟩ = some t → t.color ≠ self.color := by
  split at h
  · rename_i hv
    split at h
    · rename_i hg
      simp only [List.mem_singleton] at h
      exact ⟨h, hv, fun t ht => by rw [hg] at ht; cases ht⟩
    · rename_i t hg
      split at h
      · rename_i hc
        simp only [List.mem_singleton] at h
        exact ⟨h, hv, fun t' ht' => by rw [hg] at ht'; cases ht'; exact hc⟩
      · simp at h
  · simp at h

/-- The moves of the single-step loop. -/
theorem mem_stepMoves {self : Piece} {pos : Position} {board : ChessBoard}
    {offsets : List (Int × Int)} {m : Move} :
    m ∈ stepMoves self pos board offsets ↔
      ∃ d ∈ offsets, m = Move.mk pos ⟨pos.row + d.1, pos.col + d.2⟩ QUEEN ∧
        (Position.mk (pos.row + d.1) (pos.col + d.2)).isValid = true ∧
        ∀ t, board.getPiece ⟨pos.row + d.1, pos.col + d.2⟩ = some t → t.color ≠ self.color := by
  unfold stepMoves
  rw [List.mem_flatMap]
  constructor
  · rintro ⟨d, hd, hm⟩
    exact ⟨d, hd, stepCell_to hm⟩
  · rintro ⟨d, hd, rfl, hv, hc⟩
    refine ⟨d, hd, ?_⟩
    dsimp only
    rw [if_pos hv]
    cases hg : board.getPiece ⟨pos.row + d.1, pos.col + d.2⟩ with
    | none => simp
    | some t =>
      dsimp only
      rw [if_pos (hc t hg)]
      simp

/-- The destinations of the single-step loop: each is produced once. -/
theorem stepMoves_nodup {self : Piece} {pos : Position} {board : ChessBoard}
    {offsets : List (Int × Int)} (hnd : offsets.Nodup) :
    ((stepMoves self pos board offsets).map Move.to_).Nodup := by
  unfold stepMoves
  rw [List.map_flatMap, List.nodup_flatMap]
  constructor
  · intro d _
    dsimp only
    split
    · split
      · simp
      · split <;> simp
    · simp
  · apply hnd.pairwise_of_forall_ne
    intro d1 _ d2 _ hne x hx1 hx2
    rw [List.mem_map] at hx1 hx2
    obtain ⟨m1, hm1, rfl⟩ := hx1
    obtain ⟨m2, hm2, he⟩ := hx2
    rw [(stepCell_to hm1).1, (stepCell_to hm2).1] at he
    simp only [Position.mk.injEq, add_right_inj] at he
    exact hne (Prod.ext he.1.symm he.2.symm)

/-- The destinations of the single-step loop. -/
theorem stepMoves_dest_iff {self : Piece} {pos : Position} {board : ChessBoard}
    {offsets : List (Int × Int)} (d : Position) :
    (∃ m ∈ stepMoves self pos board offsets, m.to_ = d) ↔
      ∃ dr dc : Int, (dr, dc) ∈ offsets ∧ d = ⟨pos.row + dr, pos.col + dc⟩ ∧
        d.isValid = true ∧
        (board.isEmpty d = true ∨ ∃ t, board.getPiece d = some t ∧ t.color ≠ self.color) := by
  constructor
  · rintro ⟨m, hm, rfl⟩
    rw [mem_stepMoves] at hm
    obtain ⟨⟨dr, dc⟩, hd, rfl, hv, hc⟩ := hm
    refine ⟨dr, dc, hd, rfl, hv, ?_⟩
    dsimp only at hc ⊢
    cases hg : board.getPiece ⟨pos.row + dr, pos.col + dc⟩ with
    | none => exact Or.inl ((isEmpty_iff_valid_none _ _).2 ⟨hv, hg⟩)
    | some t => exact Or.inr ⟨t, rfl, hc t hg⟩
  · rintro ⟨dr, dc, hd, rfl, hv, hc⟩
    refine ⟨Move.mk pos ⟨pos.row + dr, pos.col + dc⟩ QUEEN, ?_, rfl⟩
    rw [mem_stepMoves]
    refine ⟨(dr, dc), hd, rfl, hv, ?_⟩
    intro t ht
    rcases hc with hc | ⟨t', ht', hc⟩
    · rw [isEmpty_iff_valid_none] at hc
      dsimp only at ht
      rw [ht] at hc
      cases hc.2
    · dsimp only at ht
      rw [ht] at ht'
      cases ht'
      exact hc

theorem mem_knightMoves (dr dc : Int) :
    (dr, dc) ∈ knightMoves ↔
      (dr.natAbs = 1 ∧ dc.natAbs = 2) ∨ (dr.natAbs = 2 ∧ dc.natAbs = 1) := by
  unfold knightMoves
  simp only [List.mem_cons, List.mem_singleton, List.not_mem_nil, or_false, Prod.mk.injEq]
  omega

theorem mem_king_castlePart {self : Piece} {pos : Position} {board : ChessBoard} {m : Move} :
    m ∈ (if !self.hasMoved then
        (if board.canCastle self.color true then [Move.mk pos (Position.mk pos.row (pos.col + 2)) QUEEN]
         else []) ++
        (if board.canCastle self.color false then [Move.mk pos (Position.mk pos.row (pos.col - 2)) QUEEN]
         else [])
      else []) ↔
      (self.hasMoved = false ∧ board.canCastle self.color true = true ∧
        m = Move.mk pos ⟨pos.row, pos.col + 2⟩ QUEEN) ∨
      (self.hasMoved = false ∧ board.canCastle self.color false = true ∧
        m = Move.mk pos ⟨pos.row, pos.col - 2⟩ QUEEN) := by
  cases self.hasMoved <;> cases board.canCastle self.color true <;>
    cases board.canCastle self.color false <;> simp

theorem stepMoves_mem_dest_iff {self : Piece} {pos : Position} {board : ChessBoard}
    {offsets : List (Int × Int)} (m : Move) :
    m ∈ stepMoves self pos board offsets ↔
      ∃ dr dc : Int, (dr, dc) ∈ offsets ∧ m = Move.mk pos ⟨pos.row + dr, pos.col + dc⟩ QUEEN ∧
        (Position.mk (pos.row + dr) (pos.col + dc)).isValid = true ∧
        (board.isEmpty ⟨pos.row + dr, pos.col + dc⟩ = true ∨
          ∃ t, board.getPiece ⟨pos.row + dr, pos.col + dc⟩ = some t ∧ t.color ≠ self.color) := by
  rw [mem_stepMoves]
  constructor
  · rintro ⟨⟨dr, dc⟩, hd, hm, hv, hc⟩
    refine ⟨dr, dc, hd, hm, hv, ?_⟩
    dsimp only at hc hv ⊢
    cases hg : board.getPiece ⟨pos.row + dr, pos.col + dc⟩ with
    | none => exact Or.inl ((isEmpty_iff_valid_none _ _).2 ⟨hv, hg⟩)
    | some t => exact Or.inr ⟨t, rfl, hc t hg⟩
  · rintro ⟨dr, dc, hd, hm, hv, hc⟩
    refine ⟨(dr, dc), hd, hm, hv, ?_⟩
    intro t ht
    dsimp only at ht
    rcases hc with hc | ⟨t', ht', hc⟩
    · rw [isEmpty_iff_valid_none, ht] at hc
      cases hc.2
    · rw [ht] at ht'
      cases ht'
      exact hc

theorem toStdString_digit (n : Nat) (h1 : 1 ≤ n) (h9 : n ≤ 9) :
    toStdString n = [Char.ofNat (48 + n)] := by
  interval_cases n <;> rfl

theorem digit_char_facts (n : Nat) (h1 : 1 ≤ n) (h9 : n ≤ 9) :
    (Char.ofNat (48 + n)).isDigit = true ∧ Char.ofNat (48 + n) ≠ '0' ∧
      (Char.ofNat (48 + n)).toNat - '0'.toNat = n := by
  interval_cases n <;> decide

theorem getSymbol_letter (p : Piece) :
    letterPiece p.getSymbol = some (p.color, p.type) ∧ p.getSymbol.isDigit = false ∧
      p.getSymbol ≠ '/' := by
  obtain ⟨c, t, m⟩ := p
  cases c <;> cases t <;> cases m <;> decide

/-- The flush of the counter, as a string appended. -/
theorem fenCell_foldl (cells : List (Option Piece)) :
    ∀ (fen : List Char) (empty : Nat),
      (if (cells.foldl ChessBoard.fenCell (fen, empty)).2 > 0 then
          (cells.foldl ChessBoard.fenCell (fen, empty)).1 ++
            toStdString (cells.foldl ChessBoard.fenCell (fen, empty)).2
        else (cells.foldl ChessBoard.fenCell (fen, empty)).1) =
      fen ++ fenTail cells empty := by
  induction cells with
  | nil =>
    intro fen empty
    simp only [List.foldl_nil, fenTail]
    split <;> simp
  | cons c rest ih =>
    intro fen empty
    cases c with
    | none =>
      simp only [List.foldl_cons, ChessBoard.fenCell, fenTail]
      exact ih fen (empty + 1)
    | some piece =>
      simp only [List.foldl_cons, ChessBoard.fenCell, fenTail]
      rw [ih]
      split <;> simp

theorem fenRow_eq (b : ChessBoard) (fen : List Char) (row : Int) :
    b.fenRow fen row =
      fen ++ fenTail (indices.map (b.cell row)) 0 ++ (if row > 0 then ['/'] else []) := by
  unfold ChessBoard.fenRow
  dsimp only
  have h := fenCell_foldl (indices.map (b.cell row)) fen 0
  rw [List.foldl_map] at h
  rw [h]
  split <;> simp

theorem getFEN_eq (b : ChessBoard) (s : Color) :
    b.getFEN s =
      List.intercalate ['/']
          (([7, 6, 5, 4, 3, 2, 1, 0] : List Int).map
            (fun r => fenTail (indices.map (b.cell r)) 0)) ++
        [' '] ++ (if s = WHITE then ['w'] else ['b']) ++ [' ', '-', ' ', '-', ' ', '0', ' ', '1'] := by
  unfold ChessBoard.getFEN
  simp only [List.foldl_cons, List.foldl_nil, fenRow_eq, List.map_cons, List.map_nil,
    List.intercalate, List.intersperse, List.flatten]
  simp

/-- The expansion of what the inner loop appends: the counted empty cells,
then the cells still to be read. -/
theorem expandField_fenTail (cells : List (Option Piece)) :
    ∀ empty : Nat, empty + cells.length ≤ 9 →
      expandField (fenTail cells empty) =
        some (List.replicate empty none ++ cells.map (fun c => c.map (fun p => (p.color, p.type)))) := by
  induction cells with
  | nil =>
    intro empty h
    simp only [List.length_nil, add_zero] at h
    unfold fenTail
    by_cases he : empty > 0
    · rw [if_pos he, toStdString_digit empty he h]
      obtain ⟨h1, _, h3⟩ := digit_char_facts empty he h
      simp only [expandField, if_pos h1, h3]
      simp
    · have : empty = 0 := by omega
      subst this
      simp [expandField]
  | cons c rest ih =>
    intro empty h
    simp only [List.length_cons] at h
    cases c with
    | none =>
      unfold fenTail
      rw [ih (empty + 1) (by omega)]
      simp [List.replicate_succ']
    | some piece =>
      unfold fenTail
      obtain ⟨g1, g2, _⟩ := getSymbol_letter piece
      have hrest : expandField (piece.getSymbol :: fenTail rest 0) =
          some (some (piece.color, piece.type) ::
            rest.map (fun c => c.map (fun p => (p.color, p.type)))) := by
        rw [expandField, if_neg (by simp [g2]), g1]
        dsimp only
        rw [ih 0 (by omega)]
        simp
      by_cases he : empty > 0
      · rw [if_pos he, toStdString_digit empty he (by omega)]
        obtain ⟨h1, _, h3⟩ := digit_char_facts empty he (by omega)
        rw [List.singleton_append, expandField, if_pos h1, hrest, h3]
        simp
      · have : empty = 0 := by omega
        subst this
        rw [if_neg he, List.nil_append, hrest]
        simp

/-- The characters the inner loop appends: digits other than `0`, and piece
letters. -/
theorem fenTail_chars (cells : List (Option Piece)) :
    ∀ empty : Nat, empty + cells.length ≤ 9 → ∀ ch ∈ fenTail cells empty,
      (ch.isDigit = true ∧ ch ≠ '0') ∨ (ch.isDigit = false ∧ ch ≠ '/') := by
  induction cells with
  | nil =>
    intro empty h ch hch
    simp only [List.length_nil, add_zero] at h
    unfold fenTail at hch
    split at hch
    · rename_i he
      rw [toStdString_digit empty he h, List.mem_singleton] at hch
      subst hch
      obtain ⟨h1, h2, _⟩ := digit_char_facts empty he h
      exact Or.inl ⟨h1, h2⟩
    · simp at hch
  | cons c rest ih =>
    intro empty h ch hch
    simp only [List.length_cons] at h
    cases c with
    | none =>
      unfold fenTail at hch
      exact ih (empty + 1) (by omega) ch hch
    | some piece =>
      unfold fenTail at hch
      rw [List.mem_append, List.mem_cons] at hch
      rcases hch with hch | hch | hch
      · split at hch
        · rename_i he
          rw [toStdString_digit empty he (by omega), List.mem_singleton] at hch
          subst hch
          obtain ⟨h1, h2, _⟩ := digit_char_facts empty he (by omega)
          exact Or.inl ⟨h1, h2⟩
        · simp at hch
      · subst hch
        obtain ⟨_, g2, g3⟩ := getSymbol_letter piece
        exact Or.inr ⟨g2, g3⟩
      · exact ih 0 (by omega) ch hch

/-- No two digits stand side by side in what the inner loop appends. -/
theorem fenTail_chain (cells : List (Option Piece)) :
    ∀ empty : Nat, empty + cells.length ≤ 9 →
      List.Chain' (fun x y : Char => ¬ (x.isDigit = true ∧ y.isDigit = true))
        (fenTail cells empty) := by
  induction cells with
  | nil =>
    intro empty h
    simp only [List.length_nil, add_zero] at h
    unfold fenTail
    split
    · rename_i he
      rw [toStdString_digit empty he h]
      exact List.chain'_singleton _
    · exact List.chain'_nil
  | cons c rest ih =>
    intro empty h
    simp only [List.length_cons] at h
    cases c with
    | none =>
      unfold fenTail
      exact ih (empty + 1) (by omega)
    | some piece =>
      unfold fenTail
      obtain ⟨_, g2, _⟩ := getSymbol_letter piece
      have hsym : List.Chain' (fun x y : Char => ¬ (x.isDigit = true ∧ y.isDigit = true))
          (piece.getSymbol :: fenTail rest 0) := by
        apply List.Chain'.cons' (ih 0 (by omega))
        intro y _ hxy
        rw [g2] at hxy
        cases hxy.1
      split
      · rename_i he
        rw [toStdString_digit empty he (by omega), List.singleton_append, List.chain'_cons]
        refine ⟨?_, hsym⟩
        intro hxy
        rw [g2] at hxy
        cases hxy.2
      · exact hsym

namespace ChessBoard

/-- The promotion kind a move carries matters to `movePiece` only when the
moving piece is a pawn arriving on its farthest rank. -/
theorem movePiece_kind_irrelevant (b : ChessBoard) (f t : Position) (k1 k2 : PieceType)
    (h : ∀ piece, b.getPiece f = some piece → isPromotionOf piece (Move.mk f t k1) = false) :
    b.movePiece (Move.mk f t k1) = b.movePiece (Move.mk f t k2) := by
  by_cases hf : f.isValid = true
  swap
  · rw [movePiece_rejected b (Move.mk f t k1) (Or.inl (by simpa using hf)),
      movePiece_rejected b (Move.mk f t k2) (Or.inl (by simpa using hf))]
  by_cases ht : t.isValid = true
  swap
  · rw [movePiece_rejected b (Move.mk f t k1) (Or.inr (Or.inl (by simpa using ht))),
      movePiece_rejected b (Move.mk f t k2) (Or.inr (Or.inl (by simpa using ht)))]
  cases hp : b.getPiece f with
  | none =>
    rw [movePiece_rejected b (Move.mk f t k1) (Or.inr (Or.inr hp)),
      movePiece_rejected b (Move.mk f t k2) (Or.inr (Or.inr hp))]
  | some piece =>
    have h1 := h piece hp
    have h2 : isPromotionOf piece (Move.mk f t k2) = false := h1
    rw [movePiece_stages b (Move.mk f t k1) piece hf ht hp,
      movePiece_stages b (Move.mk f t k2) piece hf ht hp, h1, h2]
    rfl

end ChessBoard

namespace ChessGame

theorem matchesLegal_iff (piece : Piece) (move legalMove : Move) :
    matchesLegal piece move legalMove = true ↔
      legalMove.from_ = move.from_ ∧ legalMove.to_ = move.to_ ∧
      ((piece.type = PAWN ∧
          ((piece.color = WHITE ∧ move.to_.row = 7) ∨ (piece.color = BLACK ∧ move.to_.row = 0))) →
        legalMove.promotionPiece = move.promotionPiece) := by
  unfold matchesLegal
  by_cases hc : piece.type = PAWN ∧
      ((piece.color = WHITE ∧ move.to_.row = 7) ∨ (piece.color = BLACK ∧ move.to_.row = 0))
  · rw [if_pos hc]
    simp only [Bool.and_eq_true, decide_eq_true_eq]
    constructor
    · rintro ⟨⟨h1, h2⟩, h3⟩
      exact ⟨h1, h2, fun _ => h3⟩
    · rintro ⟨h1, h2, h3⟩
      exact ⟨⟨h1, h2⟩, h3 hc⟩
  · rw [if_neg hc]
    simp only [Bool.and_eq_true, decide_eq_true_eq, Bool.and_true]
    constructor
    · rintro ⟨h1, h2⟩
      exact ⟨h1, h2, fun h => absurd h hc⟩
    · rintro ⟨h1, h2, _⟩
      exact ⟨h1, h2⟩

/-- A legal move that passes the test of `makeMove` is applied by `movePiece`
as the parsed move is. -/
theorem movePiece_of_matchesLegal {b : ChessBoard} {piece : Piece} {move lm : Move}
    (hp : b.getPiece move.from_ = some piece) (hm : matchesLegal piece move lm = true) :
    b.movePiece lm = b.movePiece move := by
  rw [matchesLegal_iff] at hm
  obtain ⟨h1, h2, h3⟩ := hm
  obtain ⟨f, t, k⟩ := move
  obtain ⟨f', t', k'⟩ := lm
  dsimp only at h1 h2 h3 hp
  subst h1 h2
  by_cases hc : piece.type = PAWN ∧
      ((piece.color = WHITE ∧ t'.row = 7) ∨ (piece.color = BLACK ∧ t'.row = 0))
  · rw [h3 hc]
  · apply ChessBoard.movePiece_kind_irrelevant
    intro piece' hp'
    rw [hp] at hp'
    cases hp'
    by_contra hne
    apply hc
    have hpr : ChessBoard.isPromotionOf piece (Move.mk f' t' k') = true := by
      simpa using hne
    unfold ChessBoard.isPromotionOf at hpr
    simpa only [Bool.and_eq_true, Bool.or_eq_true, decide_eq_true_eq] using hpr

/-- The trial of a legal move returned: `movePiece` returns `true` on it. -/
theorem movePiece_of_mem_legal {b : ChessBoard} {c : Color} {L : List Move} {lm : Move}
    (hL : b.getAllLegalMoves c = Except.ok L) (hlm : lm ∈ L) (ht : lm.to_.isValid = true) :
    ∃ b', b.movePiece lm = Except.ok (true, b') := by
  have hcand := ChessBoard.mem_candidate_of_mem_legal hL hlm
  unfold ChessBoard.getAllLegalMoves at hL
  obtain ⟨_, hret⟩ := ChessBoard.keepLegal_ok hL
  obtain ⟨v, hv⟩ := hret lm hcand
  obtain ⟨r, b', hb', _⟩ := (ChessBoard.wouldBeInCheck_ok_iff b lm c v).1 hv
  obtain ⟨piece, hp, _, hgen⟩ := ChessBoard.mem_candidateMoves.1 hcand
  have hf := ChessBoard.getPiece_eq_some_valid hp
  obtain ⟨_, _, _, _, _, _, _, _, hr, _⟩ := ChessBoard.movePiece_ok_stages hf ht hp hb'
  subst hr
  exact ⟨b', hb'⟩

end ChessGame

theorem fromAlgebraic_valid_iff (s : List Char) :
    (Position.fromAlgebraic s).isValid = true ↔
      ∃ c0 c1 : Char, s = [c0, c1] ∧ 'a'.toNat ≤ c0.toNat ∧ c0.toNat ≤ 'h'.toNat ∧
        '1'.toNat ≤ c1.toNat ∧ c1.toNat ≤ '8'.toNat := by
  have ha : 'a'.toNat = 97 := rfl
  have hh : 'h'.toNat = 104 := rfl
  have h1 : '1'.toNat = 49 := rfl
  have h8 : '8'.toNat = 56 := rfl
  rw [ha, hh, h1, h8]
  match s with
  | [] => simp [Position.fromAlgebraic, Position.isValid]
  | [c] => simp [Position.fromAlgebraic, Position.isValid]
  | [c0, c1] =>
    simp only [Position.fromAlgebraic, isValid_iff, ha, h1]
    constructor
    · intro h
      exact ⟨c0, c1, rfl, by omega, by omega, by omega, by omega⟩
    · rintro ⟨d0, d1, he, h⟩
      simp only [List.cons.injEq, and_true] at he
      obtain ⟨rfl, rfl⟩ := he
      omega
  | c0 :: c1 :: c2 :: rest =>
    simp [Position.fromAlgebraic, Position.isValid]

theorem toAlgebraic_fromAlgebraic (c0 c1 : Char)
    (h : 'a'.toNat ≤ c0.toNat ∧ c0.toNat ≤ 'h'.toNat ∧ '1'.toNat ≤ c1.toNat ∧ c1.toNat ≤ '8'.toNat) :
    (Position.fromAlgebraic [c0, c1]).toAlgebraic = [c0, c1] := by
  have hv : (Position.fromAlgebraic [c0, c1]).isValid = true :=
    (fromAlgebraic_valid_iff _).2 ⟨c0, c1, rfl, h⟩
  unfold Position.toAlgebraic
  rw [if_neg (by simp [hv])]
  simp only [Position.fromAlgebraic]
  have e0 : (('a'.toNat : Int) + ((c0.toNat : Int) - ('a'.toNat : Int))).toNat = c0.toNat := by
    omega
  have e1 : (('1'.toNat : Int) + ((c1.toNat : Int) - ('1'.toNat : Int))).toNat = c1.toNat := by
    omega
  rw [e0, e1, Char.ofNat_toNat, Char.ofNat_toNat]

theorem fromAlgebraic_toAlgebraic (p : Position) (hv : p.isValid = true) :
    Position.fromAlgebraic p.toAlgebraic = p ∧
      p.toAlgebraic = [Char.ofNat ('a'.toNat + p.col.toNat), Char.ofNat ('1'.toNat + p.row.toNat)] := by
  obtain ⟨r, c⟩ := p
  have h := (isValid_iff _).1 hv
  dsimp only at h
  have hr : r = 0 ∨ r = 1 ∨ r = 2 ∨ r = 3 ∨ r = 4 ∨ r = 5 ∨ r = 6 ∨ r = 7 := by omega
  have hc : c = 0 ∨ c = 1 ∨ c = 2 ∨ c = 3 ∨ c = 4 ∨ c = 5 ∨ c = 6 ∨ c = 7 := by omega
  rcases hr with rfl | rfl | rfl | rfl | rfl | rfl | rfl | rfl <;>
    rcases hc with rfl | rfl | rfl | rfl | rfl | rfl | rfl | rfl <;> decide

namespace ChessBoard

theorem marksOnly_refl (b : ChessBoard) : b.marksOnly b := fun _ _ => Or.inl rfl

theorem marksOnly_trans {b1 b2 b3 : ChessBoard} (h12 : b1.marksOnly b2) (h23 : b2.marksOnly b3) :
    b1.marksOnly b3 := by
  intro r c
  rcases h23 r c with h | h | h
  · rw [h]; exact h12 r c
  · exact Or.inr (Or.inl h)
  · exact Or.inr (Or.inr h)

theorem marksOnly_setCell_none (b : ChessBoard) (row col : Int) :
    b.marksOnly (b.setCell row col none) := by
  intro r c
  simp only [setCell]
  split
  · exact Or.inr (Or.inl rfl)
  · exact Or.inl rfl

theorem marksOnly_setEnPassant (b : ChessBoard) (p : Position) :
    b.marksOnly (b.setEnPassant p) := fun _ _ => Or.inl rfl

theorem marksOnly_clearEnPassant (b : ChessBoard) : b.marksOnly b.clearEnPassant :=
  fun _ _ => Or.inl rfl

theorem marksOnly_relocate {b b' : ChessBoard} {move : Move} (h : b.relocate move = Except.ok b') :
    b.marksOnly b' := by
  unfold relocate markMoved at h
  dsimp only at h
  split at h
  · cases h
  · cases h
    intro r c
    simp only [setCell]
    split_ifs <;>
      first
      | exact Or.inl rfl
      | exact Or.inr (Or.inl rfl)
      | exact Or.inr (Or.inr ⟨_, rfl, rfl⟩)

theorem marksOnly_removeEnPassantVictim {b b' : ChessBoard} {piece : Piece} {move : Move}
    (h : b.removeEnPassantVictim piece move = Except.ok b') : b.marksOnly b' := by
  unfold removeEnPassantVictim at h
  dsimp only at h
  split_ifs at h <;>
    first
    | (cases h; done)
    | (cases h; exact marksOnly_setCell_none _ _ _)

theorem marksOnly_castleRook {b b' : ChessBoard} {move : Move}
    (h : b.castleRook move = Except.ok b') : b.marksOnly b' := by
  unfold castleRook markMoved at h
  dsimp only at h
  split at h
  · cases h
  · cases h
    intro r c
    simp only [setCell]
    split_ifs <;>
      first
      | exact Or.inl rfl
      | exact Or.inr (Or.inl rfl)
      | exact Or.inr (Or.inr ⟨_, rfl, rfl⟩)

theorem marksOnly_promote {b b' : ChessBoard} {move : Move}
    (h : b.promote move = Except.ok b') : b.marksOnly b' := by
  unfold promote at h
  split at h
  · cases h
  · unfold markMoved at h
    split at h
    · cases h
    · cases h
      intro r c
      simp only [setCell]
      split_ifs <;>
        first
        | exact Or.inl rfl
        | exact Or.inr (Or.inl rfl)
        | exact Or.inr (Or.inr ⟨_, rfl, rfl⟩)

/-- A call of `movePiece` that returns leaves every cell as it was, or empty,
or holding a piece marked as moved. -/
theorem marksOnly_movePiece {b b' : ChessBoard} {move : Move} {r : Bool}
    (h : b.movePiece move = Except.ok (r, b')) : b.marksOnly b' := by
  by_cases hf : move.from_.isValid = true
  swap
  · rw [movePiece_rejected b move (Or.inl (by simpa using hf))] at h
    cases h
    exact marksOnly_refl _
  by_cases ht : move.to_.isValid = true
  swap
  · rw [movePiece_rejected b move (Or.inr (Or.inl (by simpa using ht)))] at h
    cases h
    exact marksOnly_refl _
  cases hp : b.getPiece move.from_ with
  | none =>
    rw [movePiece_rejected b move (Or.inr (Or.inr hp))] at h
    cases h
    exact marksOnly_refl _
  | some piece =>
    obtain ⟨b1, b2, b3, b4, h1, h2, h3, h4, _, hb⟩ := movePiece_ok_stages hf ht hp h
    have m1 : b.marksOnly b1 :=
      marksOnly_trans (marksOnly_clearEnPassant b) (marksOnly_relocate h1)
    have m2 : b1.marksOnly b2 := by
      split at h2
      · exact marksOnly_removeEnPassantVictim h2
      · cases h2; exact marksOnly_refl _
    have m3 : b2.marksOnly b3 := by
      split at h3
      · exact marksOnly_castleRook h3
      · cases h3; exact marksOnly_refl _
    have m4 : b3.marksOnly b4 := by
      split at h4
      · exact marksOnly_promote h4
      · cases h4; exact marksOnly_refl _
    have m5 : b4.marksOnly b' := by
      rw [hb]
      split
      · exact marksOnly_setEnPassant _ _
      · exact marksOnly_refl _
    exact marksOnly_trans (marksOnly_trans (marksOnly_trans (marksOnly_trans m1 m2) m3) m4) m5

theorem homeInvariant_of_marksOnly {b b' : ChessBoard} (hm : b.marksOnly b')
    (hb : b.homeInvariant) : b'.homeInvariant := by
  intro q p hq hmoved
  have hv := getPiece_eq_some_valid hq
  rw [getPiece_of_valid _ hv] at hq
  unfold cell at hq
  rcases hm (idx q.row) (idx q.col) with h | h | ⟨p', h, hp'⟩
  · apply hb q p _ hmoved
    rw [getPiece_of_valid _ hv]
    unfold cell
    rw [← h, hq]
  · rw [h] at hq; cases hq
  · rw [h] at hq
    cases hq
    rw [hmoved] at hp'
    cases hp'

theorem homeInvariant_start : setupInitialPosition.homeInvariant := by
  intro q p hq hmoved
  rw [hq]
  cases p
  simp only at hmoved
  subst hmoved
  rfl

theorem homeInvariant_reached {b : ChessBoard} (h : b.ReachedByMoves) : b.homeInvariant := by
  induction h with
  | start => exact homeInvariant_start
  | step _ hmove ih => exact homeInvariant_of_marksOnly (marksOnly_movePiece hmove) ih

theorem start_king_rook_home {q : Position} {c : Color} {t : PieceType}
    (h : setupInitialPosition.getPiece q = some ⟨c, t, false⟩) :
    (t = KING → q.col = 4 ∧ q.row = (if c = WHITE then 0 else 7)) ∧
    (t = ROOK → (q.col = 0 ∨ q.col = 7) ∧ q.row = (if c = WHITE then 0 else 7)) := by
  have hv := (isValid_iff _).1 (getPiece_eq_some_valid h)
  obtain ⟨r, col⟩ := q
  dsimp only at hv
  have hr : r = 0 ∨ r = 1 ∨ r = 2 ∨ r = 3 ∨ r = 4 ∨ r = 5 ∨ r = 6 ∨ r = 7 := by omega
  have hc : col = 0 ∨ col = 1 ∨ col = 2 ∨ col = 3 ∨ col = 4 ∨ col = 5 ∨ col = 6 ∨ col = 7 := by
    omega
  revert h
  rcases hr with rfl | rfl | rfl | rfl | rfl | rfl | rfl | rfl <;>
    rcases hc with rfl | rfl | rfl | rfl | rfl | rfl | rfl | rfl <;>
    cases c <;> cases t <;> decide

end ChessBoard

namespace ChessBoard

theorem legalPlay_of_playLegal :
    ∀ (moves : List Move) (b : ChessBoard) (c : Color) (b' : ChessBoard) (c' : Color),
      b.LegalPlay c → b.playLegal c moves = some (b', c') → b'.LegalPlay c'
  | [], b, c, b', c', h, hp => by
    simp only [playLegal, Option.some.injEq, Prod.mk.injEq] at hp
    obtain ⟨rfl, rfl⟩ := hp
    exact h
  | move :: rest, b, c, b', c', h, hp => by
    unfold playLegal at hp
    cases hL : b.getAllLegalMoves c with
    | error e => rw [hL] at hp; simp at hp
    | ok L =>
      cases hm : b.movePiece move with
      | error e => rw [hL, hm] at hp; simp at hp
      | ok r =>
        rw [hL, hm] at hp
        dsimp only at hp
        by_cases hmem : move ∈ L
        · rw [if_pos hmem] at hp
          exact legalPlay_of_playLegal rest r.2 (enemyOf c) b' c'
            (LegalPlay.step h hL hmem (r := r.1) (by rw [hm])) hp
        · rw [if_neg hmem] at hp
          cases hp

theorem kingHunt_result :
    (setupInitialPosition.playLegal WHITE kingHunt).map
        (fun r => (r.1.kingCount WHITE, r.1.kingCount BLACK, r.2)) = some (1, 0, BLACK) := by
  decide!

end ChessBoard

namespace ChessBoard

/-- A pawn move of two rows is the double step from the starting row over two
empty squares. -/
theorem pawn_double_step {pawn : Piece} {pos : Position} {b : ChessBoard} {m : Move}
    (hm : m ∈ Pawn.getPossibleMoves pawn pos b)
    (hd : (m.to_.row - m.from_.row).natAbs = 2) :
    m = Move.mk pos ⟨pos.row + 2 * (if pawn.color = WHITE then 1 else -1), pos.col⟩ QUEEN ∧
    pos.row = (if pawn.color = WHITE then 1 else 6) ∧
    b.isEmpty ⟨pos.row + (if pawn.color = WHITE then 1 else -1), pos.col⟩ = true ∧
    b.isEmpty ⟨pos.row + 2 * (if pawn.color = WHITE then 1 else -1), pos.col⟩ = true := by
  have hfrom := (Pawn.mem_getPossibleMoves hm).1
  rw [hfrom] at hd
  unfold Pawn.getPossibleMoves at hm
  dsimp only at hm
  generalize hdir : (if pawn.color = WHITE then (1 : Int) else -1) = dir at hm ⊢
  generalize (if pawn.color = WHITE then (1 : Int) else 6) = startRow at hm ⊢
  generalize (if pawn.color = WHITE then (7 : Int) else 0) = promotionRow at hm
  have hdir0 : dir = 1 ∨ dir = -1 := by
    rw [← hdir]; split <;> simp
  rw [Pawn.forwardMoves_eq] at hm
  simp only [List.mem_append] at hm
  rcases hm with ((h | h) | h) | h
  · have := Pawn.oneStepPart_to h
    rw [this] at hd
    dsimp only at hd
    omega
  · have hto := Pawn.twoStepPart_to h
    unfold Pawn.twoStepPart at h
    split at h
    · rename_i he
      simp only [List.mem_singleton] at h
      exact ⟨h, he.2.1, he.1, he.2.2⟩
    · simp at h
  · have := Pawn.captureMoves_to h
    rw [this] at hd
    dsimp only at hd
    omega
  · have := Pawn.captureMoves_to h
    rw [this] at hd
    dsimp only at hd
    omega

/-- The position after a pawn's double step: the flag is set on the square the
pawn passed, that square is empty, and the pawn stands behind it. -/
theorem double_step_result {b b' : ChessBoard} {pawn : Piece} {m : Move} {r : Bool}
    (hp : b.getPiece m.from_ = some pawn) (hk : pawn.type = PAWN)
    (hm : m ∈ Pawn.getPossibleMoves pawn m.from_ b)
    (hd : (m.to_.row - m.from_.row).natAbs = 2)
    (h : b.movePiece m = Except.ok (r, b')) :
    m.from_.row = (if pawn.color = WHITE then 1 else 6) ∧
    b'.enPassantTarget = ⟨m.from_.row + (if pawn.color = WHITE then 1 else -1), m.from_.col⟩ ∧
    b'.isEmpty ⟨m.from_.row + (if pawn.color = WHITE then 1 else -1), m.from_.col⟩ = true ∧
    b'.getPiece ⟨m.from_.row + 2 * (if pawn.color = WHITE then 1 else -1), m.from_.col⟩ =
      some { pawn with hasMoved := true } := by
  obtain ⟨hmeq, hstart, he1, he2⟩ := pawn_double_step hm hd
  have hf := getPiece_eq_some_valid hp
  have hto : m.to_ = ⟨m.from_.row + 2 * (if pawn.color = WHITE then 1 else -1), m.from_.col⟩ := by
    rw [hmeq]
  have hv1 := ((isEmpty_iff_valid_none _ _).1 he1)
  have hv2 := ((isEmpty_iff_valid_none _ _).1 he2)
  have ht : m.to_.isValid = true := by rw [hto]; exact hv2.1
  generalize hdir : (if pawn.color = WHITE then (1 : Int) else -1) = dir at hto hv1 hv2 he1 he2 ⊢
  have hdir0 : dir = 1 ∨ dir = -1 := by
    rw [← hdir]; split <;> simp
  have hne : m.from_ ≠ m.to_ := by
    intro e
    have := congrArg Position.row e
    rw [hto] at this
    dsimp only at this
    omega
  have hnft : (Position.mk (m.from_.row + dir) m.from_.col) ≠ m.to_ := by
    rw [hto]; intro e
    have := congrArg Position.row e
    dsimp only at this
    omega
  have hnff : (Position.mk (m.from_.row + dir) m.from_.col) ≠ m.from_ := by
    intro e
    have := congrArg Position.row e
    dsimp only at this
    omega
  obtain ⟨b1, b2, b3, b4, h1, h2, h3, h4, _, hb⟩ := movePiece_ok_stages hf ht hp h
  obtain ⟨b1', hb1', hcells⟩ := relocate_ok b.clearEnPassant m pawn hf ht hne
    (by simpa [getPiece, cell, clearEnPassant] using hp)
  rw [hb1'] at h1
  cases h1
  have hc1 : ∀ q, b1.getPiece q =
      if q = m.to_ then some { pawn with hasMoved := true }
      else if q = m.from_ then none else b.getPiece q := hcells
  have hvrow : (if pawn.color = WHITE then m.to_.row - 1 else m.to_.row + 1) =
      m.from_.row + dir := by
    rw [hto, ← hdir]
    dsimp only
    split <;> omega
  have hb2 : b2.getPiece m.to_ = some { pawn with hasMoved := true } ∧
      b2.getPiece ⟨m.from_.row + dir, m.from_.col⟩ = none := by
    have hinter1 : b1.getPiece ⟨m.from_.row + dir, m.from_.col⟩ = none := by
      rw [hc1, if_neg hnft, if_neg hnff]
      exact hv1.2
    split at h2
    · have hvic : 0 ≤ (if pawn.color = WHITE then m.to_.row - 1 else m.to_.row + 1) ∧
          (if pawn.color = WHITE then m.to_.row - 1 else m.to_.row + 1) < 8 := by
        rw [hvrow]
        have := (isValid_iff _).1 hv1.1
        exact ⟨this.1, this.2.1⟩
      obtain ⟨b2', hb2', hc2⟩ := removeEnPassantVictim_cells b1 pawn m ht hvic
      rw [hb2'] at h2
      cases h2
      have htcol : m.to_.col = m.from_.col := by rw [hto]
      constructor
      · rw [hc2, hvrow, htcol, if_neg (Ne.symm hnft), hc1, if_pos rfl]
      · rw [hc2, hvrow, htcol, if_pos rfl]
    · cases h2
      exact ⟨by rw [hc1, if_pos rfl], hinter1⟩
  have hcast : isCastlingOf pawn m = false := by simp [isCastlingOf, hk]
  have hstart' : m.from_.row = 1 ∧ dir = 1 ∧ pawn.color = WHITE ∨
      m.from_.row = 6 ∧ dir = -1 ∧ pawn.color ≠ WHITE := by
    by_cases hc : pawn.color = WHITE
    · rw [if_pos hc] at hstart hdir
      exact Or.inl ⟨hstart, hdir.symm, hc⟩
    · rw [if_neg hc] at hstart hdir
      exact Or.inr ⟨hstart, hdir.symm, hc⟩
  have hpromo : isPromotionOf pawn m = false := by
    unfold isPromotionOf
    rw [hto]
    dsimp only
    rcases hstart' with ⟨h1, h2, h3⟩ | ⟨h1, h2, h3⟩
    · rw [h1, h2]; simp
    · rw [h1, h2]; simp
  have hdouble : setsEnPassantOf pawn m = true := by
    simp [setsEnPassantOf, hpromo, isDoubleStepOf, hk, hd]
  rw [hcast] at h3
  rw [hpromo] at h4
  simp only [Bool.false_eq_true, if_false, Except.ok.injEq] at h3 h4
  subst h3 h4
  rw [hdouble, if_pos rfl] at hb
  have htarget : Int.tdiv (m.from_.row + m.to_.row) 2 = m.from_.row + dir := by
    rw [hto]
    dsimp only
    rcases hstart' with ⟨h1, h2, _⟩ | ⟨h1, h2, _⟩ <;> rw [h1, h2] <;> decide
  subst hb
  refine ⟨hstart, ?_, ?_, ?_⟩
  · simp only [setEnPassant, htarget]
  · rw [isEmpty_iff_valid_none]
    exact ⟨hv1.1, by rw [getPiece_setEnPassant]; exact hb2.2⟩
  · rw [getPiece_setEnPassant, ← hto]
    exact hb2.1

theorem slide_to_valid {piece : Piece} {pos : Position} {board : ChessBoard}
    {dirs : List (Int × Int)} {m : Move}
    (h : m ∈ dirs.flatMap (fun dir => addDirectionalMoves piece pos board dir.1 dir.2 8)) :
    m.to_.isValid = true := by
  rw [List.mem_flatMap] at h
  obtain ⟨d, _, hm⟩ := h
  unfold addDirectionalMoves at hm
  rw [mem_addDirectionalLoop] at hm
  obtain ⟨k, _, _, rfl, hv, _⟩ := hm
  exact hv

theorem stepMoves_to_valid {self : Piece} {pos : Position} {board : ChessBoard}
    {offsets : List (Int × Int)} {m : Move} (h : m ∈ stepMoves self pos board offsets) :
    m.to_.isValid = true := by
  rw [mem_stepMoves] at h
  obtain ⟨d, _, rfl, hv, _⟩ := h
  exact hv

theorem pawn_to_valid {self : Piece} {pos : Position} {board : ChessBoard} {m : Move}
    (h : m ∈ Pawn.getPossibleMoves self pos board) : m.to_.isValid = true := by
  unfold Pawn.getPossibleMoves at h
  dsimp only at h
  generalize (if self.color = WHITE then (1 : Int) else -1) = dir at h
  generalize (if self.color = WHITE then (1 : Int) else 6) = startRow at h
  generalize (if self.color = WHITE then (7 : Int) else 0) = promotionRow at h
  rw [Pawn.forwardMoves_eq] at h
  simp only [List.mem_append] at h
  rcases h with ((h | h) | h) | h
  · have hto := Pawn.oneStepPart_to h
    unfold Pawn.oneStepPart at h
    split at h
    · rename_i he
      rw [hto]
      exact ((isEmpty_iff_valid_none _ _).1 he).1
    · simp at h
  · have hto := Pawn.twoStepPart_to h
    unfold Pawn.twoStepPart at h
    split at h
    · rename_i he
      rw [hto]
      exact ((isEmpty_iff_valid_none _ _).1 he.2.2).1
    · simp at h
  · exact (Pawn.mem_captureMoves h).2.2.1
  · exact (Pawn.mem_captureMoves h).2.2.1

/-- The destination of a generated move is on the board, provided a king that
has not moved stands on file 4. -/
theorem generated_to_valid {piece : Piece} {pos : Position} {b : ChessBoard} {m : Move}
    (hpos : pos.isValid = true)
    (hking : piece.type = KING → piece.hasMoved = false → pos.col = 4)
    (h : m ∈ piece.getPossibleMoves pos b) : m.to_.isValid = true := by
  unfold Piece.getPossibleMoves at h
  split at h
  · exact pawn_to_valid h
  · exact slide_to_valid h
  · exact stepMoves_to_valid h
  · exact slide_to_valid h
  · exact slide_to_valid h
  · rename_i hk
    unfold King.getPossibleMoves at h
    rw [List.mem_append, mem_king_castlePart] at h
    have hp' := (isValid_iff _).1 hpos
    rcases h with h | ⟨h1, _, rfl⟩ | ⟨h1, _, rfl⟩
    · exact stepMoves_to_valid h
    · have := hking hk h1
      rw [isValid_iff]
      dsimp only
      omega
    · have := hking hk h1
      rw [isValid_iff]
      dsimp only
      omega

theorem reached_of_legalPlay {b : ChessBoard} {c : Color} (h : b.LegalPlay c) :
    b.ReachedByMoves := by
  induction h with
  | start => exact ReachedByMoves.start
  | step _ _ _ hmove ih => exact ReachedByMoves.step ih hmove

/-- In a position reached from the start, a king that has not moved stands on
file 4. -/
theorem unmoved_king_file {b : ChessBoard} (h : b.ReachedByMoves) {pos : Position}
    {piece : Piece} (hp : b.getPiece pos = some piece) :
    piece.type = KING → piece.hasMoved = false → pos.col = 4 := by
  intro hk hm
  exact ((start_king_rook_home (homeInvariant_reached h pos piece hp hm)).1 hk).1

end ChessBoard

namespace ChessBoard

/-- What the body of the scan of `isSquareAttacked` answers at one cell. -/
theorem attacksFrom_iff (b : ChessBoard) (pos : Position) (c : Color) (mode : Bool)
    {piecePos : Position} (hv : piecePos.isValid = true) :
    b.attacksFrom pos c mode piecePos = true ↔
      ∃ piece, b.getPiece piecePos = some piece ∧ piece.color = c ∧
        ((piece.type = PAWN ∧
            (Position.mk (piecePos.row + (if c = WHITE then 1 else -1)) (piecePos.col - 1) = pos ∨
             Position.mk (piecePos.row + (if c = WHITE then 1 else -1)) (piecePos.col + 1) = pos)) ∨
         (piece.type = KING ∧ mode = true ∧
            ∃ d ∈ queenDirections, Position.mk (piecePos.row + d.1) (piecePos.col + d.2) = pos) ∨
         (piece.type ≠ PAWN ∧ piece.type ≠ KING ∧
            ∃ m ∈ b.attackerMoves piece piecePos, m.to_ = pos)) := by
  unfold attacksFrom
  rw [← getPiece_of_valid b hv]
  cases hp : b.getPiece piecePos with
  | none => simp
  | some piece =>
    dsimp only
    by_cases hc : piece.color = c
    swap
    · rw [if_neg hc]
      simp [hc]
    rw [if_pos hc]
    by_cases hk : piece.type = PAWN
    · rw [if_pos hk]
      simp [hk, hc]
    rw [if_neg hk]
    by_cases hking : piece.type = KING
    · cases mode
      · simp [hking, hc]
      · simp [hking, hc]
    · simp [hking, hk, hc]

end ChessBoard

namespace ChessBoard

/-- The answer of `isSquareAttacked` in either mode, by the piece that gives
it: only the generators of rook, knight, bishop and queen are consulted. -/
theorem isSquareAttacked_iff (b : ChessBoard) (pos : Position) (c : Color) (mode : Bool) :
    b.isSquareAttacked pos c mode = true ↔
      ∃ piecePos piece, b.getPiece piecePos = some piece ∧ piece.color = c ∧
        ((piece.type = PAWN ∧ pos.row = piecePos.row + (if c = WHITE then 1 else -1) ∧
            (pos.col = piecePos.col - 1 ∨ pos.col = piecePos.col + 1)) ∨
         (piece.type = KING ∧ mode = true ∧ pos ≠ piecePos ∧
            (pos.row - piecePos.row).natAbs ≤ 1 ∧ (pos.col - piecePos.col).natAbs ≤ 1) ∨
         (piece.type = ROOK ∧ ∃ m ∈ Rook.getPossibleMoves piece piecePos b, m.to_ = pos) ∨
         (piece.type = KNIGHT ∧ ∃ m ∈ Knight.getPossibleMoves piece piecePos b, m.to_ = pos) ∨
         (piece.type = BISHOP ∧ ∃ m ∈ Bishop.getPossibleMoves piece piecePos b, m.to_ = pos) ∨
         (piece.type = QUEEN ∧ ∃ m ∈ Queen.getPossibleMoves piece piecePos b, m.to_ = pos)) := by
  unfold isSquareAttacked
  simp only [List.any_eq_true, mem_allSquares]
  have hadj : ∀ piecePos : Position,
      (∃ d ∈ queenDirections, Position.mk (piecePos.row + d.1) (piecePos.col + d.2) = pos) ↔
        (pos ≠ piecePos ∧ (pos.row - piecePos.row).natAbs ≤ 1 ∧
          (pos.col - piecePos.col).natAbs ≤ 1) := by
    intro piecePos
    obtain ⟨pr, pc⟩ := pos
    obtain ⟨qr, qc⟩ := piecePos
    constructor
    · rintro ⟨⟨dr, dc⟩, hd, he⟩
      rw [mem_queenDirections] at hd
      simp only [Position.mk.injEq] at he
      simp only [ne_eq, Position.mk.injEq]
      omega
    · rintro ⟨hne, h1, h2⟩
      simp only [ne_eq, Position.mk.injEq] at hne
      dsimp only at h1 h2
      refine ⟨(pr - qr, pc - qc), ?_, ?_⟩
      · rw [mem_queenDirections]
        omega
      · simp
  have hgen : ∀ (piece : Piece) (piecePos : Position),
      (piece.type ≠ PAWN ∧ piece.type ≠ KING ∧
          ∃ m ∈ b.attackerMoves piece piecePos, m.to_ = pos) ↔
        ((piece.type = ROOK ∧ ∃ m ∈ Rook.getPossibleMoves piece piecePos b, m.to_ = pos) ∨
         (piece.type = KNIGHT ∧ ∃ m ∈ Knight.getPossibleMoves piece piecePos b, m.to_ = pos) ∨
         (piece.type = BISHOP ∧ ∃ m ∈ Bishop.getPossibleMoves piece piecePos b, m.to_ = pos) ∨
         (piece.type = QUEEN ∧ ∃ m ∈ Queen.getPossibleMoves piece piecePos b, m.to_ = pos)) := by
    intro piece piecePos
    unfold attackerMoves
    cases piece.type <;> simp
  constructor
  · rintro ⟨piecePos, hv, h⟩
    obtain ⟨piece, hp, hc, h⟩ := (attacksFrom_iff b pos c mode hv).1 h
    refine ⟨piecePos, piece, hp, hc, ?_⟩
    rcases h with ⟨hk, h⟩ | ⟨hk, hm, h⟩ | h
    · left
      refine ⟨hk, ?_⟩
      rcases h with h | h <;> subst h <;> simp
    · right; left
      exact ⟨hk, hm, (hadj piecePos).1 h⟩
    · right; right
      exact (hgen piece piecePos).1 h
  · rintro ⟨piecePos, piece, hp, hc, h⟩
    have hv := getPiece_eq_some_valid hp
    refine ⟨piecePos, hv, (attacksFrom_iff b pos c mode hv).2 ⟨piece, hp, hc, ?_⟩⟩
    rcases h with ⟨hk, hrow, hcol⟩ | ⟨hk, hm, h⟩ | h
    · left
      refine ⟨hk, ?_⟩
      obtain ⟨pr, pc⟩ := pos
      simp only [Position.mk.injEq]
      dsimp only at hrow hcol
      rcases hcol with hcol | hcol
      · exact Or.inl ⟨hrow.symm, hcol.symm⟩
      · exact Or.inr ⟨hrow.symm, hcol.symm⟩
    · right; left
      exact ⟨hk, hm, (hadj piecePos).2 h⟩
    · right; right
      exact (hgen piece piecePos).2 h

theorem isCheckmate_returns {b : ChessBoard} {c : Color} {L : List Move}
    (h : b.getAllLegalMoves c = Except.ok L) :
    (∃ v, b.isCheckmate c = Except.ok v) ∧ (∃ v, b.isStalemate c = Except.ok v) := by
  unfold isCheckmate isStalemate
  rw [h]
  cases b.isInCheck c <;> simp [Except.bind]

end ChessBoard

namespace PtrBoard

theorem view_cell (B : PtrBoard) (s : Store) (row col : Int) :
    (B.view s).cell row col = (B.cell row col).bind (fun a => s[a]?) := rfl

theorem view_setCell (B : PtrBoard) (s : Store) (row col : Int) (v : Option Nat) :
    (B.setCell row col v).view s = (B.view s).setCell row col (v.bind (fun a => s[a]?)) := by
  unfold view setCell ChessBoard.setCell
  simp only [ChessBoard.mk.injEq, and_self, and_true]
  funext r c
  split <;> rfl

theorem view_clearEnPassant (B : PtrBoard) (s : Store) :
    B.clearEnPassant.view s = (B.view s).clearEnPassant := rfl

theorem view_setEnPassant (B : PtrBoard) (s : Store) (p : Position) :
    (B.setEnPassant p).view s = (B.view s).setEnPassant p := rfl

/-- A store that keeps the objects the grid points to shows the same board. -/
theorem view_agree {B : PtrBoard} {s s' : Store} {n : Nat}
    (hlt : ∀ r c a, B.board r c = some a → a < n) (h : Store.agreeBelow n s s') :
    B.view s' = B.view s := by
  unfold view
  simp only [ChessBoard.mk.injEq, and_self, and_true]
  funext r c
  cases hb : B.board r c with
  | none => rfl
  | some a => exact h a (hlt r c a hb)

/-- A write through the pointer of a cell changes that cell of the board and
no other, the cells owning different objects. -/
theorem view_set {B : PtrBoard} {s : Store} (hown : B.owns s) {row col : Int} {a : Nat}
    (hc : B.cell row col = some a) (p' : Piece) :
    B.view (s.set a p') = (B.view s).setCell row col (some p') := by
  unfold view ChessBoard.setCell
  simp only [ChessBoard.mk.injEq, and_self, and_true]
  funext r c
  by_cases hrc : r = idx row ∧ c = idx col
  · rw [if_pos hrc]
    obtain ⟨rfl, rfl⟩ := hrc
    unfold cell at hc
    rw [hc]
    simp only [Option.some_bind]
    have := hown.1 _ _ _ hc
    rw [List.getElem?_set_self this]
  · rw [if_neg hrc]
    cases hb : B.board r c with
    | none => rfl
    | some a' =>
      simp only [Option.some_bind]
      have hne : a ≠ a' := by
        rintro rfl
        exact hrc ((hown.2 _ _ _ _ _ hb hc))
      rw [List.getElem?_set_ne hne]

theorem agreeBelow_refl (n : Nat) (s : Store) : Store.agreeBelow n s s := fun _ _ => rfl

theorem agreeBelow_trans {n : Nat} {s1 s2 s3 : Store} (h12 : Store.agreeBelow n s1 s2)
    (h23 : Store.agreeBelow n s2 s3) : Store.agreeBelow n s1 s3 :=
  fun a ha => (h23 a ha).trans (h12 a ha)

theorem agreeBelow_set {n : Nat} {s : Store} {a : Nat} (ha : n ≤ a) (p : Piece) :
    Store.agreeBelow n s (s.set a p) := by
  intro a' ha'
  rw [List.getElem?_set_ne (by omega)]

theorem agreeBelow_append {n : Nat} {s : Store} (hn : n ≤ s.length) (p : Piece) :
    Store.agreeBelow n s (s ++ [p]) := by
  intro a ha
  rw [List.getElem?_append_left (by omega)]

theorem agreeBelow_mono {n m : Nat} {s s' : Store} (hnm : n ≤ m) (h : Store.agreeBelow m s s') :
    Store.agreeBelow n s s' := fun a ha => h a (by omega)

theorem owns_setCell_none {B : PtrBoard} {s : Store} (h : B.owns s) (row col : Int) :
    (B.setCell row col none).owns s := by
  constructor
  · intro r c a hb
    simp only [setCell] at hb
    split at hb
    · cases hb
    · exact h.1 r c a hb
  · intro r c r' c' a hb hb'
    simp only [setCell] at hb hb'
    split at hb
    · cases hb
    · split at hb'
      · cases hb'
      · exact h.2 r c r' c' a hb hb'

/-- Moving the pointer of one cell to another cell keeps ownership. -/
theorem owns_movePtr {B : PtrBoard} {s : Store} (h : B.owns s) (row col row' col' : Int) :
    ((B.setCell row col none).setCell row' col' (B.cell row col)).owns s := by
  constructor
  · intro r c a hb
    simp only [setCell, cell] at hb
    split at hb
    · exact h.1 _ _ a hb
    · split at hb
      · cases hb
      · exact h.1 r c a hb
  · intro r c r' c' a hb hb'
    simp only [setCell, cell] at hb hb'
    split at hb
    · rename_i h1
      split at hb'
      · rename_i h2
        exact ⟨h1.1.trans h2.1.symm, h1.2.trans h2.2.symm⟩
      · split at hb'
        · cases hb'
        · rename_i h2 h3
          exact absurd (h.2 _ _ _ _ a hb' hb) (by
            intro hh; exact h3 hh)
    · split at hb
      · cases hb
      · rename_i h1 h2
        split at hb'
        · exact absurd (h.2 _ _ _ _ a hb hb') (by
            intro hh; exact h2 hh)
        · split at hb'
          · cases hb'
          · exact h.2 r c r' c' a hb hb'

theorem owns_set {B : PtrBoard} {s : Store} (h : B.owns s) (a : Nat) (p : Piece) :
    B.owns (s.set a p) := by
  refine ⟨fun r c a' hb => ?_, h.2⟩
  rw [List.length_set]
  exact h.1 r c a' hb

theorem above_setCell_none {B : PtrBoard} {n : Nat} (h : B.above n) (row col : Int) :
    (B.setCell row col none).above n := by
  intro r c a hb
  simp only [setCell] at hb
  split at hb
  · cases hb
  · exact h r c a hb

theorem above_movePtr {B : PtrBoard} {n : Nat} (h : B.above n) (row col row' col' : Int) :
    ((B.setCell row col none).setCell row' col' (B.cell row col)).above n := by
  intro r c a hb
  simp only [setCell, cell] at hb
  split at hb
  · exact h _ _ a hb
  · split at hb
    · cases hb
    · exact h r c a hb

end PtrBoard
namespace PtrBoard

/-- The statement `p->hasMoved = true` on a pointer of the grid: its effect on
the board read through the pointers, and what it leaves alone. -/
theorem markMoved_sim {B : PtrBoard} {s : Store} {n : Nat} (hown : B.owns s) (habove : B.above n)
    (row col : Int) :
    (markMoved s B row col).map (fun s' => B.view s') = (B.view s).markMoved row col ∧
    ∀ s', markMoved s B row col = Except.ok s' →
      B.owns s' ∧ Store.agreeBelow n s s' ∧ s'.length = s.length := by
  unfold markMoved ChessBoard.markMoved
  rw [view_cell]
  cases hc : B.cell row col with
  | none =>
    refine ⟨rfl, fun s' h => ?_⟩
    cases h
  | some a =>
    have hlt : a < s.length := hown.1 _ _ _ hc
    have hsome : s[a]? = some s[a] := List.getElem?_eq_getElem hlt
    simp only [Option.some_bind, hsome]
    refine ⟨?_, fun s' h => ?_⟩
    · simp only [Except.map]
      rw [view_set hown hc]
    · cases h
      exact ⟨owns_set hown _ _, agreeBelow_set (habove _ _ _ hc) _, List.length_set _ _ _⟩

end PtrBoard
namespace PtrBoard

theorem relocate_sim {B : PtrBoard} {s : Store} {n : Nat} (hown : B.owns s) (habove : B.above n)
    (move : Move) :
    (relocate s B move).map (fun st => st.2.view st.1) = (B.view s).relocate move ∧
    ∀ s' B', relocate s B move = Except.ok (s', B') →
      B'.owns s' ∧ B'.above n ∧ Store.agreeBelow n s s' ∧ s'.length = s.length := by
  unfold relocate ChessBoard.relocate
  dsimp only
  have hown3 := owns_movePtr (owns_setCell_none hown move.to_.row move.to_.col)
    move.from_.row move.from_.col move.to_.row move.to_.col
  have habove3 := above_movePtr (above_setCell_none habove move.to_.row move.to_.col)
    move.from_.row move.from_.col move.to_.row move.to_.col
  have hview : ((((B.setCell move.to_.row move.to_.col none).setCell move.from_.row move.from_.col
      none).setCell move.to_.row move.to_.col
        ((B.setCell move.to_.row move.to_.col none).cell move.from_.row move.from_.col)).view s) =
      ((((B.view s).setCell move.to_.row move.to_.col none).setCell move.from_.row
        move.from_.col none).setCell move.to_.row move.to_.col
          (((B.view s).setCell move.to_.row move.to_.col none).cell move.from_.row
            move.from_.col)) := by
    rw [view_setCell, view_setCell, view_setCell, ← view_cell, view_setCell]
    rfl
  obtain ⟨h1, h2⟩ := markMoved_sim hown3 habove3 move.to_.row move.to_.col
  rw [hview] at h1
  rw [← h1]
  constructor
  · cases markMoved s _ move.to_.row move.to_.col <;> rfl
  · intro s' B' h
    cases hm : markMoved s (((B.setCell move.to_.row move.to_.col none).setCell move.from_.row
      move.from_.col none).setCell move.to_.row move.to_.col
        ((B.setCell move.to_.row move.to_.col none).cell move.from_.row move.from_.col))
        move.to_.row move.to_.col with
    | error e => rw [hm] at h; cases h
    | ok s1 =>
      rw [hm] at h
      simp only [Except.bind, Except.ok.injEq, Prod.mk.injEq] at h
      obtain ⟨rfl, rfl⟩ := h
      obtain ⟨g1, g2, g3⟩ := h2 s1 hm
      exact ⟨g1, habove3, g2, g3⟩

theorem removeEnPassantVictim_sim {B : PtrBoard} {s : Store} {n : Nat} (hown : B.owns s)
    (habove : B.above n) (piece : Piece) (move : Move) :
    (removeEnPassantVictim B piece move).map (fun B' => B'.view s) =
      (B.view s).removeEnPassantVictim piece move ∧
    ∀ B', removeEnPassantVictim B piece move = Except.ok B' → B'.owns s ∧ B'.above n := by
  unfold removeEnPassantVictim ChessBoard.removeEnPassantVictim
  dsimp only
  generalize (if piece.color = WHITE then move.to_.row - 1 else move.to_.row + 1) = row
  by_cases hc : (decide (row ≥ 0) && decide (row < 8)) = true
  · rw [if_pos hc, if_pos hc]
    refine ⟨?_, fun B' h => ?_⟩
    · simp only [Except.map]
      rw [view_setCell]
      rfl
    · cases h
      exact ⟨owns_setCell_none hown _ _, above_setCell_none habove _ _⟩
  · rw [if_neg hc, if_neg hc]
    exact ⟨rfl, fun B' h => by cases h⟩

theorem castleRook_sim {B : PtrBoard} {s : Store} {n : Nat} (hown : B.owns s) (habove : B.above n)
    (move : Move) :
    (castleRook s B move).map (fun st => st.2.view st.1) = (B.view s).castleRook move ∧
    ∀ s' B', castleRook s B move = Except.ok (s', B') →
      B'.owns s' ∧ B'.above n ∧ Store.agreeBelow n s s' ∧ s'.length = s.length := by
  unfold castleRook ChessBoard.castleRook
  dsimp only
  generalize (if move.to_.col > move.from_.col then (7 : Int) else 0) = rookFromCol
  generalize (if move.to_.col > move.from_.col then (5 : Int) else 3) = rookToCol
  have hown2 := owns_movePtr hown move.from_.row rookFromCol move.from_.row rookToCol
  have habove2 := above_movePtr habove move.from_.row rookFromCol move.from_.row rookToCol
  have hview : (((B.setCell move.from_.row rookFromCol none).setCell move.from_.row rookToCol
      (B.cell move.from_.row rookFromCol)).view s) =
      (((B.view s).setCell move.from_.row rookFromCol none).setCell move.from_.row rookToCol
        ((B.view s).cell move.from_.row rookFromCol)) := by
    rw [view_setCell, view_setCell, ← view_cell]
    rfl
  obtain ⟨h1, h2⟩ := markMoved_sim hown2 habove2 move.from_.row rookToCol
  rw [hview] at h1
  rw [← h1]
  constructor
  · cases markMoved s _ move.from_.row rookToCol <;> rfl
  · intro s' B' h
    cases hm : markMoved s ((B.setCell move.from_.row rookFromCol none).setCell move.from_.row
      rookToCol (B.cell move.from_.row rookFromCol)) move.from_.row rookToCol with
    | error e => rw [hm] at h; cases h
    | ok s1 =>
      rw [hm] at h
      simp only [Except.bind, Except.ok.injEq, Prod.mk.injEq] at h
      obtain ⟨rfl, rfl⟩ := h
      obtain ⟨g1, g2, g3⟩ := h2 s1 hm
      exact ⟨g1, habove2, g2, g3⟩

theorem owns_fresh {B : PtrBoard} {s : Store} (hown : B.owns s) (row col : Int) (p : Piece) :
    (B.setCell row col (some s.length)).owns (s ++ [p]) := by
  constructor
  · intro r c a hb
    simp only [setCell] at hb
    rw [List.length_append, List.length_singleton]
    split at hb
    · cases hb; omega
    · have := hown.1 r c a hb
      omega
  · intro r c r' c' a hb hb'
    simp only [setCell] at hb hb'
    split at hb
    · rename_i h1
      cases hb
      split at hb'
      · rename_i h2
        exact ⟨h1.1.trans h2.1.symm, h1.2.trans h2.2.symm⟩
      · have := hown.1 _ _ _ hb'
        omega
    · split at hb'
      · cases hb'
        have := hown.1 _ _ _ hb
        omega
      · exact hown.2 r c r' c' a hb hb'

theorem above_fresh {B : PtrBoard} {s : Store} {n : Nat} (habove : B.above n)
    (hn : n ≤ s.length) (row col : Int) : (B.setCell row col (some s.length)).above n := by
  intro r c a hb
  simp only [setCell] at hb
  split at hb
  · cases hb; exact hn
  · exact habove r c a hb

theorem promote_sim {B : PtrBoard} {s : Store} {n : Nat} (hown : B.owns s) (habove : B.above n)
    (hn : n ≤ s.length) (move : Move) :
    (promote s B move).map (fun st => st.2.view st.1) = (B.view s).promote move ∧
    ∀ s' B', promote s B move = Except.ok (s', B') →
      B'.owns s' ∧ B'.above n ∧ Store.agreeBelow n s s' ∧ s.length ≤ s'.length := by
  unfold promote ChessBoard.promote
  rw [view_cell]
  cases hc : B.cell move.to_.row move.to_.col with
  | none => exact ⟨rfl, fun s' B' h => by cases h⟩
  | some a =>
    have hlt : a < s.length := hown.1 _ _ _ hc
    have hsome : s[a]? = some s[a] := List.getElem?_eq_getElem hlt
    simp only [Option.some_bind, hsome]
    generalize hnew : Piece.new s[a].color (ChessBoard.promotedType move.promotionPiece) = newPiece
    have hown1 := owns_fresh hown move.to_.row move.to_.col newPiece
    have habove1 := above_fresh habove hn move.to_.row move.to_.col
    have hview : (B.setCell move.to_.row move.to_.col (some s.length)).view (s ++ [newPiece]) =
        (B.view s).setCell move.to_.row move.to_.col (some newPiece) := by
      rw [view_setCell, view_agree hown.1 (agreeBelow_append (le_refl _) newPiece)]
      simp
    obtain ⟨h1, h2⟩ := markMoved_sim hown1 habove1 move.to_.row move.to_.col
    rw [hview] at h1
    rw [← h1]
    constructor
    · cases markMoved (s ++ [newPiece]) _ move.to_.row move.to_.col <;> rfl
    · intro s' B' h
      cases hm : markMoved (s ++ [newPiece]) (B.setCell move.to_.row move.to_.col (some s.length))
        move.to_.row move.to_.col with
      | error e => rw [hm] at h; cases h
      | ok s1 =>
        rw [hm] at h
        simp only [Except.bind, Except.ok.injEq, Prod.mk.injEq] at h
        obtain ⟨rfl, rfl⟩ := h
        obtain ⟨g1, g2, g3⟩ := h2 s1 hm
        refine ⟨g1, habove1, agreeBelow_trans (agreeBelow_append hn newPiece) g2, ?_⟩
        rw [g3, List.length_append]
        omega

end PtrBoard

namespace PtrBoard

theorem refines_ok {n : Nat} {s : Store} {B : PtrBoard} (hown : B.owns s) (habove : B.above n) :
    Refines n (Except.ok (s, B)) s (Except.ok (B.view s)) := by
  refine ⟨rfl, fun s' B' h => ?_⟩
  cases h
  exact ⟨hown, habove, agreeBelow_refl _ _, le_refl _⟩

/-- Steps that refine compose. -/
theorem refines_bind {n : Nat} {s : Store} {x : Except Fault (Store × PtrBoard)}
    {y : Except Fault ChessBoard} {f : Store × PtrBoard → Except Fault (Store × PtrBoard)}
    {g : ChessBoard → Except Fault ChessBoard} (hn : n ≤ s.length) (hx : Refines n x s y)
    (hf : ∀ s1 B1, B1.owns s1 → B1.above n → n ≤ s1.length →
      Refines n (f (s1, B1)) s1 (g (B1.view s1))) :
    Refines n (x.bind f) s (y.bind g) := by
  obtain ⟨h1, h2⟩ := hx
  cases hxv : x with
  | error e =>
    rw [hxv] at h1
    rw [← h1]
    exact ⟨rfl, fun s' B' h => by cases h⟩
  | ok st =>
    obtain ⟨s1, B1⟩ := st
    rw [hxv] at h1
    rw [← h1]
    obtain ⟨g1, g2, g3, g4⟩ := h2 s1 B1 hxv
    obtain ⟨k1, k2⟩ := hf s1 B1 g1 g2 (le_trans hn g4)
    refine ⟨k1, fun s' B' h => ?_⟩
    obtain ⟨m1, m2, m3, m4⟩ := k2 s' B' h
    exact ⟨m1, m2, agreeBelow_trans g3 m3, le_trans g4 m4⟩

theorem refines_relocate {B : PtrBoard} {s : Store} {n : Nat} (hown : B.owns s)
    (habove : B.above n) (move : Move) :
    Refines n (relocate s B move) s ((B.view s).relocate move) := by
  obtain ⟨h1, h2⟩ := relocate_sim hown habove move
  refine ⟨h1, fun s' B' h => ?_⟩
  obtain ⟨g1, g2, g3, g4⟩ := h2 s' B' h
  exact ⟨g1, g2, g3, le_of_eq g4.symm⟩

theorem refines_victim {B : PtrBoard} {s : Store} {n : Nat} (hown : B.owns s)
    (habove : B.above n) (piece : Piece) (move : Move) :
    Refines n ((removeEnPassantVictim B piece move).bind fun B2 => Except.ok (s, B2)) s
      ((B.view s).removeEnPassantVictim piece move) := by
  obtain ⟨h1, h2⟩ := removeEnPassantVictim_sim hown habove piece move
  rw [← h1]
  cases hv : removeEnPassantVictim B piece move with
  | error e => exact ⟨rfl, fun s' B' h => by cases h⟩
  | ok B2 =>
    refine ⟨rfl, fun s' B' h => ?_⟩
    cases h
    obtain ⟨g1, g2⟩ := h2 B2 hv
    exact ⟨g1, g2, agreeBelow_refl _ _, le_refl _⟩

theorem refines_castleRook {B : PtrBoard} {s : Store} {n : Nat} (hown : B.owns s)
    (habove : B.above n) (move : Move) :
    Refines n (castleRook s B move) s ((B.view s).castleRook move) := by
  obtain ⟨h1, h2⟩ := castleRook_sim hown habove move
  refine ⟨h1, fun s' B' h => ?_⟩
  obtain ⟨g1, g2, g3, g4⟩ := h2 s' B' h
  exact ⟨g1, g2, g3, le_of_eq g4.symm⟩

theorem refines_promote {B : PtrBoard} {s : Store} {n : Nat} (hown : B.owns s)
    (habove : B.above n) (hn : n ≤ s.length) (move : Move) :
    Refines n (promote s B move) s ((B.view s).promote move) :=
  promote_sim hown habove hn move

theorem refines_ite {n : Nat} {s : Store} {B : PtrBoard} (c : Bool)
    {x : Except Fault (Store × PtrBoard)} {y : Except Fault ChessBoard}
    (hown : B.owns s) (habove : B.above n) (hxy : Refines n x s y) :
    Refines n (if c then x else Except.ok (s, B)) s (if c then y else Except.ok (B.view s)) := by
  cases c
  · exact refines_ok hown habove
  · exact hxy

/-- The four stages of `movePiece` between the classification of the move and
the setting of the en-passant target. -/
theorem refines_stages {B : PtrBoard} {s : Store} {n : Nat} (hown : B.owns s)
    (habove : B.above n) (hn : n ≤ s.length) (piece : Piece) (move : Move) (c1 : Bool) :
    Refines n
      ((relocate s B.clearEnPassant move).bind fun st1 =>
        (if c1 then
            (removeEnPassantVictim st1.2 piece move).bind fun B2 => Except.ok (st1.1, B2)
          else Except.ok st1).bind fun st2 =>
        (if ChessBoard.isCastlingOf piece move then castleRook st2.1 st2.2 move
          else Except.ok st2).bind fun st3 =>
        (if ChessBoard.isPromotionOf piece move then promote st3.1 st3.2 move
          else Except.ok st3))
      s
      (((B.view s).clearEnPassant.relocate move).bind fun b1 =>
        (if c1 then b1.removeEnPassantVictim piece move else Except.ok b1).bind fun b2 =>
        (if ChessBoard.isCastlingOf piece move then b2.castleRook move
          else Except.ok b2).bind fun b3 =>
        (if ChessBoard.isPromotionOf piece move then b3.promote move else Except.ok b3)) := by
  apply refines_bind hn
  · rw [← view_clearEnPassant]
    exact refines_relocate (B := B.clearEnPassant) hown habove move
  intro s1 B1 hown1 habove1 hn1
  apply refines_bind hn1
  · exact refines_ite c1 hown1 habove1 (refines_victim hown1 habove1 piece move)
  intro s2 B2 hown2 habove2 hn2
  apply refines_bind hn2
  · exact refines_ite _ hown2 habove2 (refines_castleRook hown2 habove2 move)
  intro s3 B3 hown3 habove3 hn3
  exact refines_ite _ hown3 habove3 (refines_promote hown3 habove3 hn3 move)

theorem bind4_assoc {α β γ δ ε : Type} (a : Except Fault α) (b : α → Except Fault β)
    (c : β → Except Fault γ) (d : γ → Except Fault δ) (final : δ → Except Fault ε) :
    (a.bind fun s1 => (b s1).bind fun s2 => (c s2).bind fun s3 => (d s3).bind final) =
      (a.bind fun s1 => (b s1).bind fun s2 => (c s2).bind d).bind final := by
  cases a with
  | error e => rfl
  | ok s1 =>
    simp only [Except.bind]
    cases b s1 with
    | error e => rfl
    | ok s2 =>
      simp only [Except.bind]
      cases c s2 <;> rfl

/-- `movePiece` on a grid that owns its objects does what `movePiece` does on
the board read through the pointers, and writes to no object below `n` when the
grid holds addresses from `n` on. -/
theorem movePiece_sim {B : PtrBoard} {s : Store} {n : Nat} (hown : B.owns s)
    (habove : B.above n) (hn : n ≤ s.length) (move : Move) :
    (movePiece s B move).map (fun r => (r.1, r.2.2.view r.2.1)) = (B.view s).movePiece move ∧
    ∀ r s' B', movePiece s B move = Except.ok (r, s', B') →
      B'.owns s' ∧ B'.above n ∧ Store.agreeBelow n s s' ∧ s.length ≤ s'.length := by
  unfold movePiece ChessBoard.movePiece
  by_cases hv : (!move.from_.isValid || !move.to_.isValid) = true
  · rw [if_pos hv, if_pos hv]
    refine ⟨rfl, fun r s' B' h => ?_⟩
    cases h
    exact ⟨hown, habove, agreeBelow_refl _ _, le_refl _⟩
  rw [if_neg hv, if_neg hv]
  cases hp : (B.view s).getPiece move.from_ with
  | none =>
    refine ⟨rfl, fun r s' B' h => ?_⟩
    cases h
    exact ⟨hown, habove, agreeBelow_refl _ _, le_refl _⟩
  | some piece =>
    dsimp only
    obtain ⟨h1, h2⟩ := refines_stages hown habove hn piece move
      ((B.view s).isEnPassantCaptureOf piece move)
    rw [bind4_assoc, bind4_assoc]
    rw [← h1]
    cases hst : ((relocate s B.clearEnPassant move).bind fun st1 =>
        (if (B.view s).isEnPassantCaptureOf piece move then
            (removeEnPassantVictim st1.2 piece move).bind fun B2 => Except.ok (st1.1, B2)
          else Except.ok st1).bind fun st2 =>
        (if ChessBoard.isCastlingOf piece move then castleRook st2.1 st2.2 move
          else Except.ok st2).bind fun st3 =>
        (if ChessBoard.isPromotionOf piece move then promote st3.1 st3.2 move
          else Except.ok st3)) with
    | error e => exact ⟨rfl, fun r s' B' h => by cases h⟩
    | ok st4 =>
      obtain ⟨s4, B4⟩ := st4
      obtain ⟨g1, g2, g3, g4⟩ := h2 s4 B4 hst
      constructor
      · simp only [Except.bind, Except.map]
        split <;> rfl
      · intro r s' B' h
        simp only [Except.bind, Except.ok.injEq, Prod.mk.injEq] at h
        obtain ⟨_, rfl, rfl⟩ := h
        refine ⟨?_, ?_, g3, g4⟩
        · split
          · exact g1
          · exact g1
        · split
          · exact g2
          · exact g2

end PtrBoard

namespace PtrBoard

theorem clone_eq (p : Piece) : p.clone = p := by
  cases p; rfl

theorem allSquares_keys_nodup :
    (allSquares.map (fun p => (idx p.row, idx p.col))).Nodup := by decide

theorem allSquares_keys_all :
    ∀ r c : Fin 8, (r, c) ∈ allSquares.map (fun p => (idx p.row, idx p.col)) := by decide

/-- The loops of `copyFrom` over a list of distinct cells: every object is
cloned into a new slot, the objects present before are left as they were, and
the cells visited own the clones. -/
theorem copyLoop_spec {B : PtrBoard} {s : Store} (hown : B.owns s) :
    ∀ (l : List Position) (s0 : Store) (T0 : PtrBoard),
      Store.agreeBelow s.length s s0 → s.length ≤ s0.length →
      (l.map (fun p => (idx p.row, idx p.col))).Nodup →
      ∃ s1 T, copyLoop B l (s0, T0) = Except.ok (s1, T) ∧
        Store.agreeBelow s0.length s0 s1 ∧ s0.length ≤ s1.length ∧
        T.enPassantTarget = T0.enPassantTarget ∧
        T.enPassantAvailable = T0.enPassantAvailable ∧
        (∀ r c, (r, c) ∉ l.map (fun p => (idx p.row, idx p.col)) →
          T.board r c = T0.board r c) ∧
        (∀ r c, (r, c) ∈ l.map (fun p => (idx p.row, idx p.col)) →
          (T.board r c).bind (fun a => s1[a]?) = (B.board r c).bind (fun a => s[a]?) ∧
          ∀ a, T.board r c = some a → s0.length ≤ a ∧ a < s1.length) ∧
        (∀ r c r' c' a, (r, c) ∈ l.map (fun p => (idx p.row, idx p.col)) →
          (r', c') ∈ l.map (fun p => (idx p.row, idx p.col)) →
          T.board r c = some a → T.board r' c' = some a → r = r' ∧ c = c')
  | [], s0, T0, _, _, _ => by
    refine ⟨s0, T0, rfl, agreeBelow_refl _ _, le_refl _, rfl, rfl, fun _ _ _ => rfl, ?_, ?_⟩
    · intro r c h; simp at h
    · intro r c r' c' a h; simp at h
  | pos :: rest, s0, T0, hag, hlen, hnd => by
    rw [List.map_cons, List.nodup_cons] at hnd
    obtain ⟨hnotin, hnd'⟩ := hnd
    unfold copyLoop copyCell
    dsimp only
    cases hc : B.cell pos.row pos.col with
    | none =>
      dsimp only
      obtain ⟨s1, T, h1, h2, h3, h4, h5, h6, h7, h8⟩ :=
        copyLoop_spec hown rest s0 (T0.setCell pos.row pos.col none) hag hlen hnd'
      have hcell : T.board (idx pos.row) (idx pos.col) = none := by
        rw [h6 _ _ hnotin]
        simp [setCell]
      refine ⟨s1, T, ?_, h2, h3, h4, h5, ?_, ?_, ?_⟩
      · simp only [Except.bind]
        exact h1
      · intro r c hrc
        rw [List.map_cons, List.mem_cons, not_or] at hrc
        rw [h6 r c hrc.2]
        simp only [setCell]
        rw [if_neg]
        intro hh
        exact hrc.1 (Prod.ext hh.1 hh.2)
      · intro r c hrc
        rw [List.map_cons, List.mem_cons] at hrc
        rcases hrc with hrc | hrc
        · cases hrc
          rw [hcell]
          unfold cell at hc
          rw [hc]
          exact ⟨rfl, fun a ha => by cases ha⟩
        · exact h7 r c hrc
      · intro r c r' c' a hrc hrc' hb hb'
        rw [List.map_cons, List.mem_cons] at hrc hrc'
        rcases hrc with hrc | hrc
        · cases hrc
          rw [hcell] at hb
          cases hb
        · rcases hrc' with hrc' | hrc'
          · cases hrc'
            rw [hcell] at hb'
            cases hb'
          · exact h8 r c r' c' a hrc hrc' hb hb'
    | some a =>
      have halt : a < s.length := hown.1 _ _ _ hc
      have hs0 : s0[a]? = some s[a] := by
        rw [hag a halt]
        exact List.getElem?_eq_getElem halt
      dsimp only
      rw [hs0]
      dsimp only
      have hag' : Store.agreeBelow s.length s (s0 ++ [(s[a]).clone]) :=
        agreeBelow_trans hag (agreeBelow_append hlen _)
      have hlen' : s.length ≤ (s0 ++ [(s[a]).clone]).length := by
        rw [List.length_append]; omega
      obtain ⟨s1, T, h1, h2, h3, h4, h5, h6, h7, h8⟩ :=
        copyLoop_spec hown rest (s0 ++ [(s[a]).clone])
          (T0.setCell pos.row pos.col (some s0.length)) hag' hlen' hnd'
      have hl0 : (s0 ++ [(s[a]).clone]).length = s0.length + 1 := by
        rw [List.length_append, List.length_singleton]
      have hcell : T.board (idx pos.row) (idx pos.col) = some s0.length := by
        rw [h6 _ _ hnotin]
        simp [setCell]
      refine ⟨s1, T, ?_, ?_, by omega, h4, h5, ?_, ?_, ?_⟩
      · simp only [Except.bind]
        exact h1
      · exact agreeBelow_trans (agreeBelow_append (le_refl _) _)
          (agreeBelow_mono (by omega) h2)
      · intro r c hrc
        rw [List.map_cons, List.mem_cons, not_or] at hrc
        rw [h6 r c hrc.2]
        simp only [setCell]
        rw [if_neg]
        intro hh
        exact hrc.1 (Prod.ext hh.1 hh.2)
      · intro r c hrc
        rw [List.map_cons, List.mem_cons] at hrc
        rcases hrc with hrc | hrc
        · cases hrc
          rw [hcell]
          unfold cell at hc
          rw [hc]
          constructor
          · simp only [Option.some_bind]
            rw [h2 s0.length (by omega), List.getElem?_append_right (le_refl _)]
            simp [clone_eq, List.getElem?_eq_getElem halt]
          · intro a' ha'
            cases ha'
            omega
        · obtain ⟨g1, g2⟩ := h7 r c hrc
          refine ⟨g1, fun a' ha' => ?_⟩
          have := g2 a' ha'
          omega
      · intro r c r' c' a' hrc hrc' hb hb'
        rw [List.map_cons, List.mem_cons] at hrc hrc'
        rcases hrc with hrc | hrc
        · cases hrc
          rw [hcell] at hb
          cases hb
          rcases hrc' with hrc' | hrc'
          · cases hrc'
            exact ⟨rfl, rfl⟩
          · have := (h7 r' c' hrc').2 _ hb'
            omega
        · rcases hrc' with hrc' | hrc'
          · cases hrc'
            rw [hcell] at hb'
            cases hb'
            have := (h7 r c hrc).2 _ hb
            omega
          · exact h8 r c r' c' a' hrc hrc' hb hb'

/-- `copyFrom` on a grid that owns its objects returns; the copy shows the same
board as the original, owns objects of its own, all of them new, and the
objects present before the call are as they were. -/
theorem copyFrom_spec {B : PtrBoard} {s : Store} (hown : B.owns s) (self : PtrBoard) :
    ∃ s1 T, copyFrom s self B = Except.ok (s1, T) ∧ T.view s1 = B.view s ∧
      T.owns s1 ∧ T.above s.length ∧ Store.agreeBelow s.length s s1 ∧
      s.length ≤ s1.length := by
  obtain ⟨s1, T, h1, h2, h3, _, _, _, h7, h8⟩ :=
    copyLoop_spec hown allSquares s self (agreeBelow_refl _ _) (le_refl _) allSquares_keys_nodup
  unfold copyFrom
  rw [h1]
  refine ⟨s1, _, rfl, ?_, ?_, ?_, h2, h3⟩
  · unfold view
    simp only [ChessBoard.mk.injEq, and_self, and_true]
    funext r c
    exact (h7 r c (allSquares_keys_all r c)).1
  · constructor
    · intro r c a hb
      exact ((h7 r c (allSquares_keys_all r c)).2 a hb).2
    · intro r c r' c' a hb hb'
      exact h8 r c r' c' a (allSquares_keys_all r c) (allSquares_keys_all r' c') hb hb'
  · intro r c a hb
    exact ((h7 r c (allSquares_keys_all r c)).2 a hb).1

end PtrBoard

namespace PtrBoard

theorem owns_mono {B : PtrBoard} {s s' : Store} (h : B.owns s) (hlen : s.length ≤ s'.length) :
    B.owns s' :=
  ⟨fun r c a hb => lt_of_lt_of_le (h.1 r c a hb) hlen, h.2⟩

/-- `wouldBeInCheck` on a grid that owns its objects answers as
`wouldBeInCheck` does on the board read through the pointers, and the board it
is called on is the same before and after. -/
theorem wouldBeInCheck_sim {B : PtrBoard} {s : Store} (hown : B.owns s) (move : Move)
    (c : Color) :
    (wouldBeInCheck s B move c).map Prod.fst = (B.view s).wouldBeInCheck move c ∧
    ∀ v s', wouldBeInCheck s B move c = Except.ok (v, s') →
      B.view s' = B.view s ∧ B.owns s' ∧ Store.agreeBelow s.length s s' ∧
        s.length ≤ s'.length := by
  obtain ⟨s1, T, h1, h2, h3, h4, h5, h6⟩ := copyFrom_spec hown null
  obtain ⟨g1, g2⟩ := movePiece_sim h3 h4 h6 move
  rw [h2] at g1
  unfold wouldBeInCheck
  rw [ChessBoard.wouldBeInCheck_eq, h1, ← g1]
  simp only [Except.bind]
  cases hm : movePiece s1 T move with
  | error e => exact ⟨rfl, fun v s' h => by cases h⟩
  | ok r =>
    obtain ⟨r1, s2, T2⟩ := r
    refine ⟨rfl, fun v s' h => ?_⟩
    simp only [Except.ok.injEq, Prod.mk.injEq] at h
    obtain ⟨_, rfl⟩ := h
    obtain ⟨_, _, k3, k4⟩ := g2 r1 s2 T2 hm
    have hag := agreeBelow_trans h5 k3
    exact ⟨view_agree hown.1 hag, owns_mono hown (le_trans h6 k4), hag, le_trans h6 k4⟩

/-- The loop over the moves of one piece. -/
theorem keepLegal_sim {B : PtrBoard} (c : Color) :
    ∀ (moves : List Move) (s : Store), B.owns s →
      (keepLegal B c s moves).map Prod.fst = (B.view s).keepLegal c moves ∧
      ∀ L s', keepLegal B c s moves = Except.ok (L, s') →
        B.view s' = B.view s ∧ B.owns s' ∧ Store.agreeBelow s.length s s' ∧
          s.length ≤ s'.length
  | [], s, hown => by
    refine ⟨rfl, fun L s' h => ?_⟩
    simp only [keepLegal, Except.ok.injEq, Prod.mk.injEq] at h
    obtain ⟨_, rfl⟩ := h
    exact ⟨rfl, hown, agreeBelow_refl _ _, le_refl _⟩
  | move :: rest, s, hown => by
    obtain ⟨h1, h2⟩ := wouldBeInCheck_sim hown move c
    unfold keepLegal ChessBoard.keepLegal
    rw [← h1]
    cases hw : wouldBeInCheck s B move c with
    | error e => exact ⟨rfl, fun L s' h => by cases h⟩
    | ok r =>
      obtain ⟨v, s1⟩ := r
      obtain ⟨k1, k2, k3, k4⟩ := h2 v s1 hw
      obtain ⟨g1, g2⟩ := keepLegal_sim c rest s1 k2
      rw [k1] at g1
      simp only [Except.bind, Except.map]
      rw [← g1]
      cases hk : keepLegal B c s1 rest with
      | error e => exact ⟨rfl, fun L s' h => by cases h⟩
      | ok k =>
        obtain ⟨kept, s2⟩ := k
        refine ⟨rfl, fun L s' h => ?_⟩
        simp only [Except.ok.injEq, Prod.mk.injEq] at h
        obtain ⟨_, rfl⟩ := h
        obtain ⟨m1, m2, m3, m4⟩ := g2 kept s2 hk
        exact ⟨m1.trans k1, m2, agreeBelow_trans k3 (agreeBelow_mono k4 m3), le_trans k4 m4⟩

end PtrBoard

namespace ChessBoard

theorem keepLegal_append (b : ChessBoard) (c : Color) :
    ∀ l1 l2 : List Move, b.keepLegal c (l1 ++ l2) =
      (b.keepLegal c l1).bind fun k1 => (b.keepLegal c l2).bind fun k2 => Except.ok (k1 ++ k2)
  | [], l2 => by
    simp only [List.nil_append, keepLegal, Except.bind]
    cases b.keepLegal c l2 <;> rfl
  | move :: rest, l2 => by
    have e1 : b.keepLegal c (move :: (rest ++ l2)) =
        (b.wouldBeInCheck move c).bind fun inCheck =>
        (b.keepLegal c (rest ++ l2)).bind fun kept =>
        Except.ok (if inCheck then kept else move :: kept) := rfl
    have e2 : b.keepLegal c (move :: rest) =
        (b.wouldBeInCheck move c).bind fun inCheck =>
        (b.keepLegal c rest).bind fun kept =>
        Except.ok (if inCheck then kept else move :: kept) := rfl
    rw [List.cons_append, e1, e2, keepLegal_append b c rest l2]
    generalize b.keepLegal c l2 = X
    cases b.wouldBeInCheck move c with
    | error e => rfl
    | ok v =>
      simp only [Except.bind]
      cases b.keepLegal c rest with
      | error e => rfl
      | ok k1 =>
        simp only
        cases X with
        | error e => rfl
        | ok k2 =>
          simp only
          cases v <;> rfl

end ChessBoard

namespace PtrBoard

/-- The loops of `getAllLegalMoves` over a list of cells. -/
theorem legalLoop_sim {B : PtrBoard} (c : Color) :
    ∀ (l : List Position) (acc : List Move) (s : Store), B.owns s →
      (legalLoop B c l (acc, s)).map Prod.fst =
        ((B.view s).keepLegal c (l.flatMap (fun piecePos =>
          match (B.view s).cell piecePos.row piecePos.col with
          | some piece =>
            if piece.color = c then piece.getPossibleMoves piecePos (B.view s) else []
          | none => []))).map (fun k => acc ++ k) ∧
      ∀ L s', legalLoop B c l (acc, s) = Except.ok (L, s') →
        B.view s' = B.view s ∧ B.owns s' ∧ Store.agreeBelow s.length s s' ∧
          s.length ≤ s'.length
  | [], acc, s, hown => by
    refine ⟨by simp [legalLoop, ChessBoard.keepLegal, Except.map], fun L s' h => ?_⟩
    simp only [legalLoop, Except.ok.injEq, Prod.mk.injEq] at h
    obtain ⟨_, rfl⟩ := h
    exact ⟨rfl, hown, agreeBelow_refl _ _, le_refl _⟩
  | pos :: rest, acc, s, hown => by
    rw [List.flatMap_cons, ChessBoard.keepLegal_append]
    unfold legalLoop legalAt
    dsimp only
    cases hcell : (B.view s).cell pos.row pos.col with
    | none =>
      dsimp only
      obtain ⟨g1, g2⟩ := legalLoop_sim c rest acc s hown
      simp only [Except.bind, ChessBoard.keepLegal]
      refine ⟨?_, g2⟩
      rw [g1]
      cases (B.view s).keepLegal c _ <;> simp [Except.map]
    | some piece =>
      dsimp only
      by_cases hc : piece.color = c
      swap
      · rw [if_neg hc, if_neg hc]
        obtain ⟨g1, g2⟩ := legalLoop_sim c rest acc s hown
        simp only [Except.bind, ChessBoard.keepLegal]
        refine ⟨?_, g2⟩
        rw [g1]
        cases (B.view s).keepLegal c _ <;> simp [Except.map]
      rw [if_pos hc, if_pos hc]
      obtain ⟨k1, k2⟩ := keepLegal_sim (B := B) c (piece.getPossibleMoves pos (B.view s)) s hown
      rw [← k1]
      cases hk : keepLegal B c s (piece.getPossibleMoves pos (B.view s)) with
      | error e => exact ⟨rfl, fun L s' h => by cases h⟩
      | ok k =>
        obtain ⟨kept, s1⟩ := k
        obtain ⟨m1, m2, m3, m4⟩ := k2 kept s1 hk
        obtain ⟨g1, g2⟩ := legalLoop_sim c rest (acc ++ kept) s1 m2
        rw [m1] at g1
        simp only [Except.bind, Except.map]
        constructor
        · have := g1
          simp only [Except.map] at this
          rw [this]
          cases (B.view s).keepLegal c _ <;> simp
        · intro L s' h
          obtain ⟨n1, n2, n3, n4⟩ := g2 L s' h
          exact ⟨n1.trans m1, n2, agreeBelow_trans m3 (agreeBelow_mono m4 n3), le_trans m4 n4⟩

/-- `getAllLegalMoves` on a grid that owns its objects returns the list that
`getAllLegalMoves` returns on the board read through the pointers, and the
board it is called on is the same before and after. -/
theorem getAllLegalMoves_sim {B : PtrBoard} {s : Store} (hown : B.owns s) (c : Color) :
    (getAllLegalMoves s B c).map Prod.fst = (B.view s).getAllLegalMoves c ∧
    ∀ L s', getAllLegalMoves s B c = Except.ok (L, s') →
      B.view s' = B.view s ∧ B.owns s' ∧ Store.agreeBelow s.length s s' ∧
        s.length ≤ s'.length := by
  obtain ⟨h1, h2⟩ := legalLoop_sim (B := B) c allSquares [] s hown
  have h1' : (legalLoop B c allSquares ([], s)).map Prod.fst =
      ((B.view s).getAllLegalMoves c).map (fun k => [] ++ k) := h1
  unfold getAllLegalMoves
  refine ⟨?_, h2⟩
  rw [h1']
  generalize (B.view s).getAllLegalMoves c = X
  cases X <;> simp [Except.map]

end PtrBoard

namespace PtrBoard

theorem setupInitialPosition_owns : setupInitialPosition.2.owns setupInitialPosition.1 := by
  have hrange : ∀ r c : Fin 8,
      (setupInitialPosition.2.board r c).all (fun a => decide (a < 32)) = true := by decide
  have hinj : ∀ r c r' c' : Fin 8,
      setupInitialPosition.2.board r c = setupInitialPosition.2.board r' c' →
      setupInitialPosition.2.board r c = none ∨ (r = r' ∧ c = c') := by decide
  constructor
  · intro r c a hb
    have := hrange r c
    rw [hb] at this
    simpa using this
  · intro r c r' c' a hb hb'
    rcases hinj r c r' c' (hb.trans hb'.symm) with h | h
    · rw [hb] at h; cases h
    · exact h

theorem setupInitialPosition_view :
    setupInitialPosition.2.view setupInitialPosition.1 = Chess.setupInitialPosition := by
  unfold view Chess.setupInitialPosition
  simp only [ChessBoard.mk.injEq]
  refine ⟨?_, rfl, rfl⟩
  funext r c
  revert r c
  decide

end PtrBoard

/-! ## Reflection of the rows with the colours swapped -/

theorem enemyOf_enemyOf (c : Color) : ChessBoard.enemyOf (ChessBoard.enemyOf c) = c := by
  cases c <;> rfl

theorem enemyOf_eq_iff (a c : Color) : ChessBoard.enemyOf a = ChessBoard.enemyOf c ↔ a = c := by
  cases a <;> cases c <;> decide

theorem enemyOf_white_iff (c : Color) : ChessBoard.enemyOf c = WHITE ↔ c = BLACK := by
  cases c <;> decide

theorem Position.mirror_involutive (p : Position) : p.mirror.mirror = p := by
  cases p
  simp only [Position.mirror, Position.mk.injEq, and_true]
  omega

theorem Position.mirror_inj {p q : Position} : p.mirror = q.mirror ↔ p = q := by
  constructor
  · intro h
    rw [← Position.mirror_involutive p, h, Position.mirror_involutive]
  · rintro rfl; rfl

theorem Position.mirror_eq_comm {p q : Position} : p.mirror = q ↔ p = q.mirror := by
  constructor
  · rintro rfl; rw [Position.mirror_involutive]
  · rintro rfl; rw [Position.mirror_involutive]

theorem Position.mirror_valid (p : Position) : p.mirror.isValid = p.isValid := by
  rw [Bool.eq_iff_iff, isValid_iff, isValid_iff]
  simp only [Position.mirror]
  omega

theorem Move.mirror_twice (m : Move) : m.mirror.mirror = m := by
  cases m
  simp [Move.mirror, Position.mirror_involutive]

theorem Move.mirror_swap {m m' : Move} : m.mirror = m' ↔ m = m'.mirror := by
  constructor
  · rintro rfl; rw [Move.mirror_twice]
  · rintro rfl; rw [Move.mirror_twice]

theorem Piece.mirror_back (p : Piece) : p.mirror.mirror = p := by
  cases p
  simp [Piece.mirror, enemyOf_enemyOf]

theorem idx_mirror {row : Int} (h : 0 ≤ row ∧ row < 8) : idx (7 - row) = Fin.rev (idx row) := by
  have : row = 0 ∨ row = 1 ∨ row = 2 ∨ row = 3 ∨ row = 4 ∨ row = 5 ∨ row = 6 ∨ row = 7 := by
    omega
  rcases this with rfl | rfl | rfl | rfl | rfl | rfl | rfl | rfl <;> decide

namespace ChessBoard

theorem mirror_mirror (b : ChessBoard) : b.mirror.mirror = b := by
  cases b with
  | mk board t a =>
    simp only [mirror, mk.injEq, Position.mirror_involutive, and_true]
    funext r c
    simp only [Fin.rev_rev, Option.map_map]
    cases board r c with
    | none => rfl
    | some p => simp [Piece.mirror_back]

theorem cell_mirror (b : ChessBoard) {row : Int} (h : 0 ≤ row ∧ row < 8) (col : Int) :
    b.mirror.cell (7 - row) col = (b.cell row col).map Piece.mirror := by
  unfold cell mirror
  simp only
  rw [idx_mirror h, Fin.rev_rev]

theorem getPiece_mirror (b : ChessBoard) (p : Position) :
    b.mirror.getPiece p.mirror = (b.getPiece p).map Piece.mirror := by
  unfold getPiece
  rw [Position.mirror_valid]
  by_cases hv : p.isValid = true
  · have hv' := (isValid_iff _).1 hv
    simp only [hv, Bool.not_true, Bool.false_eq_true, if_false]
    exact cell_mirror b ⟨hv'.1, hv'.2.1⟩ p.col
  · simp [hv]

theorem isEmpty_mirror (b : ChessBoard) (p : Position) :
    b.mirror.isEmpty p.mirror = b.isEmpty p := by
  rw [Bool.eq_iff_iff, isEmpty_iff_valid_none, isEmpty_iff_valid_none, Position.mirror_valid,
    getPiece_mirror]
  cases b.getPiece p <;> simp

theorem isEnPassantTarget_mirror (b : ChessBoard) (p : Position) :
    b.mirror.isEnPassantTarget p.mirror = b.isEnPassantTarget p := by
  unfold isEnPassantTarget mirror
  simp only [Position.mirror_inj]

theorem setCell_mirror (b : ChessBoard) {row : Int} (h : 0 ≤ row ∧ row < 8) (col : Int)
    (v : Option Piece) :
    (b.setCell row col v).mirror = b.mirror.setCell (7 - row) col (v.map Piece.mirror) := by
  unfold setCell mirror
  simp only [mk.injEq, and_self, and_true]
  funext r c
  rw [idx_mirror h]
  by_cases hr : r = Fin.rev (idx row) ∧ c = idx col
  · rw [if_pos hr, if_pos ⟨by rw [hr.1, Fin.rev_rev], hr.2⟩]
  · rw [if_neg hr, if_neg]
    rintro ⟨h1, h2⟩
    exact hr ⟨by rw [← h1, Fin.rev_rev], h2⟩

theorem setEnPassant_mirror (b : ChessBoard) (p : Position) :
    (b.setEnPassant p).mirror = b.mirror.setEnPassant p.mirror := rfl

theorem clearEnPassant_mirror (b : ChessBoard) :
    b.clearEnPassant.mirror = b.mirror.clearEnPassant := rfl

end ChessBoard
namespace ChessBoard

theorem markMoved_mirror (b : ChessBoard) {row : Int} (h : 0 ≤ row ∧ row < 8) (col : Int) :
    b.mirror.markMoved (7 - row) col = (b.markMoved row col).map mirror := by
  unfold markMoved
  rw [cell_mirror b h]
  cases b.cell row col with
  | none => rfl
  | some p =>
    simp only [Option.map, Except.map]
    rw [setCell_mirror _ h]
    rfl

theorem relocate_mirror (b : ChessBoard) (m : Move) (hf : m.from_.isValid = true)
    (ht : m.to_.isValid = true) :
    b.mirror.relocate m.mirror = (b.relocate m).map mirror := by
  have hf' := (isValid_iff _).1 hf
  have ht' := (isValid_iff _).1 ht
  have hfr : 0 ≤ m.from_.row ∧ m.from_.row < 8 := ⟨hf'.1, hf'.2.1⟩
  have htr : 0 ≤ m.to_.row ∧ m.to_.row < 8 := ⟨ht'.1, ht'.2.1⟩
  unfold relocate
  simp only [Move.mirror, Position.mirror]
  have e1 : b.mirror.setCell (7 - m.to_.row) m.to_.col none
      = (b.setCell m.to_.row m.to_.col none).mirror := (setCell_mirror b htr _ none).symm
  rw [e1, cell_mirror _ hfr]
  have e2 : (b.setCell m.to_.row m.to_.col none).mirror.setCell (7 - m.from_.row) m.from_.col none
      = ((b.setCell m.to_.row m.to_.col none).setCell m.from_.row m.from_.col none).mirror :=
    (setCell_mirror _ hfr _ none).symm
  rw [e2, ← setCell_mirror _ htr, markMoved_mirror _ htr]

theorem removeEnPassantVictim_mirror (b : ChessBoard) (piece : Piece) (m : Move) :
    b.mirror.removeEnPassantVictim piece.mirror m.mirror
      = (b.removeEnPassantVictim piece m).map mirror := by
  unfold removeEnPassantVictim
  simp only [Move.mirror, Position.mirror, Piece.mirror, enemyOf_white_iff]
  have hrow : (if piece.color = BLACK then 7 - m.to_.row - 1 else 7 - m.to_.row + 1)
      = 7 - (if piece.color = WHITE then m.to_.row - 1 else m.to_.row + 1) := by
    cases piece.color <;> simp <;> omega
  rw [hrow]
  generalize (if piece.color = WHITE then m.to_.row - 1 else m.to_.row + 1) = r
  by_cases hr : 0 ≤ r ∧ r < 8
  · have h1 : (decide (r ≥ 0) && decide (r < 8)) = true := by simp [hr.1, hr.2]
    have h2 : (decide (7 - r ≥ 0) && decide (7 - r < 8)) = true := by
      simp only [Bool.and_eq_true, decide_eq_true_eq]; omega
    rw [if_pos h1, if_pos h2]
    simp only [Except.map]
    rw [setCell_mirror _ hr]
    rfl
  · have h1 : ¬ (decide (r ≥ 0) && decide (r < 8)) = true := by
      simp only [Bool.and_eq_true, decide_eq_true_eq]; omega
    have h2 : ¬ (decide (7 - r ≥ 0) && decide (7 - r < 8)) = true := by
      simp only [Bool.and_eq_true, decide_eq_true_eq]; omega
    rw [if_neg h1, if_neg h2]
    rfl

theorem castleRook_mirror (b : ChessBoard) (m : Move) (hf : m.from_.isValid = true) :
    b.mirror.castleRook m.mirror = (b.castleRook m).map mirror := by
  have hf' := (isValid_iff _).1 hf
  have hfr : 0 ≤ m.from_.row ∧ m.from_.row < 8 := ⟨hf'.1, hf'.2.1⟩
  unfold castleRook
  simp only [Move.mirror, Position.mirror]
  rw [cell_mirror _ hfr]
  have e1 : ∀ col, b.mirror.setCell (7 - m.from_.row) col none
      = (b.setCell m.from_.row col none).mirror := fun col => (setCell_mirror b hfr col none).symm
  rw [e1, ← setCell_mirror _ hfr, markMoved_mirror _ hfr]

theorem promote_mirror (b : ChessBoard) (m : Move) (ht : m.to_.isValid = true) :
    b.mirror.promote m.mirror = (b.promote m).map mirror := by
  have ht' := (isValid_iff _).1 ht
  have htr : 0 ≤ m.to_.row ∧ m.to_.row < 8 := ⟨ht'.1, ht'.2.1⟩
  unfold promote
  simp only [Move.mirror, Position.mirror]
  rw [cell_mirror _ htr]
  cases b.cell m.to_.row m.to_.col with
  | none => rfl
  | some p =>
    simp only [Option.map]
    have : some (Piece.new p.mirror.color (promotedType m.promotionPiece))
        = (some (Piece.new p.color (promotedType m.promotionPiece))).map Piece.mirror := rfl
    rw [this, ← setCell_mirror _ htr, markMoved_mirror _ htr]

theorem isEnPassantCaptureOf_mirror (b : ChessBoard) (piece : Piece) (m : Move) :
    b.mirror.isEnPassantCaptureOf piece.mirror m.mirror = b.isEnPassantCaptureOf piece m := by
  unfold isEnPassantCaptureOf
  simp only [mirror, Move.mirror, Piece.mirror, Position.mirror_inj]

theorem isCastlingOf_mirror (piece : Piece) (m : Move) :
    isCastlingOf piece.mirror m.mirror = isCastlingOf piece m := rfl

theorem isPromotionOf_mirror (piece : Piece) (m : Move) :
    isPromotionOf piece.mirror m.mirror = isPromotionOf piece m := by
  unfold isPromotionOf
  simp only [Move.mirror, Piece.mirror, Position.mirror]
  have h7 : (7 - m.to_.row = 7) = (m.to_.row = 0) := by
    apply propext; constructor <;> intro h <;> omega
  have h0 : (7 - m.to_.row = 0) = (m.to_.row = 7) := by
    apply propext; constructor <;> intro h <;> omega
  simp only [h7, h0]
  rcases piece with ⟨c, t, hm⟩
  cases c <;> cases decide (t = PAWN) <;> simp [enemyOf]

theorem isDoubleStepOf_mirror (piece : Piece) (m : Move) :
    isDoubleStepOf piece.mirror m.mirror = isDoubleStepOf piece m := by
  unfold isDoubleStepOf
  simp only [Move.mirror, Piece.mirror, Position.mirror]
  have : (7 - m.to_.row - (7 - m.from_.row)).natAbs = (m.to_.row - m.from_.row).natAbs := by
    omega
  rw [Bool.eq_iff_iff]
  simp only [Bool.and_eq_true, decide_eq_true_eq, this]

theorem setsEnPassantOf_mirror (piece : Piece) (m : Move) :
    setsEnPassantOf piece.mirror m.mirror = setsEnPassantOf piece m := by
  unfold setsEnPassantOf
  rw [isPromotionOf_mirror, isDoubleStepOf_mirror]

theorem movePiece_mirror (b : ChessBoard) (m : Move) :
    b.mirror.movePiece m.mirror = (b.movePiece m).map (fun r => (r.1, r.2.mirror)) := by
  unfold movePiece
  have e0 : m.mirror.from_ = m.from_.mirror := rfl
  have e0' : m.mirror.to_ = m.to_.mirror := rfl
  rw [e0, e0', Position.mirror_valid, Position.mirror_valid, getPiece_mirror]
  by_cases hv : (!m.from_.isValid || !m.to_.isValid) = true
  · rw [if_pos hv, if_pos hv]; rfl
  rw [if_neg hv, if_neg hv]
  have hf : m.from_.isValid = true := by
    cases h : m.from_.isValid <;> simp [h] at hv ⊢
  have ht : m.to_.isValid = true := by
    cases h : m.to_.isValid <;> simp [h] at hv ⊢
  cases hp : b.getPiece m.from_ with
  | none => rfl
  | some piece =>
    simp only [Option.map]
    rw [← clearEnPassant_mirror, relocate_mirror _ _ hf ht, isEnPassantCaptureOf_mirror,
      isCastlingOf_mirror, isPromotionOf_mirror, setsEnPassantOf_mirror]
    cases b.clearEnPassant.relocate m with
    | error e => rfl
    | ok b1 =>
      simp only [Except.map, Except.bind]
      have h2 : (if b.isEnPassantCaptureOf piece m = true
            then b1.mirror.removeEnPassantVictim piece.mirror m.mirror else Except.ok b1.mirror)
          = (if b.isEnPassantCaptureOf piece m = true then b1.removeEnPassantVictim piece m
              else Except.ok b1).map mirror := by
        split
        · exact removeEnPassantVictim_mirror _ _ _
        · rfl
      rw [h2]
      cases (if b.isEnPassantCaptureOf piece m = true then b1.removeEnPassantVictim piece m
              else Except.ok b1) with
      | error e => rfl
      | ok b2 =>
        simp only [Except.map, Except.bind]
        have h3 : (if isCastlingOf piece m = true then b2.mirror.castleRook m.mirror
              else Except.ok b2.mirror)
            = (if isCastlingOf piece m = true then b2.castleRook m else Except.ok b2).map mirror := by
          split
          · exact castleRook_mirror _ _ hf
          · rfl
        rw [h3]
        cases (if isCastlingOf piece m = true then b2.castleRook m else Except.ok b2) with
        | error e => rfl
        | ok b3 =>
          simp only [Except.map, Except.bind]
          have h4 : (if isPromotionOf piece m = true then b3.mirror.promote m.mirror
                else Except.ok b3.mirror)
              = (if isPromotionOf piece m = true then b3.promote m else Except.ok b3).map mirror := by
            split
            · exact promote_mirror _ _ ht
            · rfl
          rw [h4]
          cases (if isPromotionOf piece m = true then b3.promote m else Except.ok b3) with
          | error e => rfl
          | ok b4 =>
            simp only [Except.map, Except.bind]
            by_cases hd : setsEnPassantOf piece m = true
            · rw [if_pos hd, if_pos hd, setEnPassant_mirror]
              have hf' := (isValid_iff _).1 hf
              have ht' := (isValid_iff _).1 ht
              have hd' : (m.to_.row - m.from_.row).natAbs = 2 := by
                unfold setsEnPassantOf isDoubleStepOf at hd
                simp only [Bool.and_eq_true, decide_eq_true_eq] at hd
                exact hd.2.2
              have : Int.tdiv (m.mirror.from_.row + m.mirror.to_.row) 2
                  = 7 - Int.tdiv (m.from_.row + m.to_.row) 2 := by
                simp only [Move.mirror, Position.mirror]
                rw [Int.tdiv_eq_ediv (by omega) (by omega), Int.tdiv_eq_ediv (by omega) (by omega)]
                omega
              have e : (Position.mk (Int.tdiv (m.from_.row + m.to_.row) 2) m.from_.col).mirror
                  = Position.mk (Int.tdiv (m.mirror.from_.row + m.mirror.to_.row) 2)
                      m.mirror.from_.col := by
                rw [this]; rfl
              rw [e]
              rfl
            · rw [if_neg hd, if_neg hd]

end ChessBoard
theorem mem_map_mirror {m : Move} {L : List Move} : m ∈ L.map Move.mirror ↔ m.mirror ∈ L := by
  rw [List.mem_map]
  constructor
  · rintro ⟨a, ha, rfl⟩
    rw [Move.mirror_twice]; exact ha
  · intro h
    exact ⟨m.mirror, h, Move.mirror_twice m⟩

theorem mirror_color_ne (t piece : Piece) :
    (t.mirror.color ≠ piece.mirror.color) = (t.color ≠ piece.color) := by
  apply propext
  simp only [Piece.mirror, ne_eq, enemyOf_eq_iff]

theorem mirror_step (pos : Position) (dr dc : Int) :
    Position.mk (pos.mirror.row + -dr) (pos.mirror.col + dc)
      = (Position.mk (pos.row + dr) (pos.col + dc)).mirror := by
  simp only [Position.mirror, Position.mk.injEq, and_true]
  omega

theorem addDirectionalLoop_mirror (piece : Piece) (pos : Position) (b : ChessBoard)
    (dr dc : Int) :
    ∀ (n : Nat) (step : Int),
      addDirectionalLoop piece.mirror pos.mirror b.mirror (-dr) dc n step
        = (addDirectionalLoop piece pos b dr dc n step).map Move.mirror
  | 0, _ => rfl
  | n + 1, step => by
    unfold addDirectionalLoop
    have e : Position.mk (pos.mirror.row + step * -dr) (pos.mirror.col + step * dc)
        = (Position.mk (pos.row + step * dr) (pos.col + step * dc)).mirror := by
      rw [← mirror_step]
      congr 1
      ring
    simp only [e, Position.mirror_valid, ChessBoard.getPiece_mirror]
    by_cases hv : (Position.mk (pos.row + step * dr) (pos.col + step * dc)).isValid = true
    · simp only [hv, Bool.not_true, Bool.false_eq_true, if_false]
      cases b.getPiece (Position.mk (pos.row + step * dr) (pos.col + step * dc)) with
      | none =>
        simp only [Option.map, List.map_cons]
        rw [addDirectionalLoop_mirror piece pos b dr dc n (step + 1)]
        rfl
      | some t =>
        simp only [Option.map, mirror_color_ne]
        split <;> rfl
    · simp [hv]

theorem flatMap_negRow {dirs : List (Int × Int)} (hd : ∀ d ∈ dirs, (-d.1, d.2) ∈ dirs)
    (f : Int → Int → List Move) (m : Move) :
    m ∈ dirs.flatMap (fun d => f d.1 d.2) ↔ m ∈ dirs.flatMap (fun d => f (-d.1) d.2) := by
  simp only [List.mem_flatMap]
  constructor
  · rintro ⟨d, hd1, hm⟩
    refine ⟨(-d.1, d.2), hd _ hd1, ?_⟩
    simpa using hm
  · rintro ⟨d, hd1, hm⟩
    exact ⟨(-d.1, d.2), hd _ hd1, hm⟩

theorem rookDirections_negRow : ∀ d ∈ rookDirections, (-d.1, d.2) ∈ rookDirections := by decide
theorem bishopDirections_negRow : ∀ d ∈ bishopDirections, (-d.1, d.2) ∈ bishopDirections := by
  decide
theorem queenDirections_negRow : ∀ d ∈ queenDirections, (-d.1, d.2) ∈ queenDirections := by decide
theorem knightMoves_negRow : ∀ d ∈ knightMoves, (-d.1, d.2) ∈ knightMoves := by decide

theorem slide_mirror {dirs : List (Int × Int)} (hd : ∀ d ∈ dirs, (-d.1, d.2) ∈ dirs)
    (piece : Piece) (pos : Position) (b : ChessBoard) (m : Move) :
    m ∈ dirs.flatMap (fun d => addDirectionalMoves piece.mirror pos.mirror b.mirror d.1 d.2 8) ↔
      m.mirror ∈ dirs.flatMap (fun d => addDirectionalMoves piece pos b d.1 d.2 8) := by
  rw [flatMap_negRow hd (fun dr dc => addDirectionalMoves piece.mirror pos.mirror b.mirror dr dc 8),
    ← mem_map_mirror, List.map_flatMap]
  simp only [addDirectionalMoves, addDirectionalLoop_mirror]

theorem stepMoves_mirror {offsets : List (Int × Int)} (hd : ∀ d ∈ offsets, (-d.1, d.2) ∈ offsets)
    (piece : Piece) (pos : Position) (b : ChessBoard) (m : Move) :
    m ∈ stepMoves piece.mirror pos.mirror b.mirror offsets ↔
      m.mirror ∈ stepMoves piece pos b offsets := by
  rw [mem_stepMoves, mem_stepMoves]
  have key : ∀ d : Int × Int,
      (m = Move.mk pos.mirror ⟨pos.mirror.row + -d.1, pos.mirror.col + d.2⟩ QUEEN ∧
        (Position.mk (pos.mirror.row + -d.1) (pos.mirror.col + d.2)).isValid = true ∧
        ∀ t, b.mirror.getPiece ⟨pos.mirror.row + -d.1, pos.mirror.col + d.2⟩ = some t →
          t.color ≠ piece.mirror.color) ↔
      (m.mirror = Move.mk pos ⟨pos.row + d.1, pos.col + d.2⟩ QUEEN ∧
        (Position.mk (pos.row + d.1) (pos.col + d.2)).isValid = true ∧
        ∀ t, b.getPiece ⟨pos.row + d.1, pos.col + d.2⟩ = some t → t.color ≠ piece.color) := by
    intro d
    rw [mirror_step, Position.mirror_valid, ChessBoard.getPiece_mirror, Move.mirror_swap]
    refine and_congr Iff.rfl (and_congr Iff.rfl ?_)
    cases b.getPiece (Position.mk (pos.row + d.1) (pos.col + d.2)) with
    | none => simp
    | some t =>
      simp only [Option.map, Option.some.injEq, forall_eq', mirror_color_ne]
  constructor
  · rintro ⟨d, hd1, h⟩
    refine ⟨(-d.1, d.2), hd _ hd1, (key (-d.1, d.2)).1 ?_⟩
    simpa using h
  · rintro ⟨d, hd1, h⟩
    exact ⟨(-d.1, d.2), hd _ hd1, (key d).2 h⟩

theorem promotionMoves_mirror (pos target : Position) :
    promotionMoves pos.mirror target.mirror = (promotionMoves pos target).map Move.mirror := rfl

theorem Pawn.forwardMoves_mirror (pos : Position) (b : ChessBoard) (d s p : Int) :
    Pawn.forwardMoves pos.mirror b.mirror (-d) (7 - s) (7 - p)
      = (Pawn.forwardMoves pos b d s p).map Move.mirror := by
  unfold Pawn.forwardMoves
  have e1 : Position.mk (pos.mirror.row + -d) pos.mirror.col
      = (Position.mk (pos.row + d) pos.col).mirror := by
    simp only [Position.mirror, Position.mk.injEq, and_true]; omega
  have e2 : Position.mk (pos.mirror.row + 2 * -d) pos.mirror.col
      = (Position.mk (pos.row + 2 * d) pos.col).mirror := by
    simp only [Position.mirror, Position.mk.injEq, and_true]; omega
  have e3 : (pos.mirror.row + -d = 7 - p) = (pos.row + d = p) := by
    apply propext; simp only [Position.mirror]; omega
  have e4 : (pos.mirror.row = 7 - s) = (pos.row = s) := by
    apply propext; simp only [Position.mirror]; omega
  simp only [e1, e2, e3, e4, Position.mirror_valid, ChessBoard.isEmpty_mirror]
  split
  · rw [List.map_append]
    congr 1
    · split <;> rfl
    · split
      · split <;> rfl
      · rfl
  · rfl

theorem Pawn.captureMoves_mirror (self : Piece) (pos : Position) (b : ChessBoard) (d p co : Int) :
    Pawn.captureMoves self.mirror pos.mirror b.mirror (-d) (7 - p) co
      = (Pawn.captureMoves self pos b d p co).map Move.mirror := by
  unfold Pawn.captureMoves
  have e3 : (pos.mirror.row + -d = 7 - p) = (pos.row + d = p) := by
    apply propext; simp only [Position.mirror]; omega
  simp only [mirror_step, e3, Position.mirror_valid, ChessBoard.getPiece_mirror,
    ChessBoard.isEnPassantTarget_mirror]
  split
  · cases b.getPiece (Position.mk (pos.row + d) (pos.col + co)) with
    | none =>
      simp only [Option.map]
      split <;> rfl
    | some t =>
      simp only [Option.map, mirror_color_ne]
      split
      · split <;> rfl
      · split <;> rfl
  · rfl

theorem Pawn.generator_mirror (self : Piece) (pos : Position) (b : ChessBoard) :
    Pawn.getPossibleMoves self.mirror pos.mirror b.mirror
      = (Pawn.getPossibleMoves self pos b).map Move.mirror := by
  unfold Pawn.getPossibleMoves
  have hd : (if self.mirror.color = WHITE then (1 : Int) else -1)
      = -(if self.color = WHITE then (1 : Int) else -1) := by
    rcases self with ⟨c, t, hm⟩
    cases c <;> rfl
  have hs : (if self.mirror.color = WHITE then (1 : Int) else 6)
      = 7 - (if self.color = WHITE then (1 : Int) else 6) := by
    rcases self with ⟨c, t, hm⟩
    cases c <;> rfl
  have hp : (if self.mirror.color = WHITE then (7 : Int) else 0)
      = 7 - (if self.color = WHITE then (7 : Int) else 0) := by
    rcases self with ⟨c, t, hm⟩
    cases c <;> rfl
  simp only [hd, hs, hp, Pawn.forwardMoves_mirror, Pawn.captureMoves_mirror, List.map_append]

theorem attackerMoves_mirror (b : ChessBoard) (piece : Piece) (pos : Position) (m : Move) :
    m ∈ b.mirror.attackerMoves piece.mirror pos.mirror ↔ m.mirror ∈ b.attackerMoves piece pos := by
  rcases piece with ⟨c, t, hm⟩
  cases t
  · simp [ChessBoard.attackerMoves, Piece.mirror]
  · exact slide_mirror rookDirections_negRow _ pos b m
  · exact stepMoves_mirror knightMoves_negRow _ pos b m
  · exact slide_mirror bishopDirections_negRow _ pos b m
  · exact slide_mirror queenDirections_negRow _ pos b m
  · simp [ChessBoard.attackerMoves, Piece.mirror]
namespace ChessBoard

theorem attacksFrom_mirror (b : ChessBoard) (pos : Position) (a : Color) (mode : Bool)
    {piecePos : Position} (hv : piecePos.isValid = true) :
    b.mirror.attacksFrom pos.mirror (enemyOf a) mode piecePos.mirror
      = b.attacksFrom pos a mode piecePos := by
  rw [Bool.eq_iff_iff, attacksFrom_iff _ _ _ _ (by rw [Position.mirror_valid]; exact hv),
    attacksFrom_iff _ _ _ _ hv, getPiece_mirror]
  have hdir : (if enemyOf a = WHITE then (1 : Int) else -1) = -(if a = WHITE then (1 : Int) else -1) := by
    cases a <;> rfl
  have hpawn : ∀ dc : Int,
      (Position.mk (piecePos.mirror.row + (if enemyOf a = WHITE then 1 else -1))
          (piecePos.mirror.col + dc) = pos.mirror) ↔
      (Position.mk (piecePos.row + (if a = WHITE then 1 else -1)) (piecePos.col + dc) = pos) := by
    intro dc
    rw [hdir, mirror_step, Position.mirror_inj]
  have hking : (∃ d ∈ queenDirections,
        Position.mk (piecePos.mirror.row + d.1) (piecePos.mirror.col + d.2) = pos.mirror) ↔
      (∃ d ∈ queenDirections, Position.mk (piecePos.row + d.1) (piecePos.col + d.2) = pos) := by
    constructor
    · rintro ⟨d, hd, h⟩
      refine ⟨(-d.1, d.2), queenDirections_negRow d hd, ?_⟩
      rw [← Position.mirror_inj, ← mirror_step, ← h]
      simp
    · rintro ⟨d, hd, h⟩
      refine ⟨(-d.1, d.2), queenDirections_negRow d hd, ?_⟩
      rw [mirror_step, h]
  cases hp : b.getPiece piecePos with
  | none => simp
  | some piece =>
    have hother : (∃ m ∈ b.mirror.attackerMoves piece.mirror piecePos.mirror, m.to_ = pos.mirror) ↔
        (∃ m ∈ b.attackerMoves piece piecePos, m.to_ = pos) := by
      constructor
      · rintro ⟨m, hm, h⟩
        refine ⟨m.mirror, (attackerMoves_mirror b piece piecePos m).1 hm, ?_⟩
        show m.to_.mirror = pos
        rw [h, Position.mirror_involutive]
      · rintro ⟨m, hm, h⟩
        refine ⟨m.mirror, (attackerMoves_mirror b piece piecePos m.mirror).2
          (by rw [Move.mirror_twice]; exact hm), ?_⟩
        show m.to_.mirror = pos.mirror
        rw [h]
    have hc : piece.mirror.color = enemyOf a ↔ piece.color = a := enemyOf_eq_iff _ _
    have ht : piece.mirror.type = piece.type := rfl
    simp only [Option.map, Option.some.injEq, exists_eq_left', ht, hc, hother, hking]
    have h1 := hpawn (-1)
    have h2 := hpawn 1
    simp only [← sub_eq_add_neg] at h1
    rw [h1, h2]

theorem isSquareAttacked_mirror (b : ChessBoard) (pos : Position) (a : Color) (mode : Bool) :
    b.mirror.isSquareAttacked pos.mirror (enemyOf a) mode = b.isSquareAttacked pos a mode := by
  unfold isSquareAttacked
  rw [Bool.eq_iff_iff, List.any_eq_true, List.any_eq_true]
  constructor
  · rintro ⟨p, hp, h⟩
    have hv := (mem_allSquares p).1 hp
    have hv' : p.mirror.isValid = true := by rw [Position.mirror_valid]; exact hv
    refine ⟨p.mirror, (mem_allSquares _).2 hv', ?_⟩
    rw [← attacksFrom_mirror b pos a mode hv', Position.mirror_involutive]
    exact h
  · rintro ⟨p, hp, h⟩
    have hv := (mem_allSquares p).1 hp
    have hv' : p.mirror.isValid = true := by rw [Position.mirror_valid]; exact hv
    refine ⟨p.mirror, (mem_allSquares _).2 hv', ?_⟩
    rw [attacksFrom_mirror b pos a mode hv]
    exact h

theorem oneKing_of_kingCount {b : ChessBoard} {c : Color} (h : b.kingCount c ≤ 1) :
    b.oneKing c := by
  intro r r' c1 c1' k k' hk ht hc hk' ht' hc'
  have hr := r.isLt
  have hr' := r'.isLt
  have hc1 := c1.isLt
  have hc1' := c1'.isLt
  have hi : ∀ x : Fin 8, idx (x.val : Int) = x := by decide
  have hv : (Position.mk (r.val : Int) (c1.val : Int)).isValid = true := by
    rw [isValid_iff]; simp only; omega
  have hv' : (Position.mk (r'.val : Int) (c1'.val : Int)).isValid = true := by
    rw [isValid_iff]; simp only; omega
  have m1 : Position.mk (r.val : Int) (c1.val : Int) ∈ allSquares.filter (b.isKingAt c) := by
    refine List.mem_filter.2 ⟨(mem_allSquares _).2 hv, ?_⟩
    unfold isKingAt cell
    simp only [hi, hk, ht, hc, decide_True, Bool.and_self]
  have m2 : Position.mk (r'.val : Int) (c1'.val : Int) ∈ allSquares.filter (b.isKingAt c) := by
    refine List.mem_filter.2 ⟨(mem_allSquares _).2 hv', ?_⟩
    unfold isKingAt cell
    simp only [hi, hk', ht', hc', decide_True, Bool.and_self]
  unfold kingCount at h
  have : Position.mk (r.val : Int) (c1.val : Int) = Position.mk (r'.val : Int) (c1'.val : Int) := by
    revert m1 m2 h
    generalize allSquares.filter (b.isKingAt c) = L
    intro h m1 m2
    match L, h, m1, m2 with
    | [x], _, m1, m2 =>
      rw [List.mem_singleton] at m1 m2
      rw [m1, m2]
  simp only [Position.mk.injEq, Nat.cast_inj] at this
  exact ⟨Fin.ext this.1, Fin.ext this.2⟩

theorem kingCount_of_oneKing {b : ChessBoard} {c : Color} (h : b.oneKing c) :
    b.kingCount c ≤ 1 := by
  unfold kingCount
  have hnd : (allSquares.filter (b.isKingAt c)).Nodup := allSquares_nodup.filter _
  have heq : ∀ p ∈ allSquares.filter (b.isKingAt c), ∀ q ∈ allSquares.filter (b.isKingAt c),
      p = q := by
    intro p hp q hq
    obtain ⟨hp1, hp2⟩ := List.mem_filter.1 hp
    obtain ⟨hq1, hq2⟩ := List.mem_filter.1 hq
    have hpv := (isValid_iff p).1 ((mem_allSquares p).1 hp1)
    have hqv := (isValid_iff q).1 ((mem_allSquares q).1 hq1)
    unfold isKingAt cell at hp2 hq2
    cases hkp : b.board (idx p.row) (idx p.col) with
    | none => rw [hkp] at hp2; cases hp2
    | some kp =>
      cases hkq : b.board (idx q.row) (idx q.col) with
      | none => rw [hkq] at hq2; cases hq2
      | some kq =>
        rw [hkp] at hp2
        rw [hkq] at hq2
        simp only [Bool.and_eq_true, decide_eq_true_eq] at hp2 hq2
        have := h _ _ _ _ _ _ hkp hp2.1 hp2.2 hkq hq2.1 hq2.2
        rw [idx_eq_iff hpv.1 hpv.2.1 hqv.1 hqv.2.1,
          idx_eq_iff hpv.2.2.1 hpv.2.2.2 hqv.2.2.1 hqv.2.2.2] at this
        cases p; cases q
        simp only [Position.mk.injEq]
        exact this
  revert hnd heq
  generalize allSquares.filter (b.isKingAt c) = L
  intro hnd heq
  match L, hnd, heq with
  | [], _, _ => simp
  | [_], _, _ => simp
  | x :: y :: _, hnd, heq =>
    have := heq x (by simp) y (by simp)
    subst this
    simp at hnd

theorem oneKing_mirror {b : ChessBoard} {c : Color} (h : b.oneKing c) :
    b.mirror.oneKing (enemyOf c) := by
  intro r r' c1 c1' k k' hk ht hc hk' ht' hc'
  unfold mirror at hk hk'
  simp only [Option.map_eq_some'] at hk hk'
  obtain ⟨p, hp, rfl⟩ := hk
  obtain ⟨p', hp', rfl⟩ := hk'
  have := h _ _ _ _ _ _ hp ht ((enemyOf_eq_iff _ _).1 hc) hp' ht' ((enemyOf_eq_iff _ _).1 hc')
  exact ⟨Fin.rev_injective this.1, this.2⟩

theorem kingCount_mirror_le {b : ChessBoard} {c : Color} (h : b.kingCount c ≤ 1) :
    b.mirror.kingCount (enemyOf c) ≤ 1 :=
  kingCount_of_oneKing (oneKing_mirror (oneKing_of_kingCount h))

theorem getKingPosition_of_kingCount_zero {b : ChessBoard} {c : Color} (h : b.kingCount c = 0) :
    b.getKingPosition c = Position.mk (-1) (-1) := by
  unfold kingCount at h
  rw [List.length_eq_zero, List.filter_eq_nil_iff] at h
  unfold getKingPosition
  have : allSquares.find? (b.isKingAt c) = none := by
    rw [List.find?_eq_none]
    exact h
  rw [this]

theorem kingCount_mirror_eq_one {b : ChessBoard} {c : Color} (h : b.kingCount c = 1) :
    b.mirror.kingCount (enemyOf c) = 1 := by
  obtain ⟨_, ⟨king, hk, ht, hc⟩, _⟩ := getKingPosition_spec b c h
  have h1 : b.mirror.getPiece (b.getKingPosition c).mirror = some king.mirror := by
    rw [getPiece_mirror, hk]; rfl
  have := kingCount_pos h1 ht (show king.mirror.color = enemyOf c by rw [← hc]; rfl)
  have := @kingCount_mirror_le b c (le_of_eq h)
  omega

theorem kingCount_mirror_eq_zero {b : ChessBoard} {c : Color} (h : b.kingCount c = 0) :
    b.mirror.kingCount (enemyOf c) = 0 := by
  by_contra hne
  have h1 : b.mirror.kingCount (enemyOf c) = 1 := by
    have := @kingCount_mirror_le b c (by omega)
    omega
  have := kingCount_mirror_eq_one h1
  rw [mirror_mirror, enemyOf_enemyOf] at this
  omega

theorem getKingPosition_mirror {b : ChessBoard} {c : Color} (h : b.kingCount c = 1) :
    b.mirror.getKingPosition (enemyOf c) = (b.getKingPosition c).mirror := by
  obtain ⟨_, ⟨king, hk, ht, hc⟩, _⟩ := getKingPosition_spec b c h
  have h1 : b.mirror.getPiece (b.getKingPosition c).mirror = some king.mirror := by
    rw [getPiece_mirror, hk]; rfl
  obtain ⟨_, _, hu⟩ := getKingPosition_spec b.mirror (enemyOf c) (kingCount_mirror_eq_one h)
  exact (hu _ _ h1 ht (show king.mirror.color = enemyOf c by rw [← hc]; rfl)).symm

theorem isInCheck_mirror {b : ChessBoard} {c : Color} (h : b.kingCount c ≤ 1) :
    b.mirror.isInCheck (enemyOf c) = b.isInCheck c := by
  unfold isInCheck
  simp only
  rcases Nat.le_one_iff_eq_zero_or_eq_one.1 h with h0 | h1
  · rw [getKingPosition_of_kingCount_zero h0,
      getKingPosition_of_kingCount_zero (kingCount_mirror_eq_zero h0)]
    rfl
  · rw [getKingPosition_mirror h1, Position.mirror_valid, isSquareAttacked_mirror]

theorem canCastle_mirror {b : ChessBoard} {c : Color} (h : b.kingCount c ≤ 1) (side : Bool) :
    b.mirror.canCastle (enemyOf c) side = b.canCastle c side := by
  rcases Nat.le_one_iff_eq_zero_or_eq_one.1 h with h0 | h1
  · unfold canCastle
    simp only
    rw [getKingPosition_of_kingCount_zero h0,
      getKingPosition_of_kingCount_zero (kingCount_mirror_eq_zero h0)]
    rfl
  · rw [Bool.eq_iff_iff, canCastle_eq_true_iff, canCastle_eq_true_iff, getKingPosition_mirror h1,
      isInCheck_mirror h, Position.mirror_valid, getPiece_mirror]
    have e : ∀ col : Int, Position.mk (b.getKingPosition c).mirror.row col
        = (Position.mk (b.getKingPosition c).row col).mirror := fun _ => rfl
    have e' : (b.getKingPosition c).mirror.col = (b.getKingPosition c).col := rfl
    simp only [e, e', getPiece_mirror, isEmpty_mirror, isSquareAttacked_mirror]
    refine and_congr Iff.rfl (and_congr ?_ (and_congr Iff.rfl (and_congr ?_ Iff.rfl)))
    · cases b.getPiece (b.getKingPosition c) with
      | none => simp
      | some k => simp [Piece.mirror]
    · cases b.getPiece (Position.mk (b.getKingPosition c).row (if side = true then 7 else 0)) with
      | none => simp
      | some k => simp [Piece.mirror]

end ChessBoard
namespace ChessBoard

theorem oneKing_mono {b b' : ChessBoard} {c : Color}
    (hsub : ∀ r c1 k, b'.board r c1 = some k → k.type = KING → k.color = c →
      ∃ k0, b.board r c1 = some k0 ∧ k0.type = KING ∧ k0.color = c)
    (h : b.oneKing c) : b'.oneKing c := by
  intro r r' c1 c1' k k' hk ht hc hk' ht' hc'
  obtain ⟨k0, h0, t0, c0⟩ := hsub _ _ _ hk ht hc
  obtain ⟨k0', h0', t0', c0'⟩ := hsub _ _ _ hk' ht' hc'
  exact h _ _ _ _ _ _ h0 t0 c0 h0' t0' c0'

theorem oneKing_setCell_other {b : ChessBoard} {c : Color} (row col : Int) {v : Option Piece}
    (hv : ∀ k, v = some k → k.type = KING → k.color ≠ c) (h : b.oneKing c) :
    (b.setCell row col v).oneKing c := by
  refine oneKing_mono ?_ h
  intro r c1 k hk ht hc
  simp only [setCell] at hk
  split at hk
  · exact absurd hc (hv k hk ht)
  · exact ⟨k, hk, ht, hc⟩

theorem oneKing_markMoved {b b' : ChessBoard} {c : Color} {row col : Int}
    (hm : b.markMoved row col = Except.ok b') (h : b.oneKing c) : b'.oneKing c := by
  unfold markMoved at hm
  split at hm
  · cases hm
  · rename_i p hp
    cases hm
    refine oneKing_mono ?_ h
    intro r c1 k hk ht hc
    simp only [setCell] at hk
    split at hk
    · rename_i hrc
      cases hk
      refine ⟨p, ?_, ht, hc⟩
      rw [hrc.1, hrc.2]
      exact hp
    · exact ⟨k, hk, ht, hc⟩

/-- Moving the content of one cell to another, the source left empty, keeps
the kings of a colour unique. -/
theorem oneKing_transfer {b : ChessBoard} {c : Color} (r1 c1 r2 c2 : Int) (h : b.oneKing c) :
    ((b.setCell r1 c1 none).setCell r2 c2 (b.cell r1 c1)).oneKing c := by
  by_cases hk : ∃ k, b.cell r1 c1 = some k ∧ k.type = KING ∧ k.color = c
  · obtain ⟨k0, hk0, ht0, hc0⟩ := hk
    have key : ∀ r cc k, ((b.setCell r1 c1 none).setCell r2 c2 (b.cell r1 c1)).board r cc = some k →
        k.type = KING → k.color = c → r = idx r2 ∧ cc = idx c2 := by
      intro r cc k hkk ht hc
      by_contra hne
      simp only [setCell, if_neg hne] at hkk
      split at hkk
      · cases hkk
      · rename_i hne1
        exact hne1 (h _ _ _ _ _ _ hkk ht hc hk0 ht0 hc0)
    intro r r' cc cc' k k' hk ht hc hk' ht' hc'
    have a := key _ _ _ hk ht hc
    have a' := key _ _ _ hk' ht' hc'
    exact ⟨a.1.trans a'.1.symm, a.2.trans a'.2.symm⟩
  · refine oneKing_setCell_other _ _ ?_ (oneKing_setCell_other _ _ (by intro k hk; cases hk) h)
    intro k hkk ht hc
    exact hk ⟨k, hkk, ht, hc⟩

theorem oneKing_relocate {b b' : ChessBoard} {c : Color} {move : Move}
    (hr : b.relocate move = Except.ok b') (h : b.oneKing c) : b'.oneKing c := by
  unfold relocate at hr
  exact oneKing_markMoved hr
    (oneKing_transfer _ _ _ _ (oneKing_setCell_other _ _ (by intro k hk; cases hk) h))

theorem oneKing_removeEnPassantVictim {b b' : ChessBoard} {c : Color} {piece : Piece} {move : Move}
    (hr : b.removeEnPassantVictim piece move = Except.ok b') (h : b.oneKing c) : b'.oneKing c := by
  unfold removeEnPassantVictim at hr
  dsimp only at hr
  split_ifs at hr <;>
    first
    | (cases hr; done)
    | (cases hr; exact oneKing_setCell_other _ _ (by intro k hk; cases hk) h)

theorem oneKing_castleRook {b b' : ChessBoard} {c : Color} {move : Move}
    (hr : b.castleRook move = Except.ok b') (h : b.oneKing c) : b'.oneKing c := by
  unfold castleRook at hr
  exact oneKing_markMoved hr (oneKing_transfer _ _ _ _ h)

theorem oneKing_promote {b b' : ChessBoard} {c : Color} {move : Move}
    (hr : b.promote move = Except.ok b') (h : b.oneKing c) : b'.oneKing c := by
  unfold promote at hr
  split at hr
  · cases hr
  · refine oneKing_markMoved hr (oneKing_setCell_other _ _ ?_ h)
    intro k hk ht
    cases hk
    exact absurd ht (promotedType_ne_king _)

/-- A call of `movePiece` that returns leaves at most one king of a colour
when there was at most one before. -/
theorem oneKing_movePiece {b b' : ChessBoard} {c : Color} {move : Move} {r : Bool}
    (hm : b.movePiece move = Except.ok (r, b')) (h : b.oneKing c) : b'.oneKing c := by
  by_cases hf : move.from_.isValid = true
  swap
  · rw [movePiece_rejected b move (Or.inl (by simpa using hf))] at hm
    cases hm
    exact h
  by_cases ht : move.to_.isValid = true
  swap
  · rw [movePiece_rejected b move (Or.inr (Or.inl (by simpa using ht)))] at hm
    cases hm
    exact h
  cases hp : b.getPiece move.from_ with
  | none =>
    rw [movePiece_rejected b move (Or.inr (Or.inr hp))] at hm
    cases hm
    exact h
  | some piece =>
    obtain ⟨b1, b2, b3, b4, h1, h2, h3, h4, _, hb⟩ := movePiece_ok_stages hf ht hp hm
    have m1 : b1.oneKing c := oneKing_relocate h1 (show b.clearEnPassant.oneKing c from h)
    have m2 : b2.oneKing c := by
      split at h2
      · exact oneKing_removeEnPassantVictim h2 m1
      · cases h2; exact m1
    have m3 : b3.oneKing c := by
      split at h3
      · exact oneKing_castleRook h3 m2
      · cases h3; exact m2
    have m4 : b4.oneKing c := by
      split at h4
      · exact oneKing_promote h4 m3
      · cases h4; exact m3
    rw [hb]
    split
    · exact m4
    · exact m4

end ChessBoard
theorem King.moves_mirror (self : Piece) (pos : Position) (b : ChessBoard)
    (h : b.kingCount self.color ≤ 1) (m : Move) :
    m ∈ King.getPossibleMoves self.mirror pos.mirror b.mirror ↔
      m.mirror ∈ King.getPossibleMoves self pos b := by
  unfold King.getPossibleMoves
  rw [List.mem_append, List.mem_append, stepMoves_mirror queenDirections_negRow,
    mem_king_castlePart, mem_king_castlePart]
  have hc : self.mirror.color = ChessBoard.enemyOf self.color := rfl
  have hm : self.mirror.hasMoved = self.hasMoved := rfl
  have e : ∀ dc : Int, Position.mk pos.mirror.row (pos.mirror.col + dc)
      = (Position.mk pos.row (pos.col + dc)).mirror := fun _ => rfl
  have e2 : ∀ t : Position, (m = Move.mk pos.mirror t.mirror QUEEN) ↔ (m.mirror = Move.mk pos t QUEEN) := by
    intro t
    rw [Move.mirror_swap]
    rfl
  have e3 := e (-2)
  simp only [← sub_eq_add_neg] at e3
  rw [hc, hm, ChessBoard.canCastle_mirror h, ChessBoard.canCastle_mirror h, e, e3, e2, e2]

theorem Piece.getPossibleMoves_mirror (self : Piece) (pos : Position) (b : ChessBoard)
    (h : b.kingCount self.color ≤ 1) (m : Move) :
    m ∈ self.mirror.getPossibleMoves pos.mirror b.mirror ↔
      m.mirror ∈ self.getPossibleMoves pos b := by
  rcases hs : self with ⟨c, t, hm⟩
  cases t
  · show m ∈ Pawn.getPossibleMoves (Piece.mirror ⟨c, PAWN, hm⟩) pos.mirror b.mirror ↔ _
    rw [Pawn.generator_mirror, mem_map_mirror]
    rfl
  · exact slide_mirror rookDirections_negRow _ pos b m
  · exact stepMoves_mirror knightMoves_negRow _ pos b m
  · exact slide_mirror bishopDirections_negRow _ pos b m
  · exact slide_mirror queenDirections_negRow _ pos b m
  · subst hs
    exact King.moves_mirror _ pos b h m

namespace ChessBoard

theorem candidateMoves_mirror (b : ChessBoard) (c : Color) (h : b.kingCount c ≤ 1) (m : Move) :
    m ∈ b.mirror.candidateMoves (enemyOf c) ↔ m.mirror ∈ b.candidateMoves c := by
  rw [mem_candidateMoves, mem_candidateMoves]
  have e : m.from_ = m.mirror.from_.mirror := (Position.mirror_involutive _).symm
  rw [e, getPiece_mirror]
  constructor
  · rintro ⟨p', hp', hc', hm'⟩
    cases hp : b.getPiece m.mirror.from_ with
    | none => rw [hp] at hp'; cases hp'
    | some p =>
      rw [hp] at hp'
      cases hp'
      have hc : p.color = c := (enemyOf_eq_iff _ _).1 hc'
      exact ⟨p, rfl, hc, (Piece.getPossibleMoves_mirror p _ b (hc ▸ h) m).1 hm'⟩
  · rintro ⟨p, hp, hc, hm⟩
    refine ⟨p.mirror, by rw [hp]; rfl, by rw [← hc]; rfl, ?_⟩
    exact (Piece.getPossibleMoves_mirror p _ b (hc ▸ h) m).2 hm

theorem wouldBeInCheck_mirror (b : ChessBoard) (c : Color) (h : b.kingCount c ≤ 1) (m : Move) :
    b.mirror.wouldBeInCheck m.mirror (enemyOf c) = b.wouldBeInCheck m c := by
  rw [wouldBeInCheck_eq, wouldBeInCheck_eq, movePiece_mirror]
  cases hm : b.movePiece m with
  | error e => rfl
  | ok r =>
    simp only [Except.map, Except.bind]
    have : r.2.kingCount c ≤ 1 :=
      kingCount_of_oneKing (oneKing_movePiece (show b.movePiece m = Except.ok (r.1, r.2) from hm)
        (oneKing_of_kingCount h))
    rw [isInCheck_mirror this]

/-- The legal moves of the reflected board for the other colour are the
reflections of the legal moves of the board. -/
theorem getAllLegalMoves_mirror (b : ChessBoard) (c : Color) (h : b.kingCount c ≤ 1) :
    ∃ L L', b.getAllLegalMoves c = Except.ok L ∧
      b.mirror.getAllLegalMoves (enemyOf c) = Except.ok L' ∧
      ∀ m, m ∈ L' ↔ m ∈ L.map Move.mirror := by
  obtain ⟨L, hL⟩ := getAllLegalMoves_returns b c h
  obtain ⟨L', hL'⟩ := getAllLegalMoves_returns b.mirror (enemyOf c) (kingCount_mirror_le h)
  refine ⟨L, L', hL, hL', ?_⟩
  intro m
  rw [mem_map_mirror]
  unfold getAllLegalMoves at hL hL'
  rw [(keepLegal_ok hL).1, (keepLegal_ok hL').1, List.mem_filter, List.mem_filter,
    candidateMoves_mirror b c h]
  have := wouldBeInCheck_mirror b c h m.mirror
  rw [Move.mirror_twice] at this
  rw [this]

end ChessBoard

/-! ## The claims -/

namespace ChessBoard

/-- C1: the enumeration returns whenever the grid holds at most one king of
colour `c`; when it returns `L`, a move is in `L` exactly when a piece of colour
`c` on its source square generates it and, on the board `movePiece` leaves,
`isInCheck(c)` is false; so every move of `L` can be applied and leaves `c` out
of check. -/
theorem getAllLegalMoves_iff (b : ChessBoard) (c : Color) :
    (b.kingCount c ≤ 1 → ∃ L, b.getAllLegalMoves c = Except.ok L) ∧
    ∀ L, b.getAllLegalMoves c = Except.ok L → ∀ m : Move,
      (m ∈ L ↔ ∃ piece, b.getPiece m.from_ = some piece ∧ piece.color = c ∧
          m ∈ piece.getPossibleMoves m.from_ b ∧
          ∃ r b', b.movePiece m = Except.ok (r, b') ∧ b'.isInCheck c = false) ∧
      (m ∈ L → ∃ r b', b.movePiece m = Except.ok (r, b') ∧ b'.isInCheck c = false) := by
  refine ⟨getAllLegalMoves_returns b c, ?_⟩
  intro L h m
  unfold getAllLegalMoves at h
  obtain ⟨hL, _⟩ := keepLegal_ok h
  have key : m ∈ L ↔ ∃ piece, b.getPiece m.from_ = some piece ∧ piece.color = c ∧
        m ∈ piece.getPossibleMoves m.from_ b ∧
        ∃ r b', b.movePiece m = Except.ok (r, b') ∧ b'.isInCheck c = false := by
    rw [hL, List.mem_filter, mem_candidateMoves, decide_eq_true_eq, wouldBeInCheck_ok_iff]
    constructor
    · rintro ⟨⟨piece, h1, h2, h3⟩, h4⟩
      exact ⟨piece, h1, h2, h3, h4⟩
    · rintro ⟨piece, h1, h2, h3, h4⟩
      exact ⟨⟨piece, h1, h2, h3⟩, h4⟩
  refine ⟨key, ?_⟩
  intro hm
  obtain ⟨_, _, _, _, h4⟩ := key.1 hm
  exact h4

/-- C1 at the starting position: e2-e4 is among the returned moves, so the
trial application leaves White out of check. -/
theorem getAllLegalMoves_iff_witness :
    setupInitialPosition.wouldBeInCheck (Move.mk ⟨1, 4⟩ ⟨3, 4⟩ QUEEN) WHITE = Except.ok false :=
  (wouldBeInCheck_ok_iff _ _ _ _).2
    (((getAllLegalMoves_iff setupInitialPosition WHITE).2 openingMoves getAllLegalMoves_initial
      (Move.mk ⟨1, 4⟩ ⟨3, 4⟩ QUEEN)).2 (by decide))

/-- C2 on the board with the kings on e4 and e6: the Black king stands next to
e5, the query without `castling_check` answers that Black does not attack e5,
and the query with `castling_check` answers that it does. -/
theorem isSquareAttacked_skips_kings :
    kingsFacing.getPiece ⟨5, 4⟩ = some ⟨BLACK, KING, true⟩ ∧
    kingsFacing.isSquareAttacked ⟨4, 4⟩ BLACK false = false ∧
    kingsFacing.isSquareAttacked ⟨4, 4⟩ BLACK true = true := by
  decide!

/-- C3: in the starting position `getAllLegalMoves(WHITE)` returns exactly the
twenty moves listed in `openingMoves`: the four knight moves b1-c3, b1-a3,
g1-h3, g1-f3 and, for each file, the single and the double step of its pawn. -/
theorem initial_position_twenty_moves :
    setupInitialPosition.getAllLegalMoves WHITE = Except.ok openingMoves ∧
    openingMoves.length = 20 ∧ openingMoves.Nodup ∧
    ∀ m, m ∈ openingMoves ↔
      (m = Move.mk ⟨0, 1⟩ ⟨2, 0⟩ QUEEN ∨ m = Move.mk ⟨0, 1⟩ ⟨2, 2⟩ QUEEN ∨
       m = Move.mk ⟨0, 6⟩ ⟨2, 5⟩ QUEEN ∨ m = Move.mk ⟨0, 6⟩ ⟨2, 7⟩ QUEEN ∨
       ∃ file : Int, 0 ≤ file ∧ file < 8 ∧
         (m = Move.mk ⟨1, file⟩ ⟨2, file⟩ QUEEN ∨ m = Move.mk ⟨1, file⟩ ⟨3, file⟩ QUEEN)) := by
  refine ⟨getAllLegalMoves_initial, by decide, by decide, ?_⟩
  intro m
  constructor
  · intro h
    unfold openingMoves at h
    simp only [List.mem_cons, List.mem_singleton, List.not_mem_nil, or_false] at h
    rcases h with h | h | h | h | h | h | h | h | h | h | h | h | h | h | h | h | h | h | h | h
    · right; left; exact h
    · left; exact h
    · right; right; right; left; exact h
    · right; right; left; exact h
    all_goals right; right; right; right
    · exact ⟨0, by norm_num, by norm_num, Or.inl h⟩
    · exact ⟨0, by norm_num, by norm_num, Or.inr h⟩
    · exact ⟨1, by norm_num, by norm_num, Or.inl h⟩
    · exact ⟨1, by norm_num, by norm_num, Or.inr h⟩
    · exact ⟨2, by norm_num, by norm_num, Or.inl h⟩
    · exact ⟨2, by norm_num, by norm_num, Or.inr h⟩
    · exact ⟨3, by norm_num, by norm_num, Or.inl h⟩
    · exact ⟨3, by norm_num, by norm_num, Or.inr h⟩
    · exact ⟨4, by norm_num, by norm_num, Or.inl h⟩
    · exact ⟨4, by norm_num, by norm_num, Or.inr h⟩
    · exact ⟨5, by norm_num, by norm_num, Or.inl h⟩
    · exact ⟨5, by norm_num, by norm_num, Or.inr h⟩
    · exact ⟨6, by norm_num, by norm_num, Or.inl h⟩
    · exact ⟨6, by norm_num, by norm_num, Or.inr h⟩
    · exact ⟨7, by norm_num, by norm_num, Or.inl h⟩
    · exact ⟨7, by norm_num, by norm_num, Or.inr h⟩
  · rintro (h | h | h | h | ⟨file, h0, h8, h⟩)
    · subst h; decide
    · subst h; decide
    · subst h; decide
    · subst h; decide
    · have : file = 0 ∨ file = 1 ∨ file = 2 ∨ file = 3 ∨ file = 4 ∨ file = 5 ∨ file = 6 ∨
          file = 7 := by omega
      rcases this with rfl | rfl | rfl | rfl | rfl | rfl | rfl | rfl <;>
        rcases h with h | h <;> subst h <;> decide

/-- C4: checkmate and stalemate are never both reported; the legal-move
enumeration returns whenever the grid holds at most one king of the colour, and
when it returns `L`, checkmate is "in check and `L` empty", stalemate is "not in
check and `L` empty", so a non-empty `L` makes both false and an empty `L` makes
exactly one of them true. -/
theorem checkmate_stalemate_exclusive (b : ChessBoard) (c : Color) :
    ¬ (b.isCheckmate c = Except.ok true ∧ b.isStalemate c = Except.ok true) ∧
    (b.kingCount c ≤ 1 → ∃ L, b.getAllLegalMoves c = Except.ok L) ∧
    ∀ L, b.getAllLegalMoves c = Except.ok L →
      b.isCheckmate c = Except.ok (b.isInCheck c && L.isEmpty) ∧
      b.isStalemate c = Except.ok (!b.isInCheck c && L.isEmpty) ∧
      (L ≠ [] → b.isCheckmate c = Except.ok false ∧ b.isStalemate c = Except.ok false) ∧
      (L = [] →
        (b.isCheckmate c = Except.ok true ∧ b.isStalemate c = Except.ok false) ∨
        (b.isCheckmate c = Except.ok false ∧ b.isStalemate c = Except.ok true)) := by
  refine ⟨?_, getAllLegalMoves_returns b c, ?_⟩
  · rintro ⟨h1, h2⟩
    unfold isCheckmate at h1
    unfold isStalemate at h2
    cases hc : b.isInCheck c
    · simp [hc] at h1
    · simp [hc] at h2
  · intro L hL
    unfold isCheckmate isStalemate
    rw [hL]
    cases hc : b.isInCheck c <;> cases L <;> simp [Except.bind]

/-- C4 at the starting position: White has legal moves, so neither holds. -/
theorem checkmate_stalemate_exclusive_witness :
    setupInitialPosition.isCheckmate WHITE = Except.ok false ∧
    setupInitialPosition.isStalemate WHITE = Except.ok false :=
  ((checkmate_stalemate_exclusive setupInitialPosition WHITE).2.2
    openingMoves getAllLegalMoves_initial).2.2.1 (by decide)

/-- C5, amended: with exactly one king of colour `c`, `canCastle(c, kingSide)`
is true exactly when that king has not moved, `isInCheck(c)` is false, the
corner of the king's row holds an unmoved rook, the squares strictly between
are empty, and the two squares one and two files toward the corner are not
attacked under `castling_check = true`. -/
theorem canCastle_iff (b : ChessBoard) (c : Color) (kingSide : Bool)
    (h : b.kingCount c = 1) :
    ∃ king, b.getPiece (b.getKingPosition c) = some king ∧ king.type = KING ∧ king.color = c ∧
      (∀ q k, b.getPiece q = some k → k.type = KING → k.color = c → q = b.getKingPosition c) ∧
      (b.canCastle c kingSide = true ↔
        king.hasMoved = false ∧
        b.isInCheck c = false ∧
        (∃ rook, b.getPiece ⟨(b.getKingPosition c).row, if kingSide then 7 else 0⟩ = some rook ∧
          rook.type = ROOK ∧ rook.hasMoved = false) ∧
        (∀ col : Int, min (b.getKingPosition c).col (if kingSide then 7 else 0) < col →
          col < max (b.getKingPosition c).col (if kingSide then 7 else 0) →
          b.isEmpty ⟨(b.getKingPosition c).row, col⟩ = true) ∧
        b.isSquareAttacked ⟨(b.getKingPosition c).row,
          (b.getKingPosition c).col + (if kingSide then 1 else -1)⟩ (enemyOf c) true = false ∧
        b.isSquareAttacked ⟨(b.getKingPosition c).row,
          (b.getKingPosition c).col + 2 * (if kingSide then 1 else -1)⟩ (enemyOf c) true
            = false) := by
  obtain ⟨hv, ⟨king, hking, hkt, hkc⟩, huniq⟩ := getKingPosition_spec b c h
  refine ⟨king, hking, hkt, hkc, huniq, ?_⟩
  rw [canCastle_eq_true_iff]
  constructor
  · rintro ⟨_, ⟨king', hk', hm⟩, rest⟩
    rw [hking] at hk'
    cases hk'
    exact ⟨hm, rest⟩
  · rintro ⟨hm, rest⟩
    exact ⟨hv, ⟨king, hking, hm⟩, rest⟩

/-- C5 on the board with king e1, rook h1 and the Black king far away:
king-side castling is allowed. -/
theorem canCastle_iff_witness : castleReady.canCastle WHITE true = true := by
  obtain ⟨king, hking, _, _, _, hiff⟩ := canCastle_iff castleReady WHITE true (by decide!)
  have hk : castleReady.getPiece (castleReady.getKingPosition WHITE) =
      some ⟨WHITE, KING, false⟩ := by decide!
  rw [hk] at hking
  cases hking
  refine hiff.2 ⟨rfl, by decide!, ⟨⟨WHITE, ROOK, false⟩, by decide!, rfl, rfl⟩, ?_, by decide!,
    by decide!⟩
  intro col h1 h2
  have hkp : castleReady.getKingPosition WHITE = ⟨0, 4⟩ := by decide!
  rw [hkp] at h1 h2 ⊢
  simp only [if_true] at h1 h2
  have : col = 5 ∨ col = 6 := by
    have h1' : (4 : Int) < col := by simpa using h1
    have h2' : col < 7 := by simpa using h2
    omega
  rcases this with rfl | rfl <;> decide!

/-- C5 as stated fails on the board with king e1, rook h1 and the Black king on
d2: `canCastle(WHITE, true)` is true although the king's own square e1 is
attacked under `castling_check = true`. -/
theorem canCastle_start_square_counterexample :
    castleBesideKing.kingCount WHITE = 1 ∧
    castleBesideKing.getKingPosition WHITE = ⟨0, 4⟩ ∧
    castleBesideKing.canCastle WHITE true = true ∧
    castleBesideKing.isSquareAttacked ⟨0, 4⟩ BLACK true = true := by
  decide!

/-- C6: with exactly one king of colour `c`, a returned move of that king
across two files implies that the king has not moved, that `isInCheck(c)` is
false, that the squares strictly between the king and the corner it moves
toward are empty, and that neither the square crossed nor the square reached is
attacked under `castling_check = true`. -/
theorem castling_legal_only_if (b : ChessBoard) (c : Color) (L : List Move)
    (hone : b.kingCount c = 1) (hL : b.getAllLegalMoves c = Except.ok L)
    (m : Move) (hm : m ∈ L) (king : Piece) (hp : b.getPiece m.from_ = some king)
    (hking : king.type = KING) (htwo : (m.to_.col - m.from_.col).natAbs = 2) :
    king.color = c ∧ king.hasMoved = false ∧ b.isInCheck c = false ∧
    (∀ col : Int, min m.from_.col (if m.to_.col > m.from_.col then 7 else 0) < col →
      col < max m.from_.col (if m.to_.col > m.from_.col then 7 else 0) →
      b.isEmpty ⟨m.from_.row, col⟩ = true) ∧
    b.isSquareAttacked ⟨m.from_.row, m.from_.col + (if m.to_.col > m.from_.col then 1 else -1)⟩
      (enemyOf c) true = false ∧
    b.isSquareAttacked m.to_ (enemyOf c) true = false := by
  obtain ⟨piece, hp', hc, hgen⟩ := mem_candidateMoves.1 (mem_candidate_of_mem_legal hL hm)
  rw [hp] at hp'
  cases hp'
  obtain ⟨_, _, huniq⟩ := getKingPosition_spec b c hone
  have hkp : m.from_ = b.getKingPosition c := huniq _ _ hp hking hc
  unfold Piece.getPossibleMoves at hgen
  rw [hking] at hgen
  rcases king_moves_cases hgen with hstep | ⟨hmoved, hcastle⟩
  · obtain ⟨d, hd, hmeq, _, _⟩ := stepMoves_to hstep
    have hcol : m.to_.col - m.from_.col = d.2 := by rw [hmeq]; simp
    rw [hcol] at htwo
    rcases queenDirections_col hd with h | h | h <;> rw [h] at htwo <;> simp at htwo
  · refine ⟨hc, hmoved, ?_⟩
    rw [hc] at hcastle
    rcases hcastle with ⟨hcan, hmeq⟩ | ⟨hcan, hmeq⟩
    · obtain ⟨_, _, hchk, _, hbetween, ha1, ha2⟩ := (canCastle_eq_true_iff b c true).1 hcan
      have hgt : m.to_.col > m.from_.col := by rw [hmeq]; simp
      have hto : m.to_ = ⟨m.from_.row, m.from_.col + 2⟩ := by rw [hmeq]
      simp only [if_true] at hbetween ha1 ha2
      simp only [hgt, if_true]
      rw [hto, hkp]
      exact ⟨hchk, hbetween, ha1, by simpa using ha2⟩
    · obtain ⟨_, _, hchk, _, hbetween, ha1, ha2⟩ := (canCastle_eq_true_iff b c false).1 hcan
      have hgt : ¬ m.to_.col > m.from_.col := by rw [hmeq]; simp
      have hto : m.to_ = ⟨m.from_.row, m.from_.col - 2⟩ := by rw [hmeq]
      simp only [Bool.false_eq_true, if_false] at hbetween ha1 ha2
      simp only [hgt, if_false]
      rw [hto, hkp]
      refine ⟨hchk, hbetween, ha1, ?_⟩
      have e : (b.getKingPosition c).col + 2 * -1 = (b.getKingPosition c).col - 2 := by ring
      rw [e] at ha2
      exact ha2

/-- C6 on the board with king e1, rook h1 and the Black king on e8: e1-g1 is
returned, so f1 and g1 are not attacked. -/
theorem castling_legal_only_if_witness :
    castleReady.isSquareAttacked ⟨0, 5⟩ BLACK true = false ∧
    castleReady.isSquareAttacked ⟨0, 6⟩ BLACK true = false :=
  (castling_legal_only_if castleReady WHITE (castleReady.candidateMoves WHITE) (by decide!)
    (by decide!) (Move.mk ⟨0, 4⟩ ⟨0, 6⟩ QUEEN) (by decide!) ⟨WHITE, KING, false⟩ (by decide!)
    rfl (by decide)).2.2.2.2

/-- C8: after a successful move application followed by a successful
application of a move that is not a pawn move across two rows, no pawn has a
file-changing candidate move onto an empty square, and so no such move is
returned by the legal-move enumeration of either side. -/
theorem enPassant_only_next_ply (b b1 b2 : ChessBoard) (m1 m2 : Move)
    (_h1 : b.movePiece m1 = Except.ok (true, b1))
    (h2 : b1.movePiece m2 = Except.ok (true, b2))
    (hquiet : ∀ piece, b1.getPiece m2.from_ = some piece →
      ¬ (piece.type = PAWN ∧ (m2.to_.row - m2.from_.row).natAbs = 2)) :
    (∀ pos pawn m, b2.getPiece pos = some pawn → pawn.type = PAWN →
      m ∈ pawn.getPossibleMoves pos b2 → m.to_.col ≠ m.from_.col → b2.isEmpty m.to_ = false) ∧
    (∀ c L m pawn, b2.getAllLegalMoves c = Except.ok L → m ∈ L →
      b2.getPiece m.from_ = some pawn → pawn.type = PAWN → m.to_.col ≠ m.from_.col →
      b2.isEmpty m.to_ = false) := by
  have hflag : b2.enPassantAvailable = false := by
    by_cases hf : m2.from_.isValid = true
    · by_cases ht : m2.to_.isValid = true
      · cases hp : b1.getPiece m2.from_ with
        | none =>
          rw [movePiece_rejected b1 m2 (Or.inr (Or.inr hp))] at h2
          simp at h2
        | some piece =>
          obtain ⟨_, ha, _⟩ := movePiece_ep hf ht hp h2
          rw [ha]
          have := hquiet piece hp
          unfold setsEnPassantOf isDoubleStepOf
          by_cases hk : piece.type = PAWN
          · have : ¬ (m2.to_.row - m2.from_.row).natAbs = 2 := fun h => this ⟨hk, h⟩
            simp [this]
          · simp [hk]
      · rw [movePiece_rejected b1 m2 (Or.inr (Or.inl (by simpa using ht)))] at h2
        simp at h2
    · rw [movePiece_rejected b1 m2 (Or.inl (by simpa using hf))] at h2
      simp at h2
  refine ⟨?_, ?_⟩
  · intro pos pawn m _ hk hm hcol
    exact pawn_diagonal_occupied hflag hk hm hcol
  · intro c L m pawn hL hm hp hk hcol
    obtain ⟨piece, hp', _, hgen⟩ := mem_candidateMoves.1 (mem_candidate_of_mem_legal hL hm)
    rw [hp] at hp'
    cases hp'
    exact pawn_diagonal_occupied hflag hk hgen hcol

/-- C8 after 1. e4 d5 2. Nf3 Nf6: the capture e4xd5 is a candidate, and d5 is
occupied. -/
theorem enPassant_only_next_ply_witness :
    ((centrePawns.after (Move.mk ⟨0, 6⟩ ⟨2, 5⟩ QUEEN)).after
      (Move.mk ⟨7, 6⟩ ⟨5, 5⟩ QUEEN)).isEmpty ⟨4, 3⟩ = false :=
  (enPassant_only_next_ply centrePawns (centrePawns.after (Move.mk ⟨0, 6⟩ ⟨2, 5⟩ QUEEN))
    ((centrePawns.after (Move.mk ⟨0, 6⟩ ⟨2, 5⟩ QUEEN)).after (Move.mk ⟨7, 6⟩ ⟨5, 5⟩ QUEEN))
    (Move.mk ⟨0, 6⟩ ⟨2, 5⟩ QUEEN) (Move.mk ⟨7, 6⟩ ⟨5, 5⟩ QUEEN)
    (movePiece_eq_after (by decide!)) (movePiece_eq_after (by decide!))
    (by
      intro piece hp
      have h : (centrePawns.after (Move.mk ⟨0, 6⟩ ⟨2, 5⟩ QUEEN)).getPiece ⟨7, 6⟩ =
          some ⟨BLACK, KNIGHT, false⟩ := by decide!
      rw [h] at hp
      cases hp
      decide)).1 ⟨3, 4⟩ ⟨WHITE, PAWN, true⟩ (Move.mk ⟨3, 4⟩ ⟨4, 3⟩ QUEEN)
    (by decide!) rfl (by decide!) (by decide)

/-- C9, amended: for a pawn of colour `c` on `from` and a square `to` of `c`'s
farthest rank that is not an en-passant target free of enemy pieces, the
returned moves from `from` to `to` are none or exactly the four promotion moves
(queen, rook, bishop, knight), and the trial that decides legality gives the
same answer for every promotion kind. -/
theorem promotion_four_variants (b : ChessBoard) (c : Color) (f t : Position) (pawn : Piece)
    (L : List Move) (hp : b.getPiece f = some pawn) (hk : pawn.type = PAWN)
    (hc : pawn.color = c) (hrow : t.row = if c = WHITE then 7 else 0)
    (hep : b.isEnPassantTarget t = true → ∃ q, b.getPiece t = some q ∧ q.color ≠ c)
    (hL : b.getAllLegalMoves c = Except.ok L) :
    (L.filter (fun m => decide (m.from_ = f ∧ m.to_ = t)) = [] ∨
      L.filter (fun m => decide (m.from_ = f ∧ m.to_ = t)) = promotionMoves f t) ∧
    ∀ k1 k2, b.wouldBeInCheck (Move.mk f t k1) c = b.wouldBeInCheck (Move.mk f t k2) c := by
  refine ⟨?_, fun k1 k2 => wouldBeInCheck_promotion_kind b f t k1 k2 c pawn hp hc⟩
  unfold getAllLegalMoves at hL
  obtain ⟨hfilter, _⟩ := keepLegal_ok hL
  have hswap : L.filter (fun m => decide (m.from_ = f ∧ m.to_ = t)) =
      ((b.candidateMoves c).filter (fun m => decide (m.from_ = f ∧ m.to_ = t))).filter
        (fun m => decide (b.wouldBeInCheck m c = Except.ok false)) := by
    rw [hfilter, List.filter_filter, List.filter_filter]
    congr 1
    funext m
    exact Bool.and_comm _ _
  rw [hswap, candidateMoves_filter b c f t pawn hp hc]
  unfold Piece.getPossibleMoves
  rw [hk]
  dsimp only
  subst hc
  rcases pawn_moves_filter pawn f t b hrow hep with h | h
  · left
    rw [h]
    rfl
  · rw [h]
    exact filter_promotions_legal b pawn.color f t pawn hp rfl

/-- C9 on the board with a White pawn on a7: the returned moves a7-a8 are the
four promotion moves. -/
theorem promotion_four_variants_witness :
    (promotionReady.candidateMoves WHITE).filter
        (fun m => decide (m.from_ = ⟨6, 0⟩ ∧ m.to_ = ⟨7, 0⟩)) = promotionMoves ⟨6, 0⟩ ⟨7, 0⟩ :=
  ((promotion_four_variants promotionReady WHITE ⟨6, 0⟩ ⟨7, 0⟩ ⟨WHITE, PAWN, true⟩
    (promotionReady.candidateMoves WHITE) (by decide!) rfl rfl (by decide)
    (fun h => absurd h (by decide!)) (by decide!)).1).resolve_left (by decide!)

/-- C9 as stated fails on the board with a White pawn on a7 and the en-passant
flag on b8: exactly one move a7-b8 is returned, carrying the queen. -/
theorem promotion_single_variant_counterexample :
    enPassantOnLastRank.getPiece ⟨6, 0⟩ = some ⟨WHITE, PAWN, true⟩ ∧
    (enPassantOnLastRank.getAllLegalMoves WHITE).map
        (fun L => L.filter (fun m => decide (m.from_ = ⟨6, 0⟩ ∧ m.to_ = ⟨7, 1⟩))) =
      Except.ok [Move.mk ⟨6, 0⟩ ⟨7, 1⟩ QUEEN] := by
  decide!

/-- C10: a move from an occupied on-board square to a different on-board
square that `movePiece` classifies neither as en-passant capture, nor as
castling, nor as promotion returns `true`; afterwards the destination holds the
moved piece with `hasMoved` set, the source is empty, and every other cell is
as before. -/
theorem movePiece_plain_frame (b : ChessBoard) (move : Move) (piece : Piece)
    (hf : move.from_.isValid = true) (ht : move.to_.isValid = true)
    (hne : move.to_ ≠ move.from_) (hp : b.getPiece move.from_ = some piece)
    (hep : ¬ (piece.type = PAWN ∧ b.isEnPassantTarget move.to_ = true))
    (hcastle : ¬ (piece.type = KING ∧ (move.to_.col - move.from_.col).natAbs = 2))
    (hpromo : ¬ (piece.type = PAWN ∧
      ((piece.color = WHITE ∧ move.to_.row = 7) ∨ (piece.color = BLACK ∧ move.to_.row = 0)))) :
    ∃ b', b.movePiece move = Except.ok (true, b') ∧
      b'.getPiece move.to_ = some { color := piece.color, type := piece.type, hasMoved := true } ∧
      b'.getPiece move.from_ = none ∧
      ∀ q, q ≠ move.to_ → q ≠ move.from_ → b'.getPiece q = b.getPiece q := by
  have h1 : b.isEnPassantCaptureOf piece move = false := by
    unfold isEnPassantCaptureOf
    by_cases hk : piece.type = PAWN
    · have : ¬ b.isEnPassantTarget move.to_ = true := fun h => hep ⟨hk, h⟩
      unfold isEnPassantTarget at this
      simp only [Bool.and_eq_true, decide_eq_true_eq, not_and] at this
      cases ha : b.enPassantAvailable
      · simp
      · have := this ha
        have : ¬ move.to_ = b.enPassantTarget := fun h => this h.symm
        simp [this]
    · simp [hk]
  have h2 : isCastlingOf piece move = false := by
    unfold isCastlingOf
    by_cases hk : piece.type = KING
    · have : ¬ (move.to_.col - move.from_.col).natAbs = 2 := fun h => hcastle ⟨hk, h⟩
      simp [this]
    · simp [hk]
  have h3 : isPromotionOf piece move = false := by
    unfold isPromotionOf
    by_cases hk : piece.type = PAWN
    · have hn : ¬ ((piece.color = WHITE ∧ move.to_.row = 7) ∨
          (piece.color = BLACK ∧ move.to_.row = 0)) := fun h => hpromo ⟨hk, h⟩
      simp only [not_or, not_and] at hn
      simp only [hk, decide_True, Bool.true_and, Bool.or_eq_false_iff, Bool.and_eq_false_imp,
        decide_eq_true_eq, decide_eq_false_iff_not]
      exact hn
    · simp [hk]
  obtain ⟨b1, hb1, hcells⟩ := relocate_ok b.clearEnPassant move piece hf ht (Ne.symm hne)
    (by simpa [getPiece, cell, clearEnPassant] using hp)
  have hcells' : ∀ q, b1.getPiece q =
      if q = move.to_ then some { piece with hasMoved := true }
      else if q = move.from_ then none else b.getPiece q := hcells
  rw [movePiece_stages b move piece hf ht hp, hb1, h1, h2, h3]
  simp only [Except.bind, Bool.false_eq_true, if_false]
  refine ⟨_, rfl, ?_, ?_, ?_⟩
  · split
    · show b1.getPiece move.to_ = _
      rw [hcells']; simp
    · rw [hcells']; simp
  · split
    · show b1.getPiece move.from_ = _
      rw [hcells']; simp [Ne.symm hne]
    · rw [hcells']; simp [Ne.symm hne]
  · intro q hq1 hq2
    split
    · show b1.getPiece q = _
      rw [hcells']; simp [hq1, hq2]
    · rw [hcells']; simp [hq1, hq2]

/-- C10 at the starting position: the knight move g1-f3. -/
theorem movePiece_plain_frame_witness :
    (setupInitialPosition.movePiece (Move.mk ⟨0, 6⟩ ⟨2, 5⟩ QUEEN)).map
      (fun r => (r.1, r.2.getPiece ⟨2, 5⟩, r.2.getPiece ⟨0, 6⟩, r.2.getPiece ⟨0, 4⟩)) =
    Except.ok (true, some ⟨WHITE, KNIGHT, true⟩, none, some ⟨WHITE, KING, false⟩) := by
  obtain ⟨b', h1, h2, h3, h4⟩ := movePiece_plain_frame setupInitialPosition
    (Move.mk ⟨0, 6⟩ ⟨2, 5⟩ QUEEN) (Piece.new WHITE KNIGHT) (by decide) (by decide) (by decide)
    (by decide) (by decide) (by decide) (by decide)
  rw [h1]
  simp only [Except.map]
  rw [h2, h3, h4 ⟨0, 4⟩ (by decide) (by decide)]
  rfl

/-- C11, amended: when the en-passant flag is set on the on-board destination
of a pawn move whose source differs from it and whose victim row (one row
behind the destination as seen by the mover) lies on the grid, `movePiece`
returns `true`; afterwards the destination holds the moved pawn, or the piece
it is promoted to when the destination lies on the mover's farthest rank, the
source and the cell behind the destination are empty, and every other cell is
as before.  When the destination is not a flagged square, a pawn move that
returns leaves every cell other than source and destination as it was. -/
theorem enPassant_capture_effect (b : ChessBoard) (move : Move) (pawn : Piece)
    (hp : b.getPiece move.from_ = some pawn) (hk : pawn.type = PAWN) :
    (b.isEnPassantTarget move.to_ = true → move.to_.isValid = true → move.from_ ≠ move.to_ →
      (0 ≤ (if pawn.color = WHITE then move.to_.row - 1 else move.to_.row + 1) ∧
        (if pawn.color = WHITE then move.to_.row - 1 else move.to_.row + 1) < 8) →
      ∃ b', b.movePiece move = Except.ok (true, b') ∧
        b'.getPiece move.to_ = some ⟨pawn.color,
          if isPromotionOf pawn move then promotedType move.promotionPiece else PAWN, true⟩ ∧
        b'.getPiece move.from_ = none ∧
        b'.getPiece ⟨if pawn.color = WHITE then move.to_.row - 1 else move.to_.row + 1,
          move.to_.col⟩ = none ∧
        ∀ q, q ≠ move.to_ → q ≠ move.from_ →
          q ≠ ⟨if pawn.color = WHITE then move.to_.row - 1 else move.to_.row + 1, move.to_.col⟩ →
          b'.getPiece q = b.getPiece q) ∧
    (b.isEnPassantTarget move.to_ = false →
      ∀ r b', b.movePiece move = Except.ok (r, b') →
        ∀ q, q ≠ move.from_ → q ≠ move.to_ → b'.getPiece q = b.getPiece q) := by
  have hf := getPiece_eq_some_valid hp
  have hcast : isCastlingOf pawn move = false := by simp [isCastlingOf, hk]
  refine ⟨?_, ?_⟩
  · intro hflag ht hne hvic
    have hep : b.isEnPassantCaptureOf pawn move = true := by
      unfold isEnPassantTarget at hflag
      simp only [Bool.and_eq_true, decide_eq_true_eq] at hflag
      simp [isEnPassantCaptureOf, hk, hflag.1, hflag.2]
    obtain ⟨b1, hb1, hcells⟩ := relocate_ok b.clearEnPassant move pawn hf ht hne
      (by simpa [getPiece, cell, clearEnPassant] using hp)
    have hc1 : ∀ q, b1.getPiece q =
        if q = move.to_ then some { pawn with hasMoved := true }
        else if q = move.from_ then none else b.getPiece q := hcells
    obtain ⟨b2, hb2, hc2⟩ := removeEnPassantVictim_cells b1 pawn move ht hvic
    have hvne : move.to_ ≠ ⟨if pawn.color = WHITE then move.to_.row - 1 else move.to_.row + 1,
        move.to_.col⟩ := by
      intro he
      have := congrArg Position.row he
      dsimp only at this
      split at this <;> omega
    rw [movePiece_stages b move pawn hf ht hp, hb1, hep, hcast]
    simp only [Except.bind, if_true, Bool.false_eq_true, if_false]
    rw [hb2]
    simp only
    by_cases hpromo : isPromotionOf pawn move = true
    · have hd2 : b2.getPiece move.to_ = some { pawn with hasMoved := true } := by
        rw [hc2, if_neg hvne, hc1, if_pos rfl]
      obtain ⟨b4, hb4, hc4⟩ := promote_ok b2 move _ ht hd2
      rw [hpromo, if_pos rfl, hb4]
      refine ⟨_, rfl, ?_, ?_, ?_, ?_⟩
      · split
        · rw [getPiece_setEnPassant, hc4]; simp
        · rw [hc4]; simp
      · split
        · rw [getPiece_setEnPassant, hc4, if_neg hne, hc2, hc1]
          simp [hne]
        · rw [hc4, if_neg hne, hc2, hc1]
          simp [hne]
      · split
        · rw [getPiece_setEnPassant, hc4, if_neg (Ne.symm hvne), hc2]; simp
        · rw [hc4, if_neg (Ne.symm hvne), hc2]; simp
      · intro q h1 h2 h3
        split
        · rw [getPiece_setEnPassant, hc4, if_neg h1, hc2, if_neg h3, hc1, if_neg h1, if_neg h2]
        · rw [hc4, if_neg h1, hc2, if_neg h3, hc1, if_neg h1, if_neg h2]
    · have hpromo' : isPromotionOf pawn move = false := by simpa using hpromo
      rw [hpromo']
      simp only [Bool.false_eq_true, if_false]
      refine ⟨_, rfl, ?_, ?_, ?_, ?_⟩
      · split
        · rw [getPiece_setEnPassant, hc2, if_neg hvne, hc1]; simp [hk]
        · rw [hc2, if_neg hvne, hc1]; simp [hk]
      · split
        · rw [getPiece_setEnPassant, hc2, hc1]; simp [hne]
        · rw [hc2, hc1]; simp [hne]
      · split
        · rw [getPiece_setEnPassant, hc2]; simp
        · rw [hc2]; simp
      · intro q h1 h2 h3
        split
        · rw [getPiece_setEnPassant, hc2, if_neg h3, hc1, if_neg h1, if_neg h2]
        · rw [hc2, if_neg h3, hc1, if_neg h1, if_neg h2]
  · intro hflag r b' h q hq1 hq2
    by_cases ht : move.to_.isValid = true
    swap
    · rw [movePiece_rejected b move (Or.inr (Or.inl (by simpa using ht)))] at h
      simp only [Except.ok.injEq, Prod.mk.injEq] at h
      rw [← h.2]
    have hep : b.isEnPassantCaptureOf pawn move = false := by
      unfold isEnPassantTarget at hflag
      unfold isEnPassantCaptureOf
      cases ha : b.enPassantAvailable
      · simp
      · rw [ha] at hflag
        simp only [Bool.true_and, decide_eq_false_iff_not] at hflag
        have : ¬ move.to_ = b.enPassantTarget := fun e => hflag e.symm
        simp [this]
    obtain ⟨b1, b2, b3, b4, h1, h2, h3, h4, _, hb⟩ := movePiece_ok_stages hf ht hp h
    have hne : move.from_ ≠ move.to_ := by
      intro he
      rw [relocate_same _ move ht he] at h1
      cases h1
    obtain ⟨x, hx, hcells⟩ := relocate_ok b.clearEnPassant move pawn hf ht hne
      (by simpa [getPiece, cell, clearEnPassant] using hp)
    rw [hx] at h1
    cases h1
    have hc1 : b1.getPiece q = b.getPiece q := by
      rw [hcells, if_neg hq2, if_neg hq1]
      rfl
    rw [hep] at h2
    simp only [Bool.false_eq_true, if_false, Except.ok.injEq] at h2
    subst h2
    rw [hcast] at h3
    simp only [Bool.false_eq_true, if_false, Except.ok.injEq] at h3
    subst h3
    have hc4 : b4.getPiece q = b1.getPiece q := by
      split at h4
      · have hd : b1.getPiece move.to_ = some { pawn with hasMoved := true } := by
          rw [hcells]; simp
        obtain ⟨y, hy, hcy⟩ := promote_ok b1 move _ ht hd
        rw [hy] at h4
        cases h4
        rw [hcy, if_neg hq2]
      · cases h4
        rfl
    subst hb
    split
    · rw [getPiece_setEnPassant, hc4, hc1]
    · rw [hc4, hc1]

/-- C11 after 1. e4 a6 2. e5 d5: the capture e5xd6 puts the pawn on d6 and
empties d5. -/
theorem enPassant_capture_effect_witness :
    (enPassantReady.after (Move.mk ⟨4, 4⟩ ⟨5, 3⟩ QUEEN)).getPiece ⟨4, 3⟩ = none := by
  obtain ⟨b', h1, _, _, h4, _⟩ := (enPassant_capture_effect enPassantReady
    (Move.mk ⟨4, 4⟩ ⟨5, 3⟩ QUEEN) ⟨WHITE, PAWN, true⟩ (by decide!) rfl).1
    (by decide!) (by decide) (by decide) (by decide)
  have : enPassantReady.after (Move.mk ⟨4, 4⟩ ⟨5, 3⟩ QUEEN) = b' := by
    unfold after
    rw [h1]
  rw [this]
  exact h4

/-- C11 as stated fails on two boards.  With a White pawn on a7 and the flag on
b8, the move a7-b8 returns `true` and leaves a queen, not the pawn, on b8.  With
a White pawn on b2 and the flag on a1, the move b2-a1 indexes row -1 of the
grid. -/
theorem enPassant_capture_counterexample :
    enPassantOnLastRank.isEnPassantTarget ⟨7, 1⟩ = true ∧
    enPassantOnLastRank.getPiece ⟨6, 0⟩ = some ⟨WHITE, PAWN, true⟩ ∧
    (enPassantOnLastRank.movePiece (Move.mk ⟨6, 0⟩ ⟨7, 1⟩ QUEEN)).map
      (fun r => (r.1, r.2.getPiece ⟨7, 1⟩)) = Except.ok (true, some ⟨WHITE, QUEEN, true⟩) ∧
    enPassantOnFirstRank.isEnPassantTarget ⟨0, 0⟩ = true ∧
    enPassantOnFirstRank.getPiece ⟨1, 1⟩ = some ⟨WHITE, PAWN, false⟩ ∧
    (enPassantOnFirstRank.movePiece (Move.mk ⟨1, 1⟩ ⟨0, 0⟩ QUEEN)).map Prod.fst =
      Except.error Fault.outOfRange := by
  decide!

/-- C12: with a king on `(r, 4)` and a piece on the corner `(r, 7)`
(respectively `(r, 0)`), `movePiece` on the king move to `(r, 6)` (respectively
`(r, 2)`) returns `true`; afterwards the king stands on its destination and the
former corner piece on `(r, 5)` (respectively `(r, 3)`), both with `hasMoved`
set, `(r, 4)` and the corner are empty, and every other cell is as before. -/
theorem castling_move_effect (b : ChessBoard) (r : Int) (hr : 0 ≤ r ∧ r < 8) (kingSide : Bool)
    (king cornerPiece : Piece) (k : PieceType)
    (hk : b.getPiece ⟨r, 4⟩ = some king) (hkt : king.type = KING)
    (hc : b.getPiece ⟨r, if kingSide then 7 else 0⟩ = some cornerPiece) :
    ∃ b', b.movePiece (Move.mk ⟨r, 4⟩ ⟨r, if kingSide then 6 else 2⟩ k) = Except.ok (true, b') ∧
      b'.getPiece ⟨r, if kingSide then 6 else 2⟩ =
        some { color := king.color, type := king.type, hasMoved := true } ∧
      b'.getPiece ⟨r, if kingSide then 5 else 3⟩ =
        some { color := cornerPiece.color, type := cornerPiece.type, hasMoved := true } ∧
      b'.getPiece ⟨r, 4⟩ = none ∧
      b'.getPiece ⟨r, if kingSide then 7 else 0⟩ = none ∧
      ∀ q, q ≠ ⟨r, 4⟩ → q ≠ ⟨r, if kingSide then 6 else 2⟩ →
        q ≠ ⟨r, if kingSide then 5 else 3⟩ → q ≠ ⟨r, if kingSide then 7 else 0⟩ →
        b'.getPiece q = b.getPiece q := by
  have hf : (Position.mk r 4).isValid = true := by rw [isValid_iff]; simp; omega
  have ht : (Position.mk r (if kingSide then 6 else 2)).isValid = true := by
    rw [isValid_iff]; cases kingSide <;> simp <;> omega
  have hne : (Position.mk r 4) ≠ ⟨r, if kingSide then 6 else 2⟩ := by
    cases kingSide <;> simp
  obtain ⟨b1, hb1, hcells⟩ := relocate_ok b.clearEnPassant
    (Move.mk ⟨r, 4⟩ ⟨r, if kingSide then 6 else 2⟩ k) king hf ht hne
    (by simpa [getPiece, cell, clearEnPassant] using hk)
  have hcells' : ∀ q, b1.getPiece q =
      if q = ⟨r, if kingSide then 6 else 2⟩ then some { king with hasMoved := true }
      else if q = ⟨r, 4⟩ then none else b.getPiece q := hcells
  have hgt : (if kingSide then (6 : Int) else 2) > 4 ↔ kingSide = true := by
    cases kingSide <;> simp
  have hrookcell : b1.cell r (if (if kingSide then (6 : Int) else 2) > 4 then 7 else 0) =
      some cornerPiece := by
    have hcv := getPiece_eq_some_valid hc
    have hcorner : (if (if kingSide then (6 : Int) else 2) > 4 then (7 : Int) else 0) =
        if kingSide then 7 else 0 := by cases kingSide <;> simp
    rw [hcorner]
    have := hcells' ⟨r, if kingSide then 7 else 0⟩
    rw [getPiece_of_valid _ hcv] at this
    rw [this, hc]
    cases kingSide <;> simp
  obtain ⟨b3, hb3, hcells3⟩ := castleRook_cells b1
    (Move.mk ⟨r, 4⟩ ⟨r, if kingSide then 6 else 2⟩ k) cornerPiece hr hrookcell
  have hep : b.isEnPassantCaptureOf king (Move.mk ⟨r, 4⟩ ⟨r, if kingSide then 6 else 2⟩ k)
      = false := by simp [isEnPassantCaptureOf, hkt]
  have hcast : isCastlingOf king (Move.mk ⟨r, 4⟩ ⟨r, if kingSide then 6 else 2⟩ k) = true := by
    cases kingSide <;> simp [isCastlingOf, hkt]
  have hpromo : isPromotionOf king (Move.mk ⟨r, 4⟩ ⟨r, if kingSide then 6 else 2⟩ k) = false := by
    simp [isPromotionOf, hkt]
  have hdbl : setsEnPassantOf king (Move.mk ⟨r, 4⟩ ⟨r, if kingSide then 6 else 2⟩ k) = false := by
    simp [setsEnPassantOf, isDoubleStepOf, hkt]
  rw [movePiece_stages b _ king hf ht hk, hb1, hep, hcast, hpromo, hdbl]
  simp only [Except.bind, Bool.false_eq_true, if_false, if_true]
  rw [hb3]
  refine ⟨b3, rfl, ?_, ?_, ?_, ?_, ?_⟩
  · rw [hcells3, hcells']
    cases kingSide <;> simp
  · rw [hcells3]
    cases kingSide <;> simp
  · rw [hcells3, hcells']
    cases kingSide <;> simp
  · rw [hcells3]
    cases kingSide <;> simp
  · intro q h1 h2 h3 h4
    rw [hcells3, hcells']
    cases kingSide <;> simp_all

/-- C12 on the board with king e1 and rook h1: king-side castling puts the king
on g1 and the rook on f1 and empties e1 and h1. -/
theorem castling_move_effect_witness :
    (castleReady.after (Move.mk ⟨0, 4⟩ ⟨0, 6⟩ QUEEN)).getPiece ⟨0, 5⟩ =
      some ⟨WHITE, ROOK, true⟩ := by
  obtain ⟨b', h1, _, h3, _⟩ := castling_move_effect castleReady 0 (by decide) true
    ⟨WHITE, KING, false⟩ ⟨WHITE, ROOK, false⟩ QUEEN (by decide!) rfl (by decide!)
  have : castleReady.after (Move.mk ⟨0, 4⟩ ⟨0, 6⟩ QUEEN) = b' := by
    unfold after
    simp only [if_true] at h1
    rw [h1]
  rw [this]
  simpa using h3

/-- C13: for a White pawn moved to an on-board square of row 7, or a Black pawn
to one of row 0, `movePiece` returns exactly when source and destination
differ, and whenever it returns, it returns `true` and the destination holds a
piece of the pawn's colour with `hasMoved` set whose kind is the requested one
for queen, rook, bishop and knight and the queen for pawn and king; it is not a
pawn. -/
theorem promotion_effect (b : ChessBoard) (move : Move) (pawn : Piece)
    (hp : b.getPiece move.from_ = some pawn) (hk : pawn.type = PAWN)
    (ht : move.to_.isValid = true)
    (hrow : (pawn.color = WHITE ∧ move.to_.row = 7) ∨ (pawn.color = BLACK ∧ move.to_.row = 0)) :
    ((∃ b', b.movePiece move = Except.ok (true, b')) ↔ move.from_ ≠ move.to_) ∧
    ∀ r b', b.movePiece move = Except.ok (r, b') →
      r = true ∧
      ∃ p, b'.getPiece move.to_ = some p ∧ p.color = pawn.color ∧ p.hasMoved = true ∧
        p.type ≠ PAWN ∧
        ((move.promotionPiece = QUEEN ∨ move.promotionPiece = ROOK ∨
          move.promotionPiece = BISHOP ∨ move.promotionPiece = KNIGHT) →
          p.type = move.promotionPiece) ∧
        ((move.promotionPiece = PAWN ∨ move.promotionPiece = KING) → p.type = QUEEN) := by
  have hf := getPiece_eq_some_valid hp
  have ht' := (isValid_iff _).1 ht
  have hpromo : isPromotionOf pawn move = true := by
    unfold isPromotionOf
    rcases hrow with ⟨h1, h2⟩ | ⟨h1, h2⟩ <;> simp [hk, h1, h2]
  have hcast : isCastlingOf pawn move = false := by simp [isCastlingOf, hk]
  refine ⟨?_, ?_⟩
  · rw [movePiece_returns_iff b move pawn hf ht hp]
    constructor
    · exact fun h => h.1
    · intro hne
      refine ⟨hne, ?_, ?_⟩
      · intro _
        rcases hrow with ⟨h1, h2⟩ | ⟨h1, h2⟩
        · rw [if_pos h1]; omega
        · have : ¬ pawn.color = WHITE := by rw [h1]; decide
          rw [if_neg this]; omega
      · intro h
        rw [hcast] at h
        cases h
  · intro r b' h
    obtain ⟨b1, b2, b3, b4, h1, h2, h3, h4, hr, hb⟩ := movePiece_ok_stages hf ht hp h
    refine ⟨hr, ?_⟩
    have hd1 : b1.getPiece move.to_ = some { pawn with hasMoved := true } :=
      relocate_dest hf ht (by simpa [getPiece, cell, clearEnPassant] using hp) h1
    have hd2 : b2.getPiece move.to_ = some { pawn with hasMoved := true } := by
      split at h2
      · rw [← hd1]
        exact removeEnPassantVictim_dest h2
      · cases h2
        exact hd1
    rw [hcast] at h3
    simp only [Bool.false_eq_true, if_false, Except.ok.injEq] at h3
    subst h3
    rw [hpromo] at h4
    simp only [if_true] at h4
    obtain ⟨x, hx, hcx⟩ := promote_ok b2 move _ ht hd2
    rw [hx] at h4
    cases h4
    have hfinal : b'.getPiece move.to_ =
        some ⟨pawn.color, promotedType move.promotionPiece, true⟩ := by
      subst hb
      split
      · rw [getPiece_setEnPassant, hcx]; simp
      · rw [hcx]; simp
    refine ⟨_, hfinal, rfl, rfl, ?_, ?_, ?_⟩
    · cases move.promotionPiece <;> simp [promotedType]
    · intro hq
      rcases hq with hq | hq | hq | hq <;> rw [hq] <;> rfl
    · intro hq
      rcases hq with hq | hq <;> rw [hq] <;> rfl

/-- C13 on the board with a White pawn on a7: a7-a8 carrying the knight leaves
a White knight on a8. -/
theorem promotion_effect_witness :
    (promotionReady.after (Move.mk ⟨6, 0⟩ ⟨7, 0⟩ KNIGHT)).getPiece ⟨7, 0⟩ =
      some ⟨WHITE, KNIGHT, true⟩ := by
  obtain ⟨hr, p, hp, hc, hm, _, hkind, _⟩ :=
    (promotion_effect promotionReady (Move.mk ⟨6, 0⟩ ⟨7, 0⟩ KNIGHT) ⟨WHITE, PAWN, true⟩
      (by decide!) rfl (by decide) (Or.inl ⟨rfl, rfl⟩)).2 true _
      (movePiece_eq_after (by decide!))
  rw [hp]
  have ht := hkind (Or.inr (Or.inr (Or.inr rfl)))
  cases p
  simp only at hc hm ht
  rw [hc, hm, ht]

/-- C14, amended: the moves of a pawn start on its square; their destinations
are the empty square one step ahead, the square two steps ahead when the pawn
is on its starting row and both squares are empty, each forward-diagonal square
holding an enemy piece, and each on-board forward-diagonal square holding no
enemy piece that is the en-passant target.  A destination of the first three
kinds appears as the four promotion moves when it lies on the farthest rank and
as one move otherwise; a destination of the en-passant kind appears as one
move. -/
theorem pawn_destinations (b : ChessBoard) (pos : Position) (pawn : Piece)
    (hp : b.getPiece pos = some pawn) (hk : pawn.type = PAWN) (d : Position) :
    (∀ m ∈ pawn.getPossibleMoves pos b, m.from_ = pos) ∧
    ((∃ m ∈ pawn.getPossibleMoves pos b, m.to_ = d) ↔
      (d = ⟨pos.row + (if pawn.color = WHITE then 1 else -1), pos.col⟩ ∧ b.isEmpty d = true) ∨
      (d = ⟨pos.row + 2 * (if pawn.color = WHITE then 1 else -1), pos.col⟩ ∧
        pos.row = (if pawn.color = WHITE then 1 else 6) ∧
        b.isEmpty ⟨pos.row + (if pawn.color = WHITE then 1 else -1), pos.col⟩ = true ∧
        b.isEmpty d = true) ∨
      ((d = ⟨pos.row + (if pawn.color = WHITE then 1 else -1), pos.col - 1⟩ ∨
          d = ⟨pos.row + (if pawn.color = WHITE then 1 else -1), pos.col + 1⟩) ∧
        ∃ t, b.getPiece d = some t ∧ t.color ≠ pawn.color) ∨
      ((d = ⟨pos.row + (if pawn.color = WHITE then 1 else -1), pos.col - 1⟩ ∨
          d = ⟨pos.row + (if pawn.color = WHITE then 1 else -1), pos.col + 1⟩) ∧
        d.isValid = true ∧ (¬ ∃ t, b.getPiece d = some t ∧ t.color ≠ pawn.color) ∧
        b.isEnPassantTarget d = true)) ∧
    (((d = ⟨pos.row + (if pawn.color = WHITE then 1 else -1), pos.col⟩ ∧ b.isEmpty d = true) ∨
      (d = ⟨pos.row + 2 * (if pawn.color = WHITE then 1 else -1), pos.col⟩ ∧
        pos.row = (if pawn.color = WHITE then 1 else 6) ∧
        b.isEmpty ⟨pos.row + (if pawn.color = WHITE then 1 else -1), pos.col⟩ = true ∧
        b.isEmpty d = true) ∨
      ((d = ⟨pos.row + (if pawn.color = WHITE then 1 else -1), pos.col - 1⟩ ∨
          d = ⟨pos.row + (if pawn.color = WHITE then 1 else -1), pos.col + 1⟩) ∧
        ∃ t, b.getPiece d = some t ∧ t.color ≠ pawn.color)) →
      (pawn.getPossibleMoves pos b).filter (fun m => decide (m.to_ = d)) =
        if d.row = (if pawn.color = WHITE then 7 else 0) then promotionMoves pos d
        else [Move.mk pos d QUEEN]) ∧
    (((d = ⟨pos.row + (if pawn.color = WHITE then 1 else -1), pos.col - 1⟩ ∨
          d = ⟨pos.row + (if pawn.color = WHITE then 1 else -1), pos.col + 1⟩) ∧
        d.isValid = true ∧ (¬ ∃ t, b.getPiece d = some t ∧ t.color ≠ pawn.color) ∧
        b.isEnPassantTarget d = true) →
      (pawn.getPossibleMoves pos b).filter (fun m => decide (m.to_ = d)) =
        [Move.mk pos d QUEEN]) := by
  have _hpos := ChessBoard.getPiece_eq_some_valid hp
  have hgen : pawn.getPossibleMoves pos b = Pawn.getPossibleMoves pawn pos b := by
    unfold Piece.getPossibleMoves
    rw [hk]
  rw [hgen]
  generalize hdir : (if pawn.color = WHITE then (1 : Int) else -1) = dir
  generalize hstart : (if pawn.color = WHITE then (1 : Int) else 6) = startRow
  generalize hprom : (if pawn.color = WHITE then (7 : Int) else 0) = promotionRow
  have hdir0 : dir = 1 ∨ dir = -1 := by
    rw [← hdir]; split <;> simp
  have hsp : startRow + 2 * dir ≠ promotionRow := by
    rw [← hdir, ← hstart, ← hprom]; split <;> omega
  have hfilter := Pawn.filter_to pawn pos b d
  rw [hdir, hstart, hprom] at hfilter
  have hsub : pos.col - 1 = pos.col + -1 := by ring
  -- the filtered list under each kind of destination
  have hS1 : d = ⟨pos.row + dir, pos.col⟩ → b.isEmpty d = true →
      (Pawn.getPossibleMoves pawn pos b).filter (fun m => decide (m.to_ = d)) =
        if d.row = promotionRow then promotionMoves pos d else [Move.mk pos d QUEEN] := by
    intro hd he
    rw [hfilter]
    subst hd
    rw [if_pos rfl, if_neg (ne_of_row_ne (by dsimp only; omega)),
      if_neg (ne_of_col_ne (by dsimp only; omega)), if_neg (ne_of_col_ne (by dsimp only; omega))]
    unfold Pawn.oneStepPart
    rw [if_pos he]
    simp
  have hS2 : d = ⟨pos.row + 2 * dir, pos.col⟩ → pos.row = startRow →
      b.isEmpty ⟨pos.row + dir, pos.col⟩ = true → b.isEmpty d = true →
      (Pawn.getPossibleMoves pawn pos b).filter (fun m => decide (m.to_ = d)) =
        if d.row = promotionRow then promotionMoves pos d else [Move.mk pos d QUEEN] := by
    intro hd hs he1 he2
    rw [hfilter]
    subst hd
    rw [if_neg (ne_of_row_ne (by dsimp only; omega)), if_pos rfl,
      if_neg (ne_of_col_ne (by dsimp only; omega)), if_neg (ne_of_col_ne (by dsimp only; omega))]
    unfold Pawn.twoStepPart
    rw [if_pos ⟨he1, hs, he2⟩]
    have : ¬ pos.row + 2 * dir = promotionRow := by rw [hs]; exact hsp
    simp [this]
  have hcap : ∀ off : Int, (off = 1 ∨ off = -1) → d = ⟨pos.row + dir, pos.col + off⟩ →
      (Pawn.getPossibleMoves pawn pos b).filter (fun m => decide (m.to_ = d)) =
        Pawn.captureMoves pawn pos b dir promotionRow off := by
    intro off hoff hd
    rw [hfilter]
    subst hd
    rw [if_neg (ne_of_col_ne (by dsimp only; omega)),
      if_neg (ne_of_col_ne (by dsimp only; omega))]
    rcases hoff with rfl | rfl
    · rw [if_neg (ne_of_col_ne (by dsimp only; omega)), if_pos rfl]
      simp
    · rw [if_pos rfl, if_neg (ne_of_col_ne (by dsimp only; omega))]
      simp
  have hoffs : (d = ⟨pos.row + dir, pos.col - 1⟩ ∨ d = ⟨pos.row + dir, pos.col + 1⟩) →
      ∃ off : Int, (off = 1 ∨ off = -1) ∧ d = ⟨pos.row + dir, pos.col + off⟩ := by
    rintro (h | h)
    · exact ⟨-1, Or.inr rfl, by rw [h, hsub]⟩
    · exact ⟨1, Or.inl rfl, h⟩
  have hS3 : (d = ⟨pos.row + dir, pos.col - 1⟩ ∨ d = ⟨pos.row + dir, pos.col + 1⟩) →
      (∃ t, b.getPiece d = some t ∧ t.color ≠ pawn.color) →
      (Pawn.getPossibleMoves pawn pos b).filter (fun m => decide (m.to_ = d)) =
        if d.row = promotionRow then promotionMoves pos d else [Move.mk pos d QUEEN] := by
    intro hd ⟨t, ht, hc⟩
    obtain ⟨off, hoff, hdo⟩ := hoffs hd
    rw [hcap off hoff hdo]
    have hv := ChessBoard.getPiece_eq_some_valid ht
    subst hdo
    unfold Pawn.captureMoves
    dsimp only
    rw [if_pos hv, ht]
    dsimp only
    rw [if_pos hc]
  have hS4 : (d = ⟨pos.row + dir, pos.col - 1⟩ ∨ d = ⟨pos.row + dir, pos.col + 1⟩) →
      d.isValid = true → (¬ ∃ t, b.getPiece d = some t ∧ t.color ≠ pawn.color) →
      b.isEnPassantTarget d = true →
      (Pawn.getPossibleMoves pawn pos b).filter (fun m => decide (m.to_ = d)) =
        [Move.mk pos d QUEEN] := by
    intro hd hv hno he
    obtain ⟨off, hoff, hdo⟩ := hoffs hd
    rw [hcap off hoff hdo]
    subst hdo
    unfold Pawn.captureMoves
    dsimp only
    rw [if_pos hv]
    cases ht : b.getPiece ⟨pos.row + dir, pos.col + off⟩ with
    | none =>
      dsimp only
      rw [if_pos he]
    | some t =>
      dsimp only
      have hc : ¬ t.color ≠ pawn.color := fun hc => hno ⟨t, ht, hc⟩
      rw [if_neg hc, if_pos he]
  refine ⟨fun m hm => piece_moves_from (hgen ▸ hm), ?_, ?_, ?_⟩
  · constructor
    · rintro ⟨m, hm, hto⟩
      have hm' : m ∈ Pawn.getPossibleMoves pawn pos b := hm
      unfold Pawn.getPossibleMoves at hm'
      dsimp only at hm'
      rw [hdir, hstart, hprom, Pawn.forwardMoves_eq] at hm'
      simp only [List.mem_append] at hm'
      rcases hm' with ((h | h) | h) | h
      · left
        have hto' := Pawn.oneStepPart_to h
        unfold Pawn.oneStepPart at h
        split at h
        · rename_i he
          rw [← hto, hto']
          exact ⟨rfl, he⟩
        · simp at h
      · right; left
        have hto' := Pawn.twoStepPart_to h
        unfold Pawn.twoStepPart at h
        split at h
        · rename_i he
          rw [← hto, hto']
          exact ⟨rfl, he.2.1, he.1, he.2.2⟩
        · simp at h
      · obtain ⟨_, h2, h3, h4⟩ := Pawn.mem_captureMoves h
        rw [hto] at h2 h3 h4
        by_cases hen : ∃ t, b.getPiece d = some t ∧ t.color ≠ pawn.color
        · right; right; left
          exact ⟨Or.inl (by rw [h2, hsub]), hen⟩
        · right; right; right
          refine ⟨Or.inl (by rw [h2, hsub]), h3, hen, ?_⟩
          rcases h4 with h4 | h4
          · exact absurd h4 hen
          · exact h4
      · obtain ⟨_, h2, h3, h4⟩ := Pawn.mem_captureMoves h
        rw [hto] at h2 h3 h4
        by_cases hen : ∃ t, b.getPiece d = some t ∧ t.color ≠ pawn.color
        · right; right; left
          exact ⟨Or.inr h2, hen⟩
        · right; right; right
          refine ⟨Or.inr h2, h3, hen, ?_⟩
          rcases h4 with h4 | h4
          · exact absurd h4 hen
          · exact h4
    · intro h
      have hne : (Pawn.getPossibleMoves pawn pos b).filter (fun m => decide (m.to_ = d)) ≠ [] := by
        rcases h with ⟨h1, h2⟩ | ⟨h1, h2, h3, h4⟩ | ⟨h1, h2⟩ | ⟨h1, h2, h3, h4⟩
        · rw [hS1 h1 h2]; split <;> simp [promotionMoves]
        · rw [hS2 h1 h2 h3 h4]; split <;> simp [promotionMoves]
        · rw [hS3 h1 h2]; split <;> simp [promotionMoves]
        · rw [hS4 h1 h2 h3 h4]; simp
      obtain ⟨m, hm⟩ := List.exists_mem_of_ne_nil _ hne
      rw [List.mem_filter] at hm
      exact ⟨m, hm.1, by simpa using hm.2⟩
  · rintro (⟨h1, h2⟩ | ⟨h1, h2, h3, h4⟩ | ⟨h1, h2⟩)
    · exact hS1 h1 h2
    · exact hS2 h1 h2 h3 h4
    · exact hS3 h1 h2
  · rintro ⟨h1, h2, h3, h4⟩
    exact hS4 h1 h2 h3 h4

/-- C14 on the board with a White pawn on a7 and a Black rook on b8: the
capture a7-b8 appears as the four promotion moves. -/
theorem pawn_destinations_witness :
    (Piece.getPossibleMoves ⟨WHITE, PAWN, true⟩ ⟨6, 0⟩ promotionCapture).filter
        (fun m => decide (m.to_ = ⟨7, 1⟩)) =
      promotionMoves ⟨6, 0⟩ ⟨7, 1⟩ := by
  have h := (pawn_destinations promotionCapture ⟨6, 0⟩ ⟨WHITE, PAWN, true⟩ (by decide!) rfl
    ⟨7, 1⟩).2.2.1 (Or.inr (Or.inr ⟨Or.inr rfl, ⟨BLACK, ROOK, true⟩, by decide!, by decide⟩))
  rw [h]
  rfl

/-- C14 as stated fails on the board with a White pawn on a7 and the
en-passant flag on b8: the destination b8 lies on the farthest rank and appears
as one move, not four. -/
theorem pawn_last_rank_single_counterexample :
    enPassantOnLastRank.getPiece ⟨6, 0⟩ = some ⟨WHITE, PAWN, true⟩ ∧
    (Piece.getPossibleMoves ⟨WHITE, PAWN, true⟩ ⟨6, 0⟩ enPassantOnLastRank).filter
        (fun m => decide (m.to_ = ⟨7, 1⟩)) =
      [Move.mk ⟨6, 0⟩ ⟨7, 1⟩ QUEEN] := by
  decide!

/-- C15: a square `d` is a destination of the moves of a rook, bishop or queen
standing on `pos` exactly when `d = pos + k * (dr, dc)` for some `k ≥ 1` and a
direction of the piece (rook: one coordinate is zero and the other is ±1;
bishop: both are ±1; queen: either), `d` is on the board, the squares
`pos + j * (dr, dc)` with `1 ≤ j < k` are empty, and `d` is empty or holds a
piece of the other colour; no destination is produced twice. -/
theorem slider_destinations (b : ChessBoard) (pos : Position) (piece : Piece)
    (hp : b.getPiece pos = some piece)
    (hk : piece.type = ROOK ∨ piece.type = BISHOP ∨ piece.type = QUEEN) :
    (∀ d : Position, (∃ m ∈ piece.getPossibleMoves pos b, m.to_ = d) ↔
      ∃ dr dc k : Int,
        ((piece.type = ROOK ∧ dr.natAbs + dc.natAbs = 1) ∨
         (piece.type = BISHOP ∧ dr.natAbs = 1 ∧ dc.natAbs = 1) ∨
         (piece.type = QUEEN ∧ max dr.natAbs dc.natAbs = 1)) ∧
        1 ≤ k ∧ d = ⟨pos.row + k * dr, pos.col + k * dc⟩ ∧ d.isValid = true ∧
        (∀ j : Int, 1 ≤ j → j < k → b.isEmpty ⟨pos.row + j * dr, pos.col + j * dc⟩ = true) ∧
        (b.isEmpty d = true ∨ ∃ t, b.getPiece d = some t ∧ t.color ≠ piece.color)) ∧
    ((piece.getPossibleMoves pos b).map Move.to_).Nodup := by
  have hpos := ChessBoard.getPiece_eq_some_valid hp
  unfold Piece.getPossibleMoves
  rcases hk with hk | hk | hk <;> rw [hk] <;> dsimp only
  · refine ⟨fun d => ?_, slide_nodup (by decide) rook_sub_queen⟩
    unfold Rook.getPossibleMoves
    rw [slide_dest_iff rook_sub_queen hpos]
    simp only [mem_rookDirections, true_and, false_and, or_false, false_or, reduceCtorEq]
  · refine ⟨fun d => ?_, slide_nodup (by decide) bishop_sub_queen⟩
    unfold Bishop.getPossibleMoves
    rw [slide_dest_iff bishop_sub_queen hpos]
    simp only [mem_bishopDirections, true_and, false_and, or_false, false_or, reduceCtorEq]
  · refine ⟨fun d => ?_, slide_nodup (by decide) (fun _ h => h)⟩
    unfold Queen.getPossibleMoves
    rw [slide_dest_iff (fun _ h => h) hpos]
    simp only [mem_queenDirections, true_and, false_and, or_false, false_or, reduceCtorEq]

/-- C15 on the starting position after 1. e2-e4 d7-d5: the White bishop on f1
reaches b5 along the diagonal, and no destination is listed twice. -/
theorem slider_destinations_witness :
    (∃ m ∈ Piece.getPossibleMoves ⟨WHITE, BISHOP, false⟩ ⟨0, 5⟩ centrePawns, m.to_ = ⟨4, 1⟩) ∧
    ((Piece.getPossibleMoves ⟨WHITE, BISHOP, false⟩ ⟨0, 5⟩ centrePawns).map Move.to_).Nodup := by
  have h := slider_destinations centrePawns ⟨0, 5⟩ ⟨WHITE, BISHOP, false⟩ (by decide!)
    (Or.inr (Or.inl rfl))
  refine ⟨(h.1 ⟨4, 1⟩).2 ⟨1, -1, 4, Or.inr (Or.inl ⟨rfl, by decide, by decide⟩), by decide, by decide, rfl, ?_,
    Or.inl (by decide!)⟩, h.2⟩
  intro j h1 h2
  have hj : j = 1 ∨ j = 2 ∨ j = 3 := by omega
  rcases hj with rfl | rfl | rfl <;> decide!

/-- C16: the destinations of a knight on `pos` are the squares `pos + (dr, dc)`
with one of `|dr|`, `|dc|` equal to 1 and the other to 2 that are on the board
and are empty or hold a piece of the other colour; no destination is produced
twice, and every move starts on `pos`. -/
theorem knight_destinations (b : ChessBoard) (pos : Position) (piece : Piece)
    (hp : b.getPiece pos = some piece) (hk : piece.type = KNIGHT) :
    (∀ d : Position, (∃ m ∈ piece.getPossibleMoves pos b, m.to_ = d) ↔
      ∃ dr dc : Int,
        ((dr.natAbs = 1 ∧ dc.natAbs = 2) ∨ (dr.natAbs = 2 ∧ dc.natAbs = 1)) ∧
        d = ⟨pos.row + dr, pos.col + dc⟩ ∧ d.isValid = true ∧
        (b.isEmpty d = true ∨ ∃ t, b.getPiece d = some t ∧ t.color ≠ piece.color)) ∧
    ((piece.getPossibleMoves pos b).map Move.to_).Nodup ∧
    (∀ m ∈ piece.getPossibleMoves pos b, m.from_ = pos) := by
  have _hpos := ChessBoard.getPiece_eq_some_valid hp
  refine ⟨?_, ?_, fun m hm => piece_moves_from hm⟩
  · intro d
    unfold Piece.getPossibleMoves
    rw [hk]
    dsimp only
    unfold Knight.getPossibleMoves
    rw [stepMoves_dest_iff]
    simp only [mem_knightMoves]
  · unfold Piece.getPossibleMoves
    rw [hk]
    exact stepMoves_nodup (by decide)

/-- C16 on the starting position: the knight on b1 has the two destinations a3
and c3, and d2, held by a White pawn, is none. -/
theorem knight_destinations_witness :
    (Piece.getPossibleMoves ⟨WHITE, KNIGHT, false⟩ ⟨0, 1⟩ setupInitialPosition).map Move.to_ =
        [⟨2, 2⟩, ⟨2, 0⟩] ∧
    ((Piece.getPossibleMoves ⟨WHITE, KNIGHT, false⟩ ⟨0, 1⟩ setupInitialPosition).map
        Move.to_).Nodup := by
  exact ⟨by decide!, (knight_destinations setupInitialPosition ⟨0, 1⟩ ⟨WHITE, KNIGHT, false⟩
    (by decide!) rfl).2.1⟩

/-- C17: the moves of a king on `pos` are one move to each adjacent square
that is on the board and empty or held by the other colour, and, for a king
whose `hasMoved` flag is false, a move two files to the right exactly when
`canCastle(c, true)` holds and a move two files to the left exactly when
`canCastle(c, false)` holds; no destination is produced twice, and a king whose
flag is true has no two-file move.  This holds whether or not the king is the
only one of its colour. -/
theorem king_moves_exact (b : ChessBoard) (c : Color) (pos : Position) (king : Piece)
    (hp : b.getPiece pos = some king) (hk : king.type = KING) (hc : king.color = c) :
    (∀ m : Move, m ∈ king.getPossibleMoves pos b ↔
      (∃ dr dc : Int, max dr.natAbs dc.natAbs = 1 ∧
        m = Move.mk pos ⟨pos.row + dr, pos.col + dc⟩ QUEEN ∧
        (Position.mk (pos.row + dr) (pos.col + dc)).isValid = true ∧
        (b.isEmpty ⟨pos.row + dr, pos.col + dc⟩ = true ∨
          ∃ t, b.getPiece ⟨pos.row + dr, pos.col + dc⟩ = some t ∧ t.color ≠ c)) ∨
      (king.hasMoved = false ∧ b.canCastle c true = true ∧
        m = Move.mk pos ⟨pos.row, pos.col + 2⟩ QUEEN) ∨
      (king.hasMoved = false ∧ b.canCastle c false = true ∧
        m = Move.mk pos ⟨pos.row, pos.col - 2⟩ QUEEN)) ∧
    ((king.getPossibleMoves pos b).map Move.to_).Nodup ∧
    ((∃ m ∈ king.getPossibleMoves pos b, m.to_ = ⟨pos.row, pos.col + 2⟩) ↔
      king.hasMoved = false ∧ b.canCastle c true = true) ∧
    ((∃ m ∈ king.getPossibleMoves pos b, m.to_ = ⟨pos.row, pos.col - 2⟩) ↔
      king.hasMoved = false ∧ b.canCastle c false = true) ∧
    (king.hasMoved = true → ∀ m ∈ king.getPossibleMoves pos b,
      (m.to_.col - m.from_.col).natAbs ≠ 2) := by
  have _hpos := ChessBoard.getPiece_eq_some_valid hp
  subst hc
  have hgen : king.getPossibleMoves pos b = King.getPossibleMoves king pos b := by
    unfold Piece.getPossibleMoves
    rw [hk]
  rw [hgen]
  have hmem : ∀ m : Move, m ∈ King.getPossibleMoves king pos b ↔
      (∃ dr dc : Int, max dr.natAbs dc.natAbs = 1 ∧
        m = Move.mk pos ⟨pos.row + dr, pos.col + dc⟩ QUEEN ∧
        (Position.mk (pos.row + dr) (pos.col + dc)).isValid = true ∧
        (b.isEmpty ⟨pos.row + dr, pos.col + dc⟩ = true ∨
          ∃ t, b.getPiece ⟨pos.row + dr, pos.col + dc⟩ = some t ∧ t.color ≠ king.color)) ∨
      (king.hasMoved = false ∧ b.canCastle king.color true = true ∧
        m = Move.mk pos ⟨pos.row, pos.col + 2⟩ QUEEN) ∨
      (king.hasMoved = false ∧ b.canCastle king.color false = true ∧
        m = Move.mk pos ⟨pos.row, pos.col - 2⟩ QUEEN) := by
    intro m
    unfold King.getPossibleMoves
    rw [List.mem_append, mem_king_castlePart, stepMoves_mem_dest_iff]
    simp only [mem_queenDirections]
  refine ⟨hmem, ?_, ?_, ?_, ?_⟩
  · unfold King.getPossibleMoves
    rw [List.map_append, List.nodup_append]
    refine ⟨stepMoves_nodup (by decide), ?_, ?_⟩
    · cases king.hasMoved <;> cases b.canCastle king.color true <;>
        cases b.canCastle king.color false <;> simp
      omega
    · intro x hx1 hx2
      rw [List.mem_map] at hx1 hx2
      obtain ⟨m1, hm1, rfl⟩ := hx1
      obtain ⟨m2, hm2, he⟩ := hx2
      rw [stepMoves_mem_dest_iff] at hm1
      obtain ⟨dr, dc, hd, rfl, _, _⟩ := hm1
      rw [mem_queenDirections] at hd
      rw [mem_king_castlePart] at hm2
      rcases hm2 with ⟨_, _, rfl⟩ | ⟨_, _, rfl⟩ <;>
      · simp only [Position.mk.injEq] at he
        omega
  · constructor
    · rintro ⟨m, hm, hto⟩
      rcases (hmem m).1 hm with ⟨dr, dc, hd, rfl, _, _⟩ | ⟨h1, h2, _⟩ | ⟨_, _, rfl⟩
      · simp only [Position.mk.injEq] at hto
        omega
      · exact ⟨h1, h2⟩
      · simp only [Position.mk.injEq] at hto
        omega
    · rintro ⟨h1, h2⟩
      exact ⟨_, (hmem _).2 (Or.inr (Or.inl ⟨h1, h2, rfl⟩)), rfl⟩
  · constructor
    · rintro ⟨m, hm, hto⟩
      rcases (hmem m).1 hm with ⟨dr, dc, hd, rfl, _, _⟩ | ⟨_, _, rfl⟩ | ⟨h1, h2, _⟩
      · simp only [Position.mk.injEq] at hto
        omega
      · simp only [Position.mk.injEq] at hto
        omega
      · exact ⟨h1, h2⟩
    · rintro ⟨h1, h2⟩
      exact ⟨_, (hmem _).2 (Or.inr (Or.inr ⟨h1, h2, rfl⟩)), rfl⟩
  · intro hmoved m hm
    rcases (hmem m).1 hm with ⟨dr, dc, hd, rfl, _, _⟩ | ⟨h1, _, _⟩ | ⟨h1, _, _⟩
    · dsimp only
      omega
    · rw [hmoved] at h1; cases h1
    · rw [hmoved] at h1; cases h1

/-- C17 on the board with White king e1 and rook h1 unmoved and Black king e8:
the king has the castling move e1-g1 and no move e1-c1. -/
theorem king_moves_exact_witness :
    (∃ m ∈ Piece.getPossibleMoves ⟨WHITE, KING, false⟩ ⟨0, 4⟩ castleReady, m.to_ = ⟨0, 6⟩) ∧
    ¬ (∃ m ∈ Piece.getPossibleMoves ⟨WHITE, KING, false⟩ ⟨0, 4⟩ castleReady, m.to_ = ⟨0, 2⟩) := by
  have h := king_moves_exact castleReady WHITE ⟨0, 4⟩ ⟨WHITE, KING, false⟩ (by decide!) rfl rfl
  refine ⟨h.2.2.1.2 ⟨rfl, by decide!⟩, fun hm => ?_⟩
  have := (h.2.2.2.1.1 hm).2
  revert this
  decide!

/-- C18: for a coordinate off the grid `getPiece` gives no piece and `isEmpty`
gives `false` on every board; `movePiece` returns `false` exactly when the
source is off-board, the destination is off-board or the source cell is empty,
and then the board it leaves is the board it was given, cells and en-passant
members alike. -/
theorem offboard_and_rejection (b : ChessBoard) (move : Move) :
    (∀ pos : Position, pos.isValid = false → b.getPiece pos = none ∧ b.isEmpty pos = false) ∧
    ((∃ b', b.movePiece move = Except.ok (false, b')) ↔
      (move.from_.isValid = false ∨ move.to_.isValid = false ∨ b.getPiece move.from_ = none)) ∧
    (∀ b', b.movePiece move = Except.ok (false, b') → b' = b) := by
  have key : ∀ b', b.movePiece move = Except.ok (false, b') →
      (move.from_.isValid = false ∨ move.to_.isValid = false ∨ b.getPiece move.from_ = none) := by
    intro b' h
    by_cases hf : move.from_.isValid = true
    swap
    · left; simpa using hf
    by_cases ht : move.to_.isValid = true
    swap
    · right; left; simpa using ht
    cases hp : b.getPiece move.from_ with
    | none => right; right; rfl
    | some piece =>
      have := (movePiece_ep hf ht hp h).1
      cases this
  refine ⟨?_, ⟨?_, ?_⟩, ?_⟩
  · intro pos hv
    simp [getPiece, isEmpty, hv]
  · rintro ⟨b', h⟩
    exact key b' h
  · intro h
    exact ⟨b, movePiece_rejected b move h⟩
  · intro b' h
    have := movePiece_rejected b move (key b' h)
    rw [this] at h
    simp only [Except.ok.injEq, Prod.mk.injEq, true_and] at h
    exact h.symm

/-- C18 at the starting position: the move a1-a9 is refused. -/
theorem offboard_and_rejection_witness :
    (setupInitialPosition.movePiece (Move.mk ⟨0, 0⟩ ⟨8, 0⟩ QUEEN)).map Prod.fst =
      Except.ok false := by
  obtain ⟨b', h⟩ := (offboard_and_rejection setupInitialPosition
    (Move.mk ⟨0, 0⟩ ⟨8, 0⟩ QUEEN)).2.1.2 (Or.inr (Or.inl (by decide)))
  rw [h]
  rfl

/-- C19: the string of `getFEN` is the placement, a space, `w` for White or
`b` for Black, and ` - - 0 1`; the placement is eight fields joined by seven
`/`, for the rows 7 down to 0; no field contains `/`, so the fields are the
pieces of the placement between the separators; expanding a field (a digit for
that many empty cells, a letter for a piece) gives the cells of its row from
file 0 to file 7; no field has two digits side by side or the digit `0`.  On
the starting position with White to move the string is
`rnbqkbnr/pppppppp/8/8/8/8/PPPPPPPP/RNBQKBNR w - - 0 1`. -/
theorem getFEN_format (b : ChessBoard) (s : Color) :
    (∃ field : Int → List Char,
      b.getFEN s =
        List.intercalate ['/'] (([7, 6, 5, 4, 3, 2, 1, 0] : List Int).map field) ++
          [' '] ++ (if s = WHITE then ['w'] else ['b']) ++
          [' ', '-', ' ', '-', ' ', '0', ' ', '1'] ∧
      ∀ r ∈ ([7, 6, 5, 4, 3, 2, 1, 0] : List Int),
        '/' ∉ field r ∧
        expandField (field r) = some (b.rowContent r) ∧
        List.Chain' (fun x y : Char => ¬ (x.isDigit = true ∧ y.isDigit = true)) (field r) ∧
        '0' ∉ field r) ∧
    setupInitialPosition.getFEN WHITE =
      "rnbqkbnr/pppppppp/8/8/8/8/PPPPPPPP/RNBQKBNR w - - 0 1".toList := by
  refine ⟨⟨fun r => fenTail (indices.map (b.cell r)) 0, getFEN_eq b s, ?_⟩, by decide!⟩
  intro r _
  have hlen : 0 + (indices.map (b.cell r)).length ≤ 9 := by simp [indices]
  refine ⟨?_, ?_, fenTail_chain _ 0 hlen, ?_⟩
  · intro hmem
    rcases fenTail_chars _ 0 hlen _ hmem with ⟨h1, _⟩ | ⟨_, h2⟩
    · revert h1; decide
    · exact h2 rfl
  · dsimp only
    rw [expandField_fenTail _ 0 hlen]
    simp [rowContent]
  · intro hmem
    rcases fenTail_chars _ 0 hlen _ hmem with ⟨_, h2⟩ | ⟨h1, _⟩
    · exact h2 rfl
    · revert h1; decide

end ChessBoard

namespace ChessGame

/-- C20: `makeMove` returns `true` exactly when the input parses to a move
with source and destination on the board, the source cell holds a piece of
`currentPlayer`, and the legal moves of `currentPlayer` contain a move with the
same source and destination and, for a pawn arriving on its farthest rank, the
same promotion kind; the board is then the one `movePiece` leaves on that move,
and nothing else of the game changes.  It returns `false` exactly in the other
cases (no parse, a square off the board, an empty source, a piece of the other
side, no matching legal move), and the game is then unchanged, board and
`currentPlayer` included.  With at most one king of `currentPlayer` on the
board the call returns. -/
theorem makeMove_spec (g : ChessGame) (input : List Char) :
    (g.board.kingCount g.currentPlayer ≤ 1 → ∃ r g', g.makeMove input = Except.ok (r, g')) ∧
    (∀ g', g.makeMove input = Except.ok (true, g') ↔
      ∃ move piece L lm b',
        parseAlgebraicNotation input = some move ∧
        move.from_.isValid = true ∧ move.to_.isValid = true ∧
        g.board.getPiece move.from_ = some piece ∧ piece.color = g.currentPlayer ∧
        g.board.getAllLegalMoves g.currentPlayer = Except.ok L ∧
        lm ∈ L ∧ lm.from_ = move.from_ ∧ lm.to_ = move.to_ ∧
        ((piece.type = PAWN ∧
            ((piece.color = WHITE ∧ move.to_.row = 7) ∨ (piece.color = BLACK ∧ move.to_.row = 0))) →
          lm.promotionPiece = move.promotionPiece) ∧
        g.board.movePiece lm = Except.ok (true, b') ∧
        g.board.movePiece move = Except.ok (true, b') ∧
        g' = { g with board := b' }) ∧
    (∀ g', g.makeMove input = Except.ok (false, g') ↔
      g' = g ∧
      (parseAlgebraicNotation input = none ∨
        ∃ move, parseAlgebraicNotation input = some move ∧
          (move.from_.isValid = false ∨ move.to_.isValid = false ∨
            g.board.getPiece move.from_ = none ∨
            (∃ piece, g.board.getPiece move.from_ = some piece ∧ piece.color ≠ g.currentPlayer) ∨
            (∃ piece L, g.board.getPiece move.from_ = some piece ∧
              g.board.getAllLegalMoves g.currentPlayer = Except.ok L ∧
              ¬ ∃ lm ∈ L, lm.from_ = move.from_ ∧ lm.to_ = move.to_ ∧
                ((piece.type = PAWN ∧
                    ((piece.color = WHITE ∧ move.to_.row = 7) ∨
                      (piece.color = BLACK ∧ move.to_.row = 0))) →
                  lm.promotionPiece = move.promotionPiece))))) := by
  unfold makeMove
  cases hparse : parseAlgebraicNotation input with
  | none =>
    dsimp only
    refine ⟨fun _ => ⟨false, g, rfl⟩, fun g' => ?_, fun g' => ?_⟩
    · constructor
      · intro h; simp at h
      · rintro ⟨move, _, _, _, _, h, _⟩; cases h
    · constructor
      · intro h
        simp only [Except.ok.injEq, Prod.mk.injEq, true_and] at h
        exact ⟨h.symm, Or.inl rfl⟩
      · rintro ⟨rfl, _⟩; rfl
  | some move =>
    dsimp only
    by_cases hv : (!move.from_.isValid || !move.to_.isValid) = true
    · rw [if_pos hv]
      have hv' : move.from_.isValid = false ∨ move.to_.isValid = false := by
        simpa using hv
      refine ⟨fun _ => ⟨false, g, rfl⟩, fun g' => ?_, fun g' => ?_⟩
      · constructor
        · intro h; simp at h
        · rintro ⟨m, _, _, _, _, h, h1, h2, _⟩
          cases h
          rcases hv' with h' | h'
          · rw [h'] at h1; cases h1
          · rw [h'] at h2; cases h2
      · constructor
        · intro h
          simp only [Except.ok.injEq, Prod.mk.injEq, true_and] at h
          refine ⟨h.symm, Or.inr ⟨move, rfl, ?_⟩⟩
          rcases hv' with h' | h'
          · exact Or.inl h'
          · exact Or.inr (Or.inl h')
        · rintro ⟨rfl, _⟩; rfl
    · rw [if_neg hv]
      have hf : move.from_.isValid = true := by
        cases h : move.from_.isValid
        · simp [h] at hv
        · rfl
      have ht : move.to_.isValid = true := by
        cases h : move.to_.isValid
        · simp [h] at hv
        · rfl
      cases hp : g.board.getPiece move.from_ with
      | none =>
        dsimp only
        refine ⟨fun _ => ⟨false, g, rfl⟩, fun g' => ?_, fun g' => ?_⟩
        · constructor
          · intro h; simp at h
          · rintro ⟨m, _, _, _, _, h, _, _, h3, _⟩
            cases h
            rw [hp] at h3; cases h3
        · constructor
          · intro h
            simp only [Except.ok.injEq, Prod.mk.injEq, true_and] at h
            exact ⟨h.symm, Or.inr ⟨move, rfl, Or.inr (Or.inr (Or.inl hp))⟩⟩
          · rintro ⟨rfl, _⟩; rfl
      | some piece =>
        dsimp only
        by_cases hc : piece.color ≠ g.currentPlayer
        · rw [if_pos hc]
          refine ⟨fun _ => ⟨false, g, rfl⟩, fun g' => ?_, fun g' => ?_⟩
          · constructor
            · intro h; simp at h
            · rintro ⟨m, p, _, _, _, h, _, _, h3, h4, _⟩
              cases h
              rw [hp] at h3; cases h3
              exact absurd h4 hc
          · constructor
            · intro h
              simp only [Except.ok.injEq, Prod.mk.injEq, true_and] at h
              exact ⟨h.symm, Or.inr ⟨move, rfl, Or.inr (Or.inr (Or.inr (Or.inl ⟨piece, hp, hc⟩)))⟩⟩
            · rintro ⟨rfl, _⟩; rfl
        · rw [if_neg hc]
          have hc' : piece.color = g.currentPlayer := not_not.1 hc
          refine ⟨?_, ?_⟩
          · intro hone
            obtain ⟨L, hL⟩ := ChessBoard.getAllLegalMoves_returns g.board g.currentPlayer hone
            rw [hL]
            simp only [Except.bind]
            by_cases hany : L.any (matchesLegal piece move) = true
            · rw [if_neg (by simp [hany])]
              obtain ⟨lm, hlm, hmatch⟩ := List.any_eq_true.1 hany
              have hto : lm.to_ = move.to_ := ((matchesLegal_iff _ _ _).1 hmatch).2.1
              obtain ⟨b', hb'⟩ := movePiece_of_mem_legal hL hlm (by rw [hto]; exact ht)
              rw [movePiece_of_matchesLegal hp hmatch] at hb'
              rw [hb']
              exact ⟨_, _, rfl⟩
            · rw [if_pos (by simp [hany])]
              exact ⟨_, _, rfl⟩
          · cases hL : g.board.getAllLegalMoves g.currentPlayer with
            | error e =>
              simp only [Except.bind]
              refine ⟨fun g' => ?_, fun g' => ?_⟩
              · constructor
                · intro h; cases h
                · rintro ⟨m, p, L, lm, b', h, _, _, _, _, h5, _⟩
                  cases h5
              · constructor
                · intro h; cases h
                · rintro ⟨rfl, h | ⟨m, h, h1 | h1 | h1 | ⟨p, h1, h2⟩ | ⟨p, L, _, h2, _⟩⟩⟩
                  · cases h
                  · cases h; rw [hf] at h1; cases h1
                  · cases h; rw [ht] at h1; cases h1
                  · cases h; rw [hp] at h1; cases h1
                  · cases h; rw [hp] at h1; cases h1; exact absurd hc' h2
                  · cases h2
            | ok L =>
              simp only [Except.bind]
              by_cases hany : L.any (matchesLegal piece move) = true
              · rw [if_neg (by simp [hany])]
                obtain ⟨lm, hlm, hmatch⟩ := List.any_eq_true.1 hany
                have hiff := (matchesLegal_iff _ _ _).1 hmatch
                obtain ⟨b', hb'⟩ := movePiece_of_mem_legal hL hlm (by rw [hiff.2.1]; exact ht)
                have hb2 := hb'
                rw [movePiece_of_matchesLegal hp hmatch] at hb2
                rw [hb2]
                dsimp only
                refine ⟨fun g' => ?_, fun g' => ?_⟩
                · constructor
                  · intro h
                    simp only [Except.ok.injEq, Prod.mk.injEq, true_and] at h
                    exact ⟨move, piece, L, lm, b', rfl, hf, ht, hp, hc', rfl, hlm, hiff.1,
                      hiff.2.1, hiff.2.2, hb', hb2, h.symm⟩
                  · rintro ⟨m, p, L', lm', b'', h, _, _, _, _, _, _, _, _, _, _, h11, h12⟩
                    cases h
                    rw [hb2] at h11
                    cases h11
                    rw [h12]
                · constructor
                  · intro h; simp at h
                  · rintro ⟨rfl, h | ⟨m, h, h1 | h1 | h1 | ⟨p, h1, h2⟩ | ⟨p, L', h1, h2, h3⟩⟩⟩
                    · cases h
                    · cases h; rw [hf] at h1; cases h1
                    · cases h; rw [ht] at h1; cases h1
                    · cases h; rw [hp] at h1; cases h1
                    · cases h; rw [hp] at h1; cases h1; exact absurd hc' h2
                    · cases h; rw [hp] at h1; cases h1; cases h2
                      exact absurd ⟨lm, hlm, hiff⟩ h3
              · rw [if_pos (by simp [hany])]
                have hnone : ¬ ∃ lm ∈ L, lm.from_ = move.from_ ∧ lm.to_ = move.to_ ∧
                    ((piece.type = PAWN ∧
                        ((piece.color = WHITE ∧ move.to_.row = 7) ∨
                          (piece.color = BLACK ∧ move.to_.row = 0))) →
                      lm.promotionPiece = move.promotionPiece) := by
                  rintro ⟨lm, hlm, hm⟩
                  exact hany (List.any_eq_true.2 ⟨lm, hlm, (matchesLegal_iff _ _ _).2 hm⟩)
                refine ⟨fun g' => ?_, fun g' => ?_⟩
                · constructor
                  · intro h; simp at h
                  · rintro ⟨m, p, L', lm', b'', h, _, _, h3, _, h5, h6, h7, h8, h9, _⟩
                    cases h; rw [hp] at h3; cases h3; cases h5
                    exact absurd ⟨lm', h6, h7, h8, h9⟩ hnone
                · constructor
                  · intro h
                    simp only [Except.ok.injEq, Prod.mk.injEq, true_and] at h
                    exact ⟨h.symm, Or.inr ⟨move, rfl,
                      Or.inr (Or.inr (Or.inr (Or.inr ⟨piece, L, hp, rfl, hnone⟩)))⟩⟩
                  · rintro ⟨rfl, _⟩; rfl

/-- C20 on a new game: `e2e4` is made, the pawn stands on e4 and White is
still the player to move; the call returns. -/
theorem makeMove_spec_witness :
    (ChessGame.new false BLACK).board.kingCount (ChessGame.new false BLACK).currentPlayer ≤ 1 ∧
    ∃ g', (ChessGame.new false BLACK).makeMove "e2e4".toList = Except.ok (true, g') ∧
      g'.board.getPiece ⟨3, 4⟩ = some ⟨WHITE, PAWN, true⟩ ∧ g'.currentPlayer = WHITE := by
  have hone : (ChessGame.new false BLACK).board.kingCount
      (ChessGame.new false BLACK).currentPlayer ≤ 1 := by decide!
  refine ⟨hone, ?_⟩
  obtain ⟨r, g', h⟩ := (makeMove_spec (ChessGame.new false BLACK) "e2e4".toList).1 hone
  have hr : r = true := by
    have : (Except.ok (r, g') : Except Fault (Bool × ChessGame)).map (fun x => x.1) =
        Except.ok true := by
      rw [← h]; decide!
    simpa [Except.map] using this
  subst hr
  refine ⟨g', h, ?_⟩
  have : ((ChessGame.new false BLACK).makeMove "e2e4".toList).map
      (fun x => (x.2.board.getPiece ⟨3, 4⟩, x.2.currentPlayer)) =
      Except.ok (some ⟨WHITE, PAWN, true⟩, WHITE) := by decide!
  rw [h] at this
  simp only [Except.map, Except.ok.injEq, Prod.mk.injEq] at this
  exact this

end ChessGame

/-- C29: for a position on the board, `toAlgebraic` gives the two characters
`'a' + col` and `'1' + row`, and `fromAlgebraic` maps them back to the
position; `fromAlgebraic(s)` is on the board exactly when `s` consists of a
character in `a`..`h` followed by one in `1`..`8`, and then `toAlgebraic` maps
the position back to `s`; for a position off the board `toAlgebraic` gives the
empty string. -/
theorem algebraic_round_trip :
    (∀ p : Position, p.isValid = true →
      Position.fromAlgebraic p.toAlgebraic = p ∧
      p.toAlgebraic =
        [Char.ofNat ('a'.toNat + p.col.toNat), Char.ofNat ('1'.toNat + p.row.toNat)]) ∧
    (∀ s : List Char,
      ((Position.fromAlgebraic s).isValid = true ↔
        ∃ c0 c1 : Char, s = [c0, c1] ∧ 'a'.toNat ≤ c0.toNat ∧ c0.toNat ≤ 'h'.toNat ∧
          '1'.toNat ≤ c1.toNat ∧ c1.toNat ≤ '8'.toNat) ∧
      ((Position.fromAlgebraic s).isValid = true →
        (Position.fromAlgebraic s).toAlgebraic = s)) ∧
    (∀ p : Position, p.isValid = false → p.toAlgebraic = []) ∧
    Position.fromAlgebraic "e4".toList = ⟨3, 4⟩ ∧
    (Position.mk 3 4).toAlgebraic = "e4".toList := by
  refine ⟨fromAlgebraic_toAlgebraic, fun s => ⟨fromAlgebraic_valid_iff s, ?_⟩, ?_, by decide,
    by decide⟩
  · intro hv
    obtain ⟨c0, c1, rfl, h⟩ := (fromAlgebraic_valid_iff s).1 hv
    exact toAlgebraic_fromAlgebraic c0 c1 h
  · intro p hp
    unfold Position.toAlgebraic
    rw [hp]
    rfl

/-- C24 fails on a new game in which the engine plays White and answers
`e2e5`: no legal move of White goes from e2 to e5 and `makeMove` rejects the
string, yet `playTurn` applies the move: the pawn stands on e5, e2 is empty and
the turn passes to Black. -/
theorem ChessGame.playTurn_engine_move_unvalidated :
    (ChessGame.new true WHITE).isCPUEnabled = true ∧
    (ChessGame.new true WHITE).currentPlayer = (ChessGame.new true WHITE).cpuColor ∧
    ((ChessGame.new true WHITE).board.getAllLegalMoves WHITE).map
        (fun L => L.filter (fun m => decide (m.from_ = ⟨1, 4⟩ ∧ m.to_ = ⟨4, 4⟩))) = Except.ok [] ∧
    ((ChessGame.new true WHITE).makeMove "e2e5".toList).map
        (fun r => (r.1, r.2.board.getPiece ⟨1, 4⟩, r.2.board.getPiece ⟨4, 4⟩)) =
      Except.ok (false, some ⟨WHITE, PAWN, false⟩, none) ∧
    ((ChessGame.new true WHITE).playTurn "e2e5".toList []).map
        (fun r => r.map (fun g => (g.board.getPiece ⟨1, 4⟩, g.board.getPiece ⟨4, 4⟩,
          g.currentPlayer))) =
      Except.ok (some (none, some ⟨WHITE, PAWN, true⟩, BLACK)) := by
  decide!

/-- C26: the starting position satisfies, and every call of `movePiece` that
returns preserves, the invariant that a piece whose `hasMoved` flag is false
stands where the starting position has a piece of its kind and colour; so in
every position reached from the start by such calls a king with the flag false
stands on file 4 of its home row and a rook with the flag false on a corner of
its home row. -/
theorem ChessBoard.hasMoved_home_invariant :
    setupInitialPosition.homeInvariant ∧
    (∀ (b b' : ChessBoard) (move : Move) (r : Bool), b.homeInvariant →
      b.movePiece move = Except.ok (r, b') → b'.homeInvariant) ∧
    (∀ b : ChessBoard, b.ReachedByMoves → ∀ q p, b.getPiece q = some p → p.hasMoved = false →
      (p.type = KING → q.col = 4 ∧ q.row = (if p.color = WHITE then 0 else 7)) ∧
      (p.type = ROOK → (q.col = 0 ∨ q.col = 7) ∧ q.row = (if p.color = WHITE then 0 else 7))) := by
  refine ⟨ChessBoard.homeInvariant_start, ?_, ?_⟩
  · intro b b' move r hb hmove
    exact ChessBoard.homeInvariant_of_marksOnly (ChessBoard.marksOnly_movePiece hmove) hb
  · intro b hb q p hq hmoved
    exact ChessBoard.start_king_rook_home (ChessBoard.homeInvariant_reached hb q p hq hmoved)

/-- C22 fails after 1. d4 d5 2. Kd2 Kd7 3. Kc3 Kc6 4. Kb4 Kb5 5. Kxb5: every
move is among the legal moves of the side to move, the Black king steps next to
the White king and is captured, and the position reached, Black to move, holds
one White king and no Black king. -/
theorem ChessBoard.king_capture_reachable :
    ∃ b : ChessBoard, setupInitialPosition.playLegal WHITE kingHunt = some (b, BLACK) ∧
      b.LegalPlay BLACK ∧ b.kingCount WHITE = 1 ∧ b.kingCount BLACK = 0 := by
  have h := ChessBoard.kingHunt_result
  cases hp : setupInitialPosition.playLegal WHITE kingHunt with
  | none => rw [hp] at h; cases h
  | some r =>
    obtain ⟨b, c⟩ := r
    rw [hp] at h
    simp only [Option.map_some', Option.some.injEq, Prod.mk.injEq] at h
    obtain ⟨h1, h2, rfl⟩ := h
    exact ⟨b, rfl, ChessBoard.legalPlay_of_playLegal _ _ _ _ _ ChessBoard.LegalPlay.start hp,
      h1, h2⟩

/-- C23: in a position of play from the start in which the en-passant flag is
set, the target square is empty and lies on row 2 with a White pawn on row 3 of
its file when Black is to move, and on row 5 with a Black pawn on row 4 of its
file when White is to move. -/
theorem ChessBoard.enPassant_target_invariant (b : ChessBoard) (c : Color)
    (h : b.LegalPlay c) (hflag : b.enPassantAvailable = true) :
    b.isEmpty b.enPassantTarget = true ∧
    ((c = BLACK ∧ b.enPassantTarget.row = 2 ∧
        ∃ pawn, b.getPiece ⟨3, b.enPassantTarget.col⟩ = some pawn ∧ pawn.type = PAWN ∧
          pawn.color = WHITE) ∨
     (c = WHITE ∧ b.enPassantTarget.row = 5 ∧
        ∃ pawn, b.getPiece ⟨4, b.enPassantTarget.col⟩ = some pawn ∧ pawn.type = PAWN ∧
          pawn.color = BLACK)) := by
  cases h with
  | start => cases hflag
  | @step b0 _ c0 L m r hplay hL hmem hmove =>
    have hcand := ChessBoard.mem_candidate_of_mem_legal hL hmem
    obtain ⟨piece, hp, hc, hgen⟩ := ChessBoard.mem_candidateMoves.1 hcand
    have hf := ChessBoard.getPiece_eq_some_valid hp
    have ht := ChessBoard.generated_to_valid hf
      (ChessBoard.unmoved_king_file (ChessBoard.reached_of_legalPlay hplay) hp) hgen
    obtain ⟨_, hav, _⟩ := ChessBoard.movePiece_ep hf ht hp hmove
    rw [hflag] at hav
    have hds : piece.type = PAWN ∧ (m.to_.row - m.from_.row).natAbs = 2 := by
      have := hav.symm
      unfold ChessBoard.setsEnPassantOf ChessBoard.isDoubleStepOf at this
      simp only [Bool.and_eq_true, decide_eq_true_eq] at this
      exact this.2
    have hgen' : m ∈ Pawn.getPossibleMoves piece m.from_ b0 := by
      unfold Piece.getPossibleMoves at hgen
      rw [hds.1] at hgen
      exact hgen
    obtain ⟨h1, h2, h3, h4⟩ := ChessBoard.double_step_result hp hds.1 hgen' hds.2 hmove
    rw [h2]
    refine ⟨h3, ?_⟩
    dsimp only
    by_cases hw : piece.color = WHITE
    · left
      rw [if_pos hw] at h1 h4 ⊢
      rw [h1] at h4 ⊢
      refine ⟨?_, by decide, _, h4, hds.1, hw⟩
      rw [← hc, hw]
      rfl
    · right
      rw [if_neg hw] at h1 h4 ⊢
      rw [h1] at h4 ⊢
      have hbl : piece.color = BLACK := by
        cases hcol : piece.color
        · exact absurd hcol hw
        · rfl
      refine ⟨?_, by decide, _, h4, hds.1, hbl⟩
      rw [← hc, hbl]
      rfl

/-- C23 after 1. e4: the position is one of play from the start with Black to
move and the flag set; e3 is empty and the White pawn stands on e4. -/
theorem ChessBoard.enPassant_target_invariant_witness :
    (setupInitialPosition.after (Move.mk ⟨1, 4⟩ ⟨3, 4⟩ QUEEN)).LegalPlay BLACK ∧
    (setupInitialPosition.after (Move.mk ⟨1, 4⟩ ⟨3, 4⟩ QUEEN)).enPassantAvailable = true ∧
    (setupInitialPosition.after (Move.mk ⟨1, 4⟩ ⟨3, 4⟩ QUEEN)).isEmpty
      (setupInitialPosition.after (Move.mk ⟨1, 4⟩ ⟨3, 4⟩ QUEEN)).enPassantTarget = true ∧
    (setupInitialPosition.after (Move.mk ⟨1, 4⟩ ⟨3, 4⟩ QUEEN)).enPassantTarget = ⟨2, 4⟩ ∧
    ((BLACK = BLACK ∧
        (setupInitialPosition.after (Move.mk ⟨1, 4⟩ ⟨3, 4⟩ QUEEN)).enPassantTarget.row = 2 ∧
        ∃ pawn, (setupInitialPosition.after (Move.mk ⟨1, 4⟩ ⟨3, 4⟩ QUEEN)).getPiece
            ⟨3, (setupInitialPosition.after (Move.mk ⟨1, 4⟩ ⟨3, 4⟩ QUEEN)).enPassantTarget.col⟩
            = some pawn ∧ pawn.type = PAWN ∧ pawn.color = WHITE) ∨
     (BLACK = WHITE ∧
        (setupInitialPosition.after (Move.mk ⟨1, 4⟩ ⟨3, 4⟩ QUEEN)).enPassantTarget.row = 5 ∧
        ∃ pawn, (setupInitialPosition.after (Move.mk ⟨1, 4⟩ ⟨3, 4⟩ QUEEN)).getPiece
            ⟨4, (setupInitialPosition.after (Move.mk ⟨1, 4⟩ ⟨3, 4⟩ QUEEN)).enPassantTarget.col⟩
            = some pawn ∧ pawn.type = PAWN ∧ pawn.color = BLACK)) :=
  have hplay : (setupInitialPosition.after (Move.mk ⟨1, 4⟩ ⟨3, 4⟩ QUEEN)).LegalPlay BLACK :=
    ChessBoard.LegalPlay.step ChessBoard.LegalPlay.start ChessBoard.getAllLegalMoves_initial
      (by decide) (ChessBoard.movePiece_eq_after (by decide!))
  have hthm := ChessBoard.enPassant_target_invariant _ BLACK hplay (by decide!)
  ⟨hplay, by decide!, hthm.1, by decide!, hthm.2⟩

/-- C27: on a board with at most one king of side `c` whose kings that have
not moved stand on file 4, `getAllLegalMoves(c)` returns, and every move it
returns has source and destination on the board and is applied by `movePiece`
with result `true`, no cell outside the grid being indexed and no empty cell
dereferenced.  Neither a king of the other side nor a condition on the
en-passant target is needed. -/
theorem ChessBoard.legal_moves_apply_safely (b : ChessBoard) (c : Color)
    (hone : b.kingCount c ≤ 1)
    (hfile : ∀ pos king, b.getPiece pos = some king → king.type = KING →
      king.hasMoved = false → pos.col = 4) :
    ∃ L, b.getAllLegalMoves c = Except.ok L ∧
      ∀ m ∈ L, m.from_.isValid = true ∧ m.to_.isValid = true ∧
        ∃ b', b.movePiece m = Except.ok (true, b') := by
  obtain ⟨L, hL⟩ := ChessBoard.getAllLegalMoves_returns b c hone
  refine ⟨L, hL, ?_⟩
  intro m hm
  obtain ⟨piece, hp, _, hgen⟩ :=
    ChessBoard.mem_candidateMoves.1 (ChessBoard.mem_candidate_of_mem_legal hL hm)
  have hf := ChessBoard.getPiece_eq_some_valid hp
  have ht := ChessBoard.generated_to_valid hf (hfile m.from_ piece hp) hgen
  exact ⟨hf, ht, ChessGame.movePiece_of_mem_legal hL hm ht⟩

/-- C27 on the starting position: the twenty moves of White all apply. -/
theorem ChessBoard.legal_moves_apply_safely_witness :
    ∃ L, setupInitialPosition.getAllLegalMoves WHITE = Except.ok L ∧
      ∀ m ∈ L, m.from_.isValid = true ∧ m.to_.isValid = true ∧
        ∃ b', setupInitialPosition.movePiece m = Except.ok (true, b') :=
  ChessBoard.legal_moves_apply_safely setupInitialPosition WHITE (by decide!)
    (fun _ _ hp => ChessBoard.unmoved_king_file ChessBoard.ReachedByMoves.start hp)

/-- C25, amended: in both modes `isSquareAttacked` answers from the pawn
pattern, the adjacency of a king (with `castling_check` only) and the moves
generated for rooks, knights, bishops and queens, never from the moves of a king
or from `canCastle`; `isInCheck` and `canCastle` are functions of the board
alone, and `getAllLegalMoves`, `isCheckmate` and `isStalemate` return on every
board that holds at most one king of the colour asked about, whether or not the
kings have moved. -/
theorem ChessBoard.attack_query_bounded (b : ChessBoard) :
    (∀ (pos : Position) (c : Color) (mode : Bool),
      b.isSquareAttacked pos c mode = true ↔
        ∃ piecePos piece, b.getPiece piecePos = some piece ∧ piece.color = c ∧
          ((piece.type = PAWN ∧ pos.row = piecePos.row + (if c = WHITE then 1 else -1) ∧
              (pos.col = piecePos.col - 1 ∨ pos.col = piecePos.col + 1)) ∨
           (piece.type = KING ∧ mode = true ∧ pos ≠ piecePos ∧
              (pos.row - piecePos.row).natAbs ≤ 1 ∧ (pos.col - piecePos.col).natAbs ≤ 1) ∨
           (piece.type = ROOK ∧ ∃ m ∈ Rook.getPossibleMoves piece piecePos b, m.to_ = pos) ∨
           (piece.type = KNIGHT ∧ ∃ m ∈ Knight.getPossibleMoves piece piecePos b, m.to_ = pos) ∨
           (piece.type = BISHOP ∧ ∃ m ∈ Bishop.getPossibleMoves piece piecePos b, m.to_ = pos) ∨
           (piece.type = QUEEN ∧
              ∃ m ∈ Queen.getPossibleMoves piece piecePos b, m.to_ = pos))) ∧
    (∀ c : Color, b.kingCount c ≤ 1 →
      (∃ L, b.getAllLegalMoves c = Except.ok L) ∧
      (∃ v, b.isCheckmate c = Except.ok v) ∧ (∃ v, b.isStalemate c = Except.ok v)) := by
  refine ⟨fun pos c mode => ChessBoard.isSquareAttacked_iff b pos c mode, ?_⟩
  intro c hone
  obtain ⟨L, hL⟩ := ChessBoard.getAllLegalMoves_returns b c hone
  exact ⟨⟨L, hL⟩, ChessBoard.isCheckmate_returns hL⟩

/-- C25 on the board with White king e1 and rook h1 unmoved and Black king e8:
the three queries return for White. -/
theorem ChessBoard.attack_query_bounded_witness :
    (∃ L, castleReady.getAllLegalMoves WHITE = Except.ok L) ∧
    (∃ v, castleReady.isCheckmate WHITE = Except.ok v) ∧
    (∃ v, castleReady.isStalemate WHITE = Except.ok v) :=
  (ChessBoard.attack_query_bounded castleReady).2 WHITE (by decide!)

/-- C25 as stated fails on the board with two White kings that have not moved
(e1 with the rook on h1, and e4): the castling candidate is generated for the
king on e4 as well, and its trial dereferences the empty corner h4, so neither
`getAllLegalMoves` nor `isStalemate` returns. -/
theorem ChessBoard.queries_not_total_counterexample :
    twoWhiteKings.kingCount WHITE = 2 ∧
    twoWhiteKings.getAllLegalMoves WHITE = Except.error Fault.nullDeref ∧
    twoWhiteKings.isStalemate WHITE = Except.error Fault.nullDeref := by
  decide!

/-- C21: on a grid that owns its objects, `wouldBeInCheck` and
`getAllLegalMoves` answer as they do on the board read through the pointers and
leave that board as it was, all cells with kind, colour and `hasMoved` and the
en-passant members; `copyFrom` returns a copy that shows the same board, and
any call of `movePiece` on the copy that returns leaves the original as it
was, while the copy shows what `movePiece` gives on the board. -/
theorem PtrBoard.queries_leave_board (B : PtrBoard) (s : Store) (hown : B.owns s) :
    (∀ (move : Move) (c : Color),
      (PtrBoard.wouldBeInCheck s B move c).map Prod.fst = (B.view s).wouldBeInCheck move c ∧
      ∀ v s', PtrBoard.wouldBeInCheck s B move c = Except.ok (v, s') → B.view s' = B.view s) ∧
    (∀ c : Color,
      (PtrBoard.getAllLegalMoves s B c).map Prod.fst = (B.view s).getAllLegalMoves c ∧
      ∀ L s', PtrBoard.getAllLegalMoves s B c = Except.ok (L, s') → B.view s' = B.view s) ∧
    (∀ self : PtrBoard, ∃ s1 T, PtrBoard.copyFrom s self B = Except.ok (s1, T) ∧
      T.view s1 = B.view s ∧ B.view s1 = B.view s ∧
      ∀ (move : Move),
        (PtrBoard.movePiece s1 T move).map (fun r => (r.1, r.2.2.view r.2.1)) =
          (B.view s).movePiece move ∧
        ∀ r s2 T2, PtrBoard.movePiece s1 T move = Except.ok (r, s2, T2) →
          B.view s2 = B.view s) := by
  refine ⟨fun move c => ?_, fun c => ?_, fun self => ?_⟩
  · obtain ⟨h1, h2⟩ := PtrBoard.wouldBeInCheck_sim hown move c
    exact ⟨h1, fun v s' h => (h2 v s' h).1⟩
  · obtain ⟨h1, h2⟩ := PtrBoard.getAllLegalMoves_sim hown c
    exact ⟨h1, fun L s' h => (h2 L s' h).1⟩
  · obtain ⟨s1, T, h1, h2, h3, h4, h5, h6⟩ := PtrBoard.copyFrom_spec hown self
    refine ⟨s1, T, h1, h2, PtrBoard.view_agree hown.1 h5, fun move => ?_⟩
    obtain ⟨g1, g2⟩ := PtrBoard.movePiece_sim h3 h4 h6 move
    rw [h2] at g1
    refine ⟨g1, fun r s2 T2 h => ?_⟩
    obtain ⟨_, _, k3, _⟩ := g2 r s2 T2 h
    exact PtrBoard.view_agree hown.1 (PtrBoard.agreeBelow_trans h5 k3)

/-- C21 on the board the constructor builds: the trial of e2-e4 returns, and
the board shows the starting position afterwards. -/
theorem PtrBoard.queries_leave_board_witness :
    ∃ v s', PtrBoard.wouldBeInCheck PtrBoard.setupInitialPosition.1
        PtrBoard.setupInitialPosition.2 (Move.mk ⟨1, 4⟩ ⟨3, 4⟩ QUEEN) WHITE = Except.ok (v, s') ∧
      PtrBoard.setupInitialPosition.2.view s' = Chess.setupInitialPosition := by
  have h := (PtrBoard.queries_leave_board PtrBoard.setupInitialPosition.2
    PtrBoard.setupInitialPosition.1 PtrBoard.setupInitialPosition_owns).1
    (Move.mk ⟨1, 4⟩ ⟨3, 4⟩ QUEEN) WHITE
  have hret : (PtrBoard.wouldBeInCheck PtrBoard.setupInitialPosition.1
      PtrBoard.setupInitialPosition.2 (Move.mk ⟨1, 4⟩ ⟨3, 4⟩ QUEEN) WHITE).map Prod.fst =
      Except.ok false := by decide!
  cases hw : PtrBoard.wouldBeInCheck PtrBoard.setupInitialPosition.1
      PtrBoard.setupInitialPosition.2 (Move.mk ⟨1, 4⟩ ⟨3, 4⟩ QUEEN) WHITE with
  | error e => rw [hw] at hret; cases hret
  | ok r =>
    obtain ⟨v, s'⟩ := r
    exact ⟨v, s', rfl, (h.2 v s' hw).trans PtrBoard.setupInitialPosition_view⟩

/-- C28: colour symmetry.  Let `mirror` reflect the rows (row `r` to `7 - r`),
swap the colour of every piece, keep kinds and `hasMoved` flags, and reflect
the en-passant target.  On a board with at most one king of colour `c`,
`getAllLegalMoves` returns for `c` on the board and for the other colour on
the reflected board, and the moves of the second list are the row-reflected
moves of the first, promotion kinds kept; `isInCheck` gives the same answer
for `c` on the board and for the other colour on the reflected board; and on
every board `movePiece` on the reflected board with the reflected move gives
the same returned value, or the same fault, and the reflection of the board
`movePiece` leaves. -/
theorem ChessBoard.colour_symmetry (b : ChessBoard) (c : Color)
    (hone : b.kingCount c ≤ 1) :
    (∃ L L', b.getAllLegalMoves c = Except.ok L ∧
      b.mirror.getAllLegalMoves (ChessBoard.enemyOf c) = Except.ok L' ∧
      ∀ m, m ∈ L' ↔ m ∈ L.map Move.mirror) ∧
    b.mirror.isInCheck (ChessBoard.enemyOf c) = b.isInCheck c ∧
    ∀ m, b.mirror.movePiece m.mirror = (b.movePiece m).map (fun r => (r.1, r.2.mirror)) :=
  ⟨ChessBoard.getAllLegalMoves_mirror b c hone, ChessBoard.isInCheck_mirror hone,
    ChessBoard.movePiece_mirror b⟩

/-- C28 witness: the position after 1. e2-e4 a7-a6 2. e4-e5 d7-d5, where White
may capture en passant, has one White king, and the symmetry holds there for
White. -/
theorem ChessBoard.colour_symmetry_witness :
    enPassantReady.kingCount WHITE ≤ 1 ∧
    (∃ L L', enPassantReady.getAllLegalMoves WHITE = Except.ok L ∧
      enPassantReady.mirror.getAllLegalMoves (ChessBoard.enemyOf WHITE) = Except.ok L' ∧
      ∀ m, m ∈ L' ↔ m ∈ L.map Move.mirror) ∧
    enPassantReady.mirror.isInCheck (ChessBoard.enemyOf WHITE) = enPassantReady.isInCheck WHITE ∧
    ∀ m, enPassantReady.mirror.movePiece m.mirror
      = (enPassantReady.movePiece m).map (fun r => (r.1, r.2.mirror)) :=
  ⟨by decide!, ChessBoard.colour_symmetry enPassantReady WHITE (by decide!)⟩

end Chess
